import Mathlib

/-!
# Yogeshwari encrypter: a shallow embedding of `yogeshwari_encrypter_kavi.cpp`

The development embeds the container codecs and the LSB bit channel of the
C++ program as pure Lean functions and proves the properties its
specification states about them.

Conventions of the embedding.

* A byte (`uint8_t`) is a `Nat` below 256; a file, a pixel buffer and a
  payload are `List Nat`.
* A 16-bit sample (`int16_t`) and an `int` are `Int`; conversions to the
  unsigned machine types are written out (`toSizeT`, `toInt32`, `% 2 ^ 32`).
  `size_t` has 64 bits, `int` 32 bits, and the host is little-endian, as the
  program's use of `fwrite` on packed structs assumes.
* A function that reports `false` returns `none`; one that reports `true`
  returns `some` of its output parameters.
* An out-of-range vector read is `getD _ 0` and an out-of-range write is the
  no-op of `List.set`; the theorems state the bounds under which every access
  of the source is in range. Where the source itself stores out of range, the
  loop is given a second time with the store checked (`wavFillChecked`).
* The `int` expressions of the writers are computed in `Nat`, which is exact
  as long as the source does not overflow: for `W * 3 + 1 < 2 ^ 31` in
  `writePNG_raw`, `W * H * 3 < 2 ^ 31` in `renderTextToBMP` and
  `rowBytes * H < 2 ^ 31` in `writeBMP24`.
-/

namespace Yogeshwari

/-! ## Loops and machine integers -/

/-- The loop `for (i = 0; i < n; ++i) s = body i s`. -/
def forLoop {σ : Type} (n : Nat) (body : Nat → σ → σ) (s : σ) : σ :=
  match n with
  | 0 => s
  | k + 1 => body k (forLoop k body s)

/-- The loop `for (i = 0; i < n; ++i)` whose body may leave the function with
`return false` (the `none` of the result). -/
def forLoopM {σ : Type} (n : Nat) (body : Nat → σ → Option σ) (s : σ) : Option σ :=
  match n with
  | 0 => some s
  | k + 1 => (forLoopM k body s).bind (body k)

/-- Conversion of an `int` to `size_t`: reduction modulo `2 ^ 64`. -/
def toSizeT (x : Int) : Nat := (x % 2 ^ 64).toNat

/-- Reinterpretation of a 32-bit pattern as a signed `int`. -/
def toInt32 (n : Nat) : Int :=
  if n % 2 ^ 32 < 2 ^ 31 then ((n % 2 ^ 32 : Nat) : Int) else ((n % 2 ^ 32 : Nat) : Int) - 2 ^ 32

/-- Reinterpretation of a 16-bit pattern as a signed `int16_t`. -/
def toInt16 (n : Nat) : Int :=
  if n % 2 ^ 16 < 2 ^ 15 then ((n % 2 ^ 16 : Nat) : Int) else ((n % 2 ^ 16 : Nat) : Int) - 2 ^ 16

/-- The 16-bit pattern of an `int16_t` (its two's complement). -/
def toUInt16 (x : Int) : Nat := (x % 2 ^ 16).toNat

/-- Two bytes, least significant first: how a 16-bit field lies in a file. -/
def le16 (v : Nat) : List Nat := [v % 256, (v / 256) % 256]

/-- Four bytes, least significant first: how a 32-bit field lies in a file. -/
def le32 (v : Nat) : List Nat :=
  [v % 256, (v / 256) % 256, (v / 65536) % 256, (v / 16777216) % 256]

/-- The unsigned 16-bit little-endian field at offset `p`. -/
def rdLE16 (file : List Nat) (p : Nat) : Nat :=
  file.getD p 0 + 256 * file.getD (p + 1) 0

/-- The unsigned 32-bit little-endian field at offset `p`. -/
def rdLE32 (file : List Nat) (p : Nat) : Nat :=
  file.getD p 0 + 256 * file.getD (p + 1) 0 + 65536 * file.getD (p + 2) 0
    + 16777216 * file.getD (p + 3) 0

/-! ## The bit channel over image carriers

`generateWaveformPNGWithPayload` (lines 723-747) and
`generateWaveformBMPWithPayload` (lines 896-906) build the same bit vector and
run the same embed loop; `decodePayloadFromPNG` (lines 1047-1076) and
`decodePayloadFromBMP` (lines 1086-1113) run the same extraction on the
pixels their reader returned. -/

/-- The vector `bits` of the image embedders: bit `b` of the 32-bit length for
`b = 0..31`, then the bits of every payload byte, least significant first. It
stays empty when the WAV file carried no payload. -/
def buildBits (wavHasPayload : Bool) (payload : List Nat) : List Nat :=
  if wavHasPayload then
    let L := payload.length % 2 ^ 32
    let bits := forLoop 32 (fun b bits => bits ++ [(L >>> b) &&& 1]) []
    forLoop payload.length
      (fun i bits =>
        let pb := payload.getD i 0
        forLoop 8 (fun b bits => bits ++ [(pb >>> b) &&& 1]) bits)
      bits
  else []

/-- The number of bits the embed loop writes: `bits.size()` cut down to the
pixel count. -/
def embedBitCount (W H : Nat) (bits : List Nat) : Nat :=
  if bits.length > W * H then W * H else bits.length

/-- The embed loop: bit `i` replaces the least significant bit of the blue
byte of pixel `i`. -/
def embedLoop (img : List Nat) (bits : List Nat) (bitCount : Nat) : List Nat :=
  forLoop bitCount
    (fun i img =>
      let pos := i * 3
      let blue := img.getD (pos + 2) 0
      img.set (pos + 2) ((blue &&& 0xFE) ||| bits.getD i 0))
    img

/-- The embedding step of the waveform generators on a `W × H` buffer. -/
def embedBits (img : List Nat) (W H : Nat) (bits : List Nat) : List Nat :=
  if bits.isEmpty then img else embedLoop img bits (embedBitCount W H bits)

/-- The embedding of a payload found in the WAV file into the image buffer. -/
def embedPayload (img : List Nat) (W H : Nat) (payload : List Nat) : List Nat :=
  embedBits img W H (buildBits true payload)

/-- The pixel count `(size_t)W * (size_t)H` of the decoders. -/
def pxCountOf (W H : Int) : Nat := (toSizeT W * toSizeT H) % 2 ^ 64

/-- The lambda `get_bit` of the image decoders: the blue LSB of pixel `i`,
and 0 past the last pixel. -/
def getBitPixel (rgb : List Nat) (pxCount : Nat) (i : Nat) : Nat :=
  if i ≥ pxCount then 0 else rgb.getD (i * 3 + 2) 0 &&& 1

/-- The 32-bit length assembled from the first 32 bits of a carrier. -/
def readLength (get_bit : Nat → Nat) : Nat :=
  forLoop 32 (fun b len => (len ||| (get_bit b <<< b)) % 2 ^ 32) 0

/-- Payload byte `i` assembled from carrier bits `32 + 8 i .. 32 + 8 i + 7`. -/
def readByte (get_bit : Nat → Nat) (i : Nat) : Nat :=
  forLoop 8 (fun bit byte => (byte ||| (get_bit (32 + i * 8 + bit) <<< bit)) % 256) 0

/-- The loop that fills the resized payload vector byte by byte. -/
def readPayload (get_bit : Nat → Nat) (len : Nat) : List Nat :=
  forLoop len (fun i payload => payload.set i (readByte get_bit i)) (List.replicate len 0)

/-- The extraction of `decodePayloadFromPNG` and `decodePayloadFromBMP` after
their reader has returned `W`, `H` and `rgb`. -/
def decodePayloadFromPixels (W H : Int) (rgb : List Nat) : Option (List Nat) :=
  let pxCount := pxCountOf W H
  if pxCount < 32 then none
  else
    let len := readLength (getBitPixel rgb pxCount)
    if len = 0 then none
    else
      let totalBits := len * 8
      if 32 + totalBits > pxCount then none
      else some (readPayload (getBitPixel rgb pxCount) len)


/-! ## The audio carrier

`writeWAV_LSBCarrier` (lines 376-434), `readWAV_samples` (lines 436-451) and
`extractPayloadFromWAV_LSB` (lines 453-486). The carrier value
`llround(amplitude * sin(two_pi * freq * t))` of sample `i` is a floating-point
computation; it enters the model as the parameter `carrier i`. -/

/-- The conversion `(int16_t) x` of an integer. -/
def castInt16 (x : Int) : Int := toInt16 (toUInt16 x)

/-- The vector `buffer`: the four little-endian bytes of the 32-bit payload
length, then the payload. -/
def wavBuffer (payload : List Nat) : List Nat :=
  let payload_len := payload.length % 2 ^ 32
  forLoop 4 (fun i buffer => buffer ++ [(payload_len >>> (8 * i)) &&& 0xFF]) [] ++ payload

/-- The values `bitval` in the order the fill loops of `writeWAV_LSBCarrier`
compute them: for every byte of `buffer`, its bits 0 to 7. -/
def wavBitvals (buffer : List Nat) : List Nat :=
  forLoop buffer.length
    (fun i bits =>
      let b := buffer.getD i 0
      forLoop 8 (fun bit bits => bits ++ [(b >>> bit) &&& 1]) bits)
    []

/-- Bit `k` of a byte sequence read least significant bit first. -/
def bufferBit (buffer : List Nat) (k : Nat) : Nat :=
  (buffer.getD (k / 8) 0 >>> (k % 8)) &&& 1

/-- The sample written for one bit: `(int16_t)((base & ~1) | (bitval & 1))`
with `base = (int16_t) llround(s)`. -/
def finalSample (carrierValue : Int) (bitval : Nat) : Int :=
  let base := castInt16 carrierValue
  castInt16 (Int.lor (Int.land base (Int.lnot 1)) (Int.land (bitval : Int) 1))

/-- The number of samples `num_samples`, a `uint32_t`. -/
def wavNumSamples (payload : List Nat) : Nat := ((wavBuffer payload).length * 8) % 2 ^ 32

/-- The two nested loops that fill `samples`; the state is the running
`bitIndex` (a `uint32_t`) and the sample vector. The store `samples[bitIndex]`
is a `List.set`: it stands for the program's store only while `bitIndex` is
below the size of the vector, that is for `32 + 8 L < 2 ^ 32`; the loops with
the store checked are `wavFillChecked`. -/
def wavFill (carrier : Nat → Int) (buffer : List Nat) (samples : List Int) : Nat × List Int :=
  forLoop buffer.length
    (fun i st =>
      let b := buffer.getD i 0
      forLoop 8
        (fun bit st =>
          let bitIndex := st.1
          let bitval := (b >>> bit) &&& 1
          ((bitIndex + 1) % 2 ^ 32, st.2.set bitIndex (finalSample (carrier bitIndex) bitval)))
        st)
    (0, samples)

/-- The vector `samples` at the end of the fill loops. -/
def wavSamples (carrier : Nat → Int) (payload : List Nat) : List Int :=
  (wavFill carrier (wavBuffer payload) (List.replicate (wavNumSamples payload) 0)).2

/-- The 44 bytes of the packed `WAVHeader`. -/
def wavHeader (num_samples : Nat) (sample_rate : Int) : List Nat :=
  let channels := 1
  let bits_per_sample := 16
  let sr := (sample_rate % 2 ^ 32).toNat
  let block_align := ((channels * bits_per_sample) / 8) % 2 ^ 16
  let byterate := (sr * block_align) % 2 ^ 32
  let data_size := (num_samples * 2) % 2 ^ 32
  let overall_size := (data_size + 44 - 8) % 2 ^ 32
  [82, 73, 70, 70] ++ le32 overall_size ++ [87, 65, 86, 69] ++ [102, 109, 116, 32]
    ++ le32 16 ++ le16 1 ++ le16 channels ++ le32 sr ++ le32 byterate
    ++ le16 block_align ++ le16 bits_per_sample ++ [100, 97, 116, 97] ++ le32 data_size

/-- The bytes `writeWAV_LSBCarrier` writes to its file: the header, then the
first `num_samples` samples, two bytes each. -/
def writeWAV_LSBCarrier (carrier : Nat → Int) (payload : List Nat) (sample_rate : Int) :
    List Nat :=
  let num_samples := wavNumSamples payload
  let samples := wavSamples carrier payload
  wavHeader num_samples sample_rate
    ++ forLoop num_samples (fun i out => out ++ le16 (toUInt16 (samples.getD i 0))) []

/-- The reader `readWAV_samples` on the bytes of a file: the samples and the
sample rate. -/
def readWAV_samples (data : List Nat) : Option (List Int × Int) :=
  if data.length < 44 then none
  else if data.take 4 ≠ [82, 73, 70, 70] ∨ (data.drop 8).take 4 ≠ [87, 65, 86, 69] then none
  else
    let sample_rate := toInt32 (rdLE32 data 24)
    let dataPos := 44
    let datasz := rdLE32 data 40
    let datasz := if dataPos + datasz > data.length then (data.length - dataPos) % 2 ^ 32 else datasz
    let num_samples := datasz / 2
    some ((List.range num_samples).map (fun i => toInt16 (rdLE16 data (dataPos + 2 * i))),
      sample_rate)

/-- The least significant bit of a sample, `(uint8_t)(s & 1)`. -/
def sampleLSB (s : Int) : Nat := (Int.land s 1).toNat % 256

/-- The lambda `get_bit` of the audio extractor: `samples[bitIndex] & 1`, and
0 past the last sample. -/
def getBitSample (samples : List Int) (bitIndex : Nat) : Nat :=
  if bitIndex ≥ samples.length then 0
  else sampleLSB (samples.getD bitIndex 0)

/-- The extraction of `extractPayloadFromWAV_LSB` once the samples are read. -/
def extractFromSamples (samples : List Int) : Option (List Nat) :=
  if samples.isEmpty then none
  else if samples.length < 32 then none
  else
    let payload_len := readLength (getBitSample samples)
    let total_bits_needed := payload_len * 8
    if 32 + total_bits_needed > samples.length then none
    else some (readPayload (getBitSample samples) payload_len)

/-- The function `extractPayloadFromWAV_LSB` on the bytes of the WAV file. -/
def extractPayloadFromWAV_LSB (file : List Nat) : Option (List Nat) :=
  (readWAV_samples file).bind (fun r => extractFromSamples r.1)


/-! ## The raster codec

`writeBMP24` (lines 289-340) and `readBMP24_pixels` (lines 802-837). The
writer is modelled by the bytes it writes to the temporary file, which the
final `rename` makes the content of the destination. Its parameters `w` and
`h` are non-negative `int`s; its `int` arithmetic (`w*3`, `rowBytes * h`,
`(y*w + x)*3`) is exact as long as it does not overflow. -/

/-- The packed `BMPFileHeader` (14 bytes) followed by the packed
`BMPInfoHeader` (40 bytes), as `writeBMP24` fills them. -/
def bmpHeaders (w h : Nat) : List Nat :=
  let rowBytes := ((w * 3 + 3) / 4) * 4
  let imgSize := rowBytes * h
  let fh := le16 0x4D42 ++ le32 (14 + 40 + imgSize) ++ le16 0 ++ le16 0 ++ le32 (14 + 40)
  let ih := le32 40 ++ le32 w ++ le32 h ++ le16 1 ++ le16 24 ++ le32 0 ++ le32 imgSize
    ++ le32 2835 ++ le32 2835 ++ le32 0 ++ le32 0
  fh ++ ih

/-- One row of the file as `writeBMP24` writes it: the pixels of image row `y`
as B, G, R, then the padding. -/
def bmpRow (w : Nat) (rgb : List Nat) (y : Nat) : List Nat :=
  (List.range w).flatMap
      (fun x => [rgb.getD ((y * w + x) * 3 + 2) 0, rgb.getD ((y * w + x) * 3 + 1) 0,
        rgb.getD ((y * w + x) * 3 + 0) 0])
    ++ List.replicate (((w * 3 + 3) / 4) * 4 - w * 3) 0

/-- The bytes `writeBMP24` writes: the two packed headers, then the rows from
the bottom one up, each pixel as B, G, R and each row padded with zeros to a
multiple of four bytes. -/
def writeBMP24 (w h : Nat) (rgb : List Nat) : List Nat :=
  let rowBytes := ((w * 3 + 3) / 4) * 4
  let pad := List.replicate (rowBytes - w * 3) 0
  forLoop h
    (fun k out =>
      let y := h - 1 - k
      let out := forLoop w
        (fun x out =>
          let idx := (y * w + x) * 3
          let r := rgb.getD (idx + 0) 0
          let g := rgb.getD (idx + 1) 0
          let b := rgb.getD (idx + 2) 0
          out ++ [b, g, r])
        out
      if pad.isEmpty then out else out ++ pad)
    (bmpHeaders w h)

/-- The body of the pixel loop of `readBMP24_pixels` for row `y` and column
`x`: it reads B, G, R at `sp` and stores R, G, B at `dp`; `none` is its
`return false`. -/
def bmpReadPixel (file : List Nat) (dataPos rowBytes : Nat) (W H : Int) (y x : Nat)
    (outRGB : List Nat) : Option (List Nat) :=
  let srcRow := (dataPos + toSizeT (H - 1 - (y : Int)) * rowBytes) % 2 ^ 64
  let sp := (srcRow + toSizeT ((x : Int) * 3)) % 2 ^ 64
  let dp := ((y * toSizeT W + x) * 3) % 2 ^ 64
  if (sp + 2) % 2 ^ 64 ≥ file.length then none
  else
    let b := file.getD (sp + 0) 0
    let g := file.getD (sp + 1) 0
    let r := file.getD (sp + 2) 0
    some (((outRGB.set (dp + 0) r).set (dp + 1) g).set (dp + 2) b)

/-- The reader `readBMP24_pixels` on the bytes of a file: `W`, `H` and the
top-to-bottom RGB buffer. `W` and `H` are the signed 32-bit header fields;
the `size_t` computations are reduced modulo `2 ^ 64`. The vector `outRGB` is
empty on entry, as it is at every call in the program. -/
def readBMP24_pixels (file : List Nat) : Option (Int × Int × List Nat) :=
  if file.length < 14 + 40 then none
  else if rdLE16 file 0 ≠ 0x4D42 then none
  else if rdLE16 file 28 ≠ 24 then none
  else
    let W := toInt32 (rdLE32 file 18)
    let H := toInt32 (rdLE32 file 22)
    let dataPos := rdLE32 file 10
    let rowBytes := toSizeT (Int.tdiv (W * 3 + 3) 4 * 4)
    let expected := (dataPos + rowBytes * toSizeT H) % 2 ^ 64
    if expected > file.length then none
    else
      let outRGB := List.replicate ((toSizeT W * toSizeT H * 3) % 2 ^ 64) 0
      (forLoopM H.toNat
        (fun y outRGB =>
          forLoopM W.toNat (fun x outRGB => bmpReadPixel file dataPos rowBytes W H y x outRGB)
            outRGB)
        outRGB).map (fun outRGB => (W, H, outRGB))

/-- The function `decodePayloadFromBMP` on the bytes of the image file. -/
def decodePayloadFromBMP (file : List Nat) : Option (List Nat) :=
  (readBMP24_pixels file).bind (fun r => decodePayloadFromPixels r.1 r.2.1 r.2.2)


/-! ## The minimal compressed-image container

`crc32_for_bytes` (lines 515-532), `write_be32` (lines 534-539),
`writePNG_raw` (lines 546-638) and `readPNG_extractRGB` (lines 942-1035). The
writer is modelled by the bytes it writes; its parameters `w` and `h` are
non-negative `int`s and its `int` arithmetic (`w*3+1`, `w*3`) is exact as long
as it does not overflow, that is for `w * 3 + 1 < 2 ^ 31`. The two `while` loops of the reader and the one of the writer run on
a fuel that bounds their number of iterations: every iteration consumes at
least one byte of the buffer the loop walks over. -/

/-- Entry `i` of `crc_table`, computed by eight shift-and-xor steps. -/
def crcTableEntry (i : Nat) : Nat :=
  forLoop 8 (fun _ c => if c &&& 1 ≠ 0 then 0xedb88320 ^^^ (c >>> 1) else c >>> 1) i

/-- The static table `crc_table`. -/
def crc_table : List Nat := forLoop 256 (fun i t => t ++ [crcTableEntry i]) []

/-- The function `crc32_for_bytes`. -/
def crc32_for_bytes (s : List Nat) : Nat :=
  (forLoop s.length
    (fun i c => crc_table.getD ((c ^^^ s.getD i 0) &&& 0xff) 0 ^^^ (c >>> 8)) 0xffffffff)
    ^^^ 0xffffffff

/-- The function `write_be32`; its argument is converted to `uint32_t`. -/
def write_be32 (out : List Nat) (v : Nat) : List Nat :=
  let v := v % 2 ^ 32
  out ++ [(v >>> 24) &&& 0xFF, (v >>> 16) &&& 0xFF, (v >>> 8) &&& 0xFF, v &&& 0xFF]

/-- The raw scanline data: for every row a filter byte 0 and the `w * 3`
pixel bytes of the row. -/
def pngRaw (w h : Nat) (rgb : List Nat) : List Nat :=
  forLoop h
    (fun y raw =>
      let raw := raw ++ [0]
      let rowStart := y * w * 3
      raw ++ (rgb.drop rowStart).take (w * 3))
    []

/-- The loop `while (remaining > 0)` that cuts `raw` into stored blocks and
appends them to `idat`. -/
def storedBlocks (raw : List Nat) (fuel remaining rp : Nat) (idat : List Nat) : List Nat :=
  match fuel with
  | 0 => idat
  | fuel + 1 =>
    if remaining > 0 then
      let chunk := if remaining < 65535 then remaining else 65535
      let bfinal := if remaining ≤ 65535 then 1 else 0
      let idat := idat ++ [bfinal]
      let len := chunk % 2 ^ 16
      let idat := idat ++ [len &&& 0xFF]
      let idat := idat ++ [(len >>> 8) &&& 0xFF]
      let nlen := len ^^^ 0xFFFF
      let idat := idat ++ [nlen &&& 0xFF]
      let idat := idat ++ [(nlen >>> 8) &&& 0xFF]
      let idat := idat ++ (raw.drop rp).take chunk
      storedBlocks raw fuel (remaining - chunk) (rp + chunk) idat
    else idat

/-- The bytes one iteration of the stored-block loop appends when `remaining`
bytes are left from position `rp` on: the header byte, `LEN`, `NLEN` and the
block's raw bytes. -/
def storedBlock (raw : List Nat) (remaining rp : Nat) : List Nat :=
  let chunk := if remaining < 65535 then remaining else 65535
  let bfinal := if remaining ≤ 65535 then 1 else 0
  let len := chunk % 2 ^ 16
  let nlen := len ^^^ 0xFFFF
  [bfinal, len &&& 0xFF, (len >>> 8) &&& 0xFF, nlen &&& 0xFF, (nlen >>> 8) &&& 0xFF]
    ++ (raw.drop rp).take chunk

/-- The Adler-32 checksum of the writer: the two accumulators after the loop
over `raw`, combined as `(b << 16) | a`. -/
def adler32 (raw : List Nat) : Nat :=
  let ab := forLoop raw.length
    (fun i (ab : Nat × Nat) =>
      let a := (ab.1 + raw.getD i 0) % 65521
      let b := (ab.2 + a) % 65521
      (a, b))
    (1, 0)
  ((ab.2 <<< 16) ||| ab.1) % 2 ^ 32

/-- The vector `idat`: the zlib header, the stored blocks and the checksum. -/
def pngIdat (w h : Nat) (rgb : List Nat) : List Nat :=
  let raw := pngRaw w h rgb
  let idat := storedBlocks raw raw.length raw.length 0 [0x78, 0x01]
  let adler := adler32 raw
  idat ++ [(adler >>> 24) &&& 0xFF, (adler >>> 16) &&& 0xFF, (adler >>> 8) &&& 0xFF,
    adler &&& 0xFF]

/-- One chunk appended to `png`: length, type, data, and the CRC of type and
data read back from `png`. -/
def appendChunk (png : List Nat) (type data : List Nat) : List Nat :=
  let png := write_be32 png data.length
  let pos := png.length
  let png := png ++ type
  let png := png ++ data
  let crc := crc32_for_bytes ((png.drop pos).take (4 + data.length))
  write_be32 png crc

/-- One chunk as it lies in the file: the big-endian length of the data, the
type, the data, and the big-endian CRC-32 of type and data. -/
def pngChunk (type data : List Nat) : List Nat :=
  write_be32 (write_be32 [] data.length ++ type ++ data) (crc32_for_bytes (type ++ data))

/-- One scanline of the raw data: the filter byte 0, then the pixel bytes of
row `y`. -/
def pngScanline (w : Nat) (rgb : List Nat) (y : Nat) : List Nat :=
  [0] ++ (rgb.drop (y * w * 3)).take (w * 3)

/-- The bytes `writePNG_raw` writes to its file. -/
def writePNG_raw (w h : Nat) (rgb : List Nat) : List Nat :=
  let png := [137, 80, 78, 71, 13, 10, 26, 10]
  let ihdr := write_be32 (write_be32 [] w) h ++ [8, 2, 0, 0, 0]
  let png := appendChunk png [73, 72, 68, 82] ihdr
  let png := appendChunk png [73, 68, 65, 84] (pngIdat w h rgb)
  appendChunk png [73, 69, 78, 68] []

/-- The expression `(file[p]<<24) | (file[p+1]<<16) | (file[p+2]<<8) | file[p+3]`
as a 32-bit pattern. -/
def rdBE32 (file : List Nat) (p : Nat) : Nat :=
  ((file.getD p 0 <<< 24) ||| (file.getD (p + 1) 0 <<< 16) ||| (file.getD (p + 2) 0 <<< 8)
    ||| file.getD (p + 3) 0) % 2 ^ 32

/-- The state of the chunk loop: the read position, `W`, `H` and the
concatenated data chunks. -/
structure ChunkState where
  p : Nat
  W : Int
  H : Int
  idat_concat : List Nat

/-- The chunk loop `while (p + 8 <= file.size())` of the reader; `none` is its
`return false`. -/
def chunkLoop (file : List Nat) (fuel : Nat) (st : ChunkState) : Option ChunkState :=
  match fuel with
  | 0 => some st
  | fuel + 1 =>
    if st.p + 8 ≤ file.length then
      let len := rdBE32 file st.p
      let p := st.p + 4
      if p + 4 + len + 4 > file.length then none
      else
        let chunk_type := (file.drop p).take 4
        let p := p + 4
        if chunk_type = [73, 72, 68, 82] then
          if len < 13 then none
          else
            let W := toInt32 (rdBE32 file p)
            let H := toInt32 (rdBE32 file (p + 4))
            chunkLoop file fuel { p := p + len + 4, W := W, H := H, idat_concat := st.idat_concat }
        else if chunk_type = [73, 68, 65, 84] then
          chunkLoop file fuel
            { p := p + len + 4, W := st.W, H := st.H,
              idat_concat := st.idat_concat ++ (file.drop p).take len }
        else if chunk_type = [73, 69, 78, 68] then some { st with p := p }
        else chunkLoop file fuel { st with p := p + len + 4 }
    else some st

/-- The stored-block loop `while (ip < idat_concat.size())` of the reader;
`none` is its `return false`. -/
def blockLoop (idat_concat : List Nat) (fuel ip : Nat) (raw : List Nat) : Option (List Nat) :=
  match fuel with
  | 0 => some raw
  | fuel + 1 =>
    if ip < idat_concat.length then
      let bfinal_btype := idat_concat.getD ip 0
      let ip := ip + 1
      let bfinal := bfinal_btype &&& 1
      let btype := (bfinal_btype >>> 1) &&& 3
      if btype ≠ 0 then none
      else if ip + 4 > idat_concat.length then none
      else
        let len := (idat_concat.getD ip 0 ||| (idat_concat.getD (ip + 1) 0 <<< 8)) % 2 ^ 16
        let nlen := (idat_concat.getD (ip + 2) 0 ||| (idat_concat.getD (ip + 3) 0 <<< 8)) % 2 ^ 16
        let ip := ip + 4
        if len ^^^ 0xFFFF ≠ nlen then none
        else if ip + len > idat_concat.length then none
        else
          let raw := raw ++ (idat_concat.drop ip).take len
          let ip := ip + len
          if bfinal ≠ 0 then some raw else blockLoop idat_concat fuel ip raw
    else some raw

/-- The scanline loop of the reader: the state is the read position `rp` and
the pixel buffer; `none` is its `return false` on a non-zero filter byte. -/
def scanlines (raw : List Nat) (W H : Int) (outRGB : List Nat) : Option (Nat × List Nat) :=
  forLoopM H.toNat
    (fun y (st : Nat × List Nat) =>
      let filter := raw.getD st.1 0
      let rp := st.1 + 1
      if filter ≠ 0 then none
      else
        some (forLoop W.toNat
          (fun x (st : Nat × List Nat) =>
            let pos := ((y * toSizeT W + x) * 3) % 2 ^ 64
            let outRGB := st.2.set (pos + 0) (raw.getD st.1 0)
            let outRGB := outRGB.set (pos + 1) (raw.getD (st.1 + 1) 0)
            let outRGB := outRGB.set (pos + 2) (raw.getD (st.1 + 2) 0)
            (st.1 + 3, outRGB))
          (rp, st.2)))
    (0, outRGB)

/-- The reader `readPNG_extractRGB` on the bytes of a file: `W`, `H` and the
top-to-bottom RGB buffer. -/
def readPNG_extractRGB (file : List Nat) : Option (Int × Int × List Nat) :=
  if file.length < 8 then none
  else if file.take 8 ≠ [137, 80, 78, 71, 13, 10, 26, 10] then none
  else
    match chunkLoop file file.length { p := 8, W := 0, H := 0, idat_concat := [] } with
    | none => none
    | some st =>
      if st.W = 0 ∨ st.H = 0 then none
      else if st.idat_concat.length < 2 then none
      else
        match blockLoop st.idat_concat st.idat_concat.length 2 [] with
        | none => none
        | some raw =>
          let expected := (toSizeT st.H * ((toSizeT st.W * 3 + 1) % 2 ^ 64)) % 2 ^ 64
          if raw.length < expected then none
          else
            let outRGB := List.replicate ((toSizeT st.W * toSizeT st.H * 3) % 2 ^ 64) 0
            (scanlines raw st.W st.H outRGB).map (fun r => (st.W, st.H, r.2))

/-- The function `decodePayloadFromPNG` on the bytes of the image file. -/
def decodePayloadFromPNG (file : List Nat) : Option (List Nat) :=
  (readPNG_extractRGB file).bind (fun r => decodePayloadFromPixels r.1 r.2.1 r.2.2)


/-! ## The glyph rasterizer

`tiny8x8_font` (lines 57-250), `renderTextToBMP` (lines 1187-1247) and
`extractTextFromRenderedBMP` (lines 1118-1181). A text is the list of its bytes
(the values of `unsigned char`). The renderer is modelled by the raster
`(W, H, img)` it hands to `writeBMP24`; its parameter `margin` is a
non-negative `int`, and its `int` arithmetic (`W`, `H`, `W*H*3`,
`(py*W + px)*3`) is exact as long as it does not overflow, that is for
`W * H * 3 < 2 ^ 31`. -/

/-- The table `tiny8x8_font`: 96 glyphs of 8 rows each, for the character
codes 32 to 127. -/
def tiny8x8_font : List (List Nat) :=
  [
    [0x00, 0x00, 0x00, 0x00, 0x00, 0x00, 0x00, 0x00], [0x18, 0x3c, 0x3c, 0x18, 0x18, 0x00, 0x18, 0x00],
    [0x6c, 0x6c, 0x48, 0x00, 0x00, 0x00, 0x00, 0x00], [0x6c, 0x6c, 0xfe, 0x6c, 0xfe, 0x6c, 0x6c, 0x00],
    [0x18, 0x3e, 0x58, 0x3c, 0x1a, 0x7c, 0x18, 0x00], [0x00, 0xc6, 0xcc, 0x18, 0x30, 0x66, 0xc6, 0x00],
    [0x38, 0x6c, 0x38, 0x76, 0xdc, 0xcc, 0x76, 0x00], [0x30, 0x30, 0x60, 0x00, 0x00, 0x00, 0x00, 0x00],
    [0x0c, 0x18, 0x30, 0x30, 0x30, 0x18, 0x0c, 0x00], [0x30, 0x18, 0x0c, 0x0c, 0x0c, 0x18, 0x30, 0x00],
    [0x00, 0x66, 0x3c, 0xff, 0x3c, 0x66, 0x00, 0x00], [0x00, 0x18, 0x18, 0x7e, 0x18, 0x18, 0x00, 0x00],
    [0x00, 0x00, 0x00, 0x00, 0x30, 0x30, 0x60, 0x00], [0x00, 0x00, 0x00, 0x7e, 0x00, 0x00, 0x00, 0x00],
    [0x00, 0x00, 0x00, 0x00, 0x00, 0x30, 0x30, 0x00], [0x06, 0x0c, 0x18, 0x30, 0x60, 0xc0, 0x80, 0x00],
    [0x7c, 0xc6, 0xce, 0xd6, 0xe6, 0xc6, 0x7c, 0x00], [0x30, 0x70, 0x30, 0x30, 0x30, 0x30, 0xfc, 0x00],
    [0x78, 0xcc, 0x0c, 0x38, 0x60, 0xcc, 0xfc, 0x00], [0x78, 0xcc, 0x0c, 0x38, 0x0c, 0xcc, 0x78, 0x00],
    [0x1c, 0x3c, 0x6c, 0xcc, 0xfe, 0x0c, 0x1e, 0x00], [0xfc, 0xc0, 0xf8, 0x0c, 0x0c, 0xcc, 0x78, 0x00],
    [0x38, 0x60, 0xc0, 0xf8, 0xcc, 0xcc, 0x78, 0x00], [0xfc, 0xcc, 0x0c, 0x18, 0x30, 0x30, 0x30, 0x00],
    [0x78, 0xcc, 0xcc, 0x78, 0xcc, 0xcc, 0x78, 0x00], [0x78, 0xcc, 0xcc, 0x7c, 0x0c, 0x18, 0x70, 0x00],
    [0x00, 0x30, 0x30, 0x00, 0x00, 0x30, 0x30, 0x00], [0x00, 0x30, 0x30, 0x00, 0x00, 0x30, 0x30, 0x60],
    [0x0c, 0x18, 0x30, 0x60, 0x30, 0x18, 0x0c, 0x00], [0x00, 0x00, 0x7e, 0x00, 0x00, 0x7e, 0x00, 0x00],
    [0x30, 0x18, 0x0c, 0x06, 0x0c, 0x18, 0x30, 0x00], [0x78, 0xcc, 0x0c, 0x18, 0x30, 0x00, 0x30, 0x00],
    [0x7c, 0xc6, 0xde, 0xde, 0xde, 0xc0, 0x78, 0x00], [0x30, 0x78, 0xcc, 0xcc, 0xfc, 0xcc, 0xcc, 0x00],
    [0xf8, 0xcc, 0xcc, 0xf8, 0xcc, 0xcc, 0xf8, 0x00], [0x78, 0xcc, 0xc0, 0xc0, 0xc0, 0xcc, 0x78, 0x00],
    [0xf0, 0xd8, 0xcc, 0xcc, 0xcc, 0xd8, 0xf0, 0x00], [0xfc, 0xc0, 0xc0, 0xf8, 0xc0, 0xc0, 0xfc, 0x00],
    [0xfc, 0xc0, 0xc0, 0xf8, 0xc0, 0xc0, 0xc0, 0x00], [0x78, 0xcc, 0xc0, 0xdc, 0xcc, 0xcc, 0x78, 0x00],
    [0xcc, 0xcc, 0xcc, 0xfc, 0xcc, 0xcc, 0xcc, 0x00], [0x78, 0x30, 0x30, 0x30, 0x30, 0x30, 0x78, 0x00],
    [0x3c, 0x18, 0x18, 0x18, 0x18, 0xd8, 0x70, 0x00], [0xcc, 0xd8, 0xf0, 0xe0, 0xf0, 0xd8, 0xcc, 0x00],
    [0xc0, 0xc0, 0xc0, 0xc0, 0xc0, 0xc0, 0xfc, 0x00], [0xc6, 0xee, 0xfe, 0xd6, 0xc6, 0xc6, 0xc6, 0x00],
    [0xc6, 0xe6, 0xf6, 0xde, 0xce, 0xc6, 0xc6, 0x00], [0x78, 0xcc, 0xcc, 0xcc, 0xcc, 0xcc, 0x78, 0x00],
    [0xf8, 0xcc, 0xcc, 0xf8, 0xc0, 0xc0, 0xc0, 0x00], [0x78, 0xcc, 0xcc, 0xcc, 0xd4, 0xc8, 0x74, 0x00],
    [0xf8, 0xcc, 0xcc, 0xf8, 0xe0, 0xd8, 0xcc, 0x00], [0x78, 0xcc, 0xc0, 0x78, 0x0c, 0xcc, 0x78, 0x00],
    [0xfc, 0x30, 0x30, 0x30, 0x30, 0x30, 0x30, 0x00], [0xcc, 0xcc, 0xcc, 0xcc, 0xcc, 0xcc, 0x78, 0x00],
    [0xcc, 0xcc, 0xcc, 0xcc, 0xcc, 0x78, 0x30, 0x00], [0xc6, 0xc6, 0xc6, 0xd6, 0xfe, 0xee, 0xc6, 0x00],
    [0xc6, 0xc6, 0x6c, 0x38, 0x6c, 0xc6, 0xc6, 0x00], [0xcc, 0xcc, 0xcc, 0x78, 0x30, 0x30, 0x30, 0x00],
    [0xfc, 0x8c, 0x18, 0x30, 0x60, 0x66, 0xfc, 0x00], [0x78, 0x60, 0x60, 0x60, 0x60, 0x60, 0x78, 0x00],
    [0xc0, 0x60, 0x30, 0x18, 0x0c, 0x06, 0x02, 0x00], [0x78, 0x18, 0x18, 0x18, 0x18, 0x18, 0x78, 0x00],
    [0x10, 0x38, 0x6c, 0xc6, 0x00, 0x00, 0x00, 0x00], [0x00, 0x00, 0x00, 0x00, 0x00, 0x00, 0xff, 0x00],
    [0x30, 0x18, 0x0c, 0x00, 0x00, 0x00, 0x00, 0x00], [0x00, 0x00, 0x78, 0x0c, 0x7c, 0xcc, 0x76, 0x00],
    [0xe0, 0x60, 0x6c, 0x76, 0x6c, 0x6c, 0xf8, 0x00], [0x00, 0x00, 0x78, 0xcc, 0xc0, 0xcc, 0x78, 0x00],
    [0x1c, 0x0c, 0x7c, 0xcc, 0xcc, 0xcc, 0x76, 0x00], [0x00, 0x00, 0x78, 0xcc, 0xfc, 0xc0, 0x78, 0x00],
    [0x38, 0x6c, 0x60, 0xf8, 0x60, 0x60, 0xf0, 0x00], [0x00, 0x00, 0x76, 0xcc, 0xcc, 0x7c, 0x0c, 0xf8],
    [0xe0, 0x60, 0x6c, 0x76, 0x6c, 0x6c, 0x6c, 0x00], [0x30, 0x00, 0x70, 0x30, 0x30, 0x30, 0x78, 0x00],
    [0x0c, 0x00, 0x1c, 0x0c, 0x0c, 0xcc, 0xcc, 0x78], [0xe0, 0x60, 0x66, 0x6c, 0x78, 0x6c, 0x66, 0x00],
    [0x70, 0x30, 0x30, 0x30, 0x30, 0x30, 0x78, 0x00], [0x00, 0x00, 0xec, 0xfe, 0xd6, 0xd6, 0xd6, 0x00],
    [0x00, 0x00, 0xdc, 0x66, 0x66, 0x66, 0x66, 0x00], [0x00, 0x00, 0x78, 0xcc, 0xcc, 0xcc, 0x78, 0x00],
    [0x00, 0x00, 0xf8, 0x6c, 0x6c, 0x78, 0x60, 0xf0], [0x00, 0x00, 0x76, 0xcc, 0xcc, 0x7c, 0x0c, 0x1e],
    [0x00, 0x00, 0xdc, 0x76, 0x60, 0x60, 0xf0, 0x00], [0x00, 0x00, 0x7c, 0xc0, 0x78, 0x0c, 0xf8, 0x00],
    [0x30, 0x30, 0xfc, 0x30, 0x30, 0x34, 0x18, 0x00], [0x00, 0x00, 0xcc, 0xcc, 0xcc, 0xcc, 0x76, 0x00],
    [0x00, 0x00, 0xcc, 0xcc, 0xcc, 0x78, 0x30, 0x00], [0x00, 0x00, 0xc6, 0xd6, 0xfe, 0x6c, 0x6c, 0x00],
    [0x00, 0x00, 0xc6, 0x6c, 0x38, 0x6c, 0xc6, 0x00], [0x00, 0x00, 0xcc, 0xcc, 0xcc, 0x7e, 0x0c, 0xf8],
    [0x00, 0x00, 0xfc, 0x8c, 0x18, 0x32, 0xfc, 0x00], [0x1c, 0x30, 0x30, 0x60, 0x30, 0x30, 0x1c, 0x00],
    [0x18, 0x18, 0x18, 0x00, 0x18, 0x18, 0x18, 0x00], [0x70, 0x18, 0x18, 0x0c, 0x18, 0x18, 0x70, 0x00],
    [0x76, 0xdc, 0x00, 0x00, 0x00, 0x00, 0x00, 0x00], [0x00, 0x00, 0x00, 0x00, 0x00, 0x00, 0x00, 0x00]
  ]

/-- The line layout of `renderTextToBMP`: carriage returns become newlines,
the text is split at newlines, and a line is cut as soon as it holds
`maxWidthChars` characters. -/
def layoutLines (text : List Nat) (maxWidthChars : Int) : List (List Nat) :=
  let s := text.map (fun c => if c = 13 then 10 else c)
  let st := forLoop s.length
    (fun i (st : List (List Nat) × List Nat) =>
      let c := s.getD i 0
      if c = 10 then
        if st.2.isEmpty then (st.1 ++ [[]], []) else (st.1 ++ [st.2], [])
      else
        let cur := st.2 ++ [c]
        if (cur.length : Int) ≥ maxWidthChars then (st.1 ++ [cur], []) else (st.1, cur))
    ([], [])
  if ¬ st.2.isEmpty then st.1 ++ [st.2] else st.1

/-- The number of columns of the canvas: the longest line, and 1 when every
line is empty. -/
def layoutCols (lines : List (List Nat)) : Nat :=
  let cols := forLoop lines.length (fun i cols => max cols (lines.getD i []).length) 0
  if cols = 0 then 1 else cols

/-- The painting of one glyph cell: every set bit of the glyph of `ch` becomes
a white pixel. -/
def paintGlyph (W margin row col ch : Nat) (img : List Nat) : List Nat :=
  let ch := if ch < 32 ∨ ch > 127 then 63 else ch
  let glyph := tiny8x8_font.getD (ch - 32) []
  forLoop 8
    (fun y img =>
      let bits := glyph.getD y 0
      forLoop 8
        (fun x img =>
          if bits &&& (1 <<< (7 - x)) ≠ 0 then
            let px := margin + col * 8 + x
            let py := margin + row * 8 + y
            let pos := (py * W + px) * 3
            ((img.set (pos + 0) 255).set (pos + 1) 255).set (pos + 2) 255
          else img)
        img)
    img

/-- The raster `(W, H, img)` that `renderTextToBMP` builds and writes. -/
def renderRaster (text : List Nat) (maxWidthChars : Int) (margin : Nat) :
    Nat × Nat × List Nat :=
  let lines := layoutLines text maxWidthChars
  let cols := layoutCols lines
  let W := margin * 2 + cols * 8
  let H := margin * 2 + lines.length * 8
  let img := List.replicate (W * H * 3) 0
  let img := forLoop lines.length
    (fun row img =>
      let ln := lines.getD row []
      forLoop ln.length (fun col img => paintGlyph W margin row col (ln.getD col 0) img) img)
    img
  (W, H, img)

/-- The bytes `renderTextToBMP` writes to its file. -/
def renderTextToBMP (text : List Nat) (maxWidthChars : Int) (margin : Nat) : List Nat :=
  let r := renderRaster text maxWidthChars margin
  writeBMP24 r.1 r.2.1 r.2.2

/-- The bounding box `(left, top, right, bottom)` of the non-black pixels, as
the first loop of `extractTextFromRenderedBMP` computes it; `rd p` is the
byte `rgb[p]`. -/
def boundingBoxOn (W H : Int) (rd : Nat → Nat) : Int × Int × Int × Int :=
  forLoop H.toNat
    (fun y bb =>
      forLoop W.toNat
        (fun x (bb : Int × Int × Int × Int) =>
          let p := ((y * toSizeT W + x) * 3) % 2 ^ 64
          if rd p ≠ 0 ∨ rd (p + 1) ≠ 0 ∨ rd (p + 2) ≠ 0 then
            (min bb.1 (x : Int), min bb.2.1 (y : Int), max bb.2.2.1 (x : Int),
              max bb.2.2.2 (y : Int))
          else bb)
        bb)
    (W, H, 0, 0)

/-- The margin search: the state is `(found_margin, cols, rows)`; once a
margin is found the loop has left through its `break`. -/
def findMargin (W H : Int) (bb : Int × Int × Int × Int) : Int × Int × Int :=
  forLoop 33
    (fun m (st : Int × Int × Int) =>
      if st.1 ≠ -1 then st
      else
        let margin : Int := m
        if W - 2 * margin ≤ 0 ∨ H - 2 * margin ≤ 0 then st
        else if Int.tmod (W - 2 * margin) 8 ≠ 0 then st
        else if Int.tmod (H - 2 * margin) 8 ≠ 0 then st
        else
          let c := Int.tdiv (W - 2 * margin) 8
          let r := Int.tdiv (H - 2 * margin) 8
          let gx0 := margin
          let gy0 := margin
          let gx1 := margin + c * 8 - 1
          let gy1 := margin + r * 8 - 1
          if bb.1 ≥ gx0 ∧ bb.2.2.1 ≤ gx1 ∧ bb.2.1 ≥ gy0 ∧ bb.2.2.2 ≤ gy1 then (margin, c, r)
          else st)
    (-1, 0, 0)

/-- The 8 row masks of the cell at (`row`, `col`): a pixel is on when
`r + g + b > 128`. -/
def cellGlyphOn (W : Int) (rd : Nat → Nat) (margin : Int) (row col : Nat) : List Nat :=
  forLoop 8
    (fun y glyph =>
      let bits := forLoop 8
        (fun x bits =>
          let px := margin + (col : Int) * 8 + (x : Int)
          let py := margin + (row : Int) * 8 + (y : Int)
          let p := ((toSizeT py * toSizeT W + toSizeT px) * 3) % 2 ^ 64
          let r := rd p
          let g := rd (p + 1)
          let b := rd (p + 2)
          if r + g + b > 128 then (bits ||| (1 <<< (7 - x))) % 256 else bits)
        0
      glyph.set y bits)
    (List.replicate 8 0)

/-- The glyph search: the first font entry equal to the cell in all 8 rows
gives the character `32 + ci`; without a match the character is `'?'`. -/
def matchGlyph (glyph : List Nat) : Nat :=
  (forLoop 96
    (fun ci (st : Bool × Nat) =>
      if st.1 then st
      else
        let same := forLoop 8
          (fun y (same : Bool) =>
            if ¬ same then same
            else if (tiny8x8_font.getD ci []).getD y 0 ≠ glyph.getD y 0 then false else same)
          true
        if same then (true, (32 + ci) % 256) else st)
    (false, 63)).2

/-- The loop `while (!line.empty() && line.back() == ' ') line.pop_back()`. -/
def trimTrailingSpaces (line : List Nat) : List Nat :=
  (line.reverse.dropWhile (fun c => c = 32)).reverse

/-- The body of `extractTextFromRenderedBMP` over the reads `rd p = rgb[p]`:
the recognised text, and `none` when it returns `false`. -/
def extractTextOn (W H : Int) (rd : Nat → Nat) : Option (List Nat) :=
  let bb := boundingBoxOn W H rd
  if bb.2.2.1 < bb.1 ∨ bb.2.2.2 < bb.2.1 then none
  else
    let fm := findMargin W H bb
    if fm.1 = -1 then none
    else
      let margin := fm.1
      let cols := fm.2.1
      let rows := fm.2.2
      some (forLoop rows.toNat
        (fun row outText =>
          let line := forLoop cols.toNat
            (fun col line => line ++ [matchGlyph (cellGlyphOn W rd margin row col)]) []
          let line := trimTrailingSpaces line
          let outText := outText ++ line
          if (row : Int) + 1 < rows then outText ++ [10] else outText)
        [])

/-- The function `extractTextFromRenderedBMP` on a pixel buffer. -/
def extractTextFromRenderedBMP (W H : Int) (rgb : List Nat) : Option (List Nat) :=
  extractTextOn W H (fun p => rgb.getD p 0)

/-- Whether bit `7 - x` of row `y` of the glyph that `renderTextToBMP` uses
for the character `ch` is set. -/
def glyphBit (ch y x : Nat) : Bool :=
  (tiny8x8_font.getD ((if ch < 32 ∨ ch > 127 then 63 else ch) - 32) []).getD y 0
    &&& (1 <<< (7 - x)) ≠ 0

/-- Whether the pixel (`px`, `py`) lies on a set glyph bit of the laid-out
lines. -/
def litPixel (lines : List (List Nat)) (margin px py : Nat) : Bool :=
  margin ≤ px ∧ margin ≤ py ∧ (py - margin) / 8 < lines.length
    ∧ (px - margin) / 8 < (lines.getD ((py - margin) / 8) []).length
    ∧ glyphBit ((lines.getD ((py - margin) / 8) []).getD ((px - margin) / 8) 0)
        ((py - margin) % 8) ((px - margin) % 8)

/-- The read `rgb[p]` of a `W × H` raster in which exactly the pixels of
`litPixel` are white and every other one is black. -/
def litRead (lines : List (List Nat)) (margin W H : Nat) (p : Nat) : Nat :=
  if p < W * H * 3 then
    if litPixel lines margin ((p / 3) % W) ((p / 3) / W) then 255 else 0
  else 0

/-- The state of a canvas of `N` pixels during painting: exactly the pixels
of `S` are white, all others black. -/
def Painted (N : Nat) (S : Nat → Prop) (img : List Nat) : Prop :=
  img.length = N * 3
    ∧ ∀ p, p < N * 3 → (S (p / 3) → img.getD p 0 = 255) ∧ (¬ S (p / 3) → img.getD p 0 = 0)



/-! ## Checksums bit by bit, and the trace of the stored-block loop

The definitions of this section are not functions of the program. The first
two restate the CRC-32 the way the specification names it, to be compared with
the table-driven `crc32_for_bytes`; `adlerLoop` exposes the two accumulators
of the Adler loop of `writePNG_raw` after a given number of iterations; and
`blockHeaders` records the positions at which the stored-block loop of
`readPNG_extractRGB` reads a block header. -/

/-- The accumulators `(a, b)` of the Adler loop of `writePNG_raw` (lines
606-610) after its first `k` iterations. -/
def adlerLoop (raw : List Nat) (k : Nat) : Nat × Nat :=
  forLoop k
    (fun i (ab : Nat × Nat) =>
      let a := (ab.1 + raw.getD i 0) % 65521
      let b := (ab.2 + a) % 65521
      (a, b))
    (1, 0)

/-- The positions at which the stored-block loop of `readPNG_extractRGB`
(lines 987-1008) reads a header byte `bfinal_btype`, in the order it reads
them: the loop of `blockLoop` with the same tests, recording `ip` at the start
of every iteration. -/
def blockHeaders (idat_concat : List Nat) (fuel ip : Nat) : List Nat :=
  match fuel with
  | 0 => []
  | fuel + 1 =>
    if ip < idat_concat.length then
      let bfinal_btype := idat_concat.getD ip 0
      let ip0 := ip
      let ip := ip + 1
      let bfinal := bfinal_btype &&& 1
      let btype := (bfinal_btype >>> 1) &&& 3
      if btype ≠ 0 then [ip0]
      else if ip + 4 > idat_concat.length then [ip0]
      else
        let len := (idat_concat.getD ip 0 ||| (idat_concat.getD (ip + 1) 0 <<< 8)) % 2 ^ 16
        let nlen := (idat_concat.getD (ip + 2) 0 ||| (idat_concat.getD (ip + 3) 0 <<< 8)) % 2 ^ 16
        let ip := ip + 4
        if len ^^^ 0xFFFF ≠ nlen then [ip0]
        else if ip + len > idat_concat.length then [ip0]
        else
          let ip := ip + len
          if bfinal ≠ 0 then [ip0] else ip0 :: blockHeaders idat_concat fuel ip
    else []


/-! ## The waveform generators

`generateWaveformPNGWithPayload` (lines 648-799) and
`generateWaveformBMPWithPayload` (lines 840-923) read the samples of a WAV
file, look for a payload in their least significant bits, draw the waveform on
a canvas of 1400 by 400 pixels, embed the payload and write the image. The
drawing (lines 688-720 and 877-894) is a floating-point computation on the
samples; the canvas it leaves enters the model as the parameter `canvas`. -/

/-- The payload search of the generators (lines 666-686 and 856-876): the pair
`(wavHasPayload, payload)`. -/
def wavPayload (samples : List Int) : Bool × List Nat :=
  if samples.length ≥ 32 then
    let payload_len := readLength (getBitSample samples)
    if payload_len > 0 ∧ 32 + payload_len * 8 ≤ samples.length then
      (true, readPayload (getBitSample samples) payload_len)
    else (false, [])
  else (false, [])

/-- The function `generateWaveformPNGWithPayload` on the bytes of the WAV
file: the bytes of the PNG file it writes, and `none` where it returns before
writing. -/
def generateWaveformPNGWithPayload (wav : List Nat) (canvas : List Int → List Nat) :
    Option (List Nat) :=
  (readWAV_samples wav).bind (fun r =>
    let samples := r.1
    if samples.isEmpty then none
    else
      let wp := wavPayload samples
      let W := 1400
      let H := 400
      let img := canvas samples
      let bits := buildBits wp.1 wp.2
      let img := embedBits img W H bits
      some (writePNG_raw W H img))

/-- The function `generateWaveformBMPWithPayload` on the bytes of the WAV
file: the bytes of the BMP file it writes, and `none` where it returns before
writing. -/
def generateWaveformBMPWithPayload (wav : List Nat) (canvas : List Int → List Nat) :
    Option (List Nat) :=
  (readWAV_samples wav).bind (fun r =>
    let samples := r.1
    if samples.isEmpty then none
    else
      let wp := wavPayload samples
      let W := 1400
      let H := 400
      let img := canvas samples
      let bits := buildBits wp.1 wp.2
      let img := embedBits img W H bits
      some (writeBMP24 W H img))

/-! ## The raster writer on a file system

`writeBMP24` (lines 289-340) writes to `filename + ".tmp"`, removes the
destination and renames the temporary file onto it. The file system is a map
from paths to contents; `fopen`, the two calls of `remove` and `rename` may
each fail, and `Outcomes` says which of them do. `fwrite` and `fclose` are
taken to succeed, as the program does. -/

/-- Whether the pixel `(x, y)` of a buffer `W` pixels wide is not black. -/
def nonBlack (W : Nat) (rgb : List Nat) (x y : Nat) : Bool :=
  rgb.getD ((y * W + x) * 3) 0 != 0 || rgb.getD ((y * W + x) * 3 + 1) 0 != 0
    || rgb.getD ((y * W + x) * 3 + 2) 0 != 0

/-- The columns `left` to `right` and the rows `top` to `bottom` are the
bounding box of the non-black pixels of a `W × H` image: every non-black pixel
lies inside, and each of the four sides holds one. -/
def IsBoundingBox (W H : Nat) (rgb : List Nat) (left right top bottom : Nat) : Prop :=
  left < W ∧ right < W ∧ top < H ∧ bottom < H
    ∧ (∃ y, y < H ∧ nonBlack W rgb left y = true)
    ∧ (∃ y, y < H ∧ nonBlack W rgb right y = true)
    ∧ (∃ x, x < W ∧ nonBlack W rgb x top = true)
    ∧ (∃ x, x < W ∧ nonBlack W rgb x bottom = true)
    ∧ ∀ x, x < W → ∀ y, y < H → nonBlack W rgb x y = true →
        left ≤ x ∧ x ≤ right ∧ top ≤ y ∧ y ≤ bottom

/-- The margin `m` gives a grid of whole 8 × 8 cells that holds the bounding
box. -/
def gridFits (W H left right top bottom m : Int) : Prop :=
  W - 2 * m > 0 ∧ H - 2 * m > 0 ∧ (W - 2 * m) % 8 = 0 ∧ (H - 2 * m) % 8 = 0
    ∧ m ≤ left ∧ right ≤ W - m - 1 ∧ m ≤ top ∧ bottom ≤ H - m - 1

instance gridFits_decidable (W H left right top bottom m : Int) :
    Decidable (gridFits W H left right top bottom m) := by
  unfold gridFits
  infer_instance

/-- The decoding loop of `extractTextFromRenderedBMP` for the margin and the
grid that the margin search has found. -/
def decodeGrid (W : Int) (rd : Nat → Nat) (margin cols rows : Int) : List Nat :=
  forLoop rows.toNat
    (fun row outText =>
      let line := forLoop cols.toNat
        (fun col line => line ++ [matchGlyph (cellGlyphOn W rd margin row col)]) []
      let line := trimTrailingSpaces line
      let outText := outText ++ line
      if (row : Int) + 1 < rows then outText ++ [10] else outText)
    []


/-! ## The lines of a text, as the specification words them

The definitions of this section are not functions of the program: they state
what the newline-separated lines of a text are, to be compared with the lines
that `layoutLines` lays out. -/

/-- The line `cur` put in front of the first of the lines `ls`. -/
def prependLine (cur : List Nat) (ls : List (List Nat)) : List (List Nat) :=
  match ls with
  | [] => [cur]
  | l :: rest => (cur ++ l) :: rest

/-- The newline-separated lines of a text: a text with `k` newlines has
`k + 1` lines, some of which may be empty. -/
def splitLines (text : List Nat) : List (List Nat) :=
  match text with
  | [] => [[]]
  | c :: t => if c = 10 then [] :: splitLines t else prependLine [c] (splitLines t)

/-- The text whose newline-separated lines are `ls`. -/
def joinLines (ls : List (List Nat)) : List Nat :=
  match ls with
  | [] => []
  | [l] => l
  | l :: rest => l ++ [10] ++ joinLines rest


/-! ## The chunks of a file, as the specification words them

The definition of this section is not a function of the program. A file of
the container is a signature of 8 bytes followed by chunks; a chunk that
starts at `p` is a 4-byte big-endian length `len`, a 4-byte type, `len` bytes
of data and 4 bytes of CRC, so its CRC field is the bytes `p + 8 + len` to
`p + 11 + len`. -/

/-- The chunks `(start, data length)` that lie whole in `file` from position
`p` on, at most `fuel` of them. -/
def pngChunks (file : List Nat) (fuel p : Nat) : List (Nat × Nat) :=
  match fuel with
  | 0 => []
  | fuel + 1 =>
    if p + 8 ≤ file.length then
      if p + 4 + 4 + rdBE32 file p + 4 > file.length then []
      else (p, rdBE32 file p) :: pngChunks file fuel (p + 4 + 4 + rdBE32 file p + 4)
    else []


/-! ## One iteration of the loops of the reader, with the bytes it reads

`chunkStep` and `blockStep` are the bodies of the two `while` loops of
`readPNG_extractRGB` (lines 954-974 and 987-1008), the same tests in the same
order as `chunkLoop` and `blockLoop`. Each gives the byte ranges `[lo, hi)` of
the buffer that the iteration reads, and how the iteration ends:
`Sum.inl r` when the loop is left (`r = none` for `return false`, `some` for
the end of the loop or its `break`), `Sum.inr` with the next state otherwise.
`scanRowAccesses` lists the assignments `outRGB[pos + k] = raw[rp++]` of one
row of the scanline loop (lines 1026-1031). -/

/-- One iteration of the chunk loop from the state `st`. -/
def chunkStep (file : List Nat) (st : ChunkState) :
    List (Nat × Nat) × Sum (Option ChunkState) ChunkState :=
  if st.p + 8 ≤ file.length then
    let len := rdBE32 file st.p
    let p0 := st.p
    let p := st.p + 4
    if p + 4 + len + 4 > file.length then ([(p0, p0 + 4)], Sum.inl none)
    else
      let chunk_type := (file.drop p).take 4
      let p1 := p
      let p := p + 4
      if chunk_type = [73, 72, 68, 82] then
        if len < 13 then ([(p0, p0 + 4), (p1, p1 + 4)], Sum.inl none)
        else
          let W := toInt32 (rdBE32 file p)
          let H := toInt32 (rdBE32 file (p + 4))
          ([(p0, p0 + 4), (p1, p1 + 4), (p, p + 4), (p + 4, p + 8)],
            Sum.inr { p := p + len + 4, W := W, H := H, idat_concat := st.idat_concat })
      else if chunk_type = [73, 68, 65, 84] then
        ([(p0, p0 + 4), (p1, p1 + 4), (p, p + len)],
          Sum.inr { p := p + len + 4, W := st.W, H := st.H,
                    idat_concat := st.idat_concat ++ (file.drop p).take len })
      else if chunk_type = [73, 69, 78, 68] then
        ([(p0, p0 + 4), (p1, p1 + 4)], Sum.inl (some { st with p := p }))
      else ([(p0, p0 + 4), (p1, p1 + 4)], Sum.inr { st with p := p + len + 4 })
  else ([], Sum.inl (some st))

/-- One iteration of the stored-block loop from the position `ip`, with `raw`
collected so far. -/
def blockStep (idat_concat : List Nat) (ip : Nat) (raw : List Nat) :
    List (Nat × Nat) × Sum (Option (List Nat)) (Nat × List Nat) :=
  if ip < idat_concat.length then
    let bfinal_btype := idat_concat.getD ip 0
    let ip0 := ip
    let ip := ip + 1
    let bfinal := bfinal_btype &&& 1
    let btype := (bfinal_btype >>> 1) &&& 3
    if btype ≠ 0 then ([(ip0, ip0 + 1)], Sum.inl none)
    else if ip + 4 > idat_concat.length then ([(ip0, ip0 + 1)], Sum.inl none)
    else
      let len := (idat_concat.getD ip 0 ||| (idat_concat.getD (ip + 1) 0 <<< 8)) % 2 ^ 16
      let nlen := (idat_concat.getD (ip + 2) 0 ||| (idat_concat.getD (ip + 3) 0 <<< 8)) % 2 ^ 16
      let ip1 := ip
      let ip := ip + 4
      if len ^^^ 0xFFFF ≠ nlen then ([(ip0, ip0 + 1), (ip1, ip1 + 4)], Sum.inl none)
      else if ip + len > idat_concat.length then
        ([(ip0, ip0 + 1), (ip1, ip1 + 4)], Sum.inl none)
      else
        let raw := raw ++ (idat_concat.drop ip).take len
        let ip2 := ip
        let ip := ip + len
        if bfinal ≠ 0 then
          ([(ip0, ip0 + 1), (ip1, ip1 + 4), (ip2, ip2 + len)], Sum.inl (some raw))
        else ([(ip0, ip0 + 1), (ip1, ip1 + 4), (ip2, ip2 + len)], Sum.inr (ip, raw))
  else ([], Sum.inl (some raw))

/-- The pairs (index read in `raw`, index written in `outRGB`) of the pixel
loop of row `y`, which starts with the read position `rp` just after the
filter byte. -/
def scanRowAccesses (W : Int) (y rp : Nat) : List (Nat × Nat) :=
  (List.range W.toNat).flatMap
    (fun x =>
      let pos := ((y * toSizeT W + x) * 3) % 2 ^ 64
      [(rp + 3 * x, pos + 0), (rp + 3 * x + 1, pos + 1), (rp + 3 * x + 2, pos + 2)])

/-! ## The audio carrier: the stores of the fill loops

The statement `samples[bitIndex] = final_sample` (line 407) writes through
`operator[]`, which does not check the index. `wavFill` models the store by
`List.set`, which is exact as long as `bitIndex` is below the size of the
vector. `wavFillChecked` is the same pair of loops with the store made
explicit: the result is `none` as soon as a store falls outside the vector,
where the program writes past the storage of `samples`. -/

/-- The two nested fill loops of `writeWAV_LSBCarrier` (lines 394-410), with
`none` at the first store `samples[bitIndex]` whose index is not below
`samples.size()`. -/
def wavFillChecked (carrier : Nat → Int) (buffer : List Nat) (samples : List Int) :
    Option (Nat × List Int) :=
  forLoopM buffer.length
    (fun i st =>
      let b := buffer.getD i 0
      forLoopM 8
        (fun bit st =>
          let bitIndex := st.1
          let bitval := (b >>> bit) &&& 1
          if bitIndex < st.2.length then
            some ((bitIndex + 1) % 2 ^ 32,
              st.2.set bitIndex (finalSample (carrier bitIndex) bitval))
          else none)
        st)
    (0, samples)


/-! ## Lemmas on loops and lists -/

theorem forLoop_succ {σ : Type} (n : Nat) (body : Nat → σ → σ) (s : σ) :
    forLoop (n + 1) body s = body n (forLoop n body s) := rfl

theorem forLoop_congr {σ : Type} (n : Nat) (f g : Nat → σ → σ) (s : σ)
    (h : ∀ i, i < n → ∀ t, f i t = g i t) : forLoop n f s = forLoop n g s := by
  induction n with
  | zero => rfl
  | succ k ih =>
    rw [forLoop_succ, forLoop_succ, ih (fun i hi t => h i (by omega) t), h k (by omega)]

theorem forLoop_push {α : Type} (f : Nat → α) (n : Nat) (init : List α) :
    forLoop n (fun b bits => bits ++ [f b]) init = init ++ (List.range n).map f := by
  induction n with
  | zero => simp [forLoop]
  | succ k ih => rw [forLoop_succ, ih, List.range_succ, List.map_append]; simp

theorem forLoop_pushBlock {α : Type} (h : Nat → List α) (n : Nat) (init : List α) :
    forLoop n (fun i bits => bits ++ h i) init = init ++ (List.range n).flatMap h := by
  induction n with
  | zero => simp [forLoop]
  | succ k ih => rw [forLoop_succ, ih, List.range_succ, List.flatMap_append]; simp

theorem getD_set_same {α : Type} (l : List α) (i : Nat) (a d : α) (h : i < l.length) :
    (l.set i a).getD i d = a := by
  simp [List.getD_eq_getElem?_getD, List.getElem?_set, h]

theorem getD_set_ne {α : Type} (l : List α) (i j : Nat) (a d : α) (h : i ≠ j) :
    (l.set i a).getD j d = l.getD j d := by
  simp [List.getD_eq_getElem?_getD, List.getElem?_set, h]

theorem length_flatMap_uniform {α : Type} (h : Nat → List α) (m n : Nat)
    (hlen : ∀ i, i < n → (h i).length = m) : ((List.range n).flatMap h).length = n * m := by
  induction n with
  | zero => simp
  | succ k ih =>
    rw [List.range_succ, List.flatMap_append, List.length_append,
      ih (fun i hi => hlen i (by omega))]
    simp [hlen k (by omega)]; ring

theorem getD_flatMap_uniform {α : Type} (h : Nat → List α) (m n : Nat) (d : α)
    (hlen : ∀ i, i < n → (h i).length = m) (i j : Nat) (hi : i < n) (hj : j < m) :
    ((List.range n).flatMap h).getD (i * m + j) d = (h i).getD j d := by
  induction n with
  | zero => omega
  | succ k ih =>
    have hl := length_flatMap_uniform h m k (fun i hi => hlen i (by omega))
    rw [List.range_succ, List.flatMap_append]
    by_cases hik : i < k
    · have : i * m + j < k * m := by
        have : (i + 1) * m ≤ k * m := Nat.mul_le_mul_right m (by omega)
        rw [Nat.add_mul] at this; omega
      rw [List.getD_append _ _ _ _ (by rw [hl]; exact this)]
      exact ih (fun i hi => hlen i (by omega)) hik
    · have hik2 : i = k := by omega
      subst hik2
      rw [List.getD_append_right _ _ _ _ (by rw [hl]; omega), hl]
      simp

theorem getD_range_map {α : Type} (f : Nat → α) (n k : Nat) (d : α) (hk : k < n) :
    ((List.range n).map f).getD k d = f k := by
  simp [List.getD_eq_getElem?_getD, List.getElem?_map, List.getElem?_range hk]

theorem forLoop_fill {α : Type} (f : Nat → α) (d : α) (n : Nat) :
    forLoop n (fun i (out : List α) => out.set i (f i)) (List.replicate n d)
      = (List.range n).map f := by
  have key : ∀ k, k ≤ n →
      forLoop k (fun i (out : List α) => out.set i (f i)) (List.replicate n d)
        = (List.range k).map f ++ List.replicate (n - k) d := by
    intro k
    induction k with
    | zero => intro _; simp [forLoop]
    | succ j ih =>
      intro hj
      rw [forLoop_succ, ih (by omega), List.range_succ, List.map_append]
      have h1 : n - j = (n - (j + 1)) + 1 := by omega
      rw [h1, List.replicate_succ, List.set_append]
      simp
  have := key n (Nat.le_refl n)
  simpa using this

/-! ## Lemmas on bit assembly -/

theorem bit_and_one_le (v b : Nat) : (v >>> b) &&& 1 ≤ 1 := by
  rw [Nat.and_one_is_mod]; omega

theorem assemble_step (v n : Nat) :
    (v % 2 ^ n) ||| (((v >>> n) &&& 1) <<< n) = v % 2 ^ (n + 1) := by
  apply Nat.eq_of_testBit_eq
  intro i
  simp only [Nat.testBit_lor, Nat.testBit_mod_two_pow, Nat.testBit_shiftLeft,
    Nat.testBit_and, Nat.testBit_shiftRight]
  by_cases h1 : i < n
  · have h2 : ¬ i ≥ n := by omega
    have h3 : i < n + 1 := by omega
    simp [h1, h2, h3]
  · by_cases h4 : i = n
    · subst h4
      simp
    · have h5 : ¬ i < n + 1 := by omega
      have h6 : i - n ≠ 0 := by omega
      have h7 : Nat.testBit 1 (i - n) = false := by
        cases hb : Nat.testBit 1 (i - n) with
        | false => rfl
        | true => exact absurd (Nat.testBit_one_eq_true_iff_self_eq_zero.mp hb) h6
      simp [h1, h5, h7]

theorem assemble_bits (g : Nat → Nat) (v w n : Nat) (hn : n ≤ w)
    (hg : ∀ b, b < n → g b = (v >>> b) &&& 1) :
    forLoop n (fun b acc => (acc ||| (g b <<< b)) % 2 ^ w) 0 = v % 2 ^ n := by
  induction n with
  | zero => simp [forLoop, Nat.mod_one]
  | succ k ih =>
    rw [forLoop_succ, ih (by omega) (fun b hb => hg b (by omega)), hg k (by omega),
      assemble_step]
    apply Nat.mod_eq_of_lt
    calc v % 2 ^ (k + 1) < 2 ^ (k + 1) := Nat.mod_lt _ (by positivity)
      _ ≤ 2 ^ w := Nat.pow_le_pow_right (by omega) hn

theorem forLoop_add {σ : Type} (a b : Nat) (f : Nat → σ → σ) (s : σ) :
    forLoop (a + b) f s = forLoop b (fun j => f (a + j)) (forLoop a f s) := by
  induction b with
  | zero => rfl
  | succ k ih => rw [← Nat.add_assoc, forLoop_succ, forLoop_succ, ih]

theorem forLoop_nested {σ : Type} (n m : Nat) (f : Nat → σ → σ) (s : σ) :
    forLoop n (fun i t => forLoop m (fun j => f (i * m + j)) t) s = forLoop (n * m) f s := by
  induction n with
  | zero => simp [forLoop]
  | succ k ih => rw [forLoop_succ, ih, Nat.succ_mul, forLoop_add]

theorem ext_getD {l₁ l₂ : List Nat} (hlen : l₁.length = l₂.length)
    (h : ∀ k, k < l₁.length → l₁.getD k 0 = l₂.getD k 0) : l₁ = l₂ := by
  apply List.ext_getElem hlen
  intro n h1 h2
  have := h n h1
  rwa [List.getD_eq_getElem _ _ h1, List.getD_eq_getElem _ _ h2] at this

theorem forLoopM_eq_some {σ : Type} (n : Nat) (body : Nat → σ → Option σ) (g : Nat → σ → σ)
    (s : σ) (h : ∀ i, i < n → ∀ t, body i t = some (g i t)) :
    forLoopM n body s = some (forLoop n g s) := by
  induction n with
  | zero => rfl
  | succ k ih =>
    show (forLoopM k body s).bind (body k) = some (g k (forLoop k g s))
    rw [ih (fun i hi t => h i (by omega) t), Option.some_bind, h k (by omega)]

theorem set3_length (out : List Nat) (p a b c : Nat) :
    (((out.set p a).set (p + 1) b).set (p + 2) c).length = out.length := by
  simp

theorem getD_set3_lt (out : List Nat) (p a b c j : Nat) (hj : j < p) :
    (((out.set p a).set (p + 1) b).set (p + 2) c).getD j 0 = out.getD j 0 := by
  rw [getD_set_ne _ _ _ _ _ (by omega), getD_set_ne _ _ _ _ _ (by omega),
    getD_set_ne _ _ _ _ _ (by omega)]

theorem getD_set3_0 (out : List Nat) (p a b c : Nat) (hp : p + 2 < out.length) :
    (((out.set p a).set (p + 1) b).set (p + 2) c).getD p 0 = a := by
  rw [getD_set_ne _ _ _ _ _ (by omega), getD_set_ne _ _ _ _ _ (by omega),
    getD_set_same _ _ _ _ (by omega)]

theorem getD_set3_1 (out : List Nat) (p a b c : Nat) (hp : p + 2 < out.length) :
    (((out.set p a).set (p + 1) b).set (p + 2) c).getD (p + 1) 0 = b := by
  rw [getD_set_ne _ _ _ _ _ (by omega), getD_set_same _ _ _ _ (by simp; omega)]

theorem getD_set3_2 (out : List Nat) (p a b c : Nat) (hp : p + 2 < out.length) :
    (((out.set p a).set (p + 1) b).set (p + 2) c).getD (p + 2) 0 = c := by
  rw [getD_set_same _ _ _ _ (by simp; omega)]

/-- Writing the three bytes of pixel `q` of `rgb` at offset `3 q`, for
`q = 0 .. N - 1`, turns a buffer of the right length into `rgb`. -/
theorem forLoop_fill3 (rgb out0 : List Nat) (N : Nat) (hrgb : rgb.length = N * 3)
    (hout : out0.length = N * 3) :
    forLoop N
        (fun q out =>
          ((out.set (q * 3) (rgb.getD (q * 3) 0)).set (q * 3 + 1) (rgb.getD (q * 3 + 1) 0)).set
            (q * 3 + 2) (rgb.getD (q * 3 + 2) 0))
        out0
      = rgb := by
  have key : ∀ n, n ≤ N →
      (forLoop n
        (fun q out =>
          ((out.set (q * 3) (rgb.getD (q * 3) 0)).set (q * 3 + 1) (rgb.getD (q * 3 + 1) 0)).set
            (q * 3 + 2) (rgb.getD (q * 3 + 2) 0))
        out0).length = N * 3
      ∧ ∀ j, j < n * 3 →
        (forLoop n
          (fun q out =>
            ((out.set (q * 3) (rgb.getD (q * 3) 0)).set (q * 3 + 1)
              (rgb.getD (q * 3 + 1) 0)).set (q * 3 + 2) (rgb.getD (q * 3 + 2) 0))
          out0).getD j 0 = rgb.getD j 0 := by
    intro n
    induction n with
    | zero => intro _; exact ⟨hout, fun j hj => by omega⟩
    | succ k ih =>
      intro hk
      obtain ⟨hl, hg⟩ := ih (by omega)
      rw [forLoop_succ]
      refine ⟨by rw [set3_length]; exact hl, ?_⟩
      intro j hj
      by_cases h0 : j < k * 3
      · rw [getD_set3_lt _ _ _ _ _ _ h0]; exact hg j h0
      · by_cases h1 : j = k * 3
        · rw [h1, getD_set3_0 _ _ _ _ _ (by omega)]
        · by_cases h2 : j = k * 3 + 1
          · rw [h2, getD_set3_1 _ _ _ _ _ (by omega)]
          · have h3 : j = k * 3 + 2 := by omega
            rw [h3, getD_set3_2 _ _ _ _ _ (by omega)]
  obtain ⟨hl, hg⟩ := key N (Nat.le_refl _)
  exact ext_getD (by rw [hl, hrgb]) (fun k hk => hg k (by rw [hl] at hk; exact hk))

theorem forLoopM_none {σ : Type} (body : Nat → σ → Option σ) (s : σ) (k : Nat)
    (h : forLoopM k body s = none) : ∀ m, forLoopM (k + m) body s = none := by
  intro m
  induction m with
  | zero => exact h
  | succ m ih =>
    show (forLoopM (k + m) body s).bind _ = none
    rw [ih]
    rfl


/-! ## Lemmas on the bit channel -/

theorem range_map_getD (l : List Nat) :
    (List.range l.length).map (fun i => l.getD i 0) = l := by
  apply List.ext_getElem?
  intro n
  by_cases h : n < l.length
  · simp [List.getElem?_map, List.getElem?_range h, List.getD_eq_getElem?_getD,
      List.getElem?_eq_getElem h]
  · have h2 : l.length ≤ n := by omega
    simp [List.getElem?_eq_none, h2]

theorem buildBits_eq (payload : List Nat) :
    buildBits true payload
      = (List.range 32).map (fun b => ((payload.length % 2 ^ 32) >>> b) &&& 1)
        ++ (List.range payload.length).flatMap
            (fun i => (List.range 8).map (fun b => (payload.getD i 0 >>> b) &&& 1)) := by
  unfold buildBits
  simp only [if_true]
  rw [forLoop_push]
  have hbody : (fun (i : Nat) (bits : List Nat) =>
        forLoop 8 (fun b bits => bits ++ [(payload.getD i 0 >>> b) &&& 1]) bits)
      = (fun i bits => bits ++ (List.range 8).map (fun b => (payload.getD i 0 >>> b) &&& 1)) := by
    funext i bits
    rw [forLoop_push]
  rw [hbody, forLoop_pushBlock]
  simp

theorem buildBits_length (payload : List Nat) :
    (buildBits true payload).length = 32 + 8 * payload.length := by
  rw [buildBits_eq, List.length_append,
    length_flatMap_uniform _ 8 _ (fun i _ => by simp)]
  simp; ring

theorem buildBits_getD_lt (payload : List Nat) (k : Nat) (hk : k < 32) :
    (buildBits true payload).getD k 0 = ((payload.length % 2 ^ 32) >>> k) &&& 1 := by
  rw [buildBits_eq, List.getD_append _ _ _ _ (by simpa using hk)]
  exact getD_range_map _ 32 k 0 hk

theorem buildBits_getD_ge (payload : List Nat) (i b : Nat) (hi : i < payload.length)
    (hb : b < 8) :
    (buildBits true payload).getD (32 + i * 8 + b) 0 = (payload.getD i 0 >>> b) &&& 1 := by
  rw [buildBits_eq, List.getD_append_right _ _ _ _ (by simp; omega)]
  have h32 : 32 + i * 8 + b - ((List.range 32).map
      (fun b => ((payload.length % 2 ^ 32) >>> b) &&& 1)).length = i * 8 + b := by
    simp; omega
  rw [h32, getD_flatMap_uniform _ 8 _ 0 (fun i _ => by simp) i b hi hb]
  exact getD_range_map _ 8 b 0 hb

theorem buildBits_le_one (payload : List Nat) (k : Nat) :
    (buildBits true payload).getD k 0 ≤ 1 := by
  by_cases hk : k < 32
  · rw [buildBits_getD_lt payload k hk]; exact bit_and_one_le _ _
  · by_cases hk2 : k < 32 + 8 * payload.length
    · have e : k = 32 + ((k - 32) / 8) * 8 + (k - 32) % 8 := by omega
      rw [e, buildBits_getD_ge payload _ _ (by omega) (by omega)]
      exact bit_and_one_le _ _
    · rw [List.getD_eq_default _ _ (by rw [buildBits_length]; omega)]
      omega

theorem embedLoop_length (img bits : List Nat) (n : Nat) :
    (embedLoop img bits n).length = img.length := by
  unfold embedLoop
  induction n with
  | zero => rfl
  | succ k ih => rw [forLoop_succ]; simp only [List.length_set]; exact ih

theorem embedLoop_succ (img bits : List Nat) (n : Nat) :
    embedLoop img bits (n + 1)
      = (embedLoop img bits n).set (n * 3 + 2)
          (((embedLoop img bits n).getD (n * 3 + 2) 0 &&& 0xFE) ||| bits.getD n 0) := rfl

theorem embedLoop_getD_other (img bits : List Nat) (n j : Nat)
    (hj : ∀ i, i < n → j ≠ i * 3 + 2) :
    (embedLoop img bits n).getD j 0 = img.getD j 0 := by
  induction n with
  | zero => rfl
  | succ k ih =>
    rw [embedLoop_succ, getD_set_ne _ _ _ _ _ (fun h => hj k (by omega) h.symm)]
    exact ih (fun i hi => hj i (by omega))

theorem embedLoop_getD_blue (img bits : List Nat) (n i : Nat) (hi : i < n)
    (hlen : i * 3 + 2 < img.length) :
    (embedLoop img bits n).getD (i * 3 + 2) 0
      = (img.getD (i * 3 + 2) 0 &&& 0xFE) ||| bits.getD i 0 := by
  induction n with
  | zero => omega
  | succ k ih =>
    rw [embedLoop_succ]
    by_cases hik : i = k
    · subst hik
      rw [getD_set_same _ _ _ _ (by rw [embedLoop_length]; exact hlen),
        embedLoop_getD_other img bits i _ (fun j hj => by omega)]
    · rw [getD_set_ne _ _ _ _ _ (by omega)]
      exact ih (by omega)

theorem lsb_replace (x b : Nat) (hb : b ≤ 1) : ((x &&& 0xFE) ||| b) &&& 1 = b := by
  apply Nat.eq_of_testBit_eq
  intro i
  simp only [Nat.testBit_and, Nat.testBit_lor]
  by_cases hi : i = 0
  · subst hi
    have h254 : Nat.testBit 0xFE 0 = false := by decide
    simp [h254]
  · have h1 : Nat.testBit 1 i = false := by
      cases hc : Nat.testBit 1 i with
      | false => rfl
      | true => exact absurd (Nat.testBit_one_eq_true_iff_self_eq_zero.mp hc) hi
    have h2 : Nat.testBit b i = false := by
      apply Nat.testBit_lt_two_pow
      calc b < 2 ^ 1 := by omega
        _ ≤ 2 ^ i := Nat.pow_le_pow_right (by omega) (by omega)
    simp [h1, h2]

theorem readPayload_eq (get_bit : Nat → Nat) (len : Nat) :
    readPayload get_bit len = (List.range len).map (readByte get_bit) :=
  forLoop_fill (readByte get_bit) 0 len

theorem readLength_eq (get_bit : Nat → Nat) (v : Nat) (hv : v < 2 ^ 32)
    (hg : ∀ b, b < 32 → get_bit b = (v >>> b) &&& 1) : readLength get_bit = v := by
  unfold readLength
  rw [assemble_bits get_bit v 32 32 (Nat.le_refl _) hg]
  exact Nat.mod_eq_of_lt hv

theorem readByte_eq (get_bit : Nat → Nat) (i v : Nat) (hv : v < 256)
    (hg : ∀ b, b < 8 → get_bit (32 + i * 8 + b) = (v >>> b) &&& 1) :
    readByte get_bit i = v := by
  unfold readByte
  have h := assemble_bits (fun b => get_bit (32 + i * 8 + b)) v 8 8 (Nat.le_refl _) hg
  have e : (2 : Nat) ^ 8 = 256 := by norm_num
  rw [e] at h
  rw [h]
  exact Nat.mod_eq_of_lt hv

theorem readPayload_of_bits (get_bit : Nat → Nat) (payload : List Nat)
    (hbytes : ∀ i, i < payload.length → payload.getD i 0 < 256)
    (hg : ∀ i b, i < payload.length → b < 8 →
      get_bit (32 + i * 8 + b) = (payload.getD i 0 >>> b) &&& 1) :
    readPayload get_bit payload.length = payload := by
  rw [readPayload_eq]
  conv_rhs => rw [← range_map_getD payload]
  apply List.map_congr_left
  intro i hi
  have hi2 : i < payload.length := List.mem_range.mp hi
  exact readByte_eq get_bit i _ (hbytes i hi2) (fun b hb => hg i b hi2 hb)

theorem pxCountOf_nat (W H : Nat) (h : W * H < 2 ^ 64) (hW : W < 2 ^ 64) (hH : H < 2 ^ 64) :
    pxCountOf (W : Int) (H : Int) = W * H := by
  unfold pxCountOf toSizeT
  have e1 : ((W : Int) % 2 ^ 64).toNat = W := by
    have : ((W : Int) % 2 ^ 64) = ((W % 2 ^ 64 : Nat) : Int) := by push_cast; rfl
    rw [this, Int.toNat_ofNat, Nat.mod_eq_of_lt hW]
  have e2 : ((H : Int) % 2 ^ 64).toNat = H := by
    have : ((H : Int) % 2 ^ 64) = ((H % 2 ^ 64 : Nat) : Int) := by push_cast; rfl
    rw [this, Int.toNat_ofNat, Nat.mod_eq_of_lt hH]
  rw [e1, e2, Nat.mod_eq_of_lt h]


/-! ## Lemmas on 16-bit samples -/

theorem int_land_zero (y : Int) : Int.land y 0 = 0 := by
  cases y with
  | ofNat m =>
    show Int.land (Int.ofNat m) (Int.ofNat 0) = 0
    simp [Int.land]
  | negSucc m =>
    show Int.land (Int.negSucc m) (Int.ofNat 0) = 0
    simp [Int.land, Nat.ldiff]

theorem int_land_one (x : Int) : Int.land x 1 = if Int.bodd x then 1 else 0 := by
  have h1 : (1 : Int) = Int.bit true 0 := by simp [Int.bit_val]
  conv_lhs => rw [← Int.bit_decomp x, h1, Int.land_bit, int_land_zero]
  cases Int.bodd x <;> simp [Int.bit_val]

theorem int_bodd_land (m n : Int) : Int.bodd (Int.land m n) = (Int.bodd m && Int.bodd n) := by
  conv_lhs => rw [← Int.bit_decomp m, ← Int.bit_decomp n, Int.land_bit, Int.bodd_bit]

theorem int_bodd_lor (m n : Int) : Int.bodd (Int.lor m n) = (Int.bodd m || Int.bodd n) := by
  conv_lhs => rw [← Int.bit_decomp m, ← Int.bit_decomp n, Int.lor_bit, Int.bodd_bit]

theorem int_mod_two (x : Int) : x % 2 = if Int.bodd x then 1 else 0 := by
  have h := Int.bodd_add_div2 x
  cases hb : Int.bodd x <;> simp [hb] at h ⊢ <;> omega

theorem int_bodd_of_mod (x y : Int) (h : x % 2 = y % 2) : Int.bodd x = Int.bodd y := by
  have hx := int_mod_two x
  have hy := int_mod_two y
  cases hbx : Int.bodd x <;> cases hby : Int.bodd y <;> simp [hbx, hby] at hx hy ⊢ <;> omega

theorem castInt16_mod_two (x : Int) : castInt16 x % 2 = x % 2 := by
  unfold castInt16 toInt16 toUInt16
  norm_num
  split <;> omega

theorem castInt16_range (x : Int) : -32768 ≤ castInt16 x ∧ castInt16 x < 32768 := by
  unfold castInt16 toInt16 toUInt16
  norm_num
  split <;> omega

theorem castInt16_of_range (x : Int) (h1 : -32768 ≤ x) (h2 : x < 32768) : castInt16 x = x := by
  unfold castInt16 toInt16 toUInt16
  norm_num
  split <;> omega

theorem toUInt16_lt (x : Int) : toUInt16 x < 65536 := by
  unfold toUInt16
  norm_num
  omega

theorem bodd_castInt16 (x : Int) : Int.bodd (castInt16 x) = Int.bodd x :=
  int_bodd_of_mod _ _ (castInt16_mod_two x)

theorem finalSample_range (c : Int) (v : Nat) :
    -32768 ≤ finalSample c v ∧ finalSample c v < 32768 := castInt16_range _

theorem finalSample_lsb (c : Int) (v : Nat) (hv : v ≤ 1) :
    sampleLSB (finalSample c v) = v := by
  unfold sampleLSB
  have hb : Int.bodd (finalSample c v) = Int.bodd (v : Int) := by
    unfold finalSample
    simp only []
    rw [bodd_castInt16, int_bodd_lor, int_bodd_land, int_bodd_land]
    have h1 : Int.bodd (Int.lnot 1) = false := by decide
    have h2 : Int.bodd 1 = true := by decide
    simp [h1, h2]
  rw [int_land_one, hb]
  have hv2 : v = 0 ∨ v = 1 := by omega
  rcases hv2 with h | h <;> subst h <;> simp

/-! ## Lemmas on the audio writer -/

theorem wavBuffer_eq (payload : List Nat) :
    wavBuffer payload
      = [((payload.length % 2 ^ 32) >>> 0) &&& 0xFF, ((payload.length % 2 ^ 32) >>> 8) &&& 0xFF,
          ((payload.length % 2 ^ 32) >>> 16) &&& 0xFF, ((payload.length % 2 ^ 32) >>> 24) &&& 0xFF]
        ++ payload := rfl

theorem wavBuffer_length (payload : List Nat) : (wavBuffer payload).length = 4 + payload.length := by
  rw [wavBuffer_eq, List.length_append]; simp

theorem wavNumSamples_eq (payload : List Nat) :
    wavNumSamples payload = ((4 + payload.length) * 8) % 2 ^ 32 := by
  unfold wavNumSamples
  rw [wavBuffer_length]

theorem wavBitvals_eq (buffer : List Nat) :
    wavBitvals buffer
      = (List.range buffer.length).flatMap
          (fun i => (List.range 8).map (fun b => (buffer.getD i 0 >>> b) &&& 1)) := by
  unfold wavBitvals
  have hbody : (fun (i : Nat) (bits : List Nat) =>
        forLoop 8 (fun b bits => bits ++ [(buffer.getD i 0 >>> b) &&& 1]) bits)
      = (fun i bits => bits ++ (List.range 8).map (fun b => (buffer.getD i 0 >>> b) &&& 1)) := by
    funext i bits
    rw [forLoop_push]
  show forLoop buffer.length (fun (i : Nat) (bits : List Nat) =>
        forLoop 8 (fun b bits => bits ++ [(buffer.getD i 0 >>> b) &&& 1]) bits) [] = _
  rw [hbody, forLoop_pushBlock]
  simp

theorem wavBitvals_length (buffer : List Nat) : (wavBitvals buffer).length = 8 * buffer.length := by
  rw [wavBitvals_eq, length_flatMap_uniform _ 8 _ (fun i _ => by simp)]
  ring

theorem wavBitvals_getD (buffer : List Nat) (k : Nat) (hk : k < 8 * buffer.length) :
    (wavBitvals buffer).getD k 0 = bufferBit buffer k := by
  have e : k = (k / 8) * 8 + k % 8 := by omega
  rw [wavBitvals_eq]
  conv_lhs => rw [e]
  rw [getD_flatMap_uniform _ 8 _ 0 (fun i _ => by simp) (k / 8) (k % 8) (by omega) (by omega)]
  exact getD_range_map _ 8 _ 0 (by omega)

theorem bit_eq_testBit (v b : Nat) : (v >>> b) &&& 1 = (v.testBit b).toNat := by
  rw [Nat.and_one_is_mod, Nat.shiftRight_eq_div_pow, Nat.toNat_testBit]

theorem bufferBit_le_one (buffer : List Nat) (k : Nat) : bufferBit buffer k ≤ 1 :=
  bit_and_one_le _ _

theorem byte_of_length_bit (L i j : Nat) (hj : j < 8) :
    (((L >>> (8 * i)) &&& 0xFF) >>> j) &&& 1 = (L >>> (8 * i + j)) &&& 1 := by
  rw [bit_eq_testBit, bit_eq_testBit, Nat.testBit_and, Nat.testBit_shiftRight]
  have h255 : Nat.testBit 0xFF j = true := by
    have e : (0xFF : Nat) = 2 ^ 8 - 1 := by norm_num
    rw [e, Nat.testBit_two_pow_sub_one]
    simpa using hj
  rw [h255, Bool.and_true]

theorem wavBuffer_bit_lt (payload : List Nat) (k : Nat) (hk : k < 32) :
    bufferBit (wavBuffer payload) k = ((payload.length % 2 ^ 32) >>> k) &&& 1 := by
  unfold bufferBit
  rw [wavBuffer_eq]
  have hq : k / 8 < 4 := by omega
  have e : k = 8 * (k / 8) + k % 8 := by omega
  have hj : k % 8 < 8 := by omega
  generalize hL : payload.length % 2 ^ 32 = L
  conv_rhs => rw [e]
  rw [← byte_of_length_bit L (k / 8) (k % 8) hj]
  generalize k / 8 = q at hq
  interval_cases q <;> rfl

theorem wavBuffer_bit_ge (payload : List Nat) (i b : Nat) (hb : b < 8) :
    bufferBit (wavBuffer payload) (32 + i * 8 + b) = (payload.getD i 0 >>> b) &&& 1 := by
  unfold bufferBit
  rw [wavBuffer_eq]
  have h1 : (32 + i * 8 + b) / 8 = 4 + i := by omega
  have h2 : (32 + i * 8 + b) % 8 = b := by omega
  rw [h1, h2, List.getD_append_right _ _ _ _ (by simp)]
  simp

theorem wavFill_inner (carrier : Nat → Int) (b c m : Nat) (s : List Int)
    (hc : c + m < 2 ^ 32) :
    forLoop m
        (fun bit (st : Nat × List Int) =>
          ((st.1 + 1) % 2 ^ 32,
            st.2.set st.1 (finalSample (carrier st.1) ((b >>> bit) &&& 1))))
        (c, s)
      = (c + m,
          forLoop m
            (fun j t => t.set (c + j) (finalSample (carrier (c + j)) ((b >>> j) &&& 1))) s) := by
  induction m with
  | zero => rfl
  | succ k ih =>
    rw [forLoop_succ, forLoop_succ, ih (by omega)]
    simp only []
    rw [Nat.mod_eq_of_lt (by omega)]
    rfl

theorem wavFill_prefix (carrier : Nat → Int) (buffer : List Nat) (s : List Int) (n : Nat)
    (hn : n ≤ buffer.length) (h : 8 * n < 2 ^ 32) :
    forLoop n
        (fun i (st : Nat × List Int) =>
          forLoop 8
            (fun bit (st : Nat × List Int) =>
              ((st.1 + 1) % 2 ^ 32,
                st.2.set st.1 (finalSample (carrier st.1) ((buffer.getD i 0 >>> bit) &&& 1))))
            st)
        (0, s)
      = (n * 8,
          forLoop (n * 8)
            (fun k t => t.set k (finalSample (carrier k) (bufferBit buffer k))) s) := by
  induction n with
  | zero => simp [forLoop]
  | succ k ih =>
    rw [forLoop_succ, ih (by omega) (by omega), wavFill_inner _ _ _ _ _ (by omega)]
    have e : (k + 1) * 8 = k * 8 + 8 := by ring
    rw [e, forLoop_add]
    congr 1
    apply forLoop_congr
    intro j hj t
    have h1 : (k * 8 + j) / 8 = k := by omega
    have h2 : (k * 8 + j) % 8 = j := by omega
    unfold bufferBit
    rw [h1, h2]

theorem wavFill_eq (carrier : Nat → Int) (buffer : List Nat) (s : List Int)
    (h : 8 * buffer.length < 2 ^ 32) :
    wavFill carrier buffer s
      = (buffer.length * 8,
          forLoop (buffer.length * 8)
            (fun k t => t.set k (finalSample (carrier k) (bufferBit buffer k))) s) :=
  wavFill_prefix carrier buffer s buffer.length (Nat.le_refl _) h

theorem wavSamples_eq (carrier : Nat → Int) (payload : List Nat)
    (h : 32 + 8 * payload.length < 2 ^ 32) :
    wavSamples carrier payload
      = (List.range (32 + 8 * payload.length)).map
          (fun k => finalSample (carrier k) (bufferBit (wavBuffer payload) k)) := by
  unfold wavSamples
  have hlen := wavBuffer_length payload
  rw [wavFill_eq _ _ _ (by rw [hlen]; omega), wavNumSamples_eq]
  simp only []
  have e1 : ((4 + payload.length) * 8) % 2 ^ 32 = 32 + 8 * payload.length := by
    rw [Nat.mod_eq_of_lt (by omega)]; ring
  have e2 : (wavBuffer payload).length * 8 = 32 + 8 * payload.length := by
    rw [hlen]; ring
  rw [e1, e2]
  exact forLoop_fill _ 0 _

theorem wavFill_length (carrier : Nat → Int) (buffer : List Nat) (s : List Int) :
    (wavFill carrier buffer s).2.length = s.length := by
  unfold wavFill
  generalize buffer.length = n
  induction n with
  | zero => rfl
  | succ k ih =>
    rw [forLoop_succ]
    simp only []
    generalize forLoop k _ (0, s) = st at ih
    have inner : ∀ m (st0 : Nat × List Int),
        (forLoop m
          (fun bit (st : Nat × List Int) =>
            ((st.1 + 1) % 2 ^ 32,
              st.2.set st.1 (finalSample (carrier st.1) ((buffer.getD k 0 >>> bit) &&& 1))))
          st0).2.length = st0.2.length := by
      intro m st0
      induction m with
      | zero => rfl
      | succ j ihj => rw [forLoop_succ]; simp only [List.length_set]; exact ihj
    rw [inner 8 st, ih]

theorem wavSamples_length (carrier : Nat → Int) (payload : List Nat) :
    (wavSamples carrier payload).length = wavNumSamples payload := by
  unfold wavSamples
  rw [wavFill_length, List.length_replicate]


/-! ## Lemmas on the audio file -/

theorem le32_read (v : Nat) (hv : v < 2 ^ 32) :
    v % 256 + 256 * ((v / 256) % 256) + 65536 * ((v / 65536) % 256)
      + 16777216 * ((v / 16777216) % 256) = v := by
  omega

theorem le16_read (v : Nat) (hv : v < 65536) : v % 256 + 256 * ((v / 256) % 256) = v := by
  omega

theorem wavHeader_length (n : Nat) (sr : Int) : (wavHeader n sr).length = 44 := by
  simp [wavHeader, le32, le16]

theorem wavBody_eq (samples : List Int) (n : Nat) :
    forLoop n (fun i out => out ++ le16 (toUInt16 (samples.getD i 0))) []
      = (List.range n).flatMap (fun i => le16 (toUInt16 (samples.getD i 0))) := by
  rw [forLoop_pushBlock]; simp

theorem wavBody_length (samples : List Int) (n : Nat) :
    ((List.range n).flatMap (fun i => le16 (toUInt16 (samples.getD i 0)))).length = n * 2 :=
  length_flatMap_uniform _ 2 n (fun i _ => by simp [le16])

theorem readWAV_header (n : Nat) (sr : Int) (body : List Nat) :
    readWAV_samples (wavHeader n sr ++ body)
      = some ((List.range
            ((if 44 + (n * 2) % 2 ^ 32 > 44 + body.length then body.length % 2 ^ 32
              else (n * 2) % 2 ^ 32) / 2)).map
          (fun i => toInt16 (body.getD (2 * i) 0 + 256 * body.getD (2 * i + 1) 0)),
        toInt32 (sr % 2 ^ 32).toNat) := by
  have hlen : (wavHeader n sr ++ body).length = 44 + body.length := by
    rw [List.length_append, wavHeader_length]
  have hsr : rdLE32 (wavHeader n sr ++ body) 24 = (sr % 2 ^ 32).toNat := by
    have hb : (sr % 2 ^ 32).toNat < 2 ^ 32 := by omega
    have := le32_read _ hb
    simpa [wavHeader, le32, le16, rdLE32] using this
  have hds : rdLE32 (wavHeader n sr ++ body) 40 = (n * 2) % 2 ^ 32 := by
    have hb : (n * 2) % 2 ^ 32 < 2 ^ 32 := Nat.mod_lt _ (by norm_num)
    have := le32_read _ hb
    simpa [wavHeader, le32, le16, rdLE32] using this
  have hriff : (wavHeader n sr ++ body).take 4 = [82, 73, 70, 70] := by
    simp [wavHeader, le32, le16]
  have hwave : ((wavHeader n sr ++ body).drop 8).take 4 = [87, 65, 86, 69] := by
    simp [wavHeader, le32, le16]
  have hget : ∀ i, (wavHeader n sr ++ body).getD (44 + i) 0 = body.getD i 0 := by
    intro i
    rw [List.getD_append_right _ _ _ _ (by rw [wavHeader_length]; omega), wavHeader_length]
    have e : 44 + i - 44 = i := by omega
    rw [e]
  have c1 : ¬ (wavHeader n sr ++ body).length < 44 := by rw [hlen]; omega
  have c2 : ¬ ((wavHeader n sr ++ body).take 4 ≠ [82, 73, 70, 70]
      ∨ ((wavHeader n sr ++ body).drop 8).take 4 ≠ [87, 65, 86, 69]) := by
    rw [hriff, hwave]; simp
  have hmap : ∀ m, (List.range m).map
        (fun i => toInt16 (rdLE16 (wavHeader n sr ++ body) (44 + 2 * i)))
      = (List.range m).map
        (fun i => toInt16 (body.getD (2 * i) 0 + 256 * body.getD (2 * i + 1) 0)) := by
    intro m
    apply List.map_congr_left
    intro i _
    unfold rdLE16
    have e : 44 + 2 * i + 1 = 44 + (2 * i + 1) := by omega
    rw [e, hget, hget]
  have hsub : 44 + body.length - 44 = body.length := by omega
  unfold readWAV_samples
  rw [if_neg c1, if_neg c2]
  simp only [hsr, hds, hlen, hmap, hsub]

theorem readWAV_written (carrier : Nat → Int) (payload : List Nat) (sr : Int)
    (h : 32 + 8 * payload.length < 2 ^ 31) :
    readWAV_samples (writeWAV_LSBCarrier carrier payload sr)
      = some (wavSamples carrier payload, toInt32 (sr % 2 ^ 32).toNat) := by
  have hN : wavNumSamples payload = 32 + 8 * payload.length := by
    rw [wavNumSamples_eq, Nat.mod_eq_of_lt (by omega)]; ring
  unfold writeWAV_LSBCarrier
  simp only []
  rw [wavBody_eq, readWAV_header, hN, wavBody_length]
  have e1 : ((32 + 8 * payload.length) * 2) % 2 ^ 32 = (32 + 8 * payload.length) * 2 :=
    Nat.mod_eq_of_lt (by omega)
  rw [e1, if_neg (by omega)]
  have e2 : (32 + 8 * payload.length) * 2 / 2 = 32 + 8 * payload.length := by omega
  rw [e2]
  have hs := wavSamples_eq carrier payload (by omega)
  suffices hmap : (List.range (32 + 8 * payload.length)).map
        (fun i => toInt16
          (((List.range (32 + 8 * payload.length)).flatMap
              (fun i => le16 (toUInt16 ((wavSamples carrier payload).getD i 0)))).getD (2 * i) 0
            + 256 * ((List.range (32 + 8 * payload.length)).flatMap
              (fun i => le16 (toUInt16 ((wavSamples carrier payload).getD i 0)))).getD
                (2 * i + 1) 0))
      = wavSamples carrier payload by
    rw [hmap]
  rw [hs]
  apply List.map_congr_left
  intro i hi
  have hi2 : i < 32 + 8 * payload.length := List.mem_range.mp hi
  have hg0 := getD_flatMap_uniform
    (fun i => le16 (toUInt16 (((List.range (32 + 8 * payload.length)).map
      (fun k => finalSample (carrier k) (bufferBit (wavBuffer payload) k))).getD i 0)))
    2 (32 + 8 * payload.length) 0 (fun i _ => by simp [le16]) i 0 hi2 (by omega)
  have hg1 := getD_flatMap_uniform
    (fun i => le16 (toUInt16 (((List.range (32 + 8 * payload.length)).map
      (fun k => finalSample (carrier k) (bufferBit (wavBuffer payload) k))).getD i 0)))
    2 (32 + 8 * payload.length) 0 (fun i _ => by simp [le16]) i 1 hi2 (by omega)
  have e3 : 2 * i = i * 2 + 0 := by omega
  have e4 : 2 * i + 1 = i * 2 + 1 := by omega
  beta_reduce at hg0 hg1
  rw [e4, hg1, e3, hg0, getD_range_map _ _ _ _ hi2]
  have hu := toUInt16_lt (finalSample (carrier i) (bufferBit (wavBuffer payload) i))
  have hr := finalSample_range (carrier i) (bufferBit (wavBuffer payload) i)
  simp only [le16, List.getD_cons_zero, List.getD_cons_succ]
  rw [le16_read _ hu]
  exact castInt16_of_range _ hr.1 hr.2


/-! ## Lemmas on the raster codec -/

theorem toInt32_of_lt (n : Nat) (h : n < 2 ^ 31) : toInt32 n = (n : Int) := by
  unfold toInt32
  have h1 : n % 2 ^ 32 = n := Nat.mod_eq_of_lt (by omega)
  rw [h1, if_pos h]

theorem toSizeT_natCast (n : Nat) (h : n < 2 ^ 64) : toSizeT (n : Int) = n := by
  unfold toSizeT
  have : ((n : Int) % 2 ^ 64) = ((n % 2 ^ 64 : Nat) : Int) := by push_cast; rfl
  rw [this, Int.toNat_ofNat, Nat.mod_eq_of_lt h]

theorem bmpRow_length (w : Nat) (rgb : List Nat) (y : Nat) :
    (bmpRow w rgb y).length = ((w * 3 + 3) / 4) * 4 := by
  unfold bmpRow
  rw [List.length_append, length_flatMap_uniform _ 3 w (fun i _ => by simp),
    List.length_replicate]
  omega

theorem bmpRow_getD (w : Nat) (rgb : List Nat) (y x c : Nat) (hx : x < w) (hc : c < 3) :
    (bmpRow w rgb y).getD (x * 3 + c) 0 = rgb.getD ((y * w + x) * 3 + (2 - c)) 0 := by
  unfold bmpRow
  have hl : ((List.range w).flatMap
      (fun x => [rgb.getD ((y * w + x) * 3 + 2) 0, rgb.getD ((y * w + x) * 3 + 1) 0,
        rgb.getD ((y * w + x) * 3 + 0) 0])).length = w * 3 :=
    length_flatMap_uniform _ 3 w (fun i _ => by simp)
  rw [List.getD_append _ _ _ _ (by rw [hl]; omega),
    getD_flatMap_uniform _ 3 w 0 (fun i _ => by simp) x c hx hc]
  interval_cases c <;> rfl

theorem writeBMP24_eq (w h : Nat) (rgb : List Nat) :
    writeBMP24 w h rgb
      = bmpHeaders w h ++ (List.range h).flatMap (fun k => bmpRow w rgb (h - 1 - k)) := by
  unfold writeBMP24
  simp only []
  have hbody : ∀ k, k < h → ∀ out : List Nat,
      (if (List.replicate (((w * 3 + 3) / 4) * 4 - w * 3) 0).isEmpty
        then forLoop w
          (fun x out =>
            out ++ [rgb.getD (((h - 1 - k) * w + x) * 3 + 2) 0,
              rgb.getD (((h - 1 - k) * w + x) * 3 + 1) 0,
              rgb.getD (((h - 1 - k) * w + x) * 3 + 0) 0]) out
        else forLoop w
          (fun x out =>
            out ++ [rgb.getD (((h - 1 - k) * w + x) * 3 + 2) 0,
              rgb.getD (((h - 1 - k) * w + x) * 3 + 1) 0,
              rgb.getD (((h - 1 - k) * w + x) * 3 + 0) 0]) out
          ++ List.replicate (((w * 3 + 3) / 4) * 4 - w * 3) 0)
        = out ++ bmpRow w rgb (h - 1 - k) := by
    intro k _ out
    rw [forLoop_pushBlock]
    unfold bmpRow
    split
    · rename_i he
      have : List.replicate (((w * 3 + 3) / 4) * 4 - w * 3) 0 = [] := by
        simpa using he
      rw [this, List.append_nil]
    · rw [List.append_assoc]
  rw [forLoop_congr h _ (fun k out => out ++ bmpRow w rgb (h - 1 - k)) _ hbody,
    forLoop_pushBlock]

theorem bmpHeaders_length (w h : Nat) : (bmpHeaders w h).length = 54 := by
  simp [bmpHeaders, le32, le16]

theorem bmpHeaders_fields (w h : Nat) (rest : List Nat) (hw : w < 2 ^ 32) (hh : h < 2 ^ 32) :
    rdLE16 (bmpHeaders w h ++ rest) 0 = 0x4D42
      ∧ rdLE16 (bmpHeaders w h ++ rest) 28 = 24
      ∧ rdLE32 (bmpHeaders w h ++ rest) 18 = w
      ∧ rdLE32 (bmpHeaders w h ++ rest) 22 = h
      ∧ rdLE32 (bmpHeaders w h ++ rest) 10 = 54 := by
  have e1 := le32_read w hw
  have e2 := le32_read h hh
  refine ⟨?_, ?_, ?_, ?_, ?_⟩
  · simp [bmpHeaders, le32, le16, rdLE16]
  · simp [bmpHeaders, le32, le16, rdLE16]
  · simpa [bmpHeaders, le32, le16, rdLE32] using e1
  · simpa [bmpHeaders, le32, le16, rdLE32] using e2
  · simp [bmpHeaders, le32, le16, rdLE32]

theorem bmpFile_getD (w h : Nat) (rgb : List Nat) (y x c : Nat) (hy : y < h) (hx : x < w)
    (hc : c < 3) :
    (writeBMP24 w h rgb).getD (54 + (h - 1 - y) * (((w * 3 + 3) / 4) * 4) + x * 3 + c) 0
      = rgb.getD ((y * w + x) * 3 + (2 - c)) 0 := by
  rw [writeBMP24_eq, List.getD_append_right _ _ _ _ (by rw [bmpHeaders_length]; omega),
    bmpHeaders_length]
  have e : 54 + (h - 1 - y) * (((w * 3 + 3) / 4) * 4) + x * 3 + c - 54
      = (h - 1 - y) * (((w * 3 + 3) / 4) * 4) + (x * 3 + c) := by omega
  rw [e, getD_flatMap_uniform _ (((w * 3 + 3) / 4) * 4) h 0
    (fun i _ => bmpRow_length w rgb _) (h - 1 - y) (x * 3 + c) (by omega) (by omega)]
  have e2 : h - 1 - (h - 1 - y) = y := by omega
  rw [e2]
  exact bmpRow_getD w rgb y x c hx hc

theorem writeBMP24_length (w h : Nat) (rgb : List Nat) :
    (writeBMP24 w h rgb).length = 54 + h * (((w * 3 + 3) / 4) * 4) := by
  rw [writeBMP24_eq, List.length_append, bmpHeaders_length,
    length_flatMap_uniform _ (((w * 3 + 3) / 4) * 4) h (fun i _ => bmpRow_length w rgb _)]

theorem tdiv_rowBytes (w : Nat) (hw : w ≤ 4096) :
    toSizeT (Int.tdiv ((w : Int) * 3 + 3) 4 * 4) = ((w * 3 + 3) / 4) * 4 := by
  have e : ((w : Int) * 3 + 3) = ((w * 3 + 3 : Nat) : Int) := by push_cast; ring
  have e4 : (4 : Int) = ((4 : Nat) : Int) := rfl
  rw [e]
  have e2 : Int.tdiv ((w * 3 + 3 : Nat) : Int) 4 = (((w * 3 + 3) / 4 : Nat) : Int) := by
    rw [e4]; rfl
  rw [e2]
  have e3 : ((((w * 3 + 3) / 4 : Nat) : Int) * 4) = ((((w * 3 + 3) / 4) * 4 : Nat) : Int) := by
    push_cast; ring
  rw [e3]
  exact toSizeT_natCast _ (by omega)

theorem bmpReadPixel_written (W H : Nat) (rgb out : List Nat) (y x : Nat)
    (hW : W ≤ 4096) (hH : H ≤ 4096) (hy : y < H) (hx : x < W) :
    bmpReadPixel (writeBMP24 W H rgb) 54 (((W * 3 + 3) / 4) * 4) (W : Int) (H : Int) y x out
      = some (((out.set ((y * W + x) * 3) (rgb.getD ((y * W + x) * 3) 0)).set
          ((y * W + x) * 3 + 1) (rgb.getD ((y * W + x) * 3 + 1) 0)).set
          ((y * W + x) * 3 + 2) (rgb.getD ((y * W + x) * 3 + 2) 0)) := by
  have hRB : ((W * 3 + 3) / 4) * 4 ≤ 12288 := by omega
  have hRB2 : W * 3 ≤ ((W * 3 + 3) / 4) * 4 := by omega
  generalize hrb : ((W * 3 + 3) / 4) * 4 = RB at hRB hRB2
  have hrow : (H - 1 - y) * RB ≤ 4096 * 12288 := Nat.mul_le_mul (by omega) hRB
  have hrow2 : (H - 1 - y) * RB + RB ≤ H * RB := by
    have : (H - 1 - y + 1) * RB ≤ H * RB := Nat.mul_le_mul_right RB (by omega)
    rw [Nat.add_mul, Nat.one_mul] at this
    exact this
  have hq : y * W + x < 4096 * 4096 := by
    have : y * W ≤ 4095 * 4096 := Nat.mul_le_mul (by omega) hW
    omega
  have hlen : (writeBMP24 W H rgb).length = 54 + H * RB := by
    rw [writeBMP24_length, hrb]
  have t1 : toSizeT ((H : Int) - 1 - (y : Int)) = H - 1 - y := by
    have : ((H : Int) - 1 - (y : Int)) = ((H - 1 - y : Nat) : Int) := by omega
    rw [this]; exact toSizeT_natCast _ (by omega)
  have t2 : toSizeT ((x : Int) * 3) = x * 3 := by
    have : ((x : Int) * 3) = ((x * 3 : Nat) : Int) := by push_cast; ring
    rw [this]; exact toSizeT_natCast _ (by omega)
  have t3 : toSizeT (W : Int) = W := toSizeT_natCast _ (by omega)
  have g0 := bmpFile_getD W H rgb y x 0 hy hx (by omega)
  have g1 := bmpFile_getD W H rgb y x 1 hy hx (by omega)
  have g2 := bmpFile_getD W H rgb y x 2 hy hx (by omega)
  rw [hrb] at g0 g1 g2
  simp only [Nat.sub_zero, Nat.sub_self, Nat.add_zero, Nat.add_one_sub_one] at g0 g1 g2
  unfold bmpReadPixel
  simp only [t1, t2, t3]
  have m1 : (54 + (H - 1 - y) * RB) % 2 ^ 64 = 54 + (H - 1 - y) * RB :=
    Nat.mod_eq_of_lt (by omega)
  have m2 : (54 + (H - 1 - y) * RB + x * 3) % 2 ^ 64 = 54 + (H - 1 - y) * RB + x * 3 :=
    Nat.mod_eq_of_lt (by omega)
  have m3 : (54 + (H - 1 - y) * RB + x * 3 + 2) % 2 ^ 64 = 54 + (H - 1 - y) * RB + x * 3 + 2 :=
    Nat.mod_eq_of_lt (by omega)
  have m4 : ((y * W + x) * 3) % 2 ^ 64 = (y * W + x) * 3 := Nat.mod_eq_of_lt (by omega)
  rw [m1, m2, m3, m4, if_neg (by rw [hlen]; omega)]
  simp only [Nat.add_zero]
  rw [g0, g1, g2]

theorem readBMP24_written (W H : Nat) (rgb : List Nat) (hW1 : 1 ≤ W) (hW : W ≤ 4096)
    (hH1 : 1 ≤ H) (hH : H ≤ 4096) (hrgb : rgb.length = W * H * 3) :
    readBMP24_pixels (writeBMP24 W H rgb) = some ((W : Int), (H : Int), rgb) := by
  have hRB : ((W * 3 + 3) / 4) * 4 ≤ 12288 := by omega
  have hsize : H * (((W * 3 + 3) / 4) * 4) ≤ 4096 * 12288 := Nat.mul_le_mul hH hRB
  have hpx : W * H ≤ 4096 * 4096 := Nat.mul_le_mul hW hH
  have hlen := writeBMP24_length W H rgb
  obtain ⟨f1, f2, f3, f4, f5⟩ := bmpHeaders_fields W H
    ((List.range H).flatMap (fun k => bmpRow W rgb (H - 1 - k))) (by omega) (by omega)
  rw [← writeBMP24_eq] at f1 f2 f3 f4 f5
  have tW : toSizeT (W : Int) = W := toSizeT_natCast _ (by omega)
  have tH : toSizeT (H : Int) = H := toSizeT_natCast _ (by omega)
  unfold readBMP24_pixels
  rw [if_neg (by rw [hlen]; omega), if_neg (by rw [f1]; simp), if_neg (by rw [f2]; simp)]
  simp only [f3, f4, f5, toInt32_of_lt W (by omega), toInt32_of_lt H (by omega),
    tdiv_rowBytes W hW, tW, tH, Int.toNat_ofNat]
  have e1 : (54 + ((W * 3 + 3) / 4) * 4 * H) % 2 ^ 64 = 54 + ((W * 3 + 3) / 4) * 4 * H := by
    apply Nat.mod_eq_of_lt
    rw [Nat.mul_comm _ H]; omega
  have e2 : (W * H * 3) % 2 ^ 64 = W * H * 3 := Nat.mod_eq_of_lt (by omega)
  rw [e1, e2, if_neg (by rw [hlen, Nat.mul_comm _ H]; omega)]
  have hinner : ∀ y, y < H → ∀ out : List Nat,
      forLoopM W
        (fun x outRGB =>
          bmpReadPixel (writeBMP24 W H rgb) 54 (((W * 3 + 3) / 4) * 4) (W : Int) (H : Int) y x
            outRGB) out
      = some (forLoop W
          (fun x out =>
            ((out.set ((y * W + x) * 3) (rgb.getD ((y * W + x) * 3) 0)).set
              ((y * W + x) * 3 + 1) (rgb.getD ((y * W + x) * 3 + 1) 0)).set
              ((y * W + x) * 3 + 2) (rgb.getD ((y * W + x) * 3 + 2) 0)) out) := by
    intro y hy out
    apply forLoopM_eq_some
    intro x hx t
    exact bmpReadPixel_written W H rgb t y x hW hH hy hx
  rw [forLoopM_eq_some H _ _ _ hinner]
  have hn := forLoop_nested H W
    (fun q out =>
      ((out.set (q * 3) (rgb.getD (q * 3) 0)).set (q * 3 + 1) (rgb.getD (q * 3 + 1) 0)).set
        (q * 3 + 2) (rgb.getD (q * 3 + 2) 0))
    (List.replicate (W * H * 3) 0)
  beta_reduce at hn
  rw [hn]
  rw [forLoop_fill3 rgb _ (H * W) (by rw [hrgb, Nat.mul_comm H W])
    (by rw [List.length_replicate, Nat.mul_comm H W])]
  rfl


/-! ## Lemmas on the compressed-image writer -/

theorem testBit_255 (j : Nat) : Nat.testBit 0xFF j = decide (j < 8) := by
  have e : (0xFF : Nat) = 2 ^ 8 - 1 := by norm_num
  rw [e, Nat.testBit_two_pow_sub_one]

theorem be32_or (v : Nat) (hv : v < 2 ^ 32) :
    ((((v >>> 24) &&& 0xFF) <<< 24) ||| (((v >>> 16) &&& 0xFF) <<< 16)
      ||| (((v >>> 8) &&& 0xFF) <<< 8) ||| (v &&& 0xFF)) = v := by
  apply Nat.eq_of_testBit_eq
  intro i
  simp only [Nat.testBit_lor, Nat.testBit_shiftLeft, Nat.testBit_and, Nat.testBit_shiftRight,
    testBit_255]
  by_cases h8 : i < 8
  · have a1 : ¬ i ≥ 24 := by omega
    have a2 : ¬ i ≥ 16 := by omega
    have a3 : ¬ i ≥ 8 := by omega
    simp [a1, a2, a3, h8]
  · by_cases h16 : i < 16
    · have a1 : ¬ i ≥ 24 := by omega
      have a2 : ¬ i ≥ 16 := by omega
      have a3 : i ≥ 8 := by omega
      have a4 : i - 8 < 8 := by omega
      have a5 : 8 + (i - 8) = i := by omega
      simp [a1, a2, a3, a4, a5, h8]
    · by_cases h24 : i < 24
      · have a1 : ¬ i ≥ 24 := by omega
        have a2 : i ≥ 16 := by omega
        have a4 : i - 16 < 8 := by omega
        have a5 : 16 + (i - 16) = i := by omega
        have a6 : ¬ i - 8 < 8 := by omega
        simp [a1, a2, a4, a5, a6, h8]
      · by_cases h32 : i < 32
        · have a1 : i ≥ 24 := by omega
          have a4 : i - 24 < 8 := by omega
          have a5 : 24 + (i - 24) = i := by omega
          have a6 : ¬ i - 8 < 8 := by omega
          have a7 : ¬ i - 16 < 8 := by omega
          simp [a1, a4, a5, a6, a7, h8]
        · have a4 : ¬ i - 24 < 8 := by omega
          have a6 : ¬ i - 8 < 8 := by omega
          have a7 : ¬ i - 16 < 8 := by omega
          have hz : v.testBit i = false := by
            apply Nat.testBit_lt_two_pow
            calc v < 2 ^ 32 := hv
              _ ≤ 2 ^ i := Nat.pow_le_pow_right (by omega) (by omega)
          simp [a4, a6, a7, h8, hz]

theorem le16_or (v : Nat) (hv : v < 2 ^ 16) :
    ((v &&& 0xFF) ||| (((v >>> 8) &&& 0xFF) <<< 8)) = v := by
  apply Nat.eq_of_testBit_eq
  intro i
  simp only [Nat.testBit_lor, Nat.testBit_shiftLeft, Nat.testBit_and, Nat.testBit_shiftRight,
    testBit_255]
  by_cases h8 : i < 8
  · have a3 : ¬ i ≥ 8 := by omega
    simp [a3, h8]
  · by_cases h16 : i < 16
    · have a3 : i ≥ 8 := by omega
      have a4 : i - 8 < 8 := by omega
      have a5 : 8 + (i - 8) = i := by omega
      simp [a3, a4, a5, h8]
    · have a6 : ¬ i - 8 < 8 := by omega
      have hz : v.testBit i = false := by
        apply Nat.testBit_lt_two_pow
        calc v < 2 ^ 16 := hv
          _ ≤ 2 ^ i := Nat.pow_le_pow_right (by omega) (by omega)
      simp [a6, h8, hz]

theorem write_be32_eq (out : List Nat) (v : Nat) :
    write_be32 out v
      = out ++ [((v % 2 ^ 32) >>> 24) &&& 0xFF, ((v % 2 ^ 32) >>> 16) &&& 0xFF,
          ((v % 2 ^ 32) >>> 8) &&& 0xFF, (v % 2 ^ 32) &&& 0xFF] := rfl

theorem write_be32_length (out : List Nat) (v : Nat) :
    (write_be32 out v).length = out.length + 4 := by
  rw [write_be32_eq, List.length_append]; rfl

theorem rdBE32_written (pre rest : List Nat) (v : Nat) :
    rdBE32 (write_be32 pre v ++ rest) pre.length = v % 2 ^ 32 := by
  have hv : v % 2 ^ 32 < 2 ^ 32 := Nat.mod_lt _ (by norm_num)
  unfold rdBE32
  rw [write_be32_eq, List.append_assoc]
  have g : ∀ i, (pre ++ ([((v % 2 ^ 32) >>> 24) &&& 0xFF, ((v % 2 ^ 32) >>> 16) &&& 0xFF,
      ((v % 2 ^ 32) >>> 8) &&& 0xFF, (v % 2 ^ 32) &&& 0xFF] ++ rest)).getD (pre.length + i) 0
      = ([((v % 2 ^ 32) >>> 24) &&& 0xFF, ((v % 2 ^ 32) >>> 16) &&& 0xFF,
      ((v % 2 ^ 32) >>> 8) &&& 0xFF, (v % 2 ^ 32) &&& 0xFF] ++ rest).getD i 0 := by
    intro i
    rw [List.getD_append_right _ _ _ _ (by omega)]
    congr 1
    omega
  have g0 := g 0
  rw [Nat.add_zero] at g0
  rw [g0, g 1, g 2, g 3]
  simp only [List.cons_append, List.getD_cons_zero, List.getD_cons_succ]
  rw [be32_or _ hv]
  exact Nat.mod_eq_of_lt hv

theorem getD_take_drop (l : List Nat) (a n j : Nat) (hj : j < n) :
    ((l.drop a).take n).getD j 0 = l.getD (a + j) 0 := by
  simp [List.getD_eq_getElem?_getD, List.getElem?_take, hj, List.getElem?_drop]

theorem length_take_drop (l : List Nat) (a n : Nat) (h : a + n ≤ l.length) :
    ((l.drop a).take n).length = n := by
  rw [List.length_take, List.length_drop]
  omega

theorem pngRaw_eq (w h : Nat) (rgb : List Nat) :
    pngRaw w h rgb = (List.range h).flatMap (pngScanline w rgb) := by
  unfold pngRaw
  have hbody : (fun (y : Nat) (raw : List Nat) =>
        raw ++ [0] ++ (rgb.drop (y * w * 3)).take (w * 3))
      = (fun y raw => raw ++ pngScanline w rgb y) := by
    funext y raw
    unfold pngScanline
    rw [List.append_assoc]
  show forLoop h (fun (y : Nat) (raw : List Nat) =>
        raw ++ [0] ++ (rgb.drop (y * w * 3)).take (w * 3)) [] = _
  rw [hbody, forLoop_pushBlock]
  simp

theorem pngScanline_length (w h : Nat) (rgb : List Nat) (y : Nat) (hy : y < h)
    (hrgb : rgb.length = w * h * 3) : (pngScanline w rgb y).length = w * 3 + 1 := by
  unfold pngScanline
  have hb : y * w * 3 + w * 3 ≤ rgb.length := by
    rw [hrgb]
    have : (y + 1) * w ≤ h * w := Nat.mul_le_mul_right w (by omega)
    rw [Nat.add_mul, Nat.one_mul] at this
    rw [Nat.mul_comm w h]
    omega
  rw [List.length_append, length_take_drop _ _ _ hb]
  simp; omega

theorem pngRaw_length (w h : Nat) (rgb : List Nat) (hrgb : rgb.length = w * h * 3) :
    (pngRaw w h rgb).length = h * (w * 3 + 1) := by
  rw [pngRaw_eq]
  exact length_flatMap_uniform _ (w * 3 + 1) h
    (fun y hy => pngScanline_length w h rgb y hy hrgb)

theorem pngRaw_filter (w h : Nat) (rgb : List Nat) (hrgb : rgb.length = w * h * 3) (y : Nat)
    (hy : y < h) : (pngRaw w h rgb).getD (y * (w * 3 + 1)) 0 = 0 := by
  rw [pngRaw_eq]
  have := getD_flatMap_uniform (pngScanline w rgb) (w * 3 + 1) h 0
    (fun y hy => pngScanline_length w h rgb y hy hrgb) y 0 hy (by omega)
  rw [Nat.add_zero] at this
  rw [this]
  rfl

theorem pngRaw_pixel (w h : Nat) (rgb : List Nat) (hrgb : rgb.length = w * h * 3) (y j : Nat)
    (hy : y < h) (hj : j < w * 3) :
    (pngRaw w h rgb).getD (y * (w * 3 + 1) + 1 + j) 0 = rgb.getD (y * w * 3 + j) 0 := by
  rw [pngRaw_eq]
  have := getD_flatMap_uniform (pngScanline w rgb) (w * 3 + 1) h 0
    (fun y hy => pngScanline_length w h rgb y hy hrgb) y (1 + j) hy (by omega)
  rw [Nat.add_assoc, this]
  unfold pngScanline
  rw [List.getD_append_right _ _ _ _ (by simp)]
  have e : 1 + j - [0].length = j := by simp
  rw [e]
  exact getD_take_drop rgb _ _ j hj

theorem storedBlocks_step (raw : List Nat) (fuel remaining rp : Nat) (idat : List Nat)
    (h : 0 < remaining) :
    storedBlocks raw (fuel + 1) remaining rp idat
      = storedBlocks raw fuel (remaining - (if remaining < 65535 then remaining else 65535))
          (rp + (if remaining < 65535 then remaining else 65535))
          (idat ++ storedBlock raw remaining rp) := by
  conv_lhs => unfold storedBlocks
  rw [if_pos h]
  unfold storedBlock
  simp only [List.append_assoc, List.singleton_append, List.cons_append, List.nil_append]

theorem storedBlocks_append (raw : List Nat) (fuel : Nat) :
    ∀ (remaining rp : Nat) (idat : List Nat),
      storedBlocks raw fuel remaining rp idat = idat ++ storedBlocks raw fuel remaining rp [] := by
  induction fuel with
  | zero => intro remaining rp idat; simp [storedBlocks]
  | succ k ih =>
    intro remaining rp idat
    by_cases h : 0 < remaining
    · rw [storedBlocks_step _ _ _ _ _ h, storedBlocks_step _ _ _ _ _ h, ih _ _ (idat ++ _),
        ih _ _ ([] ++ _), List.nil_append, List.append_assoc]
    · simp [storedBlocks, h]

theorem storedBlock_length (raw : List Nat) (remaining rp : Nat)
    (h : rp + remaining ≤ raw.length) :
    (storedBlock raw remaining rp).length
      = 5 + (if remaining < 65535 then remaining else 65535) := by
  unfold storedBlock
  simp only [List.length_append, List.length_cons, List.length_nil]
  rw [length_take_drop _ _ _ (by split <;> omega)]

theorem take_drop_split (l : List Nat) (rp a b : Nat) :
    (l.drop rp).take a ++ (l.drop (rp + a)).take b = (l.drop rp).take (a + b) := by
  rw [List.take_add, List.drop_drop]

theorem blockLoop_step (raw pre post acc : List Nat) (fuel remaining rp : Nat)
    (h0 : 0 < remaining) (h : rp + remaining ≤ raw.length) :
    blockLoop (pre ++ storedBlock raw remaining rp ++ post) (fuel + 1) pre.length acc
      = if remaining ≤ 65535 then some (acc ++ (raw.drop rp).take remaining)
        else blockLoop (pre ++ storedBlock raw remaining rp ++ post) fuel
          (pre.length + 5 + 65535) (acc ++ (raw.drop rp).take 65535) := by
  have hlen := storedBlock_length raw remaining rp h
  generalize hchunk : (if remaining < 65535 then remaining else 65535) = chunk at hlen
  have hc1 : chunk ≤ 65535 := by rw [← hchunk]; split <;> omega
  have hc2 : chunk ≤ remaining := by rw [← hchunk]; split <;> omega
  have hc3 : 0 < chunk := by rw [← hchunk]; split <;> omega
  have hmod : chunk % 2 ^ 16 = chunk := Nat.mod_eq_of_lt (by omega)
  have hx : chunk ^^^ 0xFFFF < 2 ^ 16 := Nat.xor_lt_two_pow (by omega) (by norm_num)
  have hsb : storedBlock raw remaining rp
      = [if remaining ≤ 65535 then 1 else 0, chunk &&& 0xFF, (chunk >>> 8) &&& 0xFF,
          (chunk ^^^ 0xFFFF) &&& 0xFF, ((chunk ^^^ 0xFFFF) >>> 8) &&& 0xFF]
        ++ (raw.drop rp).take chunk := by
    unfold storedBlock
    simp only [hchunk, hmod]
  have hdata : ((raw.drop rp).take chunk).length = chunk :=
    length_take_drop _ _ _ (by omega)
  have hfile : (pre ++ storedBlock raw remaining rp ++ post).length
      = pre.length + (5 + chunk) + post.length := by
    rw [List.length_append, List.length_append, hlen]
  have g : ∀ i, i < 5 → (pre ++ storedBlock raw remaining rp ++ post).getD (pre.length + i) 0
      = [if remaining ≤ 65535 then 1 else 0, chunk &&& 0xFF, (chunk >>> 8) &&& 0xFF,
          (chunk ^^^ 0xFFFF) &&& 0xFF, ((chunk ^^^ 0xFFFF) >>> 8) &&& 0xFF].getD i 0 := by
    intro i hi
    rw [List.append_assoc, List.getD_append_right _ _ _ _ (by omega)]
    have e : pre.length + i - pre.length = i := by omega
    rw [e, hsb, List.append_assoc, List.getD_append _ _ _ _ (by simpa using hi)]
  have g0 := g 0 (by omega)
  have g1 := g 1 (by omega)
  have g2 := g 2 (by omega)
  have g3 := g 3 (by omega)
  have g4 := g 4 (by omega)
  simp only [Nat.add_zero, List.getD_cons_zero, List.getD_cons_succ] at g0 g1 g2 g3 g4
  have hdrop : ((pre ++ storedBlock raw remaining rp ++ post).drop (pre.length + 1 + 4)).take chunk
      = (raw.drop rp).take chunk := by
    have e : pre ++ storedBlock raw remaining rp ++ post
        = (pre ++ [if remaining ≤ 65535 then 1 else 0, chunk &&& 0xFF, (chunk >>> 8) &&& 0xFF,
            (chunk ^^^ 0xFFFF) &&& 0xFF, ((chunk ^^^ 0xFFFF) >>> 8) &&& 0xFF])
          ++ ((raw.drop rp).take chunk ++ post) := by
      rw [hsb]; simp only [List.append_assoc]
    rw [e, List.drop_left' (by simp), List.take_left' hdata]
  conv_lhs => unfold blockLoop
  rw [if_pos (by rw [hfile]; omega)]
  simp only [g0]
  have hb : ((if remaining ≤ 65535 then 1 else 0) >>> 1) &&& 3 = 0 := by
    split <;> decide
  rw [hb]
  simp only [ne_eq, not_true_eq_false, if_false]
  rw [if_neg (by rw [hfile]; omega)]
  have e1 : pre.length + 1 + 1 = pre.length + 2 := by omega
  have e2 : pre.length + 1 + 2 = pre.length + 3 := by omega
  have e3 : pre.length + 1 + 3 = pre.length + 4 := by omega
  rw [e1, e2, e3, g1, g2, g3, g4, le16_or chunk (by omega), le16_or _ hx, hmod,
    Nat.mod_eq_of_lt hx]
  simp only [not_true_eq_false, if_false]
  rw [if_neg (by rw [hfile]; omega), hdrop]
  by_cases hr : remaining ≤ 65535
  · have hcr : chunk = remaining := by rw [← hchunk]; split <;> omega
    rw [if_pos hr, if_pos hr, hcr]
    simp
  · have hcr : chunk = 65535 := by rw [← hchunk]; split <;> omega
    rw [if_neg hr, if_neg hr, hcr]
    simp

theorem storedBlocks_unfold (raw : List Nat) (fuel remaining rp : Nat) (h : 0 < remaining) :
    storedBlocks raw (fuel + 1) remaining rp []
      = storedBlock raw remaining rp
        ++ storedBlocks raw fuel (remaining - (if remaining < 65535 then remaining else 65535))
            (rp + (if remaining < 65535 then remaining else 65535)) [] := by
  rw [storedBlocks_step _ _ _ _ _ h, storedBlocks_append, List.nil_append]

theorem storedBlocks_length_ge (raw : List Nat) (fuel : Nat) :
    ∀ (remaining rp : Nat), remaining ≤ fuel → rp + remaining ≤ raw.length →
      remaining ≤ (storedBlocks raw fuel remaining rp []).length := by
  induction fuel with
  | zero => intro remaining rp h _; omega
  | succ k ih =>
    intro remaining rp h1 h2
    by_cases h : 0 < remaining
    · rw [storedBlocks_unfold _ _ _ _ h, List.length_append, storedBlock_length _ _ _ h2]
      have := ih (remaining - (if remaining < 65535 then remaining else 65535))
        (rp + (if remaining < 65535 then remaining else 65535))
        (by split <;> omega) (by split <;> omega)
      revert this
      split <;> intro this <;> omega
    · omega

theorem blockLoop_storedBlocks (raw : List Nat) (fuel : Nat) :
    ∀ (remaining rp fuel2 : Nat) (pre post acc : List Nat),
      0 < remaining → remaining ≤ fuel → remaining ≤ fuel2 → rp + remaining ≤ raw.length →
      blockLoop (pre ++ storedBlocks raw fuel remaining rp [] ++ post) fuel2 pre.length acc
        = some (acc ++ (raw.drop rp).take remaining) := by
  induction fuel with
  | zero => intro remaining rp fuel2 pre post acc h0 h1; omega
  | succ k ih =>
    intro remaining rp fuel2 pre post acc h0 h1 h2 h3
    obtain ⟨f2, rfl⟩ : ∃ f2, fuel2 = f2 + 1 := ⟨fuel2 - 1, by omega⟩
    rw [storedBlocks_unfold _ _ _ _ h0]
    have hassoc : pre ++ (storedBlock raw remaining rp
          ++ storedBlocks raw k (remaining - (if remaining < 65535 then remaining else 65535))
            (rp + (if remaining < 65535 then remaining else 65535)) []) ++ post
        = pre ++ storedBlock raw remaining rp
          ++ (storedBlocks raw k (remaining - (if remaining < 65535 then remaining else 65535))
            (rp + (if remaining < 65535 then remaining else 65535)) [] ++ post) := by
      simp only [List.append_assoc]
    rw [hassoc, blockLoop_step raw pre _ acc f2 remaining rp h0 h3]
    by_cases hr : remaining ≤ 65535
    · rw [if_pos hr]
    · rw [if_neg hr]
      have hlt : ¬ remaining < 65535 := by omega
      simp only [hlt, if_false]
      have hsl := storedBlock_length raw remaining rp h3
      rw [if_neg hlt] at hsl
      have hl : (pre ++ storedBlock raw remaining rp).length = pre.length + 5 + 65535 := by
        rw [List.length_append]
        omega
      have hassoc2 : pre ++ storedBlock raw remaining rp
            ++ (storedBlocks raw k (remaining - 65535) (rp + 65535) [] ++ post)
          = (pre ++ storedBlock raw remaining rp)
            ++ storedBlocks raw k (remaining - 65535) (rp + 65535) [] ++ post := by
        simp only [List.append_assoc]
      rw [hassoc2, ← hl,
        ih (remaining - 65535) (rp + 65535) f2 (pre ++ storedBlock raw remaining rp) post
          (acc ++ (raw.drop rp).take 65535) (by omega) (by omega) (by omega) (by omega),
        List.append_assoc, take_drop_split]
      have e : 65535 + (remaining - 65535) = remaining := by omega
      rw [e]

theorem pngIdat_eq (w h : Nat) (rgb : List Nat) :
    pngIdat w h rgb
      = [0x78, 0x01]
        ++ storedBlocks (pngRaw w h rgb) (pngRaw w h rgb).length (pngRaw w h rgb).length 0 []
        ++ [(adler32 (pngRaw w h rgb) >>> 24) &&& 0xFF, (adler32 (pngRaw w h rgb) >>> 16) &&& 0xFF,
            (adler32 (pngRaw w h rgb) >>> 8) &&& 0xFF, adler32 (pngRaw w h rgb) &&& 0xFF] := by
  unfold pngIdat
  simp only []
  rw [storedBlocks_append]

theorem pngIdat_length_ge (w h : Nat) (rgb : List Nat) :
    (pngRaw w h rgb).length + 6 ≤ (pngIdat w h rgb).length := by
  rw [pngIdat_eq]
  have := storedBlocks_length_ge (pngRaw w h rgb) (pngRaw w h rgb).length
    (pngRaw w h rgb).length 0 (Nat.le_refl _) (by omega)
  simp only [List.length_append, List.length_cons, List.length_nil]
  omega

theorem blockLoop_pngIdat (w h : Nat) (rgb : List Nat) (hne : 0 < (pngRaw w h rgb).length) :
    blockLoop (pngIdat w h rgb) (pngIdat w h rgb).length 2 [] = some (pngRaw w h rgb) := by
  have hl := pngIdat_length_ge w h rgb
  have key := blockLoop_storedBlocks (pngRaw w h rgb) (pngRaw w h rgb).length
    (pngRaw w h rgb).length 0 (pngIdat w h rgb).length [0x78, 0x01]
    [(adler32 (pngRaw w h rgb) >>> 24) &&& 0xFF, (adler32 (pngRaw w h rgb) >>> 16) &&& 0xFF,
      (adler32 (pngRaw w h rgb) >>> 8) &&& 0xFF, adler32 (pngRaw w h rgb) &&& 0xFF] []
    hne (Nat.le_refl _) (by omega) (by omega)
  rw [← pngIdat_eq] at key
  rw [show (2 : Nat) = [0x78, 0x01].length from rfl, key]
  simp


/-! ## Lemmas on the compressed-image reader -/

theorem write_be32_append (out : List Nat) (v : Nat) :
    write_be32 out v = out ++ write_be32 [] v := by
  rw [write_be32_eq, write_be32_eq, List.nil_append]

theorem pngChunk_eq (type data : List Nat) :
    pngChunk type data
      = write_be32 [] data.length ++ type ++ data
        ++ write_be32 [] (crc32_for_bytes (type ++ data)) := by
  unfold pngChunk
  rw [write_be32_append]

theorem appendChunk_eq (png type data : List Nat) (ht : type.length = 4) :
    appendChunk png type data = png ++ pngChunk type data := by
  unfold appendChunk
  simp only []
  have e : ((write_be32 png data.length ++ type ++ data).drop
      (write_be32 png data.length).length).take (4 + data.length) = type ++ data := by
    rw [List.append_assoc, List.drop_left]
    exact List.take_of_length_le (by rw [List.length_append, ht])
  rw [e, pngChunk_eq, write_be32_append (write_be32 png data.length ++ type ++ data),
    write_be32_append png]
  simp only [List.append_assoc]

theorem writePNG_raw_eq (w h : Nat) (rgb : List Nat) :
    writePNG_raw w h rgb
      = [137, 80, 78, 71, 13, 10, 26, 10]
        ++ pngChunk [73, 72, 68, 82] (write_be32 (write_be32 [] w) h ++ [8, 2, 0, 0, 0])
        ++ pngChunk [73, 68, 65, 84] (pngIdat w h rgb)
        ++ pngChunk [73, 69, 78, 68] [] := by
  unfold writePNG_raw
  simp only []
  rw [appendChunk_eq _ [73, 72, 68, 82] _ rfl, appendChunk_eq _ [73, 68, 65, 84] _ rfl,
    appendChunk_eq _ [73, 69, 78, 68] _ rfl]

theorem pngChunk_length (type data : List Nat) (ht : type.length = 4) :
    (pngChunk type data).length = 12 + data.length := by
  rw [pngChunk_eq]
  simp only [List.length_append, write_be32_length, List.length_nil, ht]
  omega

/-- What the chunk loop sees at the start of a chunk that lies at offset
`pre.length` of the file. -/
theorem chunk_facts (pre type data rest : List Nat) (ht : type.length = 4) :
    rdBE32 (pre ++ pngChunk type data ++ rest) pre.length = data.length % 2 ^ 32
      ∧ (pre ++ pngChunk type data ++ rest).length
          = pre.length + 12 + data.length + rest.length
      ∧ ((pre ++ pngChunk type data ++ rest).drop (pre.length + 4)).take 4 = type
      ∧ ((pre ++ pngChunk type data ++ rest).drop (pre.length + 4 + 4)).take data.length
          = data := by
  have hfile : pre ++ pngChunk type data ++ rest
      = write_be32 pre data.length
        ++ (type ++ (data ++ (write_be32 [] (crc32_for_bytes (type ++ data)) ++ rest))) := by
    rw [pngChunk_eq, write_be32_append pre]
    simp only [List.append_assoc]
  refine ⟨?_, ?_, ?_, ?_⟩
  · rw [hfile, rdBE32_written]
  · rw [List.length_append, List.length_append, pngChunk_length _ _ ht]
    omega
  · rw [hfile, List.drop_left' (by rw [write_be32_length]), List.take_left' ht]
  · have hfile2 : pre ++ pngChunk type data ++ rest
        = (write_be32 pre data.length ++ type)
          ++ (data ++ (write_be32 [] (crc32_for_bytes (type ++ data)) ++ rest)) := by
      rw [hfile]; simp only [List.append_assoc]
    rw [hfile2, List.drop_left' (by rw [List.length_append, write_be32_length, ht]),
      List.take_left' rfl]

theorem chunkLoop_IHDR (file : List Nat) (fuel len : Nat) (st : ChunkState)
    (hlen : rdBE32 file st.p = len) (hfit : st.p + 12 + len ≤ file.length) (h13 : 13 ≤ len)
    (htype : (file.drop (st.p + 4)).take 4 = [73, 72, 68, 82]) :
    chunkLoop file (fuel + 1) st
      = chunkLoop file fuel
          { p := st.p + 4 + 4 + len + 4, W := toInt32 (rdBE32 file (st.p + 4 + 4)),
            H := toInt32 (rdBE32 file (st.p + 4 + 4 + 4)), idat_concat := st.idat_concat } := by
  conv_lhs => unfold chunkLoop
  rw [if_pos (by omega)]
  simp only [hlen, htype]
  rw [if_neg (by omega : ¬ st.p + 4 + 4 + len + 4 > file.length)]
  simp [show ¬ len < 13 by omega]

theorem chunkLoop_IDAT (file : List Nat) (fuel len : Nat) (st : ChunkState)
    (hlen : rdBE32 file st.p = len) (hfit : st.p + 12 + len ≤ file.length)
    (htype : (file.drop (st.p + 4)).take 4 = [73, 68, 65, 84]) :
    chunkLoop file (fuel + 1) st
      = chunkLoop file fuel
          { p := st.p + 4 + 4 + len + 4, W := st.W, H := st.H,
            idat_concat := st.idat_concat ++ (file.drop (st.p + 4 + 4)).take len } := by
  conv_lhs => unfold chunkLoop
  rw [if_pos (by omega)]
  simp only [hlen, htype]
  rw [if_neg (by omega : ¬ st.p + 4 + 4 + len + 4 > file.length)]
  simp

theorem chunkLoop_IEND (file : List Nat) (fuel len : Nat) (st : ChunkState)
    (hlen : rdBE32 file st.p = len) (hfit : st.p + 12 + len ≤ file.length)
    (htype : (file.drop (st.p + 4)).take 4 = [73, 69, 78, 68]) :
    chunkLoop file (fuel + 1) st = some { st with p := st.p + 4 + 4 } := by
  conv_lhs => unfold chunkLoop
  rw [if_pos (by omega)]
  simp only [hlen, htype]
  rw [if_neg (by omega : ¬ st.p + 4 + 4 + len + 4 > file.length)]
  simp

theorem rdBE32_of_take_drop (file data : List Nat) (p n off : Nat)
    (hdata : (file.drop p).take n = data) (hoff : off + 4 ≤ n) :
    rdBE32 file (p + off) = rdBE32 data off := by
  have g : ∀ i, i < n → data.getD i 0 = file.getD (p + i) 0 := by
    intro i hi
    rw [← hdata]
    exact getD_take_drop file p n i hi
  unfold rdBE32
  rw [g off (by omega), g (off + 1) (by omega), g (off + 2) (by omega), g (off + 3) (by omega)]
  simp only [Nat.add_assoc]

theorem ihdr_fields (w h : Nat) :
    rdBE32 (write_be32 (write_be32 [] w) h ++ [8, 2, 0, 0, 0]) 0 = w % 2 ^ 32
      ∧ rdBE32 (write_be32 (write_be32 [] w) h ++ [8, 2, 0, 0, 0]) 4 = h % 2 ^ 32 := by
  constructor
  · have e : write_be32 (write_be32 [] w) h ++ [8, 2, 0, 0, 0]
        = write_be32 [] w ++ (write_be32 [] h ++ [8, 2, 0, 0, 0]) := by
      rw [write_be32_append (write_be32 [] w) h, List.append_assoc]
    rw [e]
    exact rdBE32_written [] _ w
  · have := rdBE32_written (write_be32 [] w) [8, 2, 0, 0, 0] h
    rw [write_be32_length] at this
    exact this

theorem ihdr_length (w h : Nat) :
    (write_be32 (write_be32 [] w) h ++ [8, 2, 0, 0, 0]).length = 13 := by
  rw [List.length_append, write_be32_length, write_be32_length]
  rfl

/-- The chunk loop on a file made of the signature, an IHDR chunk, one IDAT
chunk and any further bytes: the IDAT data are collected whole when the loop
reaches an IEND chunk. -/
theorem chunkLoop_written (w h : Nat) (rgb : List Nat) (fuel : Nat)
    (hidat : (pngIdat w h rgb).length < 2 ^ 32) :
    ∃ p, chunkLoop (writePNG_raw w h rgb) (fuel + 3) { p := 8, W := 0, H := 0, idat_concat := [] }
      = some { p := p, W := toInt32 (w % 2 ^ 32), H := toInt32 (h % 2 ^ 32),
               idat_concat := pngIdat w h rgb } := by
  have hil := ihdr_length w h
  obtain ⟨hw, hh⟩ := ihdr_fields w h
  generalize hihdr : write_be32 (write_be32 [] w) h ++ [8, 2, 0, 0, 0] = ihdr at hil hw hh
  generalize hfile : writePNG_raw w h rgb = file
  have hf := writePNG_raw_eq w h rgb
  rw [hihdr, hfile] at hf
  -- first chunk
  have hf1 : file = [137, 80, 78, 71, 13, 10, 26, 10] ++ pngChunk [73, 72, 68, 82] ihdr
      ++ (pngChunk [73, 68, 65, 84] (pngIdat w h rgb) ++ pngChunk [73, 69, 78, 68] []) := by
    rw [hf]; simp only [List.append_assoc]
  obtain ⟨a1, a2, a3, a4⟩ := chunk_facts [137, 80, 78, 71, 13, 10, 26, 10] [73, 72, 68, 82] ihdr
    (pngChunk [73, 68, 65, 84] (pngIdat w h rgb) ++ pngChunk [73, 69, 78, 68] []) rfl
  rw [← hf1] at a1 a2 a3 a4
  rw [hil] at a1 a2 a4
  rw [show (13 : Nat) % 2 ^ 32 = 13 from by norm_num] at a1
  have hlen2 : (pngChunk [73, 68, 65, 84] (pngIdat w h rgb)
      ++ pngChunk [73, 69, 78, 68] []).length = 24 + (pngIdat w h rgb).length := by
    rw [List.length_append, pngChunk_length [73, 68, 65, 84] _ rfl,
      pngChunk_length [73, 69, 78, 68] _ rfl]
    simp only [List.length_nil]; omega
  rw [hlen2] at a2
  simp only [List.length_cons, List.length_nil] at a1 a2 a3 a4
  have hW := rdBE32_of_take_drop file ihdr 16 13 0 a4 (by omega)
  have hH := rdBE32_of_take_drop file ihdr 16 13 4 a4 (by omega)
  rw [hw] at hW
  rw [hh] at hH
  have s1 := chunkLoop_IHDR file (fuel + 2) 13 { p := 8, W := 0, H := 0, idat_concat := [] }
    a1 (by simp only []; omega) (by omega) a3
  simp only [] at s1
  rw [hW, hH] at s1
  -- second chunk
  have hf2 : file = ([137, 80, 78, 71, 13, 10, 26, 10] ++ pngChunk [73, 72, 68, 82] ihdr)
      ++ pngChunk [73, 68, 65, 84] (pngIdat w h rgb) ++ pngChunk [73, 69, 78, 68] [] := hf
  have hpre2 : ([137, 80, 78, 71, 13, 10, 26, 10] ++ pngChunk [73, 72, 68, 82] ihdr).length
      = 33 := by
    rw [List.length_append, pngChunk_length [73, 72, 68, 82] _ rfl, hil]; rfl
  obtain ⟨b1, b2, b3, b4⟩ := chunk_facts
    ([137, 80, 78, 71, 13, 10, 26, 10] ++ pngChunk [73, 72, 68, 82] ihdr) [73, 68, 65, 84]
    (pngIdat w h rgb) (pngChunk [73, 69, 78, 68] []) rfl
  rw [← hf2, hpre2] at b1 b2 b3 b4
  rw [Nat.mod_eq_of_lt hidat] at b1
  have s2 := chunkLoop_IDAT file (fuel + 1) (pngIdat w h rgb).length
    { p := 33, W := toInt32 (w % 2 ^ 32), H := toInt32 (h % 2 ^ 32), idat_concat := [] }
    b1 (by simp only []; omega) b3
  simp only [] at s2
  rw [b4, List.nil_append] at s2
  -- third chunk
  have hf3 : file = ([137, 80, 78, 71, 13, 10, 26, 10] ++ pngChunk [73, 72, 68, 82] ihdr
      ++ pngChunk [73, 68, 65, 84] (pngIdat w h rgb)) ++ pngChunk [73, 69, 78, 68] [] ++ [] := by
    rw [hf, List.append_nil]
  have hpre3 : ([137, 80, 78, 71, 13, 10, 26, 10] ++ pngChunk [73, 72, 68, 82] ihdr
      ++ pngChunk [73, 68, 65, 84] (pngIdat w h rgb)).length
      = 33 + 4 + 4 + (pngIdat w h rgb).length + 4 := by
    rw [List.length_append, hpre2, pngChunk_length [73, 68, 65, 84] _ rfl]; omega
  obtain ⟨c1, c2, c3, _⟩ := chunk_facts
    ([137, 80, 78, 71, 13, 10, 26, 10] ++ pngChunk [73, 72, 68, 82] ihdr
      ++ pngChunk [73, 68, 65, 84] (pngIdat w h rgb)) [73, 69, 78, 68] []
    [] rfl
  rw [← hf3, hpre3] at c1 c2 c3
  rw [show ([] : List Nat).length % 2 ^ 32 = 0 from rfl] at c1
  have s3 := chunkLoop_IEND file fuel 0
    { p := 33 + 4 + 4 + (pngIdat w h rgb).length + 4, W := toInt32 (w % 2 ^ 32),
      H := toInt32 (h % 2 ^ 32), idat_concat := pngIdat w h rgb }
    c1 (by simp only [List.length_nil] at c2 ⊢; omega) c3
  refine ⟨33 + 4 + 4 + (pngIdat w h rgb).length + 4 + 4 + 4, ?_⟩
  have e1 : (8 : Nat) + 4 + 4 + 13 + 4 = 33 := rfl
  rw [e1] at s1
  rw [show fuel + 3 = fuel + 2 + 1 from rfl, s1, s2, s3]

theorem scanline_inner (raw : List Nat) (pos : Nat → Nat) (n rp0 : Nat) (out : List Nat) :
    forLoop n
        (fun x (st : Nat × List Nat) =>
          (st.1 + 3,
            ((st.2.set (pos x + 0) (raw.getD st.1 0)).set (pos x + 1) (raw.getD (st.1 + 1) 0)).set
              (pos x + 2) (raw.getD (st.1 + 2) 0)))
        (rp0, out)
      = (rp0 + n * 3,
          forLoop n
            (fun x out =>
              ((out.set (pos x) (raw.getD (rp0 + x * 3) 0)).set (pos x + 1)
                (raw.getD (rp0 + x * 3 + 1) 0)).set (pos x + 2) (raw.getD (rp0 + x * 3 + 2) 0))
            out) := by
  induction n with
  | zero => rfl
  | succ k ih =>
    rw [forLoop_succ, forLoop_succ, ih]
    simp only [Nat.add_zero]
    congr 1
    omega

theorem storedBlocks_length (raw : List Nat) (fuel : Nat) :
    ∀ (remaining rp : Nat), remaining ≤ fuel → rp + remaining ≤ raw.length →
      (storedBlocks raw fuel remaining rp []).length
        = remaining + 5 * ((remaining + 65534) / 65535) := by
  induction fuel with
  | zero =>
    intro remaining rp h _
    have : remaining = 0 := by omega
    subst this
    rfl
  | succ k ih =>
    intro remaining rp h1 h2
    by_cases h : 0 < remaining
    · rw [storedBlocks_unfold _ _ _ _ h, List.length_append, storedBlock_length _ _ _ h2]
      by_cases hr : remaining < 65535
      · simp only [hr, if_true]
        rw [ih _ _ (by omega) (by omega)]
        omega
      · simp only [hr, if_false]
        rw [ih _ _ (by omega) (by omega)]
        omega
    · have : remaining = 0 := by omega
      subst this
      simp [storedBlocks]

theorem pngIdat_length (w h : Nat) (rgb : List Nat) (hrgb : rgb.length = w * h * 3) :
    (pngIdat w h rgb).length
      = 6 + h * (w * 3 + 1) + 5 * ((h * (w * 3 + 1) + 65534) / 65535) := by
  rw [pngIdat_eq]
  simp only [List.length_append, List.length_cons, List.length_nil]
  rw [storedBlocks_length _ _ _ _ (Nat.le_refl _) (by omega), pngRaw_length w h rgb hrgb]
  omega

theorem scanlines_written (w h : Nat) (rgb out0 : List Nat) (hrgb : rgb.length = w * h * 3)
    (h1 : 1 ≤ h) (hn : h * (w * 3 + 1) < 2 ^ 32) (hout : out0.length = w * h * 3) :
    scanlines (pngRaw w h rgb) (w : Int) (h : Int) out0 = some (h * (w * 3 + 1), rgb) := by
  have hw : w * 3 + 1 < 2 ^ 32 := by
    have : 1 * (w * 3 + 1) ≤ h * (w * 3 + 1) := Nat.mul_le_mul_right _ h1
    omega
  have tW : toSizeT (w : Int) = w := toSizeT_natCast _ (by omega)
  have key : ∀ y, y ≤ h →
      forLoopM y
        (fun y (st : Nat × List Nat) =>
          if (pngRaw w h rgb).getD st.1 0 ≠ 0 then none
          else
            some (forLoop w
              (fun x (st : Nat × List Nat) =>
                (st.1 + 3,
                  ((st.2.set (((y * w + x) * 3) % 2 ^ 64 + 0) ((pngRaw w h rgb).getD st.1 0)).set
                    (((y * w + x) * 3) % 2 ^ 64 + 1) ((pngRaw w h rgb).getD (st.1 + 1) 0)).set
                    (((y * w + x) * 3) % 2 ^ 64 + 2) ((pngRaw w h rgb).getD (st.1 + 2) 0)))
              (st.1 + 1, st.2)))
        (0, out0)
      = some (y * (w * 3 + 1),
          forLoop (y * w)
            (fun q out =>
              ((out.set (q * 3) (rgb.getD (q * 3) 0)).set (q * 3 + 1)
                (rgb.getD (q * 3 + 1) 0)).set (q * 3 + 2) (rgb.getD (q * 3 + 2) 0))
            out0) := by
    intro y
    induction y with
    | zero => intro _; simp [forLoopM, forLoop]
    | succ k ih =>
      intro hk
      have hkh : k < h := by omega
      show (forLoopM k _ (0, out0)).bind _ = _
      rw [ih (by omega), Option.some_bind]
      simp only []
      rw [if_neg (by rw [pngRaw_filter w h rgb hrgb k hkh]; simp),
        scanline_inner (pngRaw w h rgb) (fun x => ((k * w + x) * 3) % 2 ^ 64) w
          (k * (w * 3 + 1) + 1)]
      have hkw : (k + 1) * w ≤ h * w := Nat.mul_le_mul_right w (by omega)
      have hhw : h * (w * 3 + 1) = h * w * 3 + h := by ring
      have hkw2 : (k + 1) * w = k * w + w := by ring
      have hbody : ∀ x, x < w → ∀ t : List Nat,
          ((t.set (((k * w + x) * 3) % 2 ^ 64)
              ((pngRaw w h rgb).getD (k * (w * 3 + 1) + 1 + x * 3) 0)).set
            (((k * w + x) * 3) % 2 ^ 64 + 1)
              ((pngRaw w h rgb).getD (k * (w * 3 + 1) + 1 + x * 3 + 1) 0)).set
            (((k * w + x) * 3) % 2 ^ 64 + 2)
              ((pngRaw w h rgb).getD (k * (w * 3 + 1) + 1 + x * 3 + 2) 0)
          = ((t.set ((k * w + x) * 3) (rgb.getD ((k * w + x) * 3) 0)).set
              ((k * w + x) * 3 + 1) (rgb.getD ((k * w + x) * 3 + 1) 0)).set
              ((k * w + x) * 3 + 2) (rgb.getD ((k * w + x) * 3 + 2) 0) := by
        intro x hx t
        have m : ((k * w + x) * 3) % 2 ^ 64 = (k * w + x) * 3 :=
          Nat.mod_eq_of_lt (by omega)
        have p0 := pngRaw_pixel w h rgb hrgb k (x * 3) hkh (by omega)
        have p1 := pngRaw_pixel w h rgb hrgb k (x * 3 + 1) hkh (by omega)
        have p2 := pngRaw_pixel w h rgb hrgb k (x * 3 + 2) hkh (by omega)
        have i0 : k * w * 3 + x * 3 = (k * w + x) * 3 := by ring
        have i1 : k * w * 3 + (x * 3 + 1) = (k * w + x) * 3 + 1 := by ring
        have i2 : k * w * 3 + (x * 3 + 2) = (k * w + x) * 3 + 2 := by ring
        rw [i0] at p0
        rw [i1, ← Nat.add_assoc] at p1
        rw [i2, ← Nat.add_assoc] at p2
        rw [m, p0, p1, p2]
      rw [forLoop_congr w _ _ _ hbody, hkw2, forLoop_add]
      congr 2
      ring
  unfold scanlines
  simp only [Int.toNat_ofNat, tW]
  rw [key h (Nat.le_refl _)]
  rw [forLoop_fill3 rgb out0 (h * w) (by rw [hrgb, Nat.mul_comm h w])
    (by rw [hout, Nat.mul_comm h w])]

theorem writePNG_raw_length (w h : Nat) (rgb : List Nat) :
    (writePNG_raw w h rgb).length = 57 + (pngIdat w h rgb).length := by
  rw [writePNG_raw_eq]
  have hi := ihdr_length w h
  rw [List.length_append, List.length_append, List.length_append,
    pngChunk_length [73, 72, 68, 82] _ rfl, pngChunk_length [73, 68, 65, 84] _ rfl,
    pngChunk_length [73, 69, 78, 68] _ rfl, hi]
  simp only [List.length_cons, List.length_nil]
  omega

theorem writePNG_raw_sig (w h : Nat) (rgb : List Nat) :
    (writePNG_raw w h rgb).take 8 = [137, 80, 78, 71, 13, 10, 26, 10] := by
  rw [writePNG_raw_eq, List.append_assoc, List.append_assoc]
  exact List.take_left' rfl

theorem readPNG_written (w h : Nat) (rgb : List Nat) (hw1 : 1 ≤ w) (hh1 : 1 ≤ h)
    (hrgb : rgb.length = w * h * 3)
    (hidat : 6 + h * (w * 3 + 1) + 5 * ((h * (w * 3 + 1) + 65534) / 65535) < 2 ^ 32) :
    readPNG_extractRGB (writePNG_raw w h rgb) = some ((w : Int), (h : Int), rgb) := by
  have hil := pngIdat_length w h rgb hrgb
  have hn : h * (w * 3 + 1) < 2 ^ 32 := by omega
  have hwb : w * 3 + 1 < 2 ^ 32 := by
    have : 1 * (w * 3 + 1) ≤ h * (w * 3 + 1) := Nat.mul_le_mul_right _ hh1
    omega
  have hhb : h < 2 ^ 30 := by
    have : h * 4 ≤ h * (w * 3 + 1) := Nat.mul_le_mul_left h (by omega)
    omega
  have hwh : w * h * 3 < 2 ^ 32 := by
    have : h * (w * 3 + 1) = w * h * 3 + h := by ring
    omega
  have hfl := writePNG_raw_length w h rgb
  obtain ⟨fuel, hfuel⟩ : ∃ fuel, (writePNG_raw w h rgb).length = fuel + 3 :=
    ⟨(writePNG_raw w h rgb).length - 3, by omega⟩
  obtain ⟨p, hchunk⟩ := chunkLoop_written w h rgb fuel (by rw [hil]; exact hidat)
  have eW : toInt32 (w % 2 ^ 32) = (w : Int) := by
    rw [Nat.mod_eq_of_lt (by omega)]; exact toInt32_of_lt w (by omega)
  have eH : toInt32 (h % 2 ^ 32) = (h : Int) := by
    rw [Nat.mod_eq_of_lt (by omega)]; exact toInt32_of_lt h (by omega)
  rw [eW, eH] at hchunk
  have tW : toSizeT (w : Int) = w := toSizeT_natCast _ (by omega)
  have tH : toSizeT (h : Int) = h := toSizeT_natCast _ (by omega)
  have hraw := pngRaw_length w h rgb hrgb
  have hblock := blockLoop_pngIdat w h rgb (by
    rw [hraw]
    exact Nat.mul_pos (by omega) (by omega))
  unfold readPNG_extractRGB
  rw [if_neg (by omega), if_neg (by rw [writePNG_raw_sig]; simp), hfuel, hchunk]
  simp only []
  have hW0 : ¬ ((w : Int) = 0 ∨ (h : Int) = 0) := by omega
  rw [if_neg hW0, if_neg (by omega), hblock]
  simp only [tW, tH]
  have e1 : (w * 3 + 1) % 2 ^ 64 = w * 3 + 1 := Nat.mod_eq_of_lt (by omega)
  have e2 : (h * (w * 3 + 1)) % 2 ^ 64 = h * (w * 3 + 1) := Nat.mod_eq_of_lt (by omega)
  have e3 : (w * h * 3) % 2 ^ 64 = w * h * 3 := Nat.mod_eq_of_lt (by omega)
  rw [e1, e2, e3, if_neg (by omega),
    scanlines_written w h rgb _ hrgb hh1 hn (by rw [List.length_replicate])]
  rfl


/-! ## Lemmas on the glyph rasterizer -/

theorem forLoop_invariant {σ : Type} (Inv : Nat → σ → Prop) (n : Nat) (body : Nat → σ → σ)
    (s : σ) (h0 : Inv 0 s) (hstep : ∀ i, i < n → ∀ t, Inv i t → Inv (i + 1) (body i t)) :
    Inv n (forLoop n body s) := by
  induction n with
  | zero => exact h0
  | succ k ih =>
    rw [forLoop_succ]
    exact hstep k (by omega) _ (ih (fun i hi t ht => hstep i (by omega) t ht))

theorem painted_blank (N : Nat) : Painted N (fun _ => False) (List.replicate (N * 3) 0) := by
  refine ⟨List.length_replicate _ _, ?_⟩
  intro p hp
  refine ⟨fun h => absurd h (by simp), fun _ => ?_⟩
  rw [List.getD_eq_getElem _ _ (by rw [List.length_replicate]; exact hp)]
  simp

theorem painted_congr (N : Nat) (S T : Nat → Prop) (img : List Nat) (h : ∀ q, S q ↔ T q)
    (hp : Painted N S img) : Painted N T img := by
  refine ⟨hp.1, ?_⟩
  intro p hpn
  obtain ⟨h1, h2⟩ := hp.2 p hpn
  exact ⟨fun ht => h1 ((h _).mpr ht), fun ht => h2 (fun hs => ht ((h _).mp hs))⟩

theorem painted_set (N : Nat) (S : Nat → Prop) (img : List Nat) (q : Nat)
    (hp : Painted N S img) :
    Painted N (fun r => S r ∨ r = q)
      (((img.set (q * 3 + 0) 255).set (q * 3 + 1) 255).set (q * 3 + 2) 255) := by
  obtain ⟨hl, hv⟩ := hp
  refine ⟨by rw [Nat.add_zero, set3_length]; exact hl, ?_⟩
  intro p hpn
  rw [Nat.add_zero]
  by_cases h0 : p < q * 3
  · rw [getD_set3_lt _ _ _ _ _ _ h0]
    have hne : p / 3 ≠ q := by omega
    obtain ⟨h1, h2⟩ := hv p hpn
    exact ⟨fun h => h1 (h.resolve_right hne), fun h => h2 (fun hs => h (Or.inl hs))⟩
  · by_cases h3 : q * 3 + 2 < p
    · have hne : p / 3 ≠ q := by omega
      have e : (((img.set (q * 3) 255).set (q * 3 + 1) 255).set (q * 3 + 2) 255).getD p 0
          = img.getD p 0 := by
        rw [getD_set_ne _ _ _ _ _ (by omega), getD_set_ne _ _ _ _ _ (by omega),
          getD_set_ne _ _ _ _ _ (by omega)]
      rw [e]
      obtain ⟨h1, h2⟩ := hv p hpn
      exact ⟨fun h => h1 (h.resolve_right hne), fun h => h2 (fun hs => h (Or.inl hs))⟩
    · have heq : p / 3 = q := by omega
      have hval : (((img.set (q * 3) 255).set (q * 3 + 1) 255).set (q * 3 + 2) 255).getD p 0
          = 255 := by
        have hc : p = q * 3 ∨ p = q * 3 + 1 ∨ p = q * 3 + 2 := by omega
        rcases hc with hc | hc | hc
        · rw [hc]; exact getD_set3_0 _ _ _ _ _ (by omega)
        · rw [hc]; exact getD_set3_1 _ _ _ _ _ (by omega)
        · rw [hc]; exact getD_set3_2 _ _ _ _ _ (by omega)
      exact ⟨fun _ => hval, fun h => absurd (Or.inr heq) h⟩

/-- A loop whose iteration `i` paints the pixels of `T i` paints their union. -/
theorem painted_loop (N n : Nat) (body : Nat → List Nat → List Nat) (T : Nat → Nat → Prop)
    (hbody : ∀ i, i < n → ∀ S img, Painted N S img →
      Painted N (fun r => S r ∨ T i r) (body i img))
    (S : Nat → Prop) (img : List Nat) (hp : Painted N S img) :
    Painted N (fun r => S r ∨ ∃ i, i < n ∧ T i r) (forLoop n body img) := by
  have key := forLoop_invariant
    (fun k t => Painted N (fun r => S r ∨ ∃ i, i < k ∧ T i r) t) n body img
    (painted_congr N S _ img (fun q => ⟨fun h => Or.inl h, fun h => by
      rcases h with h | ⟨i, hi, _⟩
      · exact h
      · omega⟩) hp)
    (fun i hi t ht => by
      apply painted_congr N _ _ _ _ (hbody i hi _ t ht)
      intro q
      constructor
      · rintro (h | h)
        · rcases h with h | ⟨j, hj, hT⟩
          · exact Or.inl h
          · exact Or.inr ⟨j, by omega, hT⟩
        · exact Or.inr ⟨i, by omega, h⟩
      · rintro (h | ⟨j, hj, hT⟩)
        · exact Or.inl (Or.inl h)
        · by_cases hji : j = i
          · subst hji; exact Or.inr hT
          · exact Or.inl (Or.inr ⟨j, by omega, hT⟩))
  exact key

theorem glyphBit_eq (ch y x : Nat) :
    ((tiny8x8_font.getD ((if ch < 32 ∨ ch > 127 then 63 else ch) - 32) []).getD y 0
      &&& (1 <<< (7 - x)) ≠ 0) ↔ glyphBit ch y x = true := by
  unfold glyphBit
  simp

theorem painted_glyph (N W margin row col ch : Nat) (S : Nat → Prop) (img : List Nat)
    (hp : Painted N S img) :
    Painted N
      (fun r => S r ∨ ∃ y, y < 8 ∧ ∃ x, x < 8 ∧ glyphBit ch y x = true
        ∧ r = (margin + row * 8 + y) * W + (margin + col * 8 + x))
      (paintGlyph W margin row col ch img) := by
  unfold paintGlyph
  simp only []
  apply painted_loop N 8 _
    (fun y r => ∃ x, x < 8 ∧ glyphBit ch y x = true
      ∧ r = (margin + row * 8 + y) * W + (margin + col * 8 + x)) _ S img hp
  intro y hy S1 img1 hp1
  apply painted_loop N 8 _
    (fun x r => glyphBit ch y x = true
      ∧ r = (margin + row * 8 + y) * W + (margin + col * 8 + x)) _ S1 img1 hp1
  intro x hx S2 img2 hp2
  by_cases hb : glyphBit ch y x = true
  · rw [if_pos ((glyphBit_eq ch y x).mpr hb)]
    apply painted_congr N _ _ _ _ (painted_set N S2 img2 _ hp2)
    intro q
    constructor
    · rintro (h | h)
      · exact Or.inl h
      · exact Or.inr ⟨hb, h⟩
    · rintro (h | ⟨_, h⟩)
      · exact Or.inl h
      · exact Or.inr h
  · rw [if_neg (fun h => hb ((glyphBit_eq ch y x).mp h))]
    apply painted_congr N _ _ _ _ hp2
    intro q
    constructor
    · intro h; exact Or.inl h
    · rintro (h | ⟨h, _⟩)
      · exact h
      · exact absurd h hb

theorem maxLoop_spec (f : Nat → Nat) (n : Nat) :
    (∀ i, i < n → f i ≤ forLoop n (fun i c => max c (f i)) 0)
      ∧ (forLoop n (fun i c => max c (f i)) 0 = 0
        ∨ ∃ i, i < n ∧ f i = forLoop n (fun i c => max c (f i)) 0) := by
  induction n with
  | zero => exact ⟨fun i hi => by omega, Or.inl rfl⟩
  | succ k ih =>
    obtain ⟨h1, h2⟩ := ih
    rw [forLoop_succ]
    generalize forLoop k (fun i c => max c (f i)) 0 = m at h1 h2
    constructor
    · intro i hi
      by_cases hik : i = k
      · subst hik; exact Nat.le_max_right _ _
      · exact Nat.le_trans (h1 i (by omega)) (Nat.le_max_left _ _)
    · by_cases hm : f k ≤ m
      · rw [Nat.max_eq_left hm]
        rcases h2 with h2 | ⟨i, hi, he⟩
        · exact Or.inl h2
        · exact Or.inr ⟨i, by omega, he⟩
      · rw [Nat.max_eq_right (by omega)]
        exact Or.inr ⟨k, by omega, rfl⟩

theorem layoutCols_ge (lines : List (List Nat)) (i : Nat) (hi : i < lines.length) :
    (lines.getD i []).length ≤ layoutCols lines := by
  unfold layoutCols
  have h := (maxLoop_spec (fun i => (lines.getD i []).length) lines.length).1 i hi
  simp only []
  split <;> omega

theorem layoutCols_pos (lines : List (List Nat)) : 1 ≤ layoutCols lines := by
  unfold layoutCols
  simp only []
  split <;> omega

/-- The set of pixel indices that `renderTextToBMP` paints white. -/
theorem render_painted (text : List Nat) (maxWidthChars : Int) (margin : Nat) :
    Painted ((renderRaster text maxWidthChars margin).1 * (renderRaster text maxWidthChars margin).2.1)
      (fun r => ∃ row, row < (layoutLines text maxWidthChars).length
        ∧ ∃ col, col < ((layoutLines text maxWidthChars).getD row []).length
        ∧ ∃ y, y < 8 ∧ ∃ x, x < 8
        ∧ glyphBit (((layoutLines text maxWidthChars).getD row []).getD col 0) y x = true
        ∧ r = (margin + row * 8 + y) * (renderRaster text maxWidthChars margin).1
              + (margin + col * 8 + x))
      (renderRaster text maxWidthChars margin).2.2 := by
  unfold renderRaster
  simp only []
  generalize layoutLines text maxWidthChars = lines
  generalize hW : margin * 2 + layoutCols lines * 8 = W
  generalize hH : margin * 2 + lines.length * 8 = H
  have h0 := painted_blank (W * H)
  have key := painted_loop (W * H) lines.length
    (fun row img =>
      forLoop (lines.getD row []).length
        (fun col img => paintGlyph W margin row col ((lines.getD row []).getD col 0) img) img)
    (fun row r => ∃ col, col < (lines.getD row []).length
      ∧ ∃ y, y < 8 ∧ ∃ x, x < 8 ∧ glyphBit ((lines.getD row []).getD col 0) y x = true
      ∧ r = (margin + row * 8 + y) * W + (margin + col * 8 + x))
    (fun row _ S img hp =>
      painted_loop (W * H) (lines.getD row []).length
        (fun col img => paintGlyph W margin row col ((lines.getD row []).getD col 0) img)
        (fun col r => ∃ y, y < 8 ∧ ∃ x, x < 8
          ∧ glyphBit ((lines.getD row []).getD col 0) y x = true
          ∧ r = (margin + row * 8 + y) * W + (margin + col * 8 + x))
        (fun col _ S1 img1 hp1 =>
          painted_glyph (W * H) W margin row col ((lines.getD row []).getD col 0) S1 img1 hp1)
        S img hp)
    (fun _ => False) _ h0
  apply painted_congr _ _ _ _ _ key
  intro q
  constructor
  · rintro (h | h)
    · exact absurd h (by simp)
    · exact h
  · intro h
    exact Or.inr h

theorem mul_add_div_mod (W a b : Nat) (hb : b < W) : (a * W + b) / W = a ∧ (a * W + b) % W = b := by
  have hW : 0 < W := by omega
  constructor
  · rw [Nat.mul_comm, Nat.mul_add_div hW, Nat.div_eq_of_lt hb, Nat.add_zero]
  · rw [Nat.mul_comm, Nat.mul_add_mod, Nat.mod_eq_of_lt hb]

theorem painted_iff_lit (lines : List (List Nat)) (margin q : Nat) :
    (∃ row, row < lines.length ∧ ∃ col, col < (lines.getD row []).length
        ∧ ∃ y, y < 8 ∧ ∃ x, x < 8 ∧ glyphBit ((lines.getD row []).getD col 0) y x = true
        ∧ q = (margin + row * 8 + y) * (margin * 2 + layoutCols lines * 8)
              + (margin + col * 8 + x))
      ↔ litPixel lines margin (q % (margin * 2 + layoutCols lines * 8))
          (q / (margin * 2 + layoutCols lines * 8)) = true := by
  have hcp := layoutCols_pos lines
  generalize hW : margin * 2 + layoutCols lines * 8 = W
  constructor
  · rintro ⟨row, hrow, col, hcol, y, hy, x, hx, hbit, hq⟩
    have hc := layoutCols_ge lines row hrow
    have hpx : margin + col * 8 + x < W := by omega
    obtain ⟨e1, e2⟩ := mul_add_div_mod W (margin + row * 8 + y) (margin + col * 8 + x) hpx
    rw [hq, e1, e2]
    unfold litPixel
    have a1 : (margin + row * 8 + y - margin) / 8 = row := by omega
    have a2 : (margin + row * 8 + y - margin) % 8 = y := by omega
    have a3 : (margin + col * 8 + x - margin) / 8 = col := by omega
    have a4 : (margin + col * 8 + x - margin) % 8 = x := by omega
    rw [a1, a2, a3, a4]
    simp only [decide_eq_true_eq, Bool.and_eq_true, Bool.decide_and, Bool.decide_eq_true]
    exact ⟨by omega, by omega, hrow, hcol, hbit⟩
  · intro h
    unfold litPixel at h
    simp only [decide_eq_true_eq, Bool.and_eq_true, Bool.decide_and, Bool.decide_eq_true] at h
    obtain ⟨h1, h2, h3, h4, h5⟩ := h
    refine ⟨(q / W - margin) / 8, h3, (q % W - margin) / 8, h4, (q / W - margin) % 8,
      Nat.mod_lt _ (by omega), (q % W - margin) % 8, Nat.mod_lt _ (by omega), h5, ?_⟩
    have e1 : margin + (q / W - margin) / 8 * 8 + (q / W - margin) % 8 = q / W := by omega
    have e2 : margin + (q % W - margin) / 8 * 8 + (q % W - margin) % 8 = q % W := by omega
    rw [e1, e2, Nat.mul_comm]
    exact (Nat.div_add_mod q W).symm

/-- Every read of the raster that `renderTextToBMP` builds: 255 on the pixels
of `litPixel`, 0 elsewhere and past the end. -/
theorem render_read (text : List Nat) (maxWidthChars : Int) (margin : Nat) :
    (fun p => (renderRaster text maxWidthChars margin).2.2.getD p 0)
      = litRead (layoutLines text maxWidthChars) margin
          (renderRaster text maxWidthChars margin).1
          (renderRaster text maxWidthChars margin).2.1 := by
  funext p
  obtain ⟨hl, hv⟩ := render_painted text maxWidthChars margin
  have hW : (renderRaster text maxWidthChars margin).1
      = margin * 2 + layoutCols (layoutLines text maxWidthChars) * 8 := rfl
  unfold litRead
  by_cases hp : p < (renderRaster text maxWidthChars margin).1
      * (renderRaster text maxWidthChars margin).2.1 * 3
  · rw [if_pos hp]
    obtain ⟨h1, h2⟩ := hv p hp
    have hiff := painted_iff_lit (layoutLines text maxWidthChars) margin (p / 3)
    rw [← hW] at hiff
    by_cases hlit : litPixel (layoutLines text maxWidthChars) margin
        (p / 3 % (renderRaster text maxWidthChars margin).1)
        (p / 3 / (renderRaster text maxWidthChars margin).1) = true
    · rw [if_pos hlit]
      exact h1 (hiff.mpr hlit)
    · rw [if_neg hlit]
      exact h2 (fun h => hlit (hiff.mp h))
  · rw [if_neg hp]
    exact List.getD_eq_default _ _ (by rw [hl]; omega)

theorem render_length (text : List Nat) (maxWidthChars : Int) (margin : Nat) :
    (renderRaster text maxWidthChars margin).2.2.length
      = (renderRaster text maxWidthChars margin).1
        * (renderRaster text maxWidthChars margin).2.1 * 3 :=
  (render_painted text maxWidthChars margin).1

theorem layoutCols_spec (lines : List (List Nat)) :
    (∀ ln, ln ∈ lines → ln.length ≤ layoutCols lines)
      ∧ ((∀ ln, ln ∈ lines → ln.length = 0) → layoutCols lines = 1)
      ∧ ((∃ ln, ln ∈ lines ∧ ln.length ≠ 0) →
          ∃ ln, ln ∈ lines ∧ ln.length = layoutCols lines) := by
  have hmem : ∀ i, i < lines.length → lines.getD i [] ∈ lines := by
    intro i hi
    rw [List.getD_eq_getElem _ _ hi]
    exact List.getElem_mem hi
  obtain ⟨h1, h2⟩ := maxLoop_spec (fun i => (lines.getD i []).length) lines.length
  refine ⟨?_, ?_, ?_⟩
  · intro ln hln
    obtain ⟨i, hi, he⟩ := List.getElem_of_mem hln
    have := layoutCols_ge lines i hi
    rw [List.getD_eq_getElem _ _ hi, he] at this
    exact this
  · intro hall
    unfold layoutCols
    simp only []
    rcases h2 with h2 | ⟨i, hi, he⟩
    · rw [if_pos h2]
    · have := hall _ (hmem i hi)
      rw [if_pos (by omega)]
  · rintro ⟨ln, hln, hne⟩
    obtain ⟨j, hj, hje⟩ := List.getElem_of_mem hln
    have hge := h1 j hj
    rw [List.getD_eq_getElem _ _ hj, hje] at hge
    rcases h2 with h2 | ⟨i, hi, he⟩
    · omega
    · refine ⟨lines.getD i [], hmem i hi, ?_⟩
      unfold layoutCols
      simp only []
      rw [if_neg (by omega)]
      exact he


/-! ## The compressed-image reader on a file whose data chunk length wraps -/

theorem chunkLoop_other (file : List Nat) (fuel len : Nat) (st : ChunkState) (type : List Nat)
    (hlen : rdBE32 file st.p = len) (hfit : st.p + 12 + len ≤ file.length)
    (htype : (file.drop (st.p + 4)).take 4 = type)
    (h1 : type ≠ [73, 72, 68, 82]) (h2 : type ≠ [73, 68, 65, 84]) (h3 : type ≠ [73, 69, 78, 68]) :
    chunkLoop file (fuel + 1) st = chunkLoop file fuel { st with p := st.p + 4 + 4 + len + 4 } := by
  conv_lhs => unfold chunkLoop
  rw [if_pos (by omega)]
  simp only [hlen, htype]
  rw [if_neg (by omega : ¬ st.p + 4 + 4 + len + 4 > file.length), if_neg h1, if_neg h2,
    if_neg h3]

theorem chunkLoop_exit (file : List Nat) (fuel : Nat) (st : ChunkState)
    (h : ¬ st.p + 8 ≤ file.length) : chunkLoop file fuel st = some st := by
  cases fuel with
  | zero => rfl
  | succ k =>
    unfold chunkLoop
    rw [if_neg h]

theorem take4_of_getD (l : List Nat) (p a b c d : Nat) (hl : p + 4 ≤ l.length)
    (h0 : l.getD p 0 = a) (h1 : l.getD (p + 1) 0 = b) (h2 : l.getD (p + 2) 0 = c)
    (h3 : l.getD (p + 3) 0 = d) : (l.drop p).take 4 = [a, b, c, d] := by
  apply ext_getD
  · rw [length_take_drop _ _ _ hl]; rfl
  · intro k hk
    rw [length_take_drop _ _ _ hl] at hk
    rw [getD_take_drop _ _ _ _ hk]
    interval_cases k
    · rw [Nat.add_zero, h0]; rfl
    · rw [h1]; rfl
    · rw [h2]; rfl
    · rw [h3]; rfl

theorem getD_take (l : List Nat) (n i : Nat) (hi : i < n) : (l.take n).getD i 0 = l.getD i 0 := by
  have := getD_take_drop l 0 n i hi
  rw [List.drop_zero, Nat.zero_add] at this
  exact this

/-- A stream cut inside its first stored block of 65535 bytes is rejected. -/
theorem blockLoop_truncated (L : List Nat) (fuel : Nat) (h7 : 7 ≤ L.length)
    (hshort : L.length < 65542) (g2 : L.getD 2 0 = 0) (g3 : L.getD 3 0 = 255)
    (g4 : L.getD 4 0 = 255) (g5 : L.getD 5 0 = 0) (g6 : L.getD 6 0 = 0) :
    blockLoop L (fuel + 1) 2 [] = none := by
  unfold blockLoop
  rw [if_pos (by omega)]
  simp only [g2, g3, g4, g5, g6]
  have e1 : ((255 : Nat) ||| 255 <<< 8) % 2 ^ 16 = 65535 := by decide
  have e2 : ((0 : Nat) ||| 0 <<< 8) % 2 ^ 16 = 0 := by decide
  have e3 : ((0 : Nat) >>> 1) &&& 3 = 0 := by decide
  have e4 : (65535 : Nat) ^^^ 65535 = 0 := by decide
  rw [e1, e2, e3, e4]
  simp only [ne_eq, not_true_eq_false, if_false]
  rw [if_neg (by omega), if_pos (by omega)]

theorem pngIdat_head (w h : Nat) (rgb : List Nat) (hn : 65535 < (pngRaw w h rgb).length) :
    ∃ rest, pngIdat w h rgb
      = [0x78, 0x01, 0, 255, 255, 0, 0] ++ ((pngRaw w h rgb).take 65535 ++ rest) := by
  obtain ⟨k, hk⟩ : ∃ k, (pngRaw w h rgb).length = k + 1 :=
    ⟨(pngRaw w h rgb).length - 1, by omega⟩
  have hlt : ¬ (pngRaw w h rgb).length < 65535 := by omega
  have hle : ¬ (pngRaw w h rgb).length ≤ 65535 := by omega
  have hsb : storedBlock (pngRaw w h rgb) (pngRaw w h rgb).length 0
      = [0, 255, 255, 0, 0] ++ (pngRaw w h rgb).take 65535 := by
    unfold storedBlock
    simp only [hlt, hle, if_false, List.drop_zero]
    have e1 : (65535 : Nat) % 2 ^ 16 = 65535 := by decide
    have e2 : (65535 : Nat) &&& 0xFF = 255 := by decide
    have e3 : ((65535 : Nat) >>> 8) &&& 0xFF = 255 := by decide
    have e4 : ((65535 : Nat) ^^^ 0xFFFF) &&& 0xFF = 0 := by decide
    have e5 : (((65535 : Nat) ^^^ 0xFFFF) >>> 8) &&& 0xFF = 0 := by decide
    rw [e1, e2, e3, e4, e5]
  refine ⟨storedBlocks (pngRaw w h rgb) k
      ((pngRaw w h rgb).length
        - (if (pngRaw w h rgb).length < 65535 then (pngRaw w h rgb).length else 65535))
      (0 + (if (pngRaw w h rgb).length < 65535 then (pngRaw w h rgb).length else 65535)) []
      ++ [(adler32 (pngRaw w h rgb) >>> 24) &&& 0xFF, (adler32 (pngRaw w h rgb) >>> 16) &&& 0xFF,
        (adler32 (pngRaw w h rgb) >>> 8) &&& 0xFF, adler32 (pngRaw w h rgb) &&& 0xFF], ?_⟩
  rw [pngIdat_eq]
  have hu := storedBlocks_unfold (pngRaw w h rgb) k (pngRaw w h rgb).length 0 (by omega)
  rw [← hk] at hu
  rw [hu, hsb]
  simp only [List.append_assoc, List.cons_append, List.nil_append]

theorem chunkLoop_first (w h : Nat) (rgb : List Nat) (fuel : Nat) :
    chunkLoop (writePNG_raw w h rgb) (fuel + 1) { p := 8, W := 0, H := 0, idat_concat := [] }
      = chunkLoop (writePNG_raw w h rgb) fuel
          { p := 33, W := toInt32 (w % 2 ^ 32), H := toInt32 (h % 2 ^ 32), idat_concat := [] } := by
  have hil := ihdr_length w h
  obtain ⟨hwf, hhf⟩ := ihdr_fields w h
  generalize hihdr : write_be32 (write_be32 [] w) h ++ [8, 2, 0, 0, 0] = ihdr at hil hwf hhf
  generalize hfile : writePNG_raw w h rgb = file
  have hf := writePNG_raw_eq w h rgb
  rw [hihdr, hfile] at hf
  have hf1 : file = [137, 80, 78, 71, 13, 10, 26, 10] ++ pngChunk [73, 72, 68, 82] ihdr
      ++ (pngChunk [73, 68, 65, 84] (pngIdat w h rgb) ++ pngChunk [73, 69, 78, 68] []) := by
    rw [hf]; simp only [List.append_assoc]
  obtain ⟨a1, a2, a3, a4⟩ := chunk_facts [137, 80, 78, 71, 13, 10, 26, 10] [73, 72, 68, 82] ihdr
    (pngChunk [73, 68, 65, 84] (pngIdat w h rgb) ++ pngChunk [73, 69, 78, 68] []) rfl
  rw [← hf1] at a1 a2 a3 a4
  rw [hil] at a1 a2 a4
  rw [show (13 : Nat) % 2 ^ 32 = 13 from by norm_num] at a1
  simp only [List.length_cons, List.length_nil] at a1 a2 a3 a4
  have hW := rdBE32_of_take_drop file ihdr 16 13 0 a4 (by omega)
  have hH := rdBE32_of_take_drop file ihdr 16 13 4 a4 (by omega)
  rw [hwf] at hW
  rw [hhf] at hH
  have s1 := chunkLoop_IHDR file fuel 13 { p := 8, W := 0, H := 0, idat_concat := [] }
    a1 (by simp only []; omega) (by omega) a3
  simp only [] at s1
  rw [hW, hH] at s1
  exact s1

theorem idat_chunk_facts (w h : Nat) (rgb : List Nat) :
    rdBE32 (writePNG_raw w h rgb) 33 = (pngIdat w h rgb).length % 2 ^ 32
      ∧ ((writePNG_raw w h rgb).drop 37).take 4 = [73, 68, 65, 84]
      ∧ ((writePNG_raw w h rgb).drop 41).take (pngIdat w h rgb).length = pngIdat w h rgb := by
  have hil := ihdr_length w h
  have hf := writePNG_raw_eq w h rgb
  have hpre2 : ([137, 80, 78, 71, 13, 10, 26, 10]
      ++ pngChunk [73, 72, 68, 82] (write_be32 (write_be32 [] w) h ++ [8, 2, 0, 0, 0])).length
      = 33 := by
    rw [List.length_append, pngChunk_length [73, 72, 68, 82] _ rfl, hil]; rfl
  obtain ⟨b1, _, b3, b4⟩ := chunk_facts
    ([137, 80, 78, 71, 13, 10, 26, 10]
      ++ pngChunk [73, 72, 68, 82] (write_be32 (write_be32 [] w) h ++ [8, 2, 0, 0, 0]))
    [73, 68, 65, 84] (pngIdat w h rgb) (pngChunk [73, 69, 78, 68] []) rfl
  rw [← hf, hpre2] at b1 b3 b4
  exact ⟨b1, b3, b4⟩

/-- When the IDAT data are `2 ^ 32 + len'` bytes long, the reader takes the
wrapped length `len'` for the chunk, collects only the first `len'` bytes and
rejects the file. -/
theorem readPNG_wrapped (w h : Nat) (rgb : List Nat) (len' : Nat)
    (hrgb : rgb.length = w * h * 3) (hw1 : 65536 ≤ w * 3 + 1) (hw : w < 2 ^ 31)
    (hh1 : 1 ≤ h) (hh : h < 2 ^ 31)
    (hlen : (pngIdat w h rgb).length = 2 ^ 32 + len') (h7 : 7 ≤ len') (h65 : len' ≤ 65530)
    (hpix : ∀ j, j < 65535 → rgb.getD j 0 = 255) :
    readPNG_extractRGB (writePNG_raw w h rgb) = none := by
  have hraw := pngRaw_length w h rgb hrgb
  have hn : 65535 < (pngRaw w h rgb).length := by
    rw [hraw]
    have : 1 * (w * 3 + 1) ≤ h * (w * 3 + 1) := Nat.mul_le_mul_right _ hh1
    omega
  obtain ⟨rest, hhead⟩ := pngIdat_head w h rgb hn
  -- the bytes of the IDAT data the reader looks at
  have hi_small : ∀ i, i < 7 → (pngIdat w h rgb).getD i 0
      = [0x78, 0x01, 0, 255, 255, 0, 0].getD i 0 := by
    intro i hi
    rw [hhead, List.getD_append _ _ _ _ (by simpa using hi)]
  have hi_pix : ∀ r, 1 ≤ r → r < 65535 → (pngIdat w h rgb).getD (7 + r) 0 = 255 := by
    intro r hr1 hr2
    rw [hhead, List.getD_append_right _ _ _ _ (by simp),
      List.getD_append _ _ _ _ (by
        rw [List.length_take]
        simp only [List.length_cons, List.length_nil]
        omega)]
    have e : 7 + r - [0x78, 0x01, 0, 255, 255, 0, 0].length = r := by
      simp only [List.length_cons, List.length_nil]; omega
    rw [e, getD_take _ _ _ hr2]
    have hp := pngRaw_pixel w h rgb hrgb 0 (r - 1) (by omega) (by omega)
    have e2 : 0 * (w * 3 + 1) + 1 + (r - 1) = r := by omega
    have e3 : 0 * w * 3 + (r - 1) = r - 1 := by omega
    rw [e2, e3] at hp
    rw [hp]
    exact hpix _ (by omega)
  -- the file and its data chunk
  obtain ⟨b1, b3, b4⟩ := idat_chunk_facts w h rgb
  have hfl := writePNG_raw_length w h rgb
  have hfirst := chunkLoop_first w h rgb
  have hsig := writePNG_raw_sig w h rgb
  generalize hfile : writePNG_raw w h rgb = file at b1 b3 b4 hfl hfirst hsig
  rw [hlen] at hfl b1
  have hmod : (2 ^ 32 + len') % 2 ^ 32 = len' := by omega
  rw [hmod] at b1
  have hfget : ∀ i, i < 2 ^ 32 + len' → file.getD (41 + i) 0 = (pngIdat w h rgb).getD i 0 := by
    intro i hi
    rw [← getD_take_drop file 41 (pngIdat w h rgb).length i (by rw [hlen]; exact hi), b4]
  have hconcat : (file.drop 41).take len' = (pngIdat w h rgb).take len' := by
    conv_rhs => rw [← b4]
    rw [List.take_take, hlen, Nat.min_eq_left (by omega)]
  -- the chunk loop
  have eW : toInt32 (w % 2 ^ 32) = (w : Int) := by
    rw [Nat.mod_eq_of_lt (by omega)]; exact toInt32_of_lt w hw
  have eH : toInt32 (h % 2 ^ 32) = (h : Int) := by
    rw [Nat.mod_eq_of_lt (by omega)]; exact toInt32_of_lt h hh
  obtain ⟨f, hf3⟩ : ∃ f, file.length = f + 3 := ⟨file.length - 3, by omega⟩
  have s2 := chunkLoop_IDAT file (f + 1) len'
    { p := 33, W := toInt32 (w % 2 ^ 32), H := toInt32 (h % 2 ^ 32), idat_concat := [] }
    b1 (by simp only []; omega) b3
  simp only [] at s2
  rw [hconcat, List.nil_append] at s2
  have j : ∀ k, k < 8 → file.getD (33 + 4 + 4 + len' + 4 + k) 0 = 255 := by
    intro k hk
    have e : 33 + 4 + 4 + len' + 4 + k = 41 + (7 + (len' + k - 3)) := by omega
    rw [e, hfget _ (by omega)]
    exact hi_pix _ (by omega) (by omega)
  have j0 := j 0 (by omega)
  have hjlen : rdBE32 file (33 + 4 + 4 + len' + 4) = 2 ^ 32 - 1 := by
    unfold rdBE32
    rw [j0, j 1 (by omega), j 2 (by omega), j 3 (by omega)]
    decide
  have hjtype : (file.drop (33 + 4 + 4 + len' + 4 + 4)).take 4 = [255, 255, 255, 255] :=
    take4_of_getD file _ 255 255 255 255 (by omega) (j 4 (by omega))
      (by rw [Nat.add_assoc]; exact j 5 (by omega))
      (by rw [Nat.add_assoc]; exact j 6 (by omega))
      (by rw [Nat.add_assoc]; exact j 7 (by omega))
  have s3 := chunkLoop_other file f (2 ^ 32 - 1)
    { p := 33 + 4 + 4 + len' + 4, W := toInt32 (w % 2 ^ 32), H := toInt32 (h % 2 ^ 32),
      idat_concat := (pngIdat w h rgb).take len' }
    [255, 255, 255, 255] hjlen (by simp only []; omega) hjtype (by decide) (by decide)
    (by decide)
  simp only [] at s3
  have s4 := chunkLoop_exit file f
    { p := 33 + 4 + 4 + len' + 4 + 4 + 4 + (2 ^ 32 - 1) + 4, W := toInt32 (w % 2 ^ 32),
      H := toInt32 (h % 2 ^ 32), idat_concat := (pngIdat w h rgb).take len' }
    (by simp only []; omega)
  have hchunk : chunkLoop file file.length { p := 8, W := 0, H := 0, idat_concat := [] }
      = some { p := 33 + 4 + 4 + len' + 4 + 4 + 4 + (2 ^ 32 - 1) + 4, W := (w : Int),
               H := (h : Int), idat_concat := (pngIdat w h rgb).take len' } := by
    rw [hf3, hfirst, s2, s3, s4, eW, eH]
  -- the stored-block loop on the truncated data
  have hL : ((pngIdat w h rgb).take len').length = len' := by
    rw [List.length_take, hlen]; omega
  obtain ⟨fb, hfb⟩ : ∃ fb, len' = fb + 1 := ⟨len' - 1, by omega⟩
  have hblock : blockLoop ((pngIdat w h rgb).take len') len' 2 [] = none := by
    have g : ∀ i, i < 7 → ((pngIdat w h rgb).take len').getD i 0
        = [0x78, 0x01, 0, 255, 255, 0, 0].getD i 0 := by
      intro i hi
      rw [getD_take _ _ _ (by omega), hi_small i hi]
    have hb := blockLoop_truncated ((pngIdat w h rgb).take len') fb (by rw [hL]; exact h7)
      (by rw [hL]; omega) (g 2 (by omega)) (g 3 (by omega)) (g 4 (by omega)) (g 5 (by omega))
      (g 6 (by omega))
    rw [← hfb] at hb
    exact hb
  unfold readPNG_extractRGB
  rw [if_neg (by omega), if_neg (by rw [hsig]; simp), hchunk]
  simp only []
  have hW0 : ¬ ((w : Int) = 0 ∨ (h : Int) = 0) := by omega
  rw [if_neg hW0, if_neg (by rw [hL]; omega), hL, hblock]


/-! ## Values of the program's `int` -/

/-- No 32-bit pattern read as an `int` equals a number from `2 ^ 31` on. -/
theorem toInt32_ne_of_ge (n v : Nat) (hv : 2 ^ 31 ≤ v) : toInt32 n ≠ (v : Int) := by
  unfold toInt32
  split <;> omega

/-- A canvas whose buffer size `W * H * 3` is a value of `int` has sides that
are values of `int`. -/
theorem render_sides (text : List Nat) (maxWidthChars : Int) (margin : Nat)
    (hsize : (renderRaster text maxWidthChars margin).1
      * (renderRaster text maxWidthChars margin).2.1 * 3 < 2 ^ 31) :
    (renderRaster text maxWidthChars margin).1 < 2 ^ 31
      ∧ (renderRaster text maxWidthChars margin).2.1 < 2 ^ 31 := by
  have eW : (renderRaster text maxWidthChars margin).1
      = margin * 2 + layoutCols (layoutLines text maxWidthChars) * 8 := rfl
  have eH : (renderRaster text maxWidthChars margin).2.1
      = margin * 2 + (layoutLines text maxWidthChars).length * 8 := rfl
  have hc := layoutCols_pos (layoutLines text maxWidthChars)
  constructor
  · by_cases h0 : (renderRaster text maxWidthChars margin).2.1 = 0
    · have hl : (layoutLines text maxWidthChars).length = 0 := by omega
      have hnil : layoutLines text maxWidthChars = [] := List.length_eq_zero.mp hl
      have h1 : layoutCols ([] : List (List Nat)) = 1 := rfl
      rw [eW, hnil, h1]
      omega
    · have := Nat.le_mul_of_pos_right (renderRaster text maxWidthChars margin).1
        (Nat.pos_of_ne_zero h0)
      omega
  · have := Nat.mul_le_mul_right (renderRaster text maxWidthChars margin).2.1
      (show 8 ≤ (renderRaster text maxWidthChars margin).1 by omega)
    omega


/-! ## The bit channel: round trips and wire shape -/

theorem getBitPixel_embedded (img payload : List Nat) (W H k : Nat)
    (himg : img.length = W * H * 3) (hcap : 32 + 8 * payload.length ≤ W * H)
    (hk : k < 32 + 8 * payload.length) :
    getBitPixel (embedPayload img W H payload) (W * H) k = (buildBits true payload).getD k 0 := by
  have hlen := buildBits_length payload
  have hne : (buildBits true payload).isEmpty = false := by
    cases hb : buildBits true payload with
    | nil => rw [hb, List.length_nil] at hlen; omega
    | cons a t => rfl
  unfold getBitPixel embedPayload embedBits embedBitCount
  rw [hne, if_neg (by omega)]
  simp only [Bool.false_eq_true, if_false]
  rw [if_neg (by rw [hlen]; omega), hlen,
    embedLoop_getD_blue img _ _ k hk (by rw [himg]; omega)]
  exact lsb_replace _ _ (buildBits_le_one payload k)

theorem wavBitvals_wavBuffer (payload : List Nat) :
    wavBitvals (wavBuffer payload) = buildBits true payload := by
  have hl1 : (wavBitvals (wavBuffer payload)).length = 32 + 8 * payload.length := by
    rw [wavBitvals_length, wavBuffer_length]; ring
  apply ext_getD (by rw [hl1, buildBits_length])
  intro k hk
  rw [hl1] at hk
  rw [wavBitvals_getD _ _ (by rw [wavBuffer_length]; omega)]
  by_cases h32 : k < 32
  · rw [wavBuffer_bit_lt payload k h32, buildBits_getD_lt payload k h32]
  · have e : k = 32 + ((k - 32) / 8) * 8 + (k - 32) % 8 := by omega
    rw [e, wavBuffer_bit_ge payload _ _ (by omega),
      buildBits_getD_ge payload _ _ (by omega) (by omega)]

theorem wavSamples_lsb (carrier : Nat → Int) (payload : List Nat)
    (h : 32 + 8 * payload.length < 2 ^ 32) :
    (wavSamples carrier payload).map sampleLSB = buildBits true payload := by
  rw [wavSamples_eq carrier payload h, ← wavBitvals_wavBuffer, List.map_map]
  have hl1 : (wavBitvals (wavBuffer payload)).length = 32 + 8 * payload.length := by
    rw [wavBitvals_length, wavBuffer_length]; ring
  apply ext_getD (by simp [hl1])
  intro k hk
  have hk2 : k < 32 + 8 * payload.length := by simpa using hk
  rw [getD_range_map _ _ _ _ hk2, wavBitvals_getD _ _ (by rw [wavBuffer_length]; omega)]
  exact finalSample_lsb _ _ (bufferBit_le_one _ _)

theorem getBitSample_written (carrier : Nat → Int) (payload : List Nat) (k : Nat)
    (h : 32 + 8 * payload.length < 2 ^ 32) (hk : k < 32 + 8 * payload.length) :
    getBitSample (wavSamples carrier payload) k = (buildBits true payload).getD k 0 := by
  have hlen : (wavSamples carrier payload).length = 32 + 8 * payload.length := by
    rw [wavSamples_eq carrier payload h]; simp
  unfold getBitSample
  rw [if_neg (by rw [hlen]; omega), ← wavSamples_lsb carrier payload h]
  have : ((wavSamples carrier payload).map sampleLSB).getD k 0
      = sampleLSB ((wavSamples carrier payload).getD k 0) := by
    rw [List.getD_eq_getElem _ _ (by simpa [hlen] using hk),
      List.getD_eq_getElem _ _ (by rw [hlen]; exact hk)]
    simp
  rw [this]

theorem read_back (get_bit : Nat → Nat) (payload : List Nat)
    (hL : payload.length < 2 ^ 32) (hbytes : ∀ b ∈ payload, b < 256)
    (hg : ∀ k, k < 32 + 8 * payload.length → get_bit k = (buildBits true payload).getD k 0) :
    readLength get_bit = payload.length
      ∧ readPayload get_bit payload.length = payload := by
  constructor
  · apply readLength_eq get_bit payload.length hL
    intro b hb
    rw [hg b (by omega), buildBits_getD_lt payload b hb, Nat.mod_eq_of_lt hL]
  · apply readPayload_of_bits
    · intro i hi
      apply hbytes
      rw [List.getD_eq_getElem _ _ hi]
      exact List.getElem_mem hi
    · intro i b hi hb
      rw [hg _ (by omega), buildBits_getD_ge payload i b hi hb]

/-- C1: for every `W × H` pixel buffer (`W`, `H` values of the program's `int`)
with arbitrary content and every payload of bytes whose length `L` satisfies
`0 < L`, `32 + 8 L ≤ W H` (and fits the 32-bit length field the payload vector
is sized by), extracting with `decodePayloadFromPNG` / `decodePayloadFromBMP`
from the buffer produced by the blue-LSB embed loop succeeds and returns
exactly the payload. -/
theorem image_carrier_roundtrip (W H : Nat) (img payload : List Nat)
    (hW : W < 2 ^ 31) (hH : H < 2 ^ 31) (himg : img.length = W * H * 3)
    (hbytes : ∀ b ∈ payload, b < 256) (hL : payload.length < 2 ^ 32)
    (hpos : 0 < payload.length) (hcap : 32 + 8 * payload.length ≤ W * H) :
    decodePayloadFromPixels (W : Int) (H : Int) (embedPayload img W H payload)
      = some payload := by
  have hWH : W * H < 2 ^ 64 := by
    calc W * H < 2 ^ 31 * 2 ^ 31 := Nat.mul_lt_mul'' hW hH
      _ < 2 ^ 64 := by norm_num
  have hpx := pxCountOf_nat W H hWH (by omega) (by omega)
  obtain ⟨hlen, hpay⟩ := read_back (getBitPixel (embedPayload img W H payload) (W * H))
    payload hL hbytes (fun k hk => getBitPixel_embedded img payload W H k himg hcap hk)
  unfold decodePayloadFromPixels
  simp only [hpx, hlen]
  rw [if_neg (by omega), if_neg (by omega), if_neg (by omega), hpay]

theorem image_carrier_roundtrip_witness :
    decodePayloadFromPixels 8 8 (embedPayload (List.replicate 192 255) 8 8 [0x41, 0x42, 0x43])
      = some [0x41, 0x42, 0x43] :=
  image_carrier_roundtrip 8 8 (List.replicate 192 255) [0x41, 0x42, 0x43]
    (by norm_num) (by norm_num) (by rw [List.length_replicate]) (by decide) (by simp) (by decide)
    (by decide)


theorem extractFromSamples_written (carrier : Nat → Int) (payload : List Nat)
    (hbytes : ∀ b ∈ payload, b < 256) (h : 32 + 8 * payload.length < 2 ^ 32) :
    extractFromSamples (wavSamples carrier payload) = some payload := by
  have hlen : (wavSamples carrier payload).length = 32 + 8 * payload.length := by
    rw [wavSamples_eq carrier payload h]; simp
  have hne : (wavSamples carrier payload).isEmpty = false := by
    cases hs : wavSamples carrier payload with
    | nil => rw [hs, List.length_nil] at hlen; omega
    | cons a t => rfl
  obtain ⟨hl, hpay⟩ := read_back (getBitSample (wavSamples carrier payload)) payload
    (by omega) hbytes (fun k hk => getBitSample_written carrier payload k h hk)
  unfold extractFromSamples
  rw [hne]
  simp only [Bool.false_eq_true, if_false, hl, hlen]
  rw [if_neg (by omega), if_neg (by omega), hpay]

theorem extract_of_wrapped_header (carrier : Nat → Int) (payload : List Nat) (sr : Int)
    (h : wavNumSamples payload = 2 ^ 31) :
    extractPayloadFromWAV_LSB (writeWAV_LSBCarrier carrier payload sr) = none := by
  unfold extractPayloadFromWAV_LSB writeWAV_LSBCarrier
  simp only []
  rw [wavBody_eq, readWAV_header, h]
  have e : (2 ^ 31 * 2) % 2 ^ 32 = 0 := by norm_num
  rw [e, if_neg (by omega)]
  rfl

/-- C2 (as stated, refuted): a payload of `2 ^ 28 - 4` bytes is non-empty and
has `32 + 8 L = 2 ^ 31 < 2 ^ 32` wire bits, yet the 32-bit data size that
`writeWAV_LSBCarrier` stores in the header is `2 ^ 32 mod 2 ^ 32 = 0`, so the
reader finds no samples and `extractPayloadFromWAV_LSB` fails on the written
file. -/
theorem wav_carrier_roundtrip_counterexample :
    0 < (List.replicate (2 ^ 28 - 4) 0).length
      ∧ 32 + 8 * (List.replicate (2 ^ 28 - 4) 0).length < 2 ^ 32
      ∧ (∀ b ∈ List.replicate (2 ^ 28 - 4) 0, b < 256)
      ∧ extractPayloadFromWAV_LSB
          (writeWAV_LSBCarrier (fun _ => 0) (List.replicate (2 ^ 28 - 4) 0) 44100) = none := by
  refine ⟨?_, ?_, ?_, ?_⟩
  · rw [List.length_replicate]; norm_num
  · rw [List.length_replicate]; norm_num
  · intro b hb
    rw [(List.mem_replicate.mp hb).2]
    norm_num
  · apply extract_of_wrapped_header
    rw [wavNumSamples_eq, List.length_replicate]
    norm_num

/-- C2 (amended): for every non-empty payload of bytes with
`32 + 8 L < 2 ^ 31` (so that the 32-bit data size `2 (32 + 8 L)` of the header
does not wrap), every sample rate and every carrier, the file written by
`writeWAV_LSBCarrier` holds exactly `32 + 8 L` samples and
`extractPayloadFromWAV_LSB` on it returns exactly the payload. -/
theorem wav_carrier_roundtrip (carrier : Nat → Int) (payload : List Nat) (sr : Int)
    (hbytes : ∀ b ∈ payload, b < 256) (hpos : 0 < payload.length)
    (hL : 32 + 8 * payload.length < 2 ^ 31) :
    extractPayloadFromWAV_LSB (writeWAV_LSBCarrier carrier payload sr) = some payload
      ∧ (readWAV_samples (writeWAV_LSBCarrier carrier payload sr)).map (fun r => r.1.length)
          = some (32 + 8 * payload.length) := by
  have hlen : (wavSamples carrier payload).length = 32 + 8 * payload.length := by
    rw [wavSamples_eq carrier payload (by omega)]; simp
  unfold extractPayloadFromWAV_LSB
  rw [readWAV_written carrier payload sr hL]
  constructor
  · simp only [Option.some_bind]
    exact extractFromSamples_written carrier payload hbytes (by omega)
  · simp only [Option.map_some', hlen]

theorem wav_carrier_roundtrip_witness :
    extractPayloadFromWAV_LSB (writeWAV_LSBCarrier (fun _ => 20000) [0x41, 0x42, 0x43] 44100)
        = some [0x41, 0x42, 0x43]
      ∧ (readWAV_samples (writeWAV_LSBCarrier (fun _ => 20000) [0x41, 0x42, 0x43] 44100)).map
          (fun r => r.1.length) = some (32 + 8 * [0x41, 0x42, 0x43].length) :=
  wav_carrier_roundtrip (fun _ => 20000) [0x41, 0x42, 0x43] 44100 (by decide) (by decide)
    (by norm_num)

/-- C9 (the code at the failing input): on a WAV file of 32 samples that are
all zero, so that the declared length is 0, `extractPayloadFromWAV_LSB` reports
success with an empty payload instead of failing. -/
theorem wav_zero_length_accepted :
    extractPayloadFromWAV_LSB (wavHeader 32 44100 ++ List.replicate 64 0) = some [] := by
  decide

/-- The wire within the 32-bit sample count: for every payload with
`32 + 8 L < 2 ^ 32` (where every store of the fill loops lies inside the
sample vector, `wavFillChecked_eq`), the sequence of sample LSBs written by
`writeWAV_LSBCarrier`, the sequence of bit values its loops compute from the
four little-endian length bytes and the payload bytes, and the bit vector
built by the image embedders are the same sequence of `32 + 8 L` bits: bit `k`
is bit `k` of `L` for `k < 32`, and bit `(k - 32) mod 8` of byte
`(k - 32) div 8` of the payload for `32 ≤ k < 32 + 8 L`. -/
theorem wire_shape (carrier : Nat → Int) (payload : List Nat)
    (h : 32 + 8 * payload.length < 2 ^ 32) :
    (wavSamples carrier payload).map sampleLSB = buildBits true payload
      ∧ wavBitvals (wavBuffer payload) = buildBits true payload
      ∧ (buildBits true payload).length = 32 + 8 * payload.length
      ∧ (∀ k, k < 32 → (buildBits true payload).getD k 0 = (payload.length >>> k) &&& 1)
      ∧ (∀ k, 32 ≤ k → k < 32 + 8 * payload.length →
          (buildBits true payload).getD k 0
            = (payload.getD ((k - 32) / 8) 0 >>> ((k - 32) % 8)) &&& 1) := by
  refine ⟨wavSamples_lsb carrier payload h, wavBitvals_wavBuffer payload,
    buildBits_length payload, ?_, ?_⟩
  · intro k hk
    rw [buildBits_getD_lt payload k hk, Nat.mod_eq_of_lt (by omega)]
  · intro k hk1 hk2
    have e : k = 32 + ((k - 32) / 8) * 8 + (k - 32) % 8 := by omega
    conv_lhs => rw [e]
    exact buildBits_getD_ge payload _ _ (by omega) (by omega)

theorem wire_shape_witness :
    (wavSamples (fun _ => 20000) [0x41]).map sampleLSB = buildBits true [0x41]
      ∧ wavBitvals (wavBuffer [0x41]) = buildBits true [0x41]
      ∧ (buildBits true [0x41]).length = 32 + 8 * [0x41].length
      ∧ (∀ k, k < 32 → (buildBits true [0x41]).getD k 0 = ([0x41].length >>> k) &&& 1)
      ∧ (∀ k, 32 ≤ k → k < 32 + 8 * [0x41].length →
          (buildBits true [0x41]).getD k 0
            = ([0x41].getD ((k - 32) / 8) 0 >>> ((k - 32) % 8)) &&& 1) :=
  wire_shape (fun _ => 20000) [0x41] (by norm_num)


/-! ## Container round trips -/

/-- C4: for every `W` and `H` with `1 ≤ W, H ≤ 4096` and every pixel buffer of
length `W * H * 3`, `readBMP24_pixels` on the bytes written by `writeBMP24`
succeeds and returns the same `W`, the same `H` and the same pixel buffer,
whether or not the row size `W * 3` is a multiple of 4. -/
theorem raster_roundtrip (W H : Nat) (rgb : List Nat) (hW1 : 1 ≤ W) (hW : W ≤ 4096)
    (hH1 : 1 ≤ H) (hH : H ≤ 4096) (hrgb : rgb.length = W * H * 3) :
    readBMP24_pixels (writeBMP24 W H rgb) = some ((W : Int), (H : Int), rgb) :=
  readBMP24_written W H rgb hW1 hW hH1 hH hrgb

theorem raster_roundtrip_witness :
    readBMP24_pixels (writeBMP24 3 2 [1, 2, 3, 4, 5, 6, 7, 8, 9, 10, 11, 12, 13, 14, 15, 16, 17, 18])
      = some ((3 : Int), (2 : Int),
          [1, 2, 3, 4, 5, 6, 7, 8, 9, 10, 11, 12, 13, 14, 15, 16, 17, 18]) :=
  raster_roundtrip 3 2 [1, 2, 3, 4, 5, 6, 7, 8, 9, 10, 11, 12, 13, 14, 15, 16, 17, 18]
    (by decide) (by decide) (by decide) (by decide) (by decide)

theorem getD_replicate_lt (n v j : Nat) (hj : j < n) : (List.replicate n v).getD j 0 = v := by
  rw [List.getD_eq_getElem _ _ (by rw [List.length_replicate]; exact hj)]
  exact List.getElem_replicate _ _

/-- C3 (as stated, refuted): for the image of width 21845 and height 65532
whose pixel bytes are all 255, the IDAT data are `2 ^ 32 + 65527` bytes long;
the 32-bit chunk length written by `writePNG_raw` is 65527, so
`readPNG_extractRGB` collects only the first 65527 bytes of the data, finds the
first stored block cut short and fails on the file. -/
theorem compressed_image_roundtrip_counterexample :
    1 ≤ 21845 ∧ 1 ≤ 65532
      ∧ (List.replicate (21845 * 65532 * 3) 255).length = 21845 * 65532 * 3
      ∧ readPNG_extractRGB (writePNG_raw 21845 65532 (List.replicate (21845 * 65532 * 3) 255))
          = none := by
  have hrgb : (List.replicate (21845 * 65532 * 3) 255).length = 21845 * 65532 * 3 :=
    List.length_replicate _ _
  refine ⟨by norm_num, by norm_num, hrgb, ?_⟩
  apply readPNG_wrapped 21845 65532 _ 65527 hrgb (by norm_num) (by norm_num) (by norm_num)
    (by norm_num) _ (by norm_num) (by norm_num)
  · intro j hj
    exact getD_replicate_lt _ _ _ (by omega)
  · rw [pngIdat_length _ _ _ hrgb]
    norm_num

/-- C3 (amended): for every `W ≥ 1`, `H ≥ 1` and every pixel buffer of length
`W * H * 3` such that the IDAT data, of `6 + n + 5 * ceil(n / 65535)` bytes
with `n = H * (3 W + 1)`, fit the 32-bit chunk length (and `3 W + 1` fits the
program's `int`), `readPNG_extractRGB` on the bytes written by `writePNG_raw`
succeeds and returns the same `W`, the same `H` and the same pixel buffer,
also when the raw data are split over several stored blocks. -/
theorem compressed_image_roundtrip (W H : Nat) (rgb : List Nat) (hW1 : 1 ≤ W) (hH1 : 1 ≤ H)
    (hrgb : rgb.length = W * H * 3) (hint : W * 3 + 1 < 2 ^ 31)
    (hidat : 6 + H * (W * 3 + 1) + 5 * ((H * (W * 3 + 1) + 65534) / 65535) < 2 ^ 32) :
    readPNG_extractRGB (writePNG_raw W H rgb) = some ((W : Int), (H : Int), rgb) := by
  have _ := hint
  exact readPNG_written W H rgb hW1 hH1 hrgb hidat

theorem compressed_image_roundtrip_witness :
    readPNG_extractRGB (writePNG_raw 2 1 [1, 2, 3, 4, 5, 6])
      = some ((2 : Int), (1 : Int), [1, 2, 3, 4, 5, 6]) :=
  compressed_image_roundtrip 2 1 [1, 2, 3, 4, 5, 6] (by decide) (by decide) (by decide)
    (by norm_num) (by norm_num)


/-! ## Rejected carriers -/

theorem readPayload_length (get_bit : Nat → Nat) (len : Nat) :
    (readPayload get_bit len).length = len := by
  rw [readPayload_eq]; simp

theorem readLength_zero (get_bit : Nat → Nat) (h : ∀ b, b < 32 → get_bit b = 0) :
    readLength get_bit = 0 := by
  apply readLength_eq get_bit 0 (by norm_num)
  intro b hb
  rw [h b hb]
  simp

theorem extractFromSamples_short (samples : List Int)
    (h : samples.length < 32 ∨ 32 + 8 * readLength (getBitSample samples) > samples.length) :
    extractFromSamples samples = none := by
  unfold extractFromSamples
  split
  · rfl
  · split
    · rfl
    · rename_i h32
      rcases h with h | h
      · exact absurd h h32
      · simp only []
        rw [if_pos (by omega)]

theorem extractFromSamples_some (samples : List Int) (payload : List Nat)
    (h : extractFromSamples samples = some payload) :
    payload.length = readLength (getBitSample samples) := by
  unfold extractFromSamples at h
  split at h
  · exact absurd h (by simp)
  · split at h
    · exact absurd h (by simp)
    · simp only [] at h
      split at h
      · exact absurd h (by simp)
      · injection h with h
        rw [← h, readPayload_length]

theorem decodePixels_short (W H : Int) (rgb : List Nat)
    (h : pxCountOf W H < 32
      ∨ 32 + 8 * readLength (getBitPixel rgb (pxCountOf W H)) > pxCountOf W H) :
    decodePayloadFromPixels W H rgb = none := by
  unfold decodePayloadFromPixels
  simp only []
  split
  · rfl
  · split
    · rfl
    · rename_i h32 _
      rcases h with h | h
      · exact absurd h h32
      · rw [if_pos (by omega)]

theorem decodePixels_some (W H : Int) (rgb payload : List Nat)
    (h : decodePayloadFromPixels W H rgb = some payload) :
    payload.length = readLength (getBitPixel rgb (pxCountOf W H)) := by
  unfold decodePayloadFromPixels at h
  simp only [] at h
  split at h
  · exact absurd h (by simp)
  · split at h
    · exact absurd h (by simp)
    · split at h
      · exact absurd h (by simp)
      · injection h with h
        rw [← h, readPayload_length]

theorem decodePixels_zero (W H : Int) (rgb : List Nat)
    (h : ∀ k, k < 32 → rgb.getD (k * 3 + 2) 0 &&& 1 = 0) :
    decodePayloadFromPixels W H rgb = none := by
  have hz : readLength (getBitPixel rgb (pxCountOf W H)) = 0 := by
    apply readLength_zero
    intro b hb
    unfold getBitPixel
    split
    · rfl
    · exact h b hb
  unfold decodePayloadFromPixels
  simp only [hz]
  split <;> rfl

theorem decodePixels_ne_nil (W H : Int) (rgb : List Nat) :
    decodePayloadFromPixels W H rgb ≠ some [] := by
  intro h
  have hl := decodePixels_some W H rgb [] h
  unfold decodePayloadFromPixels at h
  simp only [] at h
  split at h
  · exact absurd h (by simp)
  · split at h
    · exact absurd h (by simp)
    · rename_i hne
      exact hne hl.symm

/-- C7: each of `extractPayloadFromWAV_LSB`, `decodePayloadFromPNG` and
`decodePayloadFromBMP` fails whenever its carrier (the samples or pixels its
reader returned) has fewer than 32 units, and whenever the length `L` read from
the first 32 LSBs has `32 + 8 L` greater than the number of units; a payload
it returns has exactly the declared length. -/
theorem short_carrier_rejected :
    (∀ file samples sr, readWAV_samples file = some (samples, sr) →
        (samples.length < 32 ∨ 32 + 8 * readLength (getBitSample samples) > samples.length) →
        extractPayloadFromWAV_LSB file = none)
      ∧ (∀ file samples sr payload, readWAV_samples file = some (samples, sr) →
        extractPayloadFromWAV_LSB file = some payload →
        payload.length = readLength (getBitSample samples))
      ∧ (∀ file W H rgb, readPNG_extractRGB file = some (W, H, rgb) →
        (pxCountOf W H < 32
          ∨ 32 + 8 * readLength (getBitPixel rgb (pxCountOf W H)) > pxCountOf W H) →
        decodePayloadFromPNG file = none)
      ∧ (∀ file W H rgb payload, readPNG_extractRGB file = some (W, H, rgb) →
        decodePayloadFromPNG file = some payload →
        payload.length = readLength (getBitPixel rgb (pxCountOf W H)))
      ∧ (∀ file W H rgb, readBMP24_pixels file = some (W, H, rgb) →
        (pxCountOf W H < 32
          ∨ 32 + 8 * readLength (getBitPixel rgb (pxCountOf W H)) > pxCountOf W H) →
        decodePayloadFromBMP file = none)
      ∧ (∀ file W H rgb payload, readBMP24_pixels file = some (W, H, rgb) →
        decodePayloadFromBMP file = some payload →
        payload.length = readLength (getBitPixel rgb (pxCountOf W H))) := by
  refine ⟨?_, ?_, ?_, ?_, ?_, ?_⟩
  · intro file samples sr hr h
    unfold extractPayloadFromWAV_LSB
    rw [hr, Option.some_bind]
    exact extractFromSamples_short samples h
  · intro file samples sr payload hr h
    unfold extractPayloadFromWAV_LSB at h
    rw [hr, Option.some_bind] at h
    exact extractFromSamples_some samples payload h
  · intro file W H rgb hr h
    unfold decodePayloadFromPNG
    rw [hr, Option.some_bind]
    exact decodePixels_short W H rgb h
  · intro file W H rgb payload hr h
    unfold decodePayloadFromPNG at h
    rw [hr, Option.some_bind] at h
    exact decodePixels_some W H rgb payload h
  · intro file W H rgb hr h
    unfold decodePayloadFromBMP
    rw [hr, Option.some_bind]
    exact decodePixels_short W H rgb h
  · intro file W H rgb payload hr h
    unfold decodePayloadFromBMP at h
    rw [hr, Option.some_bind] at h
    exact decodePixels_some W H rgb payload h

theorem short_carrier_rejected_witness :
    extractPayloadFromWAV_LSB (wavHeader 2 44100 ++ [1, 0, 1, 0]) = none :=
  short_carrier_rejected.1 (wavHeader 2 44100 ++ [1, 0, 1, 0]) [1, 1] 44100 (by decide)
    (Or.inl (by decide))

/-- C8: for every image whose first 32 blue-channel LSBs are all 0, so that
the declared length is 0, `decodePayloadFromPNG` and `decodePayloadFromBMP`
fail; they do not return an empty payload. -/
theorem zero_length_rejected_image :
    (∀ W H rgb, (∀ k, k < 32 → rgb.getD (k * 3 + 2) 0 &&& 1 = 0) →
        decodePayloadFromPixels W H rgb = none)
      ∧ (∀ file W H rgb, readPNG_extractRGB file = some (W, H, rgb) →
        (∀ k, k < 32 → rgb.getD (k * 3 + 2) 0 &&& 1 = 0) → decodePayloadFromPNG file = none)
      ∧ (∀ file W H rgb, readBMP24_pixels file = some (W, H, rgb) →
        (∀ k, k < 32 → rgb.getD (k * 3 + 2) 0 &&& 1 = 0) → decodePayloadFromBMP file = none)
      ∧ (∀ file, decodePayloadFromPNG file ≠ some [])
      ∧ (∀ file, decodePayloadFromBMP file ≠ some []) := by
  refine ⟨decodePixels_zero, ?_, ?_, ?_, ?_⟩
  · intro file W H rgb hr h
    unfold decodePayloadFromPNG
    rw [hr, Option.some_bind]
    exact decodePixels_zero W H rgb h
  · intro file W H rgb hr h
    unfold decodePayloadFromBMP
    rw [hr, Option.some_bind]
    exact decodePixels_zero W H rgb h
  · intro file h
    unfold decodePayloadFromPNG at h
    cases hr : readPNG_extractRGB file with
    | none => rw [hr] at h; simp at h
    | some r =>
      rw [hr, Option.some_bind] at h
      exact decodePixels_ne_nil _ _ _ h
  · intro file h
    unfold decodePayloadFromBMP at h
    cases hr : readBMP24_pixels file with
    | none => rw [hr] at h; simp at h
    | some r =>
      rw [hr, Option.some_bind] at h
      exact decodePixels_ne_nil _ _ _ h

theorem zero_length_rejected_image_witness :
    decodePayloadFromPixels 8 4 (List.replicate 96 254) = none :=
  zero_length_rejected_image.1 8 4 (List.replicate 96 254) (by decide)


/-! ## The glyph rasterizer: canvas size and recognition -/

theorem hello_layout : layoutLines [72, 69, 76, 76, 79] 80 = [[72, 69, 76, 76, 79]] := by
  decide

set_option maxRecDepth 100000 in
theorem hello_extract_lit :
    extractTextOn 60 28 (litRead [[72, 69, 76, 76, 79]] 10 60 28)
      = some [10, 32, 72, 69, 76, 76, 79, 10] := by
  decide

/-- C5 (the code at the failing input): the raster rendered for "HELLO" at
margin 10 is 60 wide and 28 high, and `extractTextFromRenderedBMP` on it
succeeds with the text "\n HELLO\n": the margin search stops at margin 2, so
the grid has 3 rows and 7 columns, one blank row and one blank column more on
each side than the rendered text. -/
theorem hello_recognition :
    (renderRaster [72, 69, 76, 76, 79] 80 10).1 = 60
      ∧ (renderRaster [72, 69, 76, 76, 79] 80 10).2.1 = 28
      ∧ extractTextFromRenderedBMP 60 28 (renderRaster [72, 69, 76, 76, 79] 80 10).2.2
          = some [10, 32, 72, 69, 76, 76, 79, 10] := by
  have hW : (renderRaster [72, 69, 76, 76, 79] 80 10).1 = 60 := by decide
  have hH : (renderRaster [72, 69, 76, 76, 79] 80 10).2.1 = 28 := by decide
  refine ⟨hW, hH, ?_⟩
  unfold extractTextFromRenderedBMP
  rw [render_read, hello_layout, hW, hH]
  exact hello_extract_lit

/-- C6 (as stated, refuted): for the text "H" and the margin `2 ^ 30`, a
non-negative value of the program's `int`, the layout is one line of one
character and the claimed width `2 margin + 8 cols` is `2 ^ 31 + 8`. No value
of the `int W` of line 1216 equals it: the expression `margin*2 + cols*charW`
overflows, and `renderTextToBMP` builds no canvas of the claimed size. -/
theorem render_canvas_size_counterexample :
    toInt32 (2 ^ 30) = 2 ^ 30
      ∧ layoutLines [72] 80 = [[72]]
      ∧ 2 * 2 ^ 30 + 8 * layoutCols (layoutLines [72] 80) = 2 ^ 31 + 8
      ∧ ∀ n : Nat,
          toInt32 n ≠ ((2 * 2 ^ 30 + 8 * layoutCols (layoutLines [72] 80) : Nat) : Int) := by
  have hc : layoutCols (layoutLines [72] 80) = 1 := by decide
  refine ⟨by decide, by decide, ?_, ?_⟩
  · rw [hc]; norm_num
  · intro n
    apply toInt32_ne_of_ge
    rw [hc]; norm_num

/-- C6 (amended): for every text, wrap width and margin `≥ 0` whose canvas
size `W * H * 3` is a value of the program's `int` (below `2 ^ 31`, so that
the `int` expressions of lines 1216 to 1218 are exact), the canvas of
`renderTextToBMP` has width `2 margin + 8 cols` and height `2 margin + 8 rows`
and a pixel buffer of exactly `W * H * 3` bytes, where `rows` is the number of
laid-out lines and `cols` is the length of the longest laid-out line, taken as
1 when every line is empty; for "HELLO" at margin 10 the canvas is 60 by 28. -/
theorem render_canvas_size (text : List Nat) (maxWidthChars : Int) (margin : Nat)
    (hsize : (renderRaster text maxWidthChars margin).1
      * (renderRaster text maxWidthChars margin).2.1 * 3 < 2 ^ 31) :
    (renderRaster text maxWidthChars margin).1
        = 2 * margin + 8 * layoutCols (layoutLines text maxWidthChars)
      ∧ (renderRaster text maxWidthChars margin).2.1
        = 2 * margin + 8 * (layoutLines text maxWidthChars).length
      ∧ (renderRaster text maxWidthChars margin).2.2.length
        = (renderRaster text maxWidthChars margin).1
          * (renderRaster text maxWidthChars margin).2.1 * 3
      ∧ (∀ ln, ln ∈ layoutLines text maxWidthChars →
          ln.length ≤ layoutCols (layoutLines text maxWidthChars))
      ∧ ((∀ ln, ln ∈ layoutLines text maxWidthChars → ln.length = 0) →
          layoutCols (layoutLines text maxWidthChars) = 1)
      ∧ ((∃ ln, ln ∈ layoutLines text maxWidthChars ∧ ln.length ≠ 0) →
          ∃ ln, ln ∈ layoutLines text maxWidthChars
            ∧ ln.length = layoutCols (layoutLines text maxWidthChars))
      ∧ (renderRaster [72, 69, 76, 76, 79] 80 10).1 = 60
      ∧ (renderRaster [72, 69, 76, 76, 79] 80 10).2.1 = 28 := by
  have _ := hsize
  obtain ⟨c1, c2, c3⟩ := layoutCols_spec (layoutLines text maxWidthChars)
  refine ⟨?_, ?_, render_length text maxWidthChars margin, c1, c2, c3, by decide, by decide⟩
  · show margin * 2 + layoutCols (layoutLines text maxWidthChars) * 8 = _
    omega
  · show margin * 2 + (layoutLines text maxWidthChars).length * 8 = _
    omega

theorem render_canvas_size_witness :
    (renderRaster [72, 69, 76, 76, 79] 80 10).1
        = 2 * 10 + 8 * layoutCols (layoutLines [72, 69, 76, 76, 79] 80)
      ∧ (renderRaster [72, 69, 76, 76, 79] 80 10).2.1
        = 2 * 10 + 8 * (layoutLines [72, 69, 76, 76, 79] 80).length
      ∧ (renderRaster [72, 69, 76, 76, 79] 80 10).2.2.length
        = (renderRaster [72, 69, 76, 76, 79] 80 10).1
          * (renderRaster [72, 69, 76, 76, 79] 80 10).2.1 * 3 :=
  let t := render_canvas_size [72, 69, 76, 76, 79] 80 10 (by decide)
  ⟨t.1, t.2.1, t.2.2.1⟩


/-! ## The sample count and the untouched higher bits -/

theorem int_land_neg_one (m : Int) : Int.land m (-1) = m := by
  cases m with
  | ofNat a =>
    show Int.land (Int.ofNat a) (Int.negSucc 0) = Int.ofNat a
    simp [Int.land, Nat.ldiff]
  | negSucc a =>
    show Int.land (Int.negSucc a) (Int.negSucc 0) = Int.negSucc a
    simp [Int.land]

theorem int_lor_zero (m : Int) : Int.lor m 0 = m := by
  cases m with
  | ofNat a =>
    show Int.lor (Int.ofNat a) (Int.ofNat 0) = Int.ofNat a
    simp [Int.lor]
  | negSucc a =>
    show Int.lor (Int.negSucc a) (Int.ofNat 0) = Int.negSucc a
    simp [Int.lor, Nat.ldiff]

/-- The value of `(base & ~1) | (bitval & 1)`: the higher bits of `base` and
the bit. -/
theorem clear_and_set (base : Int) (v : Nat) (hv : v ≤ 1) :
    Int.lor (Int.land base (Int.lnot 1)) (Int.land (v : Int) 1) = 2 * (base / 2) + v := by
  have h1 : Int.lnot 1 = Int.bit false (-1) := by decide
  have hv1 : Int.land (v : Int) 1 = Int.bit (decide (v = 1)) 0 := by
    have hv2 : v = 0 ∨ v = 1 := by omega
    rcases hv2 with h | h <;> subst h <;> decide
  rw [hv1]
  conv_lhs => rw [← Int.bit_decomp base, h1, Int.land_bit, int_land_neg_one, Int.lor_bit,
    int_lor_zero]
  rw [Int.bit_val, Int.div2_val]
  have hv2 : v = 0 ∨ v = 1 := by omega
  rcases hv2 with h | h <;> subst h <;> simp

theorem finalSample_eq (c : Int) (v : Nat) (hv : v ≤ 1) :
    finalSample c v = 2 * (castInt16 c / 2) + v := by
  unfold finalSample
  simp only []
  rw [clear_and_set _ _ hv]
  have hr := castInt16_range c
  exact castInt16_of_range _ (by omega) (by omega)

theorem wavHeader_data_size (n : Nat) (sr : Int) (body : List Nat) :
    rdLE32 (wavHeader n sr ++ body) 40 = (n * 2) % 2 ^ 32 := by
  have hb : (n * 2) % 2 ^ 32 < 2 ^ 32 := Nat.mod_lt _ (by norm_num)
  have := le32_read _ hb
  simpa [wavHeader, le32, le16, rdLE32] using this

theorem wavSamples_getD (carrier : Nat → Int) (payload : List Nat) (i : Nat)
    (h : 32 + 8 * payload.length < 2 ^ 32) (hi : i < 32 + 8 * payload.length) :
    (wavSamples carrier payload).getD i 0
      = finalSample (carrier i) ((wavBitvals (wavBuffer payload)).getD i 0) := by
  rw [wavSamples_eq carrier payload h, getD_range_map _ _ _ _ hi,
    wavBitvals_getD _ _ (by rw [wavBuffer_length]; omega)]

theorem wavBitvals_le_one (buffer : List Nat) (k : Nat) : (wavBitvals buffer).getD k 0 ≤ 1 := by
  by_cases hk : k < 8 * buffer.length
  · rw [wavBitvals_getD _ _ hk]
    exact bufferBit_le_one _ _
  · rw [List.getD_eq_default _ _ (by rw [wavBitvals_length]; omega)]
    omega

/-- The sample count within 32 bits: for every payload with
`32 + 8 L < 2 ^ 32`, the 32-bit
`num_samples` of `writeWAV_LSBCarrier` equals `32 + 8 L`; the sample array has
that many entries, the data size of the header is twice that number (as a
32-bit field), and the file is the 44 header bytes followed by two bytes for
each of the `32 + 8 L` samples and nothing else. -/
theorem sample_count (carrier : Nat → Int) (payload : List Nat) (sr : Int)
    (h : 32 + 8 * payload.length < 2 ^ 32) :
    wavNumSamples payload = 32 + 8 * payload.length
      ∧ (wavSamples carrier payload).length = 32 + 8 * payload.length
      ∧ rdLE32 (writeWAV_LSBCarrier carrier payload sr) 40
          = (2 * (32 + 8 * payload.length)) % 2 ^ 32
      ∧ (writeWAV_LSBCarrier carrier payload sr).length = 44 + 2 * (32 + 8 * payload.length) := by
  have hN : wavNumSamples payload = 32 + 8 * payload.length := by
    rw [wavNumSamples_eq, Nat.mod_eq_of_lt (by omega)]; ring
  refine ⟨hN, by rw [wavSamples_length, hN], ?_, ?_⟩
  · unfold writeWAV_LSBCarrier
    simp only []
    rw [wavHeader_data_size, hN, Nat.mul_comm]
  · unfold writeWAV_LSBCarrier
    simp only []
    rw [List.length_append, wavHeader_length, wavBody_eq, wavBody_length, hN]
    omega

theorem sample_count_witness :
    wavNumSamples [0x41, 0x42, 0x43] = 32 + 8 * [0x41, 0x42, 0x43].length
      ∧ (wavSamples (fun _ => 20000) [0x41, 0x42, 0x43]).length
          = 32 + 8 * [0x41, 0x42, 0x43].length
      ∧ rdLE32 (writeWAV_LSBCarrier (fun _ => 20000) [0x41, 0x42, 0x43] 44100) 40
          = (2 * (32 + 8 * [0x41, 0x42, 0x43].length)) % 2 ^ 32
      ∧ (writeWAV_LSBCarrier (fun _ => 20000) [0x41, 0x42, 0x43] 44100).length
          = 44 + 2 * (32 + 8 * [0x41, 0x42, 0x43].length) :=
  sample_count (fun _ => 20000) [0x41, 0x42, 0x43] 44100 (by norm_num)

/-- The samples within the 32-bit count: for every payload with
`32 + 8 L < 2 ^ 32` and every bit
index `i < 32 + 8 L`, the sample written at index `i` is
`(base AND NOT 1) OR bit`, where `base` is the 16-bit carrier value of sample
`i` and `bit` is wire bit `i`: its least significant bit is the wire bit, its
15 higher bits are those of `base`, and it differs from `base` by at most 1.
The sample arrays of two payloads of equal length have the same length and
agree in all higher bits. -/
theorem lsb_only (carrier : Nat → Int) (payload other : List Nat) (i : Nat)
    (h : 32 + 8 * payload.length < 2 ^ 32) (hi : i < 32 + 8 * payload.length)
    (hother : other.length = payload.length) :
    (wavSamples carrier payload).getD i 0
        = Int.lor (Int.land (castInt16 (carrier i)) (Int.lnot 1))
            (Int.land (((wavBitvals (wavBuffer payload)).getD i 0 : Nat) : Int) 1)
      ∧ sampleLSB ((wavSamples carrier payload).getD i 0)
          = (wavBitvals (wavBuffer payload)).getD i 0
      ∧ (wavSamples carrier payload).getD i 0 / 2 = castInt16 (carrier i) / 2
      ∧ -1 ≤ (wavSamples carrier payload).getD i 0 - castInt16 (carrier i)
      ∧ (wavSamples carrier payload).getD i 0 - castInt16 (carrier i) ≤ 1
      ∧ (wavSamples carrier other).length = (wavSamples carrier payload).length
      ∧ ∀ j, (wavSamples carrier other).getD j 0 / 2
          = (wavSamples carrier payload).getD j 0 / 2 := by
  have hb := wavBitvals_le_one (wavBuffer payload) i
  have hs := wavSamples_getD carrier payload i h hi
  have he := finalSample_eq (carrier i) _ hb
  have hlen : (wavSamples carrier other).length = (wavSamples carrier payload).length := by
    rw [wavSamples_length, wavSamples_length, wavNumSamples_eq, wavNumSamples_eq, hother]
  refine ⟨?_, ?_, ?_, ?_, ?_, hlen, ?_⟩
  · rw [hs, he, clear_and_set _ _ hb]
  · rw [hs]; exact finalSample_lsb _ _ hb
  · rw [hs, he]; omega
  · rw [hs, he]; omega
  · rw [hs, he]; omega
  · intro j
    by_cases hj : j < 32 + 8 * payload.length
    · rw [wavSamples_getD carrier payload j h hj,
        wavSamples_getD carrier other j (by omega) (by omega),
        finalSample_eq _ _ (wavBitvals_le_one _ _), finalSample_eq _ _ (wavBitvals_le_one _ _)]
      have h1 := wavBitvals_le_one (wavBuffer payload) j
      have h2 := wavBitvals_le_one (wavBuffer other) j
      omega
    · have hN : (wavSamples carrier payload).length = 32 + 8 * payload.length := by
        rw [wavSamples_length, wavNumSamples_eq, Nat.mod_eq_of_lt (by omega)]; ring
      rw [List.getD_eq_default _ _ (by omega), List.getD_eq_default _ _ (by omega)]

theorem lsb_only_witness :
    (wavSamples (fun _ => 20000) [0x41]).getD 3 0
        = Int.lor (Int.land (castInt16 20000) (Int.lnot 1))
            (Int.land (((wavBitvals (wavBuffer [0x41])).getD 3 0 : Nat) : Int) 1)
      ∧ sampleLSB ((wavSamples (fun _ => 20000) [0x41]).getD 3 0)
          = (wavBitvals (wavBuffer [0x41])).getD 3 0
      ∧ (wavSamples (fun _ => 20000) [0x41]).getD 3 0 / 2 = castInt16 20000 / 2
      ∧ -1 ≤ (wavSamples (fun _ => 20000) [0x41]).getD 3 0 - castInt16 20000
      ∧ (wavSamples (fun _ => 20000) [0x41]).getD 3 0 - castInt16 20000 ≤ 1
      ∧ (wavSamples (fun _ => 20000) [0x42]).length = (wavSamples (fun _ => 20000) [0x41]).length
      ∧ ∀ j, (wavSamples (fun _ => 20000) [0x42]).getD j 0 / 2
          = (wavSamples (fun _ => 20000) [0x41]).getD j 0 / 2 :=
  lsb_only (fun _ => 20000) [0x41] [0x42] 3 (by norm_num) (by norm_num) rfl

/-! ## The fill loops past the end of the sample vector -/

theorem forLoop_set_len {α : Type} (m : Nat) (f : Nat → Nat) (g : Nat → α) (s : List α) :
    (forLoop m (fun j t => t.set (f j) (g j)) s).length = s.length := by
  induction m with
  | zero => rfl
  | succ k ih => rw [forLoop_succ, List.length_set, ih]

/-- The inner loop with checked stores agrees with the unchecked one while
the bit index stays below the size of the vector. -/
theorem wavFillChecked_inner (carrier : Nat → Int) (b c m : Nat) (s : List Int)
    (hc : c + m ≤ s.length) (h32 : c + m < 2 ^ 32) :
    forLoopM m
        (fun bit (st : Nat × List Int) =>
          if st.1 < st.2.length then
            some ((st.1 + 1) % 2 ^ 32,
              st.2.set st.1 (finalSample (carrier st.1) ((b >>> bit) &&& 1)))
          else none)
        (c, s)
      = some (c + m,
          forLoop m
            (fun j t => t.set (c + j) (finalSample (carrier (c + j)) ((b >>> j) &&& 1))) s) := by
  induction m with
  | zero => rfl
  | succ k ih =>
    show (forLoopM k _ (c, s)).bind _ = _
    rw [ih (by omega) (by omega), Option.some_bind]
    simp only []
    rw [if_pos (by rw [forLoop_set_len]; omega), forLoop_succ,
      Nat.mod_eq_of_lt (by omega)]
    rfl

/-- The store of bit `m` of a byte fails when the vector ends at its index. -/
theorem wavFillChecked_inner_none (carrier : Nat → Int) (b c m : Nat) (s : List Int)
    (hc : c + m = s.length) (h32 : c + m < 2 ^ 32) (hm : m < 8) :
    forLoopM 8
        (fun bit (st : Nat × List Int) =>
          if st.1 < st.2.length then
            some ((st.1 + 1) % 2 ^ 32,
              st.2.set st.1 (finalSample (carrier st.1) ((b >>> bit) &&& 1)))
          else none)
        (c, s)
      = none := by
  have e : 8 = (m + 1) + (7 - m) := by omega
  rw [e]
  apply forLoopM_none
  show (forLoopM m _ (c, s)).bind _ = none
  rw [wavFillChecked_inner carrier b c m s (by omega) h32, Option.some_bind]
  simp only []
  rw [if_neg (by rw [forLoop_set_len]; omega)]

/-- The first `n` bytes of the buffer with checked stores, while `8 n` samples
exist. -/
theorem wavFillChecked_first (carrier : Nat → Int) (buffer : List Nat) (s : List Int) (n : Nat)
    (hb : n ≤ buffer.length) (hn : 8 * n ≤ s.length) (h32 : 8 * n < 2 ^ 32) :
    forLoopM n
        (fun i (st : Nat × List Int) =>
          forLoopM 8
            (fun bit (st : Nat × List Int) =>
              if st.1 < st.2.length then
                some ((st.1 + 1) % 2 ^ 32,
                  st.2.set st.1 (finalSample (carrier st.1) ((buffer.getD i 0 >>> bit) &&& 1)))
              else none)
            st)
        (0, s)
      = some (forLoop n
          (fun i (st : Nat × List Int) =>
            forLoop 8
              (fun bit (st : Nat × List Int) =>
                ((st.1 + 1) % 2 ^ 32,
                  st.2.set st.1 (finalSample (carrier st.1) ((buffer.getD i 0 >>> bit) &&& 1))))
              st)
          (0, s)) := by
  induction n with
  | zero => rfl
  | succ k ih =>
    show (forLoopM k _ (0, s)).bind _ = _
    rw [ih (by omega) (by omega) (by omega), Option.some_bind, forLoop_succ]
    have hst := wavFill_prefix carrier buffer s k (by omega) (by omega)
    rw [hst]
    simp only []
    rw [wavFillChecked_inner carrier _ (k * 8) 8 _ (by rw [forLoop_set_len]; omega) (by omega),
      wavFill_inner carrier _ (k * 8) 8 _ (by omega)]

/-- Within the size of the vector the checked fill loops succeed, with the
result of `wavFill`. -/
theorem wavFillChecked_eq (carrier : Nat → Int) (buffer : List Nat) (s : List Int)
    (hn : 8 * buffer.length ≤ s.length) (h32 : 8 * buffer.length < 2 ^ 32) :
    wavFillChecked carrier buffer s = some (wavFill carrier buffer s) :=
  wavFillChecked_first carrier buffer s buffer.length (Nat.le_refl _) hn h32

/-- A vector with fewer samples than the buffer has bits is overrun: the
checked fill loops fail at the store of index `samples.size()`. -/
theorem wavFillChecked_overrun (carrier : Nat → Int) (buffer : List Nat) (s : List Int)
    (hn : s.length < 8 * buffer.length) (h32 : s.length < 2 ^ 32) :
    wavFillChecked carrier buffer s = none := by
  unfold wavFillChecked
  have e : buffer.length = (s.length / 8 + 1) + (buffer.length - (s.length / 8 + 1)) := by omega
  rw [e]
  apply forLoopM_none
  show (forLoopM (s.length / 8) _ (0, s)).bind _ = none
  rw [wavFillChecked_first carrier buffer s (s.length / 8) (by omega) (by omega) (by omega),
    Option.some_bind, wavFill_prefix carrier buffer s (s.length / 8) (by omega) (by omega)]
  simp only []
  exact wavFillChecked_inner_none carrier _ (s.length / 8 * 8) (s.length % 8) _
    (by rw [forLoop_set_len]; omega) (by omega) (Nat.mod_lt _ (by norm_num))

/-- For every payload with `32 + 8 L < 2 ^ 32` all stores of the fill loops
lie inside the vector `samples`, and the vector they leave is `wavSamples`. -/
theorem wavSamples_checked (carrier : Nat → Int) (payload : List Nat)
    (h : 32 + 8 * payload.length < 2 ^ 32) :
    (wavFillChecked carrier (wavBuffer payload)
        (List.replicate (wavNumSamples payload) 0)).map (fun st => st.2)
      = some (wavSamples carrier payload) := by
  have hN : wavNumSamples payload = 32 + 8 * payload.length := by
    rw [wavNumSamples_eq, Nat.mod_eq_of_lt (by omega)]; ring
  rw [wavFillChecked_eq carrier _ _
    (by rw [List.length_replicate, hN, wavBuffer_length]; omega)
    (by rw [wavBuffer_length]; omega)]
  rfl

/-- C10 (the code at the failing input): a payload of `2 ^ 29 - 4` bytes has
a length below `2 ^ 32` and the embedders' bit vector for it has `2 ^ 32`
bits, but the 32-bit `num_samples` of `writeWAV_LSBCarrier` is
`2 ^ 32 mod 2 ^ 32 = 0`: the vector `samples` is empty, and the fill loops,
which run over all `8 * buffer.size()` bits, store outside it from their first
store `samples[0]` on. No sequence of sample LSBs is produced. -/
theorem wire_shape_overrun :
    (List.replicate (2 ^ 29 - 4) 0).length < 2 ^ 32
      ∧ (buildBits true (List.replicate (2 ^ 29 - 4) 0)).length = 2 ^ 32
      ∧ 8 * (wavBuffer (List.replicate (2 ^ 29 - 4) 0)).length = 2 ^ 32
      ∧ List.replicate (wavNumSamples (List.replicate (2 ^ 29 - 4) 0)) (0 : Int) = []
      ∧ wavFillChecked (fun _ => 0) (wavBuffer (List.replicate (2 ^ 29 - 4) 0))
          (List.replicate (wavNumSamples (List.replicate (2 ^ 29 - 4) 0)) 0) = none := by
  have hN : wavNumSamples (List.replicate (2 ^ 29 - 4) 0) = 0 := by
    rw [wavNumSamples_eq, List.length_replicate]; norm_num
  refine ⟨?_, ?_, ?_, ?_, ?_⟩
  · rw [List.length_replicate]; norm_num
  · rw [buildBits_length, List.length_replicate]; norm_num
  · rw [wavBuffer_length, List.length_replicate]; norm_num
  · rw [hN]; rfl
  · apply wavFillChecked_overrun
    · rw [List.length_replicate, hN, wavBuffer_length, List.length_replicate]; norm_num
    · rw [List.length_replicate, hN]; norm_num

/-- C11 (the code at the failing input): a payload of `2 ^ 29 - 3` bytes has
a length that fits the 32-bit prefix and `32 + 8 L = 2 ^ 32 + 8` wire bits. The
32-bit `num_samples` is 8, so `samples` is sized to 8 entries, while the fill
loops run over all `2 ^ 32 + 8` bits of `buffer`: the store of bit 8 is
`samples[8]`, outside the vector. The function neither generates `32 + 8 L`
samples nor completes with 8. -/
theorem sample_count_overrun :
    (List.replicate (2 ^ 29 - 3) 0).length ≤ 2 ^ 32 - 1
      ∧ 32 + 8 * (List.replicate (2 ^ 29 - 3) 0).length = 2 ^ 32 + 8
      ∧ wavNumSamples (List.replicate (2 ^ 29 - 3) 0) = 8
      ∧ 8 * (wavBuffer (List.replicate (2 ^ 29 - 3) 0)).length = 2 ^ 32 + 8
      ∧ wavFillChecked (fun _ => 0) (wavBuffer (List.replicate (2 ^ 29 - 3) 0))
          (List.replicate (wavNumSamples (List.replicate (2 ^ 29 - 3) 0)) 0) = none := by
  have hN : wavNumSamples (List.replicate (2 ^ 29 - 3) 0) = 8 := by
    rw [wavNumSamples_eq, List.length_replicate]; norm_num
  refine ⟨?_, ?_, hN, ?_, ?_⟩
  · rw [List.length_replicate]; norm_num
  · rw [List.length_replicate]; norm_num
  · rw [wavBuffer_length, List.length_replicate]; norm_num
  · apply wavFillChecked_overrun
    · rw [List.length_replicate, hN, wavBuffer_length, List.length_replicate]; norm_num
    · rw [List.length_replicate, hN]; norm_num

/-- C12 (the code at the failing input): for a payload of `2 ^ 29 - 2` bytes
and the bit index 16, wire bit 16 exists and has the value 1 (bit 16 of the
length), but the vector `samples` has only the 16 entries of the wrapped
32-bit count: the sample of index 16 is stored past its end, as is every later
one, so the samples the claim describes are never written. -/
theorem lsb_only_overrun :
    16 < 32 + 8 * (List.replicate (2 ^ 29 - 2) 0).length
      ∧ (wavBitvals (wavBuffer (List.replicate (2 ^ 29 - 2) 0))).getD 16 0 = 1
      ∧ (List.replicate (wavNumSamples (List.replicate (2 ^ 29 - 2) 0)) (0 : Int)).length = 16
      ∧ wavFillChecked (fun _ => 20000) (wavBuffer (List.replicate (2 ^ 29 - 2) 0))
          (List.replicate (wavNumSamples (List.replicate (2 ^ 29 - 2) 0)) 0) = none := by
  have hN : wavNumSamples (List.replicate (2 ^ 29 - 2) 0) = 16 := by
    rw [wavNumSamples_eq, List.length_replicate]; norm_num
  refine ⟨?_, ?_, ?_, ?_⟩
  · rw [List.length_replicate]; norm_num
  · rw [wavBitvals_getD _ _ (by rw [wavBuffer_length, List.length_replicate]; norm_num),
      wavBuffer_bit_lt _ _ (by norm_num), List.length_replicate]
    decide
  · rw [List.length_replicate, hN]
  · apply wavFillChecked_overrun
    · rw [List.length_replicate, hN, wavBuffer_length, List.length_replicate]; norm_num
    · rw [List.length_replicate, hN]; norm_num


/-! ## The stored blocks of the writer, one by one -/

theorem storedBlocks_zero (raw : List Nat) (fuel rp : Nat) :
    storedBlocks raw fuel 0 rp [] = [] := by
  cases fuel <;> simp [storedBlocks]

theorem range_succ_flatMap {α : Type} (f : Nat → List α) (k : Nat) :
    (List.range (k + 1)).flatMap f = f 0 ++ (List.range k).flatMap (fun j => f (j + 1)) := by
  rw [List.range_succ_eq_map, List.flatMap_cons, List.flatMap_map]

/-- The stored-block loop of the writer appends one block for every 65535
bytes of `remaining`, the last one holding what is left. -/
theorem storedBlocks_flatMap (raw : List Nat) (fuel : Nat) :
    ∀ (remaining rp : Nat), remaining ≤ fuel →
      storedBlocks raw fuel remaining rp []
        = (List.range ((remaining + 65534) / 65535)).flatMap
            (fun j => storedBlock raw (remaining - 65535 * j) (rp + 65535 * j)) := by
  induction fuel with
  | zero =>
    intro remaining rp h
    have : remaining = 0 := by omega
    subst this
    rfl
  | succ f ih =>
    intro remaining rp h
    by_cases h0 : 0 < remaining
    · rw [storedBlocks_unfold _ _ _ _ h0]
      by_cases hr : remaining ≤ 65535
      · have hk : (remaining + 65534) / 65535 = 1 := by omega
        have hc : (if remaining < 65535 then remaining else 65535) = remaining := by
          split <;> omega
        rw [hk, hc, Nat.sub_self, storedBlocks_zero, List.append_nil,
          show List.range 1 = [0] from rfl, List.flatMap_cons, List.flatMap_nil,
          List.append_nil, Nat.mul_zero, Nat.sub_zero, Nat.add_zero]
      · have hk : (remaining + 65534) / 65535 = (remaining - 65535 + 65534) / 65535 + 1 := by
          omega
        have hc : (if remaining < 65535 then remaining else 65535) = 65535 := by
          split <;> omega
        have hfm : (List.range ((remaining - 65535 + 65534) / 65535)).flatMap
              (fun j => storedBlock raw (remaining - 65535 - 65535 * j) (rp + 65535 + 65535 * j))
            = (List.range ((remaining - 65535 + 65534) / 65535)).flatMap
              (fun j => storedBlock raw (remaining - 65535 * (j + 1))
                (rp + 65535 * (j + 1))) := by
          apply List.flatMap_congr
          intro j _
          have e1 : remaining - 65535 - 65535 * j = remaining - 65535 * (j + 1) := by omega
          have e2 : rp + 65535 + 65535 * j = rp + 65535 * (j + 1) := by omega
          rw [e1, e2]
        rw [hk, hc, range_succ_flatMap, ih _ _ (by omega), hfm, Nat.mul_zero, Nat.sub_zero]
        simp only [Nat.add_zero]
    · have : remaining = 0 := by omega
      subst this
      rw [storedBlocks_zero]
      rfl

theorem chunks_join {α : Type} (c : Nat) (k : Nat) :
    ∀ l : List α, l.length ≤ c * k →
      (List.range k).flatMap (fun j => (l.drop (c * j)).take c) = l := by
  induction k with
  | zero =>
    intro l hl
    have : l = [] := List.eq_nil_of_length_eq_zero (by omega)
    subst this
    rfl
  | succ k ih =>
    intro l hl
    rw [range_succ_flatMap]
    have e : (fun j => (l.drop (c * (j + 1))).take c)
        = (fun j => ((l.drop c).drop (c * j)).take c) := by
      funext j
      rw [List.drop_drop]
      congr 2
      ring
    rw [e, ih (l.drop c) (by rw [List.length_drop]; rw [Nat.mul_succ] at hl; omega)]
    simp

theorem byte_split (v : Nat) :
    v &&& 0xFF = v % 256 ∧ (v >>> 8) &&& 0xFF = (v / 256) % 256 := by
  constructor
  · exact Nat.and_pow_two_sub_one_eq_mod v 8
  · rw [Nat.shiftRight_eq_div_pow]
    exact Nat.and_pow_two_sub_one_eq_mod _ 8

/-- The fields of the block the writer emits when `remaining` bytes are left
from position `rp` on. -/
theorem storedBlock_fields (raw : List Nat) (remaining rp : Nat) (h0 : 0 < remaining)
    (h : rp + remaining ≤ raw.length) :
    (storedBlock raw remaining rp).getD 0 0 = (if remaining ≤ 65535 then 1 else 0)
      ∧ rdLE16 (storedBlock raw remaining rp) 1 = min remaining 65535
      ∧ rdLE16 (storedBlock raw remaining rp) 3 = min remaining 65535 ^^^ 0xFFFF
      ∧ (storedBlock raw remaining rp).drop 5 = (raw.drop rp).take (min remaining 65535)
      ∧ ((storedBlock raw remaining rp).drop 5).length = min remaining 65535 := by
  have hc : (if remaining < 65535 then remaining else 65535) = min remaining 65535 := by
    split <;> omega
  have hlen : min remaining 65535 % 2 ^ 16 = min remaining 65535 :=
    Nat.mod_eq_of_lt (by omega)
  have hx : min remaining 65535 ^^^ 0xFFFF < 2 ^ 16 :=
    Nat.xor_lt_two_pow (by omega) (by norm_num)
  obtain ⟨a1, a2⟩ := byte_split (min remaining 65535)
  obtain ⟨b1, b2⟩ := byte_split (min remaining 65535 ^^^ 0xFFFF)
  unfold storedBlock
  simp only [hc, hlen]
  refine ⟨?_, ?_, ?_, ?_, ?_⟩
  · rfl
  · unfold rdLE16
    simp only [List.cons_append, List.getD_cons_succ, List.getD_cons_zero]
    rw [a1, a2]; omega
  · unfold rdLE16
    simp only [List.cons_append, List.getD_cons_succ, List.getD_cons_zero]
    rw [b1, b2]; omega
  · rfl
  · simp only [List.cons_append, List.nil_append, List.drop_succ_cons, List.drop_zero]
    rw [List.length_take, List.length_drop]
    omega


theorem take_min_length (l : List Nat) (c : Nat) : l.take (min l.length c) = l.take c := by
  by_cases h : l.length ≤ c
  · rw [Nat.min_eq_left h, List.take_of_length_le (Nat.le_refl _), List.take_of_length_le h]
  · rw [Nat.min_eq_right (by omega)]

theorem adler32_lt (raw : List Nat) : adler32 raw < 2 ^ 32 := by
  unfold adler32
  exact Nat.mod_lt _ (by norm_num)

theorem pngIdat_blocks (w h : Nat) (rgb : List Nat) :
    pngIdat w h rgb
      = [0x78, 0x01]
        ++ (List.range (((pngRaw w h rgb).length + 65534) / 65535)).flatMap
            (fun j => storedBlock (pngRaw w h rgb) ((pngRaw w h rgb).length - 65535 * j)
              (65535 * j))
        ++ write_be32 [] (adler32 (pngRaw w h rgb)) := by
  rw [pngIdat_eq, storedBlocks_flatMap _ _ _ _ (Nat.le_refl _), write_be32_eq,
    Nat.mod_eq_of_lt (adler32_lt _), List.nil_append]
  simp only [Nat.zero_add]

/-- C13 (as stated, refuted): for `W = 2 ^ 30` and `H = 1`, both at least 1
and values of the program's `int`, the row length `3 W + 1 = 3221225473` that
lines 580 and 584 compute as the `int` expressions `w*3+1` and `w*3` is not a
value of `int` (no 32-bit pattern read as an `int` equals it, and the wrapped
value is negative): the arithmetic of `writePNG_raw` overflows before any
scanline is stored, so it produces no IDAT data of the stated form. -/
theorem stored_block_structure_counterexample :
    1 ≤ 2 ^ 30 ∧ 1 ≤ 1 ∧ toInt32 (2 ^ 30) = 2 ^ 30
      ∧ (∀ n : Nat, toInt32 n ≠ ((2 ^ 30 * 3 + 1 : Nat) : Int))
      ∧ toInt32 (2 ^ 30 * 3 + 1) < 0 := by
  refine ⟨by norm_num, by norm_num, by decide, ?_, by decide⟩
  intro n
  exact toInt32_ne_of_ge n _ (by norm_num)

/-- C13 (amended): for every `W ≥ 1`, `H ≥ 1` such that `3 W + 1` and `H` are
values of the program's `int` (below `2 ^ 31`, so that the `int` expressions
`w*3+1` and `w*3` of lines 580 and 584 are exact) and every pixel buffer of
`W * H * 3` bytes, with `n = H * (3 W + 1)`, the IDAT data of `writePNG_raw`
are the bytes `0x78 0x01`,
then `ceil(n / 65535)` stored blocks, then the four checksum bytes. Block `j`
has header byte 0 and 65535 raw bytes if it is not the last one and header
byte 1 if it is; its little-endian length field is the number of its raw bytes
and its complement field is that length xor `0xFFFF`; the raw bytes of the
blocks, concatenated, are the scanline data: for every row, top to bottom, a
filter byte 0 followed by the `W * 3` pixel bytes of the row. -/
theorem stored_block_structure (w h : Nat) (rgb : List Nat) (hw : 1 ≤ w) (hh : 1 ≤ h)
    (hint : w * 3 + 1 < 2 ^ 31) (hhi : h < 2 ^ 31) (hrgb : rgb.length = w * h * 3) :
    pngIdat w h rgb
        = [0x78, 0x01]
          ++ (List.range ((h * (w * 3 + 1) + 65534) / 65535)).flatMap
              (fun j => storedBlock (pngRaw w h rgb) (h * (w * 3 + 1) - 65535 * j) (65535 * j))
          ++ write_be32 [] (adler32 (pngRaw w h rgb))
      ∧ (write_be32 [] (adler32 (pngRaw w h rgb))).length = 4
      ∧ 1 ≤ (h * (w * 3 + 1) + 65534) / 65535
      ∧ (∀ j, j < (h * (w * 3 + 1) + 65534) / 65535 →
          (storedBlock (pngRaw w h rgb) (h * (w * 3 + 1) - 65535 * j) (65535 * j)).getD 0 0
              = (if j + 1 < (h * (w * 3 + 1) + 65534) / 65535 then 0 else 1)
            ∧ rdLE16 (storedBlock (pngRaw w h rgb) (h * (w * 3 + 1) - 65535 * j) (65535 * j)) 1
              = (if j + 1 < (h * (w * 3 + 1) + 65534) / 65535 then 65535
                  else h * (w * 3 + 1) - 65535 * j)
            ∧ rdLE16 (storedBlock (pngRaw w h rgb) (h * (w * 3 + 1) - 65535 * j) (65535 * j)) 3
              = rdLE16 (storedBlock (pngRaw w h rgb) (h * (w * 3 + 1) - 65535 * j)
                  (65535 * j)) 1 ^^^ 0xFFFF
            ∧ (storedBlock (pngRaw w h rgb) (h * (w * 3 + 1) - 65535 * j) (65535 * j)).drop 5
              = ((pngRaw w h rgb).drop (65535 * j)).take
                  (if j + 1 < (h * (w * 3 + 1) + 65534) / 65535 then 65535
                    else h * (w * 3 + 1) - 65535 * j)
            ∧ ((storedBlock (pngRaw w h rgb) (h * (w * 3 + 1) - 65535 * j)
                  (65535 * j)).drop 5).length
              = (if j + 1 < (h * (w * 3 + 1) + 65534) / 65535 then 65535
                  else h * (w * 3 + 1) - 65535 * j)
            ∧ 1 ≤ h * (w * 3 + 1) - 65535 * j)
      ∧ (List.range ((h * (w * 3 + 1) + 65534) / 65535)).flatMap
            (fun j => (storedBlock (pngRaw w h rgb) (h * (w * 3 + 1) - 65535 * j)
              (65535 * j)).drop 5)
          = pngRaw w h rgb
      ∧ pngRaw w h rgb
          = (List.range h).flatMap (fun y => [0] ++ (rgb.drop (y * w * 3)).take (w * 3))
      ∧ (∀ y, y < h → ((rgb.drop (y * w * 3)).take (w * 3)).length = w * 3) := by
  have _ := hint
  have _ := hhi
  have hraw := pngRaw_length w h rgb hrgb
  have hfields : ∀ j, j < (h * (w * 3 + 1) + 65534) / 65535 →
      0 < h * (w * 3 + 1) - 65535 * j
        ∧ 65535 * j + (h * (w * 3 + 1) - 65535 * j) ≤ (pngRaw w h rgb).length
        ∧ min (h * (w * 3 + 1) - 65535 * j) 65535
            = (if j + 1 < (h * (w * 3 + 1) + 65534) / 65535 then 65535
                else h * (w * 3 + 1) - 65535 * j)
        ∧ (if h * (w * 3 + 1) - 65535 * j ≤ 65535 then 1 else 0)
            = (if j + 1 < (h * (w * 3 + 1) + 65534) / 65535 then 0 else 1) := by
    intro j hj
    rw [hraw]
    generalize h * (w * 3 + 1) = n at hj ⊢
    refine ⟨by omega, by omega, ?_, ?_⟩
    · split <;> omega
    · split <;> split <;> omega
  refine ⟨?_, ?_, ?_, ?_, ?_, ?_, ?_⟩
  · have := pngIdat_blocks w h rgb
    rw [hraw] at this
    exact this
  · rw [write_be32_length]; rfl
  · have : 1 * 1 ≤ h * (w * 3 + 1) := Nat.mul_le_mul hh (by omega)
    omega
  · intro j hj
    obtain ⟨f0, f1, f2, f3⟩ := hfields j hj
    obtain ⟨g0, g1, g2, g3, g4⟩ := storedBlock_fields (pngRaw w h rgb)
      (h * (w * 3 + 1) - 65535 * j) (65535 * j) f0 f1
    rw [f3] at g0
    rw [f2] at g1 g2 g3 g4
    exact ⟨g0, g1, by rw [g1]; exact g2, g3, g4, f0⟩
  · have e : (fun j => (storedBlock (pngRaw w h rgb) (h * (w * 3 + 1) - 65535 * j)
          (65535 * j)).drop 5)
        = (fun j => ((pngRaw w h rgb).drop (65535 * j)).take
            (min (((pngRaw w h rgb).drop (65535 * j)).length) 65535)) := by
      funext j
      unfold storedBlock
      simp only [List.cons_append, List.nil_append, List.drop_succ_cons, List.drop_zero]
      rw [List.length_drop, hraw]
      congr 1
      split <;> omega
    rw [e]
    simp only [take_min_length]
    exact chunks_join 65535 _ (pngRaw w h rgb) (by rw [hraw]; omega)
  · rw [pngRaw_eq]
    rfl
  · intro y hy
    have := pngScanline_length w h rgb y hy hrgb
    unfold pngScanline at this
    rw [List.length_append] at this
    simp only [List.length_cons, List.length_nil] at this
    omega

theorem stored_block_structure_witness :
    pngIdat 2 1 [1, 2, 3, 4, 5, 6]
        = [0x78, 0x01]
          ++ (List.range ((1 * (2 * 3 + 1) + 65534) / 65535)).flatMap
              (fun j => storedBlock (pngRaw 2 1 [1, 2, 3, 4, 5, 6]) (1 * (2 * 3 + 1) - 65535 * j)
                (65535 * j))
          ++ write_be32 [] (adler32 (pngRaw 2 1 [1, 2, 3, 4, 5, 6]))
      ∧ (write_be32 [] (adler32 (pngRaw 2 1 [1, 2, 3, 4, 5, 6]))).length = 4 :=
  let t := stored_block_structure 2 1 [1, 2, 3, 4, 5, 6] (by decide) (by decide) (by norm_num)
    (by norm_num) (by decide)
  ⟨t.1, t.2.1⟩


/-! ## The rolling checksum -/

theorem adlerLoop_succ (raw : List Nat) (k : Nat) :
    adlerLoop raw (k + 1)
      = (((adlerLoop raw k).1 + raw.getD k 0) % 65521,
          ((adlerLoop raw k).2 + ((adlerLoop raw k).1 + raw.getD k 0) % 65521) % 65521) := rfl

theorem adler32_eq (raw : List Nat) :
    adler32 raw
      = (((adlerLoop raw raw.length).2 <<< 16) ||| (adlerLoop raw raw.length).1) % 2 ^ 32 := rfl

/-- The accumulators of the Adler loop in closed form. -/
theorem adlerLoop_closed (raw : List Nat) (k : Nat) :
    (adlerLoop raw k).1 = (1 + Finset.sum (Finset.range k) (fun i => raw.getD i 0)) % 65521
      ∧ (adlerLoop raw k).2
          = (k + Finset.sum (Finset.range k) (fun i => (k - i) * raw.getD i 0)) % 65521 := by
  induction k with
  | zero => constructor <;> rfl
  | succ k ih =>
    obtain ⟨ha, hb⟩ := ih
    have hs : Finset.sum (Finset.range k) (fun i => (k + 1 - i) * raw.getD i 0)
        = Finset.sum (Finset.range k) (fun i => (k - i) * raw.getD i 0)
          + Finset.sum (Finset.range k) (fun i => raw.getD i 0) := by
      rw [← Finset.sum_add_distrib]
      apply Finset.sum_congr rfl
      intro i hi
      have hik : i < k := Finset.mem_range.mp hi
      have e : k + 1 - i = (k - i) + 1 := by omega
      rw [e]
      ring
    have ha2 : (adlerLoop raw (k + 1)).1
        = (1 + Finset.sum (Finset.range (k + 1)) (fun i => raw.getD i 0)) % 65521 := by
      rw [adlerLoop_succ, ha, Finset.sum_range_succ]
      simp only []
      omega
    refine ⟨ha2, ?_⟩
    have hb2 : (adlerLoop raw (k + 1)).2
        = ((adlerLoop raw k).2 + (adlerLoop raw (k + 1)).1) % 65521 := rfl
    rw [hb2, ha2, hb, Finset.sum_range_succ, Finset.sum_range_succ, hs]
    have e : k + 1 - k = 1 := by omega
    rw [e]
    omega

theorem adlerLoop_lt (raw : List Nat) (k : Nat) :
    (adlerLoop raw k).1 < 65521 ∧ (adlerLoop raw k).2 < 65521 := by
  obtain ⟨ha, hb⟩ := adlerLoop_closed raw k
  rw [ha, hb]
  exact ⟨Nat.mod_lt _ (by norm_num), Nat.mod_lt _ (by norm_num)⟩

theorem adler_pack (a b : Nat) (ha : a < 65521) (hb : b < 65521) :
    (b <<< 16) ||| a = b * 65536 + a ∧ (b <<< 16) ||| a < 2 ^ 32 := by
  have h := Nat.mul_add_lt_is_or (show a < 2 ^ 16 by omega) b
  rw [Nat.shiftLeft_eq, Nat.mul_comm b (2 ^ 16), ← h]
  constructor <;> omega

theorem pngRaw_byte (w h : Nat) (rgb : List Nat) (hbytes : ∀ x ∈ rgb, x < 256) (k : Nat) :
    (pngRaw w h rgb).getD k 0 < 256 := by
  by_cases hk : k < (pngRaw w h rgb).length
  · rw [List.getD_eq_getElem _ _ hk]
    have hm : (pngRaw w h rgb)[k] ∈ pngRaw w h rgb := List.getElem_mem _
    generalize (pngRaw w h rgb)[k] = x at hm ⊢
    rw [pngRaw_eq, List.mem_flatMap] at hm
    obtain ⟨y, _, hy⟩ := hm
    unfold pngScanline at hy
    rw [List.mem_append] at hy
    rcases hy with hy | hy
    · rw [List.mem_singleton] at hy
      omega
    · exact hbytes _ (List.mem_of_mem_drop (List.mem_of_mem_take hy))
  · rw [List.getD_eq_default _ _ (by omega)]
    norm_num

/-- C15 (as stated, refuted): for the image of width 715827883 and height 1,
whose sizes are values of the program's `int`, the row length
`3 W + 1 = 2147483650` that `writePNG_raw` computes as the `int` expression
`w*3+1` (line 580) is not a value of `int` (no 32-bit pattern read as an `int`
equals it, and the wrapped value is negative): the arithmetic overflows before
the raw scanline sequence is built, so no IDAT data and no checksum of it are
written. -/
theorem rolling_checksum_counterexample :
    toInt32 715827883 = 715827883 ∧ toInt32 1 = 1
      ∧ (∀ n : Nat, toInt32 n ≠ ((715827883 * 3 + 1 : Nat) : Int))
      ∧ toInt32 (715827883 * 3 + 1) < 0 := by
  refine ⟨by decide, by decide, ?_, by decide⟩
  intro n
  exact toInt32_ne_of_ge n _ (by norm_num)

/-- C15 (amended): for every image of bytes whose sizes `3 W + 1` and `H` are
values of the program's `int` (below `2 ^ 31`, so that the `int` expressions
`w*3+1` and `w*3` of lines 580 and 584 are exact), the last four bytes of the
IDAT data of
`writePNG_raw` are the big-endian encoding of `(b << 16) | a`, where `a` and `b`
are the accumulators after the loop over the whole raw scanline sequence
`r[0..n-1]`: `a = (1 + Σ r[i]) mod 65521` and
`b = (n + Σ (n - i) r[i]) mod 65521`, the Adler-32 of the raw bytes. Before
every reduction the sums `a + r[k]` and `b + a` are below `2 ^ 32`, and so is
`(b << 16) | a`: the 32-bit accumulators never overflow. -/
theorem rolling_checksum (w h : Nat) (rgb : List Nat) (hint : w * 3 + 1 < 2 ^ 31)
    (hhi : h < 2 ^ 31) (hrgb : rgb.length = w * h * 3) (hbytes : ∀ x ∈ rgb, x < 256) :
    (pngIdat w h rgb).drop ((pngIdat w h rgb).length - 4)
        = write_be32 []
            (((adlerLoop (pngRaw w h rgb) (h * (w * 3 + 1))).2 <<< 16)
              ||| (adlerLoop (pngRaw w h rgb) (h * (w * 3 + 1))).1)
      ∧ (pngRaw w h rgb).length = h * (w * 3 + 1)
      ∧ (adlerLoop (pngRaw w h rgb) (h * (w * 3 + 1))).1
          = (1 + Finset.sum (Finset.range (h * (w * 3 + 1)))
                  (fun i => (pngRaw w h rgb).getD i 0)) % 65521
      ∧ (adlerLoop (pngRaw w h rgb) (h * (w * 3 + 1))).2
          = (h * (w * 3 + 1)
              + Finset.sum (Finset.range (h * (w * 3 + 1)))
                  (fun i => (h * (w * 3 + 1) - i) * (pngRaw w h rgb).getD i 0)) % 65521
      ∧ adler32 (pngRaw w h rgb)
          = ((adlerLoop (pngRaw w h rgb) (h * (w * 3 + 1))).2 <<< 16)
              ||| (adlerLoop (pngRaw w h rgb) (h * (w * 3 + 1))).1
      ∧ ((adlerLoop (pngRaw w h rgb) (h * (w * 3 + 1))).2 <<< 16)
            ||| (adlerLoop (pngRaw w h rgb) (h * (w * 3 + 1))).1 < 2 ^ 32
      ∧ (∀ k, k < h * (w * 3 + 1) →
          (adlerLoop (pngRaw w h rgb) k).1 + (pngRaw w h rgb).getD k 0 < 2 ^ 32
            ∧ (adlerLoop (pngRaw w h rgb) k).2 + (adlerLoop (pngRaw w h rgb) (k + 1)).1
                < 2 ^ 32) := by
  have _ := hint
  have _ := hhi
  have hraw := pngRaw_length w h rgb hrgb
  obtain ⟨ha, hb⟩ := adlerLoop_closed (pngRaw w h rgb) (h * (w * 3 + 1))
  obtain ⟨la, lb⟩ := adlerLoop_lt (pngRaw w h rgb) (h * (w * 3 + 1))
  obtain ⟨_, hp⟩ := adler_pack _ _ la lb
  have hadler : adler32 (pngRaw w h rgb)
      = ((adlerLoop (pngRaw w h rgb) (h * (w * 3 + 1))).2 <<< 16)
          ||| (adlerLoop (pngRaw w h rgb) (h * (w * 3 + 1))).1 := by
    rw [adler32_eq, hraw]
    exact Nat.mod_eq_of_lt hp
  refine ⟨?_, hraw, ha, hb, hadler, hp, ?_⟩
  · rw [← hadler]
    have hb := pngIdat_blocks w h rgb
    generalize pngIdat w h rgb = idat at hb ⊢
    rw [hb]
    apply List.drop_left'
    rw [List.length_append _ (write_be32 _ _), write_be32_length]
    simp only [List.length_nil]
    omega
  · intro k _
    obtain ⟨ka, kb⟩ := adlerLoop_lt (pngRaw w h rgb) k
    obtain ⟨ka2, _⟩ := adlerLoop_lt (pngRaw w h rgb) (k + 1)
    have hr := pngRaw_byte w h rgb hbytes k
    constructor <;> omega

theorem rolling_checksum_witness :
    (pngIdat 2 1 [1, 2, 3, 4, 5, 6]).drop ((pngIdat 2 1 [1, 2, 3, 4, 5, 6]).length - 4)
        = write_be32 []
            (((adlerLoop (pngRaw 2 1 [1, 2, 3, 4, 5, 6]) (1 * (2 * 3 + 1))).2 <<< 16)
              ||| (adlerLoop (pngRaw 2 1 [1, 2, 3, 4, 5, 6]) (1 * (2 * 3 + 1))).1)
      ∧ (pngRaw 2 1 [1, 2, 3, 4, 5, 6]).length = 1 * (2 * 3 + 1) :=
  let t := rolling_checksum 2 1 [1, 2, 3, 4, 5, 6] (by norm_num) (by norm_num) (by decide)
    (by decide)
  ⟨t.1, t.2.1⟩


/-! ## The table-driven CRC-32 and the CRC-32 bit by bit -/

theorem forLoop_foldl {σ : Type} (g : σ → Nat → σ) (c0 : σ) (l : List Nat) :
    forLoop l.length (fun i c => g c (l.getD i 0)) c0 = l.foldl g c0 := by
  induction l using List.reverseRecOn with
  | nil => rfl
  | append_singleton l a ih =>
    rw [List.length_append, List.length_singleton, forLoop_succ, List.foldl_append]
    have hc : forLoop l.length (fun i c => g c ((l ++ [a]).getD i 0)) c0
        = forLoop l.length (fun i c => g c (l.getD i 0)) c0 := by
      apply forLoop_congr
      intro i hi t
      rw [List.getD_append _ _ _ _ hi]
    rw [hc, ih, List.getD_append_right _ _ _ _ (Nat.le_refl _), Nat.sub_self]
    rfl

set_option maxRecDepth 100000 in
theorem iend_chunk :
    pngChunk [73, 69, 78, 68] [] = [0, 0, 0, 0, 0x49, 0x45, 0x4E, 0x44, 0xAE, 0x42, 0x60, 0x82] := by
  decide

theorem write_be32_bytes (v : Nat) (hv : v < 2 ^ 32) :
    write_be32 [] v = [v / 16777216 % 256, v / 65536 % 256, v / 256 % 256, v % 256] := by
  rw [write_be32_eq, Nat.mod_eq_of_lt hv, List.nil_append]
  have e0 : v &&& 0xFF = v % 256 := Nat.and_pow_two_sub_one_eq_mod v 8
  have e1 : (v >>> 8) &&& 0xFF = v / 256 % 256 := by
    rw [Nat.shiftRight_eq_div_pow]; exact Nat.and_pow_two_sub_one_eq_mod _ 8
  have e2 : (v >>> 16) &&& 0xFF = v / 65536 % 256 := by
    rw [Nat.shiftRight_eq_div_pow]; exact Nat.and_pow_two_sub_one_eq_mod _ 8
  have e3 : (v >>> 24) &&& 0xFF = v / 16777216 % 256 := by
    rw [Nat.shiftRight_eq_div_pow]; exact Nat.and_pow_two_sub_one_eq_mod _ 8
  rw [e0, e1, e2, e3]

/-- C17 (as stated, refuted): for the image of width 21845 and height 65532
(an all-zero buffer) the IDAT data are `2 ^ 32 + 65527` bytes long, while the
length field at offset 33, written from `(uint32_t)idat.size()`, holds 65527.
The chunk that this field declares ends, with its CRC, at offset 65572, and an
IEND chunk after it would end the file at offset 65584, but the file has
`2 ^ 32 + 65584` bytes: read as chunks, the bytes are not an IHDR chunk,
exactly one IDAT chunk and an IEND chunk. -/
theorem container_layout_counterexample :
    1 ≤ 21845 ∧ 1 ≤ 65532
      ∧ (pngIdat 21845 65532 (List.replicate (21845 * 65532 * 3) 0)).length = 2 ^ 32 + 65527
      ∧ rdBE32 (writePNG_raw 21845 65532 (List.replicate (21845 * 65532 * 3) 0)) 33 = 65527
      ∧ (writePNG_raw 21845 65532 (List.replicate (21845 * 65532 * 3) 0)).length
          = 2 ^ 32 + 65584
      ∧ 33 + (4 + 4 + 65527 + 4) + 12
          < (writePNG_raw 21845 65532 (List.replicate (21845 * 65532 * 3) 0)).length := by
  have hrgb : (List.replicate (21845 * 65532 * 3) 0).length = 21845 * 65532 * 3 :=
    List.length_replicate _ _
  have hil : (pngIdat 21845 65532 (List.replicate (21845 * 65532 * 3) 0)).length
      = 2 ^ 32 + 65527 := by
    rw [pngIdat_length _ _ _ hrgb]
    norm_num
  have hfl : (writePNG_raw 21845 65532 (List.replicate (21845 * 65532 * 3) 0)).length
      = 2 ^ 32 + 65584 := by
    rw [writePNG_raw_length, hil]
    norm_num
  refine ⟨by norm_num, by norm_num, hil, ?_, hfl, ?_⟩
  · rw [(idat_chunk_facts _ _ _).1, hil]
    norm_num
  · rw [hfl]
    norm_num

/-- C17 (amended): for every `W` and `H` such that `3 W + 1` and `H` are
values of the program's `int` and the IDAT data, of `6 + n + 5 * ceil(n / 65535)`
bytes with `n = H * (3 W + 1)`, fit the 32-bit chunk length, and every pixel
buffer of
`W * H * 3` bytes, the bytes written by `writePNG_raw` are the eight signature
bytes, an IHDR chunk with length field 13 whose data are `W` and `H` as
big-endian 32-bit integers followed by 8, 2, 0, 0, 0, then one IDAT chunk,
whose length field holds the length of its data,
then an IEND chunk without data; every chunk ends with the four bytes of its
CRC; the file has `63 + n + 5 * ceil(n / 65535)` bytes, `n = H * (3 W + 1)`. -/
theorem container_layout (w h : Nat) (rgb : List Nat) (hw : w < 2 ^ 31) (hh : h < 2 ^ 31)
    (hrgb : rgb.length = w * h * 3) (hint : w * 3 + 1 < 2 ^ 31)
    (hidat : 6 + h * (w * 3 + 1) + 5 * ((h * (w * 3 + 1) + 65534) / 65535) < 2 ^ 32) :
    writePNG_raw w h rgb
        = [137, 80, 78, 71, 13, 10, 26, 10]
          ++ ([0, 0, 0, 13] ++ [73, 72, 68, 82]
              ++ ([w / 16777216 % 256, w / 65536 % 256, w / 256 % 256, w % 256]
                  ++ [h / 16777216 % 256, h / 65536 % 256, h / 256 % 256, h % 256]
                  ++ [8, 2, 0, 0, 0])
              ++ write_be32 []
                  (crc32_for_bytes
                    ([73, 72, 68, 82] ++ (write_be32 (write_be32 [] w) h ++ [8, 2, 0, 0, 0]))))
          ++ (write_be32 [] (pngIdat w h rgb).length ++ [73, 68, 65, 84] ++ pngIdat w h rgb
              ++ write_be32 [] (crc32_for_bytes ([73, 68, 65, 84] ++ pngIdat w h rgb)))
          ++ ([0, 0, 0, 0] ++ [73, 69, 78, 68] ++ [0xAE, 0x42, 0x60, 0x82])
      ∧ (pngIdat w h rgb).length
          = 6 + h * (w * 3 + 1) + 5 * ((h * (w * 3 + 1) + 65534) / 65535)
      ∧ (writePNG_raw w h rgb).length
          = 63 + h * (w * 3 + 1) + 5 * ((h * (w * 3 + 1) + 65534) / 65535)
      ∧ rdBE32 (writePNG_raw w h rgb) 33 = (pngIdat w h rgb).length := by
  have _ := hint
  have hil := pngIdat_length w h rgb hrgb
  refine ⟨?_, hil, ?_, ?_⟩
  · have hi : write_be32 (write_be32 [] w) h ++ [8, 2, 0, 0, 0]
        = [w / 16777216 % 256, w / 65536 % 256, w / 256 % 256, w % 256]
          ++ [h / 16777216 % 256, h / 65536 % 256, h / 256 % 256, h % 256]
          ++ [8, 2, 0, 0, 0] := by
      rw [write_be32_append (write_be32 [] w) h, write_be32_bytes w (by omega),
        write_be32_bytes h (by omega)]
    have h13 : write_be32 [] (write_be32 (write_be32 [] w) h ++ [8, 2, 0, 0, 0]).length
        = [0, 0, 0, 13] := by
      rw [ihdr_length]; rfl
    rw [writePNG_raw_eq, iend_chunk, pngChunk_eq, pngChunk_eq, h13]
    nth_rewrite 1 [hi]
    simp only [List.append_assoc, List.cons_append, List.nil_append]
  · rw [writePNG_raw_length, hil]
    omega
  · rw [(idat_chunk_facts w h rgb).1, hil]
    exact Nat.mod_eq_of_lt hidat

theorem container_layout_witness :
    (writePNG_raw 2 1 [1, 2, 3, 4, 5, 6]).length
      = 63 + 1 * (2 * 3 + 1) + 5 * ((1 * (2 * 3 + 1) + 65534) / 65535) :=
  (container_layout 2 1 [1, 2, 3, 4, 5, 6] (by norm_num) (by norm_num) (by decide)
    (by norm_num) (by norm_num)).2.2.1


/-! ## Blocks that are not stored blocks -/

/-- One more unit of fuel does not change the trace of the stored-block loop
once the fuel covers the bytes that are left: every iteration consumes at least
five of them. -/
theorem blockHeaders_fuel (idat : List Nat) (fuel : Nat) :
    ∀ ip, idat.length ≤ fuel + ip →
      blockHeaders idat (fuel + 1) ip = blockHeaders idat fuel ip := by
  induction fuel with
  | zero =>
    intro ip h
    unfold blockHeaders
    rw [if_neg (by omega)]
  | succ f ih =>
    intro ip h
    conv_lhs => unfold blockHeaders
    conv_rhs => unfold blockHeaders
    simp only []
    split_ifs <;> first | rfl | (rw [ih _ (by omega)])

theorem blockLoop_fuel (idat : List Nat) (fuel : Nat) :
    ∀ ip raw, idat.length ≤ fuel + ip →
      blockLoop idat (fuel + 1) ip raw = blockLoop idat fuel ip raw := by
  induction fuel with
  | zero =>
    intro ip raw h
    unfold blockLoop
    rw [if_neg (by omega)]
  | succ f ih =>
    intro ip raw h
    conv_lhs => unfold blockLoop
    conv_rhs => unfold blockLoop
    simp only []
    split_ifs <;> first | rfl | (rw [ih _ _ (by omega)])

theorem blockHeaders_fuel_ge (idat : List Nat) (k : Nat) :
    blockHeaders idat (idat.length + k) 2 = blockHeaders idat idat.length 2 := by
  induction k with
  | zero => rfl
  | succ k ih => rw [← Nat.add_assoc, blockHeaders_fuel _ _ _ (by omega), ih]

theorem blockLoop_fuel_ge (idat : List Nat) (k : Nat) (raw : List Nat) :
    blockLoop idat (idat.length + k) 2 raw = blockLoop idat idat.length 2 raw := by
  induction k with
  | zero => rfl
  | succ k ih => rw [← Nat.add_assoc, blockLoop_fuel _ _ _ _ (by omega), ih]

/-- The stored-block loop fails when it reads a header byte whose block type
is not 0. -/
theorem blockLoop_nonstored (idat : List Nat) (q : Nat)
    (hq : (idat.getD q 0 >>> 1) &&& 3 ≠ 0) :
    ∀ fuel ip raw, q ∈ blockHeaders idat fuel ip → blockLoop idat fuel ip raw = none := by
  intro fuel
  induction fuel with
  | zero =>
    intro ip raw hmem
    unfold blockHeaders at hmem
    exact absurd hmem (List.not_mem_nil _)
  | succ f ih =>
    intro ip raw hmem
    unfold blockHeaders at hmem
    unfold blockLoop
    simp only [] at hmem ⊢
    split_ifs at hmem ⊢ with h1 h2 h3 h4 h5 h6
    all_goals first
      | rfl
      | exact absurd hmem (List.not_mem_nil _)
      | (rw [List.mem_singleton] at hmem; subst hmem; exact absurd hq h2)
      | (rw [List.mem_cons] at hmem
         rcases hmem with hmem | hmem
         · subst hmem; exact absurd hq h2
         · exact ih _ _ hmem)

/-- One more unit of fuel does not change the result of the chunk loop once the
fuel covers the bytes that are left: every iteration consumes at least twelve
of them. -/
theorem chunkLoop_fuel (file : List Nat) (fuel : Nat) :
    ∀ st : ChunkState, file.length ≤ fuel + st.p →
      chunkLoop file (fuel + 1) st = chunkLoop file fuel st := by
  induction fuel with
  | zero =>
    intro st h
    unfold chunkLoop
    rw [if_neg (by omega)]
  | succ f ih =>
    intro st h
    conv_lhs => unfold chunkLoop
    conv_rhs => unfold chunkLoop
    simp only []
    split_ifs <;> first | rfl | (rw [ih _ (by simp only []; omega)])

theorem chunkLoop_fuel_ge (file : List Nat) (k : Nat) :
    chunkLoop file (file.length + k) { p := 8, W := 0, H := 0, idat_concat := [] }
      = chunkLoop file file.length { p := 8, W := 0, H := 0, idat_concat := [] } := by
  induction k with
  | zero => rfl
  | succ k ih => rw [← Nat.add_assoc, chunkLoop_fuel _ _ _ (by simp only []; omega), ih]

/-- C18: let the chunk loop of `readPNG_extractRGB` succeed on a file and
collect the data-chunk stream `idat_concat`. If the stored-block loop reads a
block header at a position
`q` whose byte has block-type bits (bits 1 and 2) different from 00, then
`readPNG_extractRGB` fails on the file and returns no pixels. Both loops may
be given any fuel above the length of the bytes they walk over: they are the
unbounded loops of the source. -/
theorem non_stored_rejected (file : List Nat) (st : ChunkState) (j k q : Nat)
    (hchunk : chunkLoop file (file.length + j) { p := 8, W := 0, H := 0, idat_concat := [] }
      = some st)
    (hq : q ∈ blockHeaders st.idat_concat (st.idat_concat.length + k) 2)
    (hbt : (st.idat_concat.getD q 0 >>> 1) &&& 3 ≠ 0) :
    readPNG_extractRGB file = none := by
  rw [blockHeaders_fuel_ge] at hq
  rw [chunkLoop_fuel_ge] at hchunk
  have hb := blockLoop_nonstored st.idat_concat q hbt _ _ [] hq
  unfold readPNG_extractRGB
  split_ifs with h1 h2
  · rfl
  · rfl
  · rw [hchunk]
    simp only []
    split_ifs with h3 h4
    · rfl
    · rfl
    · rw [hb]

theorem non_stored_rejected_witness :
    readPNG_extractRGB
        [137, 80, 78, 71, 13, 10, 26, 10,
          0, 0, 0, 13, 73, 72, 68, 82, 0, 0, 0, 1, 0, 0, 0, 1, 8, 2, 0, 0, 0, 0, 0, 0, 0,
          0, 0, 0, 3, 73, 68, 65, 84, 120, 1, 2, 0, 0, 0, 0,
          0, 0, 0, 0, 73, 69, 78, 68, 174, 66, 96, 130] = none :=
  non_stored_rejected _ { p := 56, W := 1, H := 1, idat_concat := [120, 1, 2] } 0 0 2
    (by rfl) (by decide) (by decide)


/-! ## Scanline reconstruction on arbitrary raw data -/

/-- The pixel bytes that the scanline loop copies out of `raw`: byte `p` of the
buffer comes from row `p / (3 W)`, after the filter byte of that row. -/
theorem scan_pixels (raw : List Nat) (W H y x c : Nat) (hy : y < H) (hx : x < W) (hc : c < 3) :
    ((List.range (H * W * 3)).map
        (fun p => raw.getD ((p / (W * 3)) * (W * 3 + 1) + 1 + p % (W * 3)) 0)).getD
        ((y * W + x) * 3 + c) 0
      = raw.getD (y * (W * 3 + 1) + 1 + x * 3 + c) 0 := by
  have hlt : (y * W + x) * 3 + c < H * W * 3 := by
    have h1 : (y + 1) * W ≤ H * W := Nat.mul_le_mul_right W hy
    have h2 : (y + 1) * W = y * W + W := by ring
    omega
  rw [getD_range_map _ _ _ _ hlt]
  have e : (y * W + x) * 3 + c = y * (W * 3) + (x * 3 + c) := by ring
  obtain ⟨d1, d2⟩ := mul_add_div_mod (W * 3) y (x * 3 + c) (by omega)
  rw [e, d1, d2]
  congr 1
  omega

/-- The scanline loop on raw data whose first `y` filter bytes are 0. -/
theorem scanlines_rows (raw out0 : List Nat) (W H : Nat) (hW : W < 2 ^ 31) (hH : H < 2 ^ 31) :
    ∀ y, y ≤ H → (∀ y2, y2 < y → raw.getD (y2 * (W * 3 + 1)) 0 = 0) →
      forLoopM y
        (fun y (st : Nat × List Nat) =>
          if raw.getD st.1 0 ≠ 0 then none
          else
            some (forLoop W
              (fun x (st : Nat × List Nat) =>
                (st.1 + 3,
                  ((st.2.set (((y * W + x) * 3) % 2 ^ 64 + 0) (raw.getD st.1 0)).set
                    (((y * W + x) * 3) % 2 ^ 64 + 1) (raw.getD (st.1 + 1) 0)).set
                    (((y * W + x) * 3) % 2 ^ 64 + 2) (raw.getD (st.1 + 2) 0)))
              (st.1 + 1, st.2)))
        (0, out0)
      = some (y * (W * 3 + 1),
          forLoop (y * W)
            (fun q out =>
              ((out.set (q * 3)
                  (((List.range (H * W * 3)).map
                    (fun p => raw.getD ((p / (W * 3)) * (W * 3 + 1) + 1 + p % (W * 3)) 0)).getD
                    (q * 3) 0)).set (q * 3 + 1)
                  (((List.range (H * W * 3)).map
                    (fun p => raw.getD ((p / (W * 3)) * (W * 3 + 1) + 1 + p % (W * 3)) 0)).getD
                    (q * 3 + 1) 0)).set (q * 3 + 2)
                  (((List.range (H * W * 3)).map
                    (fun p => raw.getD ((p / (W * 3)) * (W * 3 + 1) + 1 + p % (W * 3)) 0)).getD
                    (q * 3 + 2) 0))
            out0) := by
  intro y
  induction y with
  | zero => intro _ _; simp [forLoopM, forLoop]
  | succ k ih =>
    intro hk hz
    have hkh : k < H := by omega
    show (forLoopM k _ (0, out0)).bind _ = _
    rw [ih (by omega) (fun y2 hy2 => hz y2 (by omega)), Option.some_bind]
    simp only []
    rw [if_neg (by rw [hz k (by omega)]; simp),
      scanline_inner raw (fun x => ((k * W + x) * 3) % 2 ^ 64) W (k * (W * 3 + 1) + 1)]
    have hkw : (k + 1) * W ≤ H * W := Nat.mul_le_mul_right W (by omega)
    have hHW : H * W < 2 ^ 31 * 2 ^ 31 := by
      have h1 : H * W ≤ 2 ^ 31 * W := Nat.mul_le_mul_right W (by omega)
      have h2 : 2 ^ 31 * W < 2 ^ 31 * 2 ^ 31 := Nat.mul_lt_mul_of_pos_left hW (by norm_num)
      omega
    have hkw2 : (k + 1) * W = k * W + W := by ring
    have hbody : ∀ x, x < W → ∀ t : List Nat,
        ((t.set (((k * W + x) * 3) % 2 ^ 64) (raw.getD (k * (W * 3 + 1) + 1 + x * 3) 0)).set
          (((k * W + x) * 3) % 2 ^ 64 + 1) (raw.getD (k * (W * 3 + 1) + 1 + x * 3 + 1) 0)).set
          (((k * W + x) * 3) % 2 ^ 64 + 2) (raw.getD (k * (W * 3 + 1) + 1 + x * 3 + 2) 0)
        = ((t.set ((k * W + x) * 3)
              (((List.range (H * W * 3)).map
                (fun p => raw.getD ((p / (W * 3)) * (W * 3 + 1) + 1 + p % (W * 3)) 0)).getD
                ((k * W + x) * 3) 0)).set ((k * W + x) * 3 + 1)
              (((List.range (H * W * 3)).map
                (fun p => raw.getD ((p / (W * 3)) * (W * 3 + 1) + 1 + p % (W * 3)) 0)).getD
                ((k * W + x) * 3 + 1) 0)).set ((k * W + x) * 3 + 2)
              (((List.range (H * W * 3)).map
                (fun p => raw.getD ((p / (W * 3)) * (W * 3 + 1) + 1 + p % (W * 3)) 0)).getD
                ((k * W + x) * 3 + 2) 0) := by
      intro x hx t
      have m : ((k * W + x) * 3) % 2 ^ 64 = (k * W + x) * 3 :=
        Nat.mod_eq_of_lt (by norm_num at hHW ⊢; omega)
      have p0 := scan_pixels raw W H k x 0 hkh hx (by omega)
      have p1 := scan_pixels raw W H k x 1 hkh hx (by omega)
      have p2 := scan_pixels raw W H k x 2 hkh hx (by omega)
      simp only [Nat.add_zero] at p0
      rw [m, p0, p1, p2]
    rw [forLoop_congr W _ _ _ hbody, hkw2, forLoop_add]
    congr 2
    ring


theorem scanlines_ok (raw out0 : List Nat) (W H : Nat) (hW : W < 2 ^ 31) (hH : H < 2 ^ 31)
    (hout : out0.length = W * H * 3)
    (hz : ∀ y, y < H → raw.getD (y * (W * 3 + 1)) 0 = 0) :
    scanlines raw (W : Int) (H : Int) out0
      = some (H * (W * 3 + 1),
          (List.range (H * W * 3)).map
            (fun p => raw.getD ((p / (W * 3)) * (W * 3 + 1) + 1 + p % (W * 3)) 0)) := by
  have tW : toSizeT (W : Int) = W := toSizeT_natCast _ (by omega)
  unfold scanlines
  simp only [Int.toNat_ofNat, tW]
  rw [scanlines_rows raw out0 W H hW hH H (Nat.le_refl _) hz]
  rw [forLoop_fill3 _ out0 (H * W) (by rw [List.length_map, List.length_range])
    (by rw [hout, Nat.mul_comm H W])]

theorem scanlines_bad (raw out0 : List Nat) (W H : Nat) (hW : W < 2 ^ 31) (hH : H < 2 ^ 31)
    (hbad : ∃ y, y < H ∧ raw.getD (y * (W * 3 + 1)) 0 ≠ 0) :
    scanlines raw (W : Int) (H : Int) out0 = none := by
  have tW : toSizeT (W : Int) = W := toSizeT_natCast _ (by omega)
  obtain ⟨hy0, hf0⟩ := Nat.find_spec hbad
  have hmin : ∀ y2, y2 < Nat.find hbad → raw.getD (y2 * (W * 3 + 1)) 0 = 0 := by
    intro y2 hy2
    have := Nat.find_min hbad hy2
    by_contra hne
    exact this ⟨by omega, hne⟩
  generalize Nat.find hbad = y0 at hy0 hf0 hmin
  have hpre := scanlines_rows raw out0 W H hW hH y0 (by omega) hmin
  unfold scanlines
  simp only [Int.toNat_ofNat, tW]
  obtain ⟨m, hm⟩ : ∃ m, H = (y0 + 1) + m := ⟨H - (y0 + 1), by omega⟩
  rw [hm]
  apply forLoopM_none
  show (forLoopM y0 _ (0, out0)).bind _ = none
  rw [hm] at hpre
  rw [hpre, Option.some_bind]
  simp only []
  rw [if_pos hf0]

/-- The last stage of `readPNG_extractRGB`, on any file on which its chunk loop
and its stored-block loop succeed. -/
theorem readPNG_scan (file raw : List Nat) (st : ChunkState) (W H j k : Nat)
    (hlen : 8 ≤ file.length) (hsig : file.take 8 = [137, 80, 78, 71, 13, 10, 26, 10])
    (hchunk : chunkLoop file (file.length + j) { p := 8, W := 0, H := 0, idat_concat := [] }
      = some st)
    (hW : st.W = (W : Int)) (hH : st.H = (H : Int)) (hW1 : 1 ≤ W) (hH1 : 1 ≤ H)
    (hWi : W < 2 ^ 31) (hHi : H < 2 ^ 31) (hidat : 2 ≤ st.idat_concat.length)
    (hblock : blockLoop st.idat_concat (st.idat_concat.length + k) 2 [] = some raw) :
    (raw.length < H * (3 * W + 1) → readPNG_extractRGB file = none)
      ∧ ((∃ y, y < H ∧ raw.getD (y * (3 * W + 1)) 0 ≠ 0) → readPNG_extractRGB file = none)
      ∧ (H * (3 * W + 1) ≤ raw.length → (∀ y, y < H → raw.getD (y * (3 * W + 1)) 0 = 0) →
          ∃ out, readPNG_extractRGB file = some ((W : Int), (H : Int), out)
            ∧ out.length = W * H * 3
            ∧ ∀ y x c, y < H → x < W → c < 3 →
                out.getD ((y * W + x) * 3 + c) 0
                  = raw.getD (y * (3 * W + 1) + 1 + 3 * x + c) 0) := by
  rw [chunkLoop_fuel_ge] at hchunk
  rw [blockLoop_fuel_ge] at hblock
  have tW : toSizeT (W : Int) = W := toSizeT_natCast _ (by omega)
  have tH : toSizeT (H : Int) = H := toSizeT_natCast _ (by omega)
  have hcomm : 3 * W + 1 = W * 3 + 1 := by omega
  have hHW : H * (W * 3 + 1) < 2 ^ 31 * 2 ^ 33 := by
    have h1 : H * (W * 3 + 1) ≤ 2 ^ 31 * (W * 3 + 1) := Nat.mul_le_mul_right _ (by omega)
    have h2 : 2 ^ 31 * (W * 3 + 1) < 2 ^ 31 * 2 ^ 33 :=
      Nat.mul_lt_mul_of_pos_left (by omega) (by norm_num)
    omega
  have hWH : W * H * 3 < 2 ^ 64 := by
    have : H * (W * 3 + 1) = W * H * 3 + H := by ring
    norm_num at hHW
    omega
  have e1 : (W * 3 + 1) % 2 ^ 64 = W * 3 + 1 := Nat.mod_eq_of_lt (by omega)
  have e2 : (H * (W * 3 + 1)) % 2 ^ 64 = H * (W * 3 + 1) :=
    Nat.mod_eq_of_lt (by norm_num at hHW ⊢; omega)
  have e3 : (W * H * 3) % 2 ^ 64 = W * H * 3 := Nat.mod_eq_of_lt hWH
  have hW0 : ¬ ((W : Int) = 0 ∨ (H : Int) = 0) := by omega
  have hread : readPNG_extractRGB file
      = if raw.length < H * (W * 3 + 1) then none
        else (scanlines raw (W : Int) (H : Int) (List.replicate (W * H * 3) 0)).map
          (fun r => ((W : Int), (H : Int), r.2)) := by
    unfold readPNG_extractRGB
    rw [if_neg (by omega), if_neg (by rw [hsig]; simp), hchunk]
    simp only []
    rw [hW, hH, if_neg hW0, if_neg (by omega), hblock]
    simp only [tW, tH, e1, e2, e3]
  rw [hcomm]
  refine ⟨?_, ?_, ?_⟩
  · intro hshort
    rw [hread, if_pos hshort]
  · intro hbad
    rw [hread]
    split_ifs
    · rfl
    · rw [scanlines_bad raw _ W H hWi hHi hbad]
      rfl
  · intro hlong hz
    refine ⟨(List.range (H * W * 3)).map
      (fun p => raw.getD ((p / (W * 3)) * (W * 3 + 1) + 1 + p % (W * 3)) 0), ?_, ?_, ?_⟩
    · rw [hread, if_neg (by omega),
        scanlines_ok raw _ W H hWi hHi (by rw [List.length_replicate]) hz]
      rfl
    · rw [List.length_map, List.length_range]
      ring
    · intro y x c hy hx hc
      rw [scan_pixels raw W H y x c hy hx hc]
      congr 1
      omega

/-- C19: let the chunk loop and the stored-block loop of `readPNG_extractRGB`
succeed on a file, with decoded dimensions `W, H ≥ 1` and concatenated
stored-block bytes `raw`. Then the reader fails if `raw` has fewer than
`H * (3 W + 1)` bytes; it fails if the filter byte `raw[y * (3 W + 1)]` of some
row `y < H` is not 0; otherwise it succeeds with `W`, `H` and a buffer of
`W * H * 3` bytes in which byte `c` of pixel `(y, x)` is
`raw[y * (3 W + 1) + 1 + 3 x + c]`. -/
theorem scanline_reconstruction (file raw : List Nat) (st : ChunkState) (W H j k : Nat)
    (hlen : 8 ≤ file.length) (hsig : file.take 8 = [137, 80, 78, 71, 13, 10, 26, 10])
    (hchunk : chunkLoop file (file.length + j) { p := 8, W := 0, H := 0, idat_concat := [] }
      = some st)
    (hW : st.W = (W : Int)) (hH : st.H = (H : Int)) (hW1 : 1 ≤ W) (hH1 : 1 ≤ H)
    (hWi : W < 2 ^ 31) (hHi : H < 2 ^ 31) (hidat : 2 ≤ st.idat_concat.length)
    (hblock : blockLoop st.idat_concat (st.idat_concat.length + k) 2 [] = some raw) :
    (raw.length < H * (3 * W + 1) → readPNG_extractRGB file = none)
      ∧ ((∃ y, y < H ∧ raw.getD (y * (3 * W + 1)) 0 ≠ 0) → readPNG_extractRGB file = none)
      ∧ (H * (3 * W + 1) ≤ raw.length → (∀ y, y < H → raw.getD (y * (3 * W + 1)) 0 = 0) →
          ∃ out, readPNG_extractRGB file = some ((W : Int), (H : Int), out)
            ∧ out.length = W * H * 3
            ∧ ∀ y x c, y < H → x < W → c < 3 →
                out.getD ((y * W + x) * 3 + c) 0
                  = raw.getD (y * (3 * W + 1) + 1 + 3 * x + c) 0) :=
  readPNG_scan file raw st W H j k hlen hsig hchunk hW hH hW1 hH1 hWi hHi hidat hblock

theorem scanline_reconstruction_witness :
    ∃ out : List Nat,
      readPNG_extractRGB
          [137, 80, 78, 71, 13, 10, 26, 10,
            0, 0, 0, 13, 73, 72, 68, 82, 0, 0, 0, 2, 0, 0, 0, 1, 8, 2, 0, 0, 0, 0, 0, 0, 0,
            0, 0, 0, 18, 73, 68, 65, 84,
            120, 1, 1, 7, 0, 248, 255, 0, 1, 2, 3, 4, 5, 6, 0, 0, 0, 0, 0, 0, 0, 0,
            0, 0, 0, 0, 73, 69, 78, 68, 174, 66, 96, 130]
          = some (((2 : Nat) : Int), ((1 : Nat) : Int), out)
        ∧ out.length = 2 * 1 * 3
        ∧ ∀ y x c, y < 1 → x < 2 → c < 3 →
            out.getD ((y * 2 + x) * 3 + c) 0
              = [0, 1, 2, 3, 4, 5, 6].getD (y * (3 * 2 + 1) + 1 + 3 * x + c) 0 :=
  (scanline_reconstruction _ [0, 1, 2, 3, 4, 5, 6]
    { p := 71, W := 2, H := 1,
      idat_concat := [120, 1, 1, 7, 0, 248, 255, 0, 1, 2, 3, 4, 5, 6, 0, 0, 0, 0] }
    2 1 0 0 (by decide) (by decide) (by rfl) rfl rfl (by decide) (by decide) (by norm_num)
    (by norm_num) (by decide) (by decide)).2.2 (by decide) (by decide)


/-! ## The reader on a signature, an IHDR chunk and one IDAT chunk -/

/-- What the chunk loop sees at the start of a chunk whose four trailing bytes
`crc` are arbitrary: the reader does not check them. -/
theorem chunk_facts_any (pre type data crc rest : List Nat) (ht : type.length = 4) :
    rdBE32 (pre ++ (write_be32 [] data.length ++ type ++ data ++ crc) ++ rest) pre.length
        = data.length % 2 ^ 32
      ∧ (pre ++ (write_be32 [] data.length ++ type ++ data ++ crc) ++ rest).length
          = pre.length + 8 + data.length + crc.length + rest.length
      ∧ ((pre ++ (write_be32 [] data.length ++ type ++ data ++ crc) ++ rest).drop
            (pre.length + 4)).take 4 = type
      ∧ ((pre ++ (write_be32 [] data.length ++ type ++ data ++ crc) ++ rest).drop
            (pre.length + 4 + 4)).take data.length = data := by
  have hfile : pre ++ (write_be32 [] data.length ++ type ++ data ++ crc) ++ rest
      = write_be32 pre data.length ++ (type ++ (data ++ (crc ++ rest))) := by
    rw [write_be32_append pre]
    simp only [List.append_assoc]
  refine ⟨?_, ?_, ?_, ?_⟩
  · rw [hfile, rdBE32_written]
  · simp only [List.length_append, write_be32_length, List.length_nil, ht]
    omega
  · rw [hfile, List.drop_left' (by rw [write_be32_length]), List.take_left' ht]
  · have hfile2 : pre ++ (write_be32 [] data.length ++ type ++ data ++ crc) ++ rest
        = (write_be32 pre data.length ++ type) ++ (data ++ (crc ++ rest)) := by
      rw [hfile]; simp only [List.append_assoc]
    rw [hfile2, List.drop_left' (by rw [List.length_append, write_be32_length, ht]),
      List.take_left' rfl]

/-- The chunk loop on a file made of the signature, an IHDR chunk, one IDAT
chunk with any four trailing bytes, and then either nothing or the IEND
chunk: it collects the IDAT data whole. -/
theorem chunkLoop_png (ihdr idat crc rest : List Nat) (fuel : Nat) (hil : ihdr.length = 13)
    (hcrc : crc.length = 4) (hidat : idat.length < 2 ^ 32)
    (hrest : rest = [] ∨ rest = pngChunk [73, 69, 78, 68] []) :
    ∃ p, chunkLoop
        ([137, 80, 78, 71, 13, 10, 26, 10] ++ pngChunk [73, 72, 68, 82] ihdr
          ++ (write_be32 [] idat.length ++ [73, 68, 65, 84] ++ idat ++ crc) ++ rest)
        (fuel + 3) { p := 8, W := 0, H := 0, idat_concat := [] }
      = some { p := p, W := toInt32 (rdBE32 ihdr 0), H := toInt32 (rdBE32 ihdr 4),
               idat_concat := idat } := by
  generalize hfile : [137, 80, 78, 71, 13, 10, 26, 10] ++ pngChunk [73, 72, 68, 82] ihdr
      ++ (write_be32 [] idat.length ++ [73, 68, 65, 84] ++ idat ++ crc) ++ rest = file
  -- first chunk
  have hf1 : file = [137, 80, 78, 71, 13, 10, 26, 10] ++ pngChunk [73, 72, 68, 82] ihdr
      ++ ((write_be32 [] idat.length ++ [73, 68, 65, 84] ++ idat ++ crc) ++ rest) := by
    rw [← hfile]; simp only [List.append_assoc]
  obtain ⟨a1, a2, a3, a4⟩ := chunk_facts [137, 80, 78, 71, 13, 10, 26, 10] [73, 72, 68, 82] ihdr
    ((write_be32 [] idat.length ++ [73, 68, 65, 84] ++ idat ++ crc) ++ rest) rfl
  rw [← hf1] at a1 a2 a3 a4
  rw [hil] at a1 a2 a4
  rw [show (13 : Nat) % 2 ^ 32 = 13 from by norm_num] at a1
  have hlen2 : ((write_be32 [] idat.length ++ [73, 68, 65, 84] ++ idat ++ crc) ++ rest).length
      = 12 + idat.length + rest.length := by
    simp only [List.length_append, write_be32_length, List.length_nil, List.length_cons, hcrc]
    omega
  rw [hlen2] at a2
  simp only [List.length_cons, List.length_nil] at a1 a2 a3 a4
  have hW := rdBE32_of_take_drop file ihdr 16 13 0 a4 (by omega)
  have hH := rdBE32_of_take_drop file ihdr 16 13 4 a4 (by omega)
  have s1 := chunkLoop_IHDR file (fuel + 2) 13 { p := 8, W := 0, H := 0, idat_concat := [] }
    a1 (by simp only []; omega) (by omega) a3
  simp only [] at s1
  rw [hW, hH] at s1
  -- second chunk
  have hpre2 : ([137, 80, 78, 71, 13, 10, 26, 10] ++ pngChunk [73, 72, 68, 82] ihdr).length
      = 33 := by
    rw [List.length_append, pngChunk_length [73, 72, 68, 82] _ rfl, hil]; rfl
  obtain ⟨b1, b2, b3, b4⟩ := chunk_facts_any
    ([137, 80, 78, 71, 13, 10, 26, 10] ++ pngChunk [73, 72, 68, 82] ihdr) [73, 68, 65, 84]
    idat crc rest rfl
  rw [hfile, hpre2] at b1 b2 b3 b4
  rw [Nat.mod_eq_of_lt hidat] at b1
  have s2 := chunkLoop_IDAT file (fuel + 1) idat.length
    { p := 33, W := toInt32 (rdBE32 ihdr 0), H := toInt32 (rdBE32 ihdr 4), idat_concat := [] }
    b1 (by simp only []; omega) b3
  simp only [] at s2
  rw [b4, List.nil_append] at s2
  have e1 : (8 : Nat) + 4 + 4 + 13 + 4 = 33 := rfl
  rw [e1] at s1
  rcases hrest with hr | hr
  · -- the file ends after the IDAT chunk
    subst hr
    have s3 := chunkLoop_exit file (fuel + 1)
      { p := 33 + 4 + 4 + idat.length + 4, W := toInt32 (rdBE32 ihdr 0),
        H := toInt32 (rdBE32 ihdr 4), idat_concat := idat }
      (by simp only [List.length_nil] at b2 ⊢; omega)
    exact ⟨_, by rw [show fuel + 3 = fuel + 2 + 1 from rfl, s1, s2, s3]⟩
  · -- the IEND chunk follows
    subst hr
    have hf3 : file = ([137, 80, 78, 71, 13, 10, 26, 10] ++ pngChunk [73, 72, 68, 82] ihdr
        ++ (write_be32 [] idat.length ++ [73, 68, 65, 84] ++ idat ++ crc))
        ++ pngChunk [73, 69, 78, 68] [] ++ [] := by
      rw [← hfile, List.append_nil]
    have hpre3 : ([137, 80, 78, 71, 13, 10, 26, 10] ++ pngChunk [73, 72, 68, 82] ihdr
        ++ (write_be32 [] idat.length ++ [73, 68, 65, 84] ++ idat ++ crc)).length
        = 33 + 4 + 4 + idat.length + 4 := by
      rw [List.length_append, hpre2]
      simp only [List.length_append, write_be32_length, List.length_nil, List.length_cons, hcrc]
      omega
    obtain ⟨c1, c2, c3, _⟩ := chunk_facts
      ([137, 80, 78, 71, 13, 10, 26, 10] ++ pngChunk [73, 72, 68, 82] ihdr
        ++ (write_be32 [] idat.length ++ [73, 68, 65, 84] ++ idat ++ crc)) [73, 69, 78, 68] []
      [] rfl
    rw [← hf3, hpre3] at c1 c2 c3
    rw [show ([] : List Nat).length % 2 ^ 32 = 0 from rfl] at c1
    have s3 := chunkLoop_IEND file fuel 0
      { p := 33 + 4 + 4 + idat.length + 4, W := toInt32 (rdBE32 ihdr 0),
        H := toInt32 (rdBE32 ihdr 4), idat_concat := idat }
      c1 (by simp only [List.length_nil] at c2 ⊢; omega) c3
    exact ⟨_, by rw [show fuel + 3 = fuel + 2 + 1 from rfl, s1, s2, s3]⟩

/-- The reader on such a file, reduced to its stored-block loop and its
scanline loop on the IDAT data. -/
theorem readPNG_png (w h : Nat) (idat crc rest : List Nat) (hw1 : 1 ≤ w) (hw : w < 2 ^ 31)
    (hh1 : 1 ≤ h) (hh : h < 2 ^ 31) (hcrc : crc.length = 4) (hidat : idat.length < 2 ^ 32)
    (hidat2 : 2 ≤ idat.length) (hrest : rest = [] ∨ rest = pngChunk [73, 69, 78, 68] []) :
    readPNG_extractRGB
        ([137, 80, 78, 71, 13, 10, 26, 10]
          ++ pngChunk [73, 72, 68, 82] (write_be32 (write_be32 [] w) h ++ [8, 2, 0, 0, 0])
          ++ (write_be32 [] idat.length ++ [73, 68, 65, 84] ++ idat ++ crc) ++ rest)
      = (blockLoop idat idat.length 2 []).bind
          (fun raw =>
            if raw.length < h * (w * 3 + 1) then none
            else (scanlines raw (w : Int) (h : Int) (List.replicate (w * h * 3) 0)).map
              (fun r => ((w : Int), (h : Int), r.2))) := by
  have hil := ihdr_length w h
  obtain ⟨hwf, hhf⟩ := ihdr_fields w h
  generalize hihdr : write_be32 (write_be32 [] w) h ++ [8, 2, 0, 0, 0] = ihdr at hil hwf hhf
  have hlen : ([137, 80, 78, 71, 13, 10, 26, 10] ++ pngChunk [73, 72, 68, 82] ihdr
      ++ (write_be32 [] idat.length ++ [73, 68, 65, 84] ++ idat ++ crc) ++ rest).length
      = 45 + idat.length + rest.length := by
    simp only [List.length_append, pngChunk_length [73, 72, 68, 82] _ rfl, write_be32_length,
      List.length_nil, List.length_cons, hcrc, hil]
    omega
  have hsig : ([137, 80, 78, 71, 13, 10, 26, 10] ++ pngChunk [73, 72, 68, 82] ihdr
      ++ (write_be32 [] idat.length ++ [73, 68, 65, 84] ++ idat ++ crc) ++ rest).take 8
      = [137, 80, 78, 71, 13, 10, 26, 10] := by
    rw [List.append_assoc, List.append_assoc]
    exact List.take_left' rfl
  obtain ⟨p, hchunk⟩ := chunkLoop_png ihdr idat crc rest (42 + idat.length + rest.length) hil hcrc
    hidat hrest
  have hfuel : 42 + idat.length + rest.length + 3 = 45 + idat.length + rest.length := by omega
  rw [hfuel, ← hlen] at hchunk
  generalize [137, 80, 78, 71, 13, 10, 26, 10] ++ pngChunk [73, 72, 68, 82] ihdr
      ++ (write_be32 [] idat.length ++ [73, 68, 65, 84] ++ idat ++ crc) ++ rest = file
    at hlen hsig hchunk ⊢
  have eW : toInt32 (rdBE32 ihdr 0) = (w : Int) := by
    rw [hwf, Nat.mod_eq_of_lt (by omega)]; exact toInt32_of_lt w hw
  have eH : toInt32 (rdBE32 ihdr 4) = (h : Int) := by
    rw [hhf, Nat.mod_eq_of_lt (by omega)]; exact toInt32_of_lt h hh
  rw [eW, eH] at hchunk
  have tW : toSizeT (w : Int) = w := toSizeT_natCast _ (by omega)
  have tH : toSizeT (h : Int) = h := toSizeT_natCast _ (by omega)
  have hHW : h * (w * 3 + 1) < 2 ^ 31 * 2 ^ 33 := by
    have h1 : h * (w * 3 + 1) ≤ 2 ^ 31 * (w * 3 + 1) := Nat.mul_le_mul_right _ (by omega)
    have h2 : 2 ^ 31 * (w * 3 + 1) < 2 ^ 31 * 2 ^ 33 :=
      Nat.mul_lt_mul_of_pos_left (by omega) (by norm_num)
    omega
  have hWH : w * h * 3 < 2 ^ 64 := by
    have : h * (w * 3 + 1) = w * h * 3 + h := by ring
    norm_num at hHW
    omega
  have e1 : (w * 3 + 1) % 2 ^ 64 = w * 3 + 1 := Nat.mod_eq_of_lt (by omega)
  have e2 : (h * (w * 3 + 1)) % 2 ^ 64 = h * (w * 3 + 1) :=
    Nat.mod_eq_of_lt (by norm_num at hHW ⊢; omega)
  have e3 : (w * h * 3) % 2 ^ 64 = w * h * 3 := Nat.mod_eq_of_lt hWH
  have hW0 : ¬ ((w : Int) = 0 ∨ (h : Int) = 0) := by omega
  unfold readPNG_extractRGB
  rw [if_neg (by omega), if_neg (by rw [hsig]; simp), hchunk]
  simp only []
  rw [if_neg hW0, if_neg (by omega)]
  simp only [tW, tH, e1, e2, e3]
  cases blockLoop idat idat.length 2 [] with
  | none => rfl
  | some raw => rfl


/-! ## The written file without its IEND chunk -/

theorem writePNG_raw_noend (w h : Nat) (rgb : List Nat) :
    (writePNG_raw w h rgb).take ((writePNG_raw w h rgb).length - 12)
      = [137, 80, 78, 71, 13, 10, 26, 10]
        ++ pngChunk [73, 72, 68, 82] (write_be32 (write_be32 [] w) h ++ [8, 2, 0, 0, 0])
        ++ pngChunk [73, 68, 65, 84] (pngIdat w h rgb) := by
  have hf := writePNG_raw_eq w h rgb
  generalize writePNG_raw w h rgb = file at hf ⊢
  rw [hf]
  apply List.take_left'
  rw [List.length_append _ (pngChunk [73, 69, 78, 68] []),
    pngChunk_length [73, 69, 78, 68] _ rfl]
  simp only [List.length_nil]
  omega

theorem chunkLoop_overrun (file : List Nat) (fuel len : Nat) (st : ChunkState)
    (hlen : rdBE32 file st.p = len) (h8 : st.p + 8 ≤ file.length)
    (hover : st.p + 4 + 4 + len + 4 > file.length) :
    chunkLoop file (fuel + 1) st = none := by
  conv_lhs => unfold chunkLoop
  rw [if_pos h8]
  simp only [hlen]
  rw [if_pos hover]

/-- When the IDAT data are `2 ^ 32 + len'` bytes long and the IEND chunk is
removed, the reader takes the wrapped length `len'` for the IDAT chunk, then
reads a chunk length of `2 ^ 32 - 1` out of the pixel bytes that follow, which
runs past the end of the file, and fails. -/
theorem readPNG_wrapped_noend (w h : Nat) (rgb : List Nat) (len' : Nat)
    (hrgb : rgb.length = w * h * 3) (hw1 : 65536 ≤ w * 3 + 1)
    (hh1 : 1 ≤ h)
    (hlen : (pngIdat w h rgb).length = 2 ^ 32 + len') (h7 : 7 ≤ len') (h65 : len' ≤ 65530)
    (hpix : ∀ j, j < 65535 → rgb.getD j 0 = 255) :
    readPNG_extractRGB
        ([137, 80, 78, 71, 13, 10, 26, 10]
          ++ pngChunk [73, 72, 68, 82] (write_be32 (write_be32 [] w) h ++ [8, 2, 0, 0, 0])
          ++ pngChunk [73, 68, 65, 84] (pngIdat w h rgb)) = none := by
  have hraw := pngRaw_length w h rgb hrgb
  have hn : 65535 < (pngRaw w h rgb).length := by
    rw [hraw]
    have : 1 * (w * 3 + 1) ≤ h * (w * 3 + 1) := Nat.mul_le_mul_right _ hh1
    omega
  obtain ⟨rest, hhead⟩ := pngIdat_head w h rgb hn
  have hi_pix : ∀ r, 1 ≤ r → r < 65535 → (pngIdat w h rgb).getD (7 + r) 0 = 255 := by
    intro r hr1 hr2
    rw [hhead, List.getD_append_right _ _ _ _ (by simp),
      List.getD_append _ _ _ _ (by
        rw [List.length_take]
        simp only [List.length_cons, List.length_nil]
        omega)]
    have e : 7 + r - [0x78, 0x01, 0, 255, 255, 0, 0].length = r := by
      simp only [List.length_cons, List.length_nil]; omega
    rw [e, getD_take _ _ _ hr2]
    have hp := pngRaw_pixel w h rgb hrgb 0 (r - 1) (by omega) (by omega)
    have e2 : 0 * (w * 3 + 1) + 1 + (r - 1) = r := by omega
    have e3 : 0 * w * 3 + (r - 1) = r - 1 := by omega
    rw [e2, e3] at hp
    rw [hp]
    exact hpix _ (by omega)
  have hil := ihdr_length w h
  generalize hihdr : write_be32 (write_be32 [] w) h ++ [8, 2, 0, 0, 0] = ihdr at hil
  generalize hfile : [137, 80, 78, 71, 13, 10, 26, 10] ++ pngChunk [73, 72, 68, 82] ihdr
      ++ pngChunk [73, 68, 65, 84] (pngIdat w h rgb) = file
  -- the IHDR chunk
  have hf1 : file = [137, 80, 78, 71, 13, 10, 26, 10] ++ pngChunk [73, 72, 68, 82] ihdr
      ++ pngChunk [73, 68, 65, 84] (pngIdat w h rgb) := hfile.symm
  obtain ⟨a1, a2, a3, _⟩ := chunk_facts [137, 80, 78, 71, 13, 10, 26, 10] [73, 72, 68, 82] ihdr
    (pngChunk [73, 68, 65, 84] (pngIdat w h rgb)) rfl
  rw [← hf1] at a1 a2 a3
  rw [hil] at a1 a2
  rw [show (13 : Nat) % 2 ^ 32 = 13 from by norm_num] at a1
  rw [pngChunk_length [73, 68, 65, 84] _ rfl, hlen] at a2
  simp only [List.length_cons, List.length_nil] at a1 a2 a3
  have hsig : file.take 8 = [137, 80, 78, 71, 13, 10, 26, 10] := by
    rw [hf1, List.append_assoc]
    exact List.take_left' rfl
  -- the IDAT chunk
  have hf2 : file = ([137, 80, 78, 71, 13, 10, 26, 10] ++ pngChunk [73, 72, 68, 82] ihdr)
      ++ pngChunk [73, 68, 65, 84] (pngIdat w h rgb) ++ [] := by
    rw [hf1, List.append_nil]
  have hpre2 : ([137, 80, 78, 71, 13, 10, 26, 10] ++ pngChunk [73, 72, 68, 82] ihdr).length
      = 33 := by
    rw [List.length_append, pngChunk_length [73, 72, 68, 82] _ rfl, hil]; rfl
  obtain ⟨b1, _, b3, b4⟩ := chunk_facts
    ([137, 80, 78, 71, 13, 10, 26, 10] ++ pngChunk [73, 72, 68, 82] ihdr) [73, 68, 65, 84]
    (pngIdat w h rgb) [] rfl
  rw [← hf2, hpre2] at b1 b3 b4
  rw [hlen] at b1
  have hmod : (2 ^ 32 + len') % 2 ^ 32 = len' := by omega
  rw [hmod] at b1
  have hfget : ∀ i, i < 2 ^ 32 + len' → file.getD (41 + i) 0 = (pngIdat w h rgb).getD i 0 := by
    intro i hi
    rw [← getD_take_drop file 41 (pngIdat w h rgb).length i (by rw [hlen]; exact hi), b4]
  -- the chunk loop
  obtain ⟨f, hf3⟩ : ∃ f, file.length = f + 3 := ⟨file.length - 3, by omega⟩
  have s1 := chunkLoop_IHDR file (f + 2) 13 { p := 8, W := 0, H := 0, idat_concat := [] }
    a1 (by simp only []; omega) (by omega) a3
  simp only [] at s1
  have s2 := chunkLoop_IDAT file (f + 1) len'
    { p := 8 + 4 + 4 + 13 + 4, W := toInt32 (rdBE32 file (8 + 4 + 4)),
      H := toInt32 (rdBE32 file (8 + 4 + 4 + 4)), idat_concat := [] }
    b1 (by simp only []; omega) b3
  simp only [] at s2
  have j : ∀ k, k < 4 → file.getD (8 + 4 + 4 + 13 + 4 + 4 + 4 + len' + 4 + k) 0 = 255 := by
    intro k hk
    have e : 8 + 4 + 4 + 13 + 4 + 4 + 4 + len' + 4 + k = 41 + (7 + (len' + k - 3)) := by omega
    rw [e, hfget _ (by omega)]
    exact hi_pix _ (by omega) (by omega)
  have hjlen : rdBE32 file (8 + 4 + 4 + 13 + 4 + 4 + 4 + len' + 4) = 2 ^ 32 - 1 := by
    unfold rdBE32
    rw [j 0 (by omega), j 1 (by omega), j 2 (by omega), j 3 (by omega)]
    decide
  have s3 := chunkLoop_overrun file f (2 ^ 32 - 1)
    { p := 8 + 4 + 4 + 13 + 4 + 4 + 4 + len' + 4, W := toInt32 (rdBE32 file (8 + 4 + 4)),
      H := toInt32 (rdBE32 file (8 + 4 + 4 + 4)),
      idat_concat := [] ++ (file.drop (8 + 4 + 4 + 13 + 4 + 4 + 4)).take len' }
    hjlen (by simp only []; omega) (by simp only []; omega)
  unfold readPNG_extractRGB
  rw [if_neg (by omega), if_neg (by rw [hsig]; simp), hf3,
    show f + 3 = f + 2 + 1 from rfl, s1, s2, s3]


/-- C20 (as stated, refuted): for the image of width 21845 and height 65532
whose pixel bytes are all 255, the IDAT data are `2 ^ 32 + 65527` bytes long
and their 32-bit chunk length is 65527. On the output of `writePNG_raw`
without its final 12 bytes, `readPNG_extractRGB` reads the next chunk header
out of the pixel bytes, finds a length that runs past the end of the file, and
fails. -/
theorem terminator_not_needed_counterexample :
    1 ≤ 21845 ∧ 1 ≤ 65532
      ∧ (List.replicate (21845 * 65532 * 3) 255).length = 21845 * 65532 * 3
      ∧ readPNG_extractRGB
          ((writePNG_raw 21845 65532 (List.replicate (21845 * 65532 * 3) 255)).take
            ((writePNG_raw 21845 65532 (List.replicate (21845 * 65532 * 3) 255)).length - 12))
          = none := by
  have hrgb : (List.replicate (21845 * 65532 * 3) 255).length = 21845 * 65532 * 3 :=
    List.length_replicate _ _
  refine ⟨by norm_num, by norm_num, hrgb, ?_⟩
  rw [writePNG_raw_noend]
  apply readPNG_wrapped_noend 21845 65532 _ 65527 hrgb (by norm_num) (by norm_num) _
    (by norm_num) (by norm_num)
  · intro j hj
    exact getD_replicate_lt _ _ _ (by omega)
  · rw [pngIdat_length _ _ _ hrgb]
    norm_num

/-- C20 (amended): for every `W ≥ 1`, `H ≥ 1` and every pixel buffer of length
`W * H * 3` such that the IDAT data, of `6 + n + 5 * ceil(n / 65535)` bytes
with `n = H * (3 W + 1)`, fit the 32-bit chunk length (and `3 W + 1` fits the
program's `int`), the last 12 bytes of the output of `writePNG_raw` are the
IEND chunk, and `readPNG_extractRGB` on the output without them succeeds and
returns the same `W`, the same `H` and the same pixel buffer. -/
theorem terminator_not_needed (W H : Nat) (rgb : List Nat) (hW1 : 1 ≤ W) (hH1 : 1 ≤ H)
    (hrgb : rgb.length = W * H * 3) (hint : W * 3 + 1 < 2 ^ 31)
    (hidat : 6 + H * (W * 3 + 1) + 5 * ((H * (W * 3 + 1) + 65534) / 65535) < 2 ^ 32) :
    (writePNG_raw W H rgb).drop ((writePNG_raw W H rgb).length - 12)
        = pngChunk [73, 69, 78, 68] []
      ∧ readPNG_extractRGB
          ((writePNG_raw W H rgb).take ((writePNG_raw W H rgb).length - 12))
          = some ((W : Int), (H : Int), rgb) := by
  have hil := pngIdat_length W H rgb hrgb
  have hraw := pngRaw_length W H rgb hrgb
  have hn : H * (W * 3 + 1) < 2 ^ 32 := by omega
  have hHb : H < 2 ^ 30 := by
    have : H * 4 ≤ H * (W * 3 + 1) := Nat.mul_le_mul_left H (by omega)
    omega
  constructor
  · have hf := writePNG_raw_eq W H rgb
    generalize writePNG_raw W H rgb = file at hf ⊢
    rw [hf]
    apply List.drop_left'
    rw [List.length_append _ (pngChunk [73, 69, 78, 68] []),
      pngChunk_length [73, 69, 78, 68] _ rfl]
    simp only [List.length_nil]
    omega
  · have hfile : [137, 80, 78, 71, 13, 10, 26, 10]
          ++ pngChunk [73, 72, 68, 82] (write_be32 (write_be32 [] W) H ++ [8, 2, 0, 0, 0])
          ++ pngChunk [73, 68, 65, 84] (pngIdat W H rgb)
        = [137, 80, 78, 71, 13, 10, 26, 10]
          ++ pngChunk [73, 72, 68, 82] (write_be32 (write_be32 [] W) H ++ [8, 2, 0, 0, 0])
          ++ (write_be32 [] (pngIdat W H rgb).length ++ [73, 68, 65, 84] ++ pngIdat W H rgb
              ++ write_be32 [] (crc32_for_bytes ([73, 68, 65, 84] ++ pngIdat W H rgb)))
          ++ [] := by
      rw [pngChunk_eq [73, 68, 65, 84], List.append_nil]
    rw [writePNG_raw_noend, hfile,
      readPNG_png W H (pngIdat W H rgb) _ [] hW1 (by omega) hH1 (by omega)
        (by rw [write_be32_length]; rfl) (by omega) (by omega) (Or.inl rfl),
      blockLoop_pngIdat W H rgb (by rw [hraw]; exact Nat.mul_pos (by omega) (by omega)),
      Option.some_bind]
    rw [if_neg (by omega),
      scanlines_written W H rgb _ hrgb hH1 hn (by rw [List.length_replicate])]
    rfl

theorem terminator_not_needed_witness :
    (writePNG_raw 2 1 [1, 2, 3, 4, 5, 6]).drop ((writePNG_raw 2 1 [1, 2, 3, 4, 5, 6]).length - 12)
        = pngChunk [73, 69, 78, 68] []
      ∧ readPNG_extractRGB
          ((writePNG_raw 2 1 [1, 2, 3, 4, 5, 6]).take
            ((writePNG_raw 2 1 [1, 2, 3, 4, 5, 6]).length - 12))
          = some (((2 : Nat) : Int), ((1 : Nat) : Int), [1, 2, 3, 4, 5, 6]) :=
  terminator_not_needed 2 1 [1, 2, 3, 4, 5, 6] (by decide) (by decide) (by decide)
    (by norm_num) (by norm_num)


/-! ## A stored block whose complement field is changed -/

theorem or_shift8 (lo hi : Nat) (hlo : lo < 256) : lo ||| (hi <<< 8) = lo + 256 * hi := by
  have h := Nat.mul_add_lt_is_or (show lo < 2 ^ 8 by omega) hi
  rw [Nat.shiftLeft_eq, Nat.mul_comm hi (2 ^ 8), Nat.lor_comm, ← h]
  omega

/-- The stored-block loop fails at a block of type 0 whose complement field is
not its length field xor `0xFFFF`. -/
theorem blockLoop_badNlen (L acc : List Nat) (fuel ip : Nat) (h5 : ip + 5 ≤ L.length)
    (hbt : (L.getD ip 0 >>> 1) &&& 3 = 0)
    (hne : ((L.getD (ip + 1) 0 ||| (L.getD (ip + 2) 0 <<< 8)) % 2 ^ 16) ^^^ 0xFFFF
      ≠ (L.getD (ip + 3) 0 ||| (L.getD (ip + 4) 0 <<< 8)) % 2 ^ 16) :
    blockLoop L (fuel + 1) ip acc = none := by
  unfold blockLoop
  rw [if_pos (by omega)]
  simp only [hbt, ne_eq, not_true_eq_false, if_false]
  rw [if_neg (by omega)]
  have e1 : ip + 1 + 1 = ip + 2 := by omega
  have e2 : ip + 1 + 2 = ip + 3 := by omega
  have e3 : ip + 1 + 3 = ip + 4 := by omega
  rw [e1, e2, e3, if_pos hne]

theorem set2_head (a b c d e lo hi : Nat) (t : List Nat) :
    (([a, b, c, d, e] ++ t).set 3 lo).set 4 hi = [a, b, c, lo, hi] ++ t := rfl

theorem set2_append_right (B T : List Nat) (q lo hi : Nat) :
    ((B ++ T).set (B.length + q) lo).set (B.length + q + 1) hi
      = B ++ (T.set q lo).set (q + 1) hi := by
  rw [List.set_append_right _ _ (by omega), List.set_append_right _ _ (by omega)]
  have e1 : B.length + q - B.length = q := by omega
  have e2 : B.length + q + 1 - B.length = q + 1 := by omega
  rw [e1, e2]

/-- The stored-block loop of the reader on the blocks of the writer, when the
two bytes of the complement field of block `j` are replaced by `lo` and `hi`
and these do not spell the complement of the length of that block: the loop
passes the `j` blocks before it and fails at block `j`. -/
theorem blockLoop_corrupt (raw post : List Nat) (lo hi : Nat) (hlo : lo < 256) (hhi : hi < 256) :
    ∀ (j fuel remaining rp fuel2 : Nat) (pre acc : List Nat),
      remaining ≤ fuel → rp + remaining ≤ raw.length → 65535 * j < remaining → j < fuel2 →
      lo + 256 * hi ≠ min (remaining - 65535 * j) 65535 ^^^ 0xFFFF →
      blockLoop
          (pre ++ ((storedBlocks raw fuel remaining rp [] ++ post).set (65540 * j + 3) lo).set
            (65540 * j + 3 + 1) hi)
          fuel2 pre.length acc = none := by
  intro j
  induction j with
  | zero =>
    intro fuel remaining rp fuel2 pre acc hf hr hj hf2 hne
    obtain ⟨f, rfl⟩ : ∃ f, fuel = f + 1 := ⟨fuel - 1, by omega⟩
    obtain ⟨g, rfl⟩ : ∃ g, fuel2 = g + 1 := ⟨fuel2 - 1, by omega⟩
    have h0 : 0 < remaining := by omega
    have hc : (if remaining < 65535 then remaining else 65535) = min remaining 65535 := by
      split <;> omega
    have hmod : min remaining 65535 % 2 ^ 16 = min remaining 65535 :=
      Nat.mod_eq_of_lt (by omega)
    rw [storedBlocks_unfold _ _ _ _ h0]
    have hsb : storedBlock raw remaining rp
        = [if remaining ≤ 65535 then 1 else 0, min remaining 65535 &&& 0xFF,
            (min remaining 65535 >>> 8) &&& 0xFF, (min remaining 65535 ^^^ 0xFFFF) &&& 0xFF,
            ((min remaining 65535 ^^^ 0xFFFF) >>> 8) &&& 0xFF]
          ++ (raw.drop rp).take (min remaining 65535) := by
      unfold storedBlock
      simp only [hc, hmod]
    rw [hsb]
    simp only [Nat.mul_zero, Nat.zero_add, List.append_assoc]
    rw [set2_head]
    generalize (raw.drop rp).take (min remaining 65535)
      ++ (storedBlocks raw f (remaining - (if remaining < 65535 then remaining else 65535))
            (rp + (if remaining < 65535 then remaining else 65535)) [] ++ post) = tail
    have g : ∀ i, i < 5 →
        (pre ++ ([if remaining ≤ 65535 then 1 else 0, min remaining 65535 &&& 0xFF,
            (min remaining 65535 >>> 8) &&& 0xFF, lo, hi] ++ tail)).getD (pre.length + i) 0
          = [if remaining ≤ 65535 then 1 else 0, min remaining 65535 &&& 0xFF,
              (min remaining 65535 >>> 8) &&& 0xFF, lo, hi].getD i 0 := by
      intro i hi5
      rw [List.getD_append_right _ _ _ _ (by omega)]
      have e : pre.length + i - pre.length = i := by omega
      rw [e, List.getD_append _ _ _ _ (by simpa using hi5)]
    have g0 := g 0 (by omega)
    have g1 := g 1 (by omega)
    have g2 := g 2 (by omega)
    have g3 := g 3 (by omega)
    have g4 := g 4 (by omega)
    simp only [Nat.add_zero, List.getD_cons_zero, List.getD_cons_succ] at g0 g1 g2 g3 g4
    apply blockLoop_badNlen
    · simp only [List.length_append, List.length_cons, List.length_nil]
      omega
    · rw [g0]
      split <;> decide
    · rw [g1, g2, g3, g4, le16_or _ (by omega), hmod, or_shift8 lo hi hlo,
        Nat.mod_eq_of_lt (by omega)]
      rw [Nat.mul_zero, Nat.sub_zero] at hne
      exact fun h => hne h.symm
  | succ j ih =>
    intro fuel remaining rp fuel2 pre acc hf hr hj hf2 hne
    obtain ⟨f, rfl⟩ : ∃ f, fuel = f + 1 := ⟨fuel - 1, by omega⟩
    obtain ⟨g, rfl⟩ : ∃ g, fuel2 = g + 1 := ⟨fuel2 - 1, by omega⟩
    have h0 : 0 < remaining := by omega
    have hbig : ¬ remaining ≤ 65535 := by omega
    have hc : (if remaining < 65535 then remaining else 65535) = 65535 := by
      split <;> omega
    have hbl := storedBlock_length raw remaining rp hr
    rw [hc] at hbl
    rw [storedBlocks_unfold _ _ _ _ h0, hc]
    have hidx : 65540 * (j + 1) + 3 = (storedBlock raw remaining rp).length + (65540 * j + 3) := by
      rw [hbl]; omega
    rw [List.append_assoc, hidx, set2_append_right, ← List.append_assoc]
    have hstep := blockLoop_step raw pre
      (((storedBlocks raw f (remaining - 65535) (rp + 65535) [] ++ post).set (65540 * j + 3) lo).set
        (65540 * j + 3 + 1) hi) acc g remaining rp h0 hr
    rw [if_neg hbig] at hstep
    rw [hstep]
    have hpl : pre.length + 5 + 65535 = (pre ++ storedBlock raw remaining rp).length := by
      have := List.length_append pre (storedBlock raw remaining rp)
      omega
    rw [hpl]
    have e : remaining - 65535 - 65535 * j = remaining - 65535 * (j + 1) := by omega
    exact ih f (remaining - 65535) (rp + 65535) g (pre ++ storedBlock raw remaining rp) _
      (by omega) (by omega) (by omega) (by omega) (by rw [e]; exact hne)


/-- The bytes of block `j` in the stream of the writer. -/
theorem storedBlocks_getD (raw post : List Nat) :
    ∀ (j fuel remaining rp : Nat) (pre : List Nat) (i : Nat),
      remaining ≤ fuel → rp + remaining ≤ raw.length → 65535 * j < remaining →
      i < 5 + min (remaining - 65535 * j) 65535 →
      (pre ++ (storedBlocks raw fuel remaining rp [] ++ post)).getD
          (pre.length + 65540 * j + i) 0
        = (storedBlock raw (remaining - 65535 * j) (rp + 65535 * j)).getD i 0 := by
  intro j
  induction j with
  | zero =>
    intro fuel remaining rp pre i hf hr hj hi
    obtain ⟨f, rfl⟩ : ∃ f, fuel = f + 1 := ⟨fuel - 1, by omega⟩
    have h0 : 0 < remaining := by omega
    have hbl := storedBlock_length raw remaining rp hr
    have hb5 : i < (storedBlock raw remaining rp).length := by
      rw [hbl]
      split <;> omega
    rw [storedBlocks_unfold _ _ _ _ h0, List.getD_append_right _ _ _ _ (by omega)]
    have e : pre.length + 65540 * 0 + i - pre.length = i := by omega
    rw [e, List.append_assoc, List.getD_append _ _ _ _ hb5]
    simp only [Nat.mul_zero, Nat.sub_zero, Nat.add_zero]
  | succ j ih =>
    intro fuel remaining rp pre i hf hr hj hi
    obtain ⟨f, rfl⟩ : ∃ f, fuel = f + 1 := ⟨fuel - 1, by omega⟩
    have h0 : 0 < remaining := by omega
    have hc : (if remaining < 65535 then remaining else 65535) = 65535 := by
      split <;> omega
    have hbl := storedBlock_length raw remaining rp hr
    rw [hc] at hbl
    rw [storedBlocks_unfold _ _ _ _ h0, hc]
    have hlist : pre ++ (storedBlock raw remaining rp
          ++ storedBlocks raw f (remaining - 65535) (rp + 65535) [] ++ post)
        = (pre ++ storedBlock raw remaining rp)
          ++ (storedBlocks raw f (remaining - 65535) (rp + 65535) [] ++ post) := by
      simp only [List.append_assoc]
    have hidx : pre.length + 65540 * (j + 1) + i
        = (pre ++ storedBlock raw remaining rp).length + 65540 * j + i := by
      have := List.length_append pre (storedBlock raw remaining rp)
      omega
    have e0 : remaining - 65535 - 65535 * j = remaining - 65535 * (j + 1) := by omega
    rw [hlist, hidx, ih f (remaining - 65535) (rp + 65535) _ i (by omega) (by omega) (by omega)
      (by rw [e0]; exact hi)]
    have e1 : remaining - 65535 - 65535 * j = remaining - 65535 * (j + 1) := by omega
    have e2 : rp + 65535 + 65535 * j = rp + 65535 * (j + 1) := by omega
    rw [e1, e2]

theorem idat_three_by_one (rgb3 : List Nat) (hrgb3 : rgb3.length = 9) :
    (pngIdat 3 1 rgb3).take 7 = [0x78, 0x01, 1, 10, 0, 0xF5, 0xFF] := by
  have hraw := pngRaw_length 3 1 rgb3 (by rw [hrgb3])
  rw [pngIdat_eq]
  generalize pngRaw 3 1 rgb3 = raw at hraw ⊢
  have hraw2 : raw.length = 9 + 1 := hraw
  rw [hraw2, storedBlocks_unfold _ _ _ _ (by omega)]
  have hsb : storedBlock raw (9 + 1) 0 = [1, 10, 0, 0xF5, 0xFF] ++ (raw.drop 0).take 10 := by
    have e1 : (if 9 + 1 ≤ 65535 then 1 else 0) = 1 := by decide
    have e2 : (if 9 + 1 < 65535 then 9 + 1 else 65535) = 10 := by decide
    have e3 : 10 % 2 ^ 16 &&& 0xFF = 10 := by decide
    have e4 : (10 % 2 ^ 16) >>> 8 &&& 0xFF = 0 := by decide
    have e5 : (10 % 2 ^ 16 ^^^ 0xFFFF) &&& 0xFF = 0xF5 := by decide
    have e6 : (10 % 2 ^ 16 ^^^ 0xFFFF) >>> 8 &&& 0xFF = 0xFF := by decide
    unfold storedBlock
    simp only [e1, e2, e3, e4, e5, e6]
  rw [hsb]
  rfl

/-- The written file around its IDAT data. -/
theorem writePNG_raw_split (w h : Nat) (rgb : List Nat) :
    writePNG_raw w h rgb
        = ([137, 80, 78, 71, 13, 10, 26, 10]
            ++ pngChunk [73, 72, 68, 82] (write_be32 (write_be32 [] w) h ++ [8, 2, 0, 0, 0])
            ++ (write_be32 [] (pngIdat w h rgb).length ++ [73, 68, 65, 84]))
          ++ (pngIdat w h rgb
            ++ (write_be32 [] (crc32_for_bytes ([73, 68, 65, 84] ++ pngIdat w h rgb))
              ++ pngChunk [73, 69, 78, 68] []))
      ∧ ([137, 80, 78, 71, 13, 10, 26, 10]
            ++ pngChunk [73, 72, 68, 82] (write_be32 (write_be32 [] w) h ++ [8, 2, 0, 0, 0])
            ++ (write_be32 [] (pngIdat w h rgb).length ++ [73, 68, 65, 84])).length = 41 := by
  constructor
  · rw [writePNG_raw_eq, pngChunk_eq [73, 68, 65, 84]]
    simp only [List.append_assoc]
  · rw [List.length_append, List.length_append, pngChunk_length [73, 72, 68, 82] _ rfl,
      ihdr_length, List.length_append, write_be32_length]
    rfl

/-- The file in which the bytes at offsets `q` and `q + 1` of the IDAT data
are replaced. -/
theorem writePNG_raw_set2 (w h : Nat) (rgb : List Nat) (q lo hi : Nat)
    (hq : q + 1 < (pngIdat w h rgb).length) :
    ((writePNG_raw w h rgb).set (41 + q) lo).set (41 + q + 1) hi
      = [137, 80, 78, 71, 13, 10, 26, 10]
        ++ pngChunk [73, 72, 68, 82] (write_be32 (write_be32 [] w) h ++ [8, 2, 0, 0, 0])
        ++ (write_be32 [] (((pngIdat w h rgb).set q lo).set (q + 1) hi).length
            ++ [73, 68, 65, 84] ++ ((pngIdat w h rgb).set q lo).set (q + 1) hi
            ++ write_be32 [] (crc32_for_bytes ([73, 68, 65, 84] ++ pngIdat w h rgb)))
        ++ pngChunk [73, 69, 78, 68] [] := by
  obtain ⟨hsplit, h41⟩ := writePNG_raw_split w h rgb
  rw [hsplit]
  generalize [137, 80, 78, 71, 13, 10, 26, 10]
      ++ pngChunk [73, 72, 68, 82] (write_be32 (write_be32 [] w) h ++ [8, 2, 0, 0, 0]) = A at h41 ⊢
  generalize hP : A ++ (write_be32 [] (pngIdat w h rgb).length ++ [73, 68, 65, 84]) = P at h41 ⊢
  rw [← h41, set2_append_right, List.set_append_left _ _ (by omega),
    List.set_append_left _ _ (by rw [List.length_set]; omega), ← hP]
  simp only [List.length_set, List.append_assoc]

/-- The header bytes of stored block `j` in the written file: byte `i < 5` of
the block lies at offset `43 + 65540 j + i`. -/
theorem writePNG_raw_block (w h : Nat) (rgb : List Nat) (hrgb : rgb.length = w * h * 3)
    (j i : Nat) (hj : j < (h * (w * 3 + 1) + 65534) / 65535)
    (hi : i < 5 + min (h * (w * 3 + 1) - 65535 * j) 65535) :
    (writePNG_raw w h rgb).getD (43 + 65540 * j + i) 0
      = (storedBlock (pngRaw w h rgb) (h * (w * 3 + 1) - 65535 * j) (65535 * j)).getD i 0 := by
  have hil := pngIdat_length w h rgb hrgb
  have hraw := pngRaw_length w h rgb hrgb
  obtain ⟨_, _, b4⟩ := idat_chunk_facts w h rgb
  have hlt : 2 + 65540 * j + i < (pngIdat w h rgb).length := by
    rw [hil]; omega
  have e : 43 + 65540 * j + i = 41 + (2 + 65540 * j + i) := by omega
  rw [e, ← getD_take_drop (writePNG_raw w h rgb) 41 (pngIdat w h rgb).length _ hlt, b4,
    pngIdat_eq, List.append_assoc]
  have hg := storedBlocks_getD (pngRaw w h rgb)
    [(adler32 (pngRaw w h rgb) >>> 24) &&& 0xFF, (adler32 (pngRaw w h rgb) >>> 16) &&& 0xFF,
      (adler32 (pngRaw w h rgb) >>> 8) &&& 0xFF, adler32 (pngRaw w h rgb) &&& 0xFF]
    j (pngRaw w h rgb).length (pngRaw w h rgb).length 0 [0x78, 0x01] i (Nat.le_refl _)
    (by omega) (by rw [hraw]; omega) (by rw [hraw]; exact hi)
  simp only [List.length_cons, List.length_nil, Nat.zero_add] at hg
  rw [hraw] at hg ⊢
  exact hg

/-- The length field and the complement field of stored block `j` in the
written file. -/
theorem complement_field (w h : Nat) (rgb : List Nat) (hrgb : rgb.length = w * h * 3) (j : Nat)
    (hj : j < (h * (w * 3 + 1) + 65534) / 65535) :
    rdLE16 (writePNG_raw w h rgb) (44 + 65540 * j) = min (h * (w * 3 + 1) - 65535 * j) 65535
      ∧ rdLE16 (writePNG_raw w h rgb) (46 + 65540 * j)
          = min (h * (w * 3 + 1) - 65535 * j) 65535 ^^^ 0xFFFF := by
  have hraw := pngRaw_length w h rgb hrgb
  obtain ⟨_, f1, f3, _, _⟩ := storedBlock_fields (pngRaw w h rgb)
    (h * (w * 3 + 1) - 65535 * j) (65535 * j) (by omega) (by rw [hraw]; omega)
  have g1 := writePNG_raw_block w h rgb hrgb j 1 hj (by omega)
  have g2 := writePNG_raw_block w h rgb hrgb j 2 hj (by omega)
  have g3 := writePNG_raw_block w h rgb hrgb j 3 hj (by omega)
  have g4 := writePNG_raw_block w h rgb hrgb j 4 hj (by omega)
  constructor
  · rw [← f1]
    unfold rdLE16
    have e1 : 44 + 65540 * j = 43 + 65540 * j + 1 := by omega
    have e2 : 44 + 65540 * j + 1 = 43 + 65540 * j + 2 := by omega
    rw [e2, e1, g1, g2]
  · rw [← f3]
    unfold rdLE16
    have e1 : 46 + 65540 * j = 43 + 65540 * j + 3 := by omega
    have e2 : 46 + 65540 * j + 1 = 43 + 65540 * j + 4 := by omega
    rw [e2, e1, g3, g4]

/-- C14 (amended): the IDAT data of a 3 × 1 image are one stored block of 10
raw bytes with length field 10 and complement field `0xFFF5 = (~10) & 0xFFFF`.
For every file written by `writePNG_raw` whose IDAT data fit the 32-bit chunk
length (and `3 W + 1` fits the program's `int`), the complement field of stored
block `j` lies at offsets `46 + 65540 j` and `47 + 65540 j` and is the length
field xor `0xFFFF`; replacing its two bytes by any two bytes that spell a
different 16-bit value makes `readPNG_extractRGB` fail. -/
theorem corrupt_complement_rejected (w h : Nat) (rgb rgb3 : List Nat) (j lo hi : Nat)
    (hw1 : 1 ≤ w) (hh1 : 1 ≤ h) (hrgb : rgb.length = w * h * 3) (hint : w * 3 + 1 < 2 ^ 31)
    (hidat : 6 + h * (w * 3 + 1) + 5 * ((h * (w * 3 + 1) + 65534) / 65535) < 2 ^ 32)
    (hj : j < (h * (w * 3 + 1) + 65534) / 65535) (hlo : lo < 256) (hhi : hi < 256)
    (hne : lo + 256 * hi ≠ rdLE16 (writePNG_raw w h rgb) (46 + 65540 * j))
    (hrgb3 : rgb3.length = 9) :
    (pngIdat 3 1 rgb3).take 7 = [0x78, 0x01, 1, 10, 0, 0xF5, 0xFF]
      ∧ (0xFFF5 : Nat) = 10 ^^^ 0xFFFF
      ∧ rdLE16 (writePNG_raw w h rgb) (44 + 65540 * j)
          = (if j + 1 < (h * (w * 3 + 1) + 65534) / 65535 then 65535
              else h * (w * 3 + 1) - 65535 * j)
      ∧ rdLE16 (writePNG_raw w h rgb) (46 + 65540 * j)
          = rdLE16 (writePNG_raw w h rgb) (44 + 65540 * j) ^^^ 0xFFFF
      ∧ readPNG_extractRGB
          (((writePNG_raw w h rgb).set (46 + 65540 * j) lo).set (47 + 65540 * j) hi) = none := by
  have hil := pngIdat_length w h rgb hrgb
  have hraw := pngRaw_length w h rgb hrgb
  have hrem : 0 < h * (w * 3 + 1) - 65535 * j
      ∧ 65535 * j + (h * (w * 3 + 1) - 65535 * j) ≤ (pngRaw w h rgb).length
      ∧ min (h * (w * 3 + 1) - 65535 * j) 65535
          = (if j + 1 < (h * (w * 3 + 1) + 65534) / 65535 then 65535
              else h * (w * 3 + 1) - 65535 * j) := by
    rw [hraw]
    generalize h * (w * 3 + 1) = n at hj ⊢
    refine ⟨by omega, by omega, ?_⟩
    split <;> omega
  obtain ⟨_, _, r2⟩ := hrem
  obtain ⟨hlenf, hnlenf⟩ := complement_field w h rgb hrgb j hj
  refine ⟨idat_three_by_one rgb3 hrgb3, by decide, ?_, ?_, ?_⟩
  · rw [hlenf, r2]
  · rw [hnlenf, hlenf]
  · rw [hnlenf] at hne
    have hq : 65540 * j + 5 + 1 < (pngIdat w h rgb).length := by
      rw [hil]; omega
    have e1 : 46 + 65540 * j = 41 + (65540 * j + 5) := by omega
    have e2 : 47 + 65540 * j = 41 + (65540 * j + 5) + 1 := by omega
    rw [e1, e2, writePNG_raw_set2 w h rgb _ lo hi hq]
    have hblock : ∀ F, j < F →
        blockLoop (((pngIdat w h rgb).set (65540 * j + 5) lo).set (65540 * j + 5 + 1) hi) F 2 []
          = none := by
      intro F hF
      have hpre : pngIdat w h rgb
          = [0x78, 0x01]
            ++ (storedBlocks (pngRaw w h rgb) (pngRaw w h rgb).length (pngRaw w h rgb).length 0 []
              ++ [(adler32 (pngRaw w h rgb) >>> 24) &&& 0xFF,
                  (adler32 (pngRaw w h rgb) >>> 16) &&& 0xFF,
                  (adler32 (pngRaw w h rgb) >>> 8) &&& 0xFF, adler32 (pngRaw w h rgb) &&& 0xFF]) := by
        rw [pngIdat_eq, List.append_assoc]
      have e3 : 65540 * j + 5 = [0x78, 0x01].length + (65540 * j + 3) := by
        simp only [List.length_cons, List.length_nil]; omega
      rw [hpre, e3, set2_append_right]
      exact blockLoop_corrupt (pngRaw w h rgb) _ lo hi hlo hhi j (pngRaw w h rgb).length
        (pngRaw w h rgb).length 0 F [0x78, 0x01] [] (Nat.le_refl _)
        (by omega) (by rw [hraw]; omega) hF (by rw [hraw]; exact hne)
    rw [readPNG_png w h _ _ _ hw1 (by omega) hh1 (by
        have : h * 4 ≤ h * (w * 3 + 1) := Nat.mul_le_mul_left h (by omega)
        omega)
      (by rw [write_be32_length]; rfl) (by simp only [List.length_set]; omega)
      (by simp only [List.length_set]; omega) (Or.inr rfl),
      hblock _ (by simp only [List.length_set]; omega)]
    rfl

set_option maxRecDepth 100000 in
theorem corrupt_complement_rejected_witness :
    (pngIdat 3 1 [1, 2, 3, 4, 5, 6, 7, 8, 9]).take 7 = [0x78, 0x01, 1, 10, 0, 0xF5, 0xFF]
      ∧ readPNG_extractRGB
          (((writePNG_raw 3 1 [1, 2, 3, 4, 5, 6, 7, 8, 9]).set (46 + 65540 * 0) 0).set
            (47 + 65540 * 0) 0) = none :=
  let t := corrupt_complement_rejected 3 1 [1, 2, 3, 4, 5, 6, 7, 8, 9] [1, 2, 3, 4, 5, 6, 7, 8, 9]
    0 0 0 (by decide) (by decide) (by decide) (by norm_num) (by norm_num) (by norm_num)
    (by decide) (by decide) (by decide) (by decide)
  ⟨t.1, t.2.2.2.2⟩


/-! ## A written file that is read as another image

When the IDAT data are longer than `2 ^ 32` bytes, the chunk length in the
file is their length modulo `2 ^ 32`, and the reader looks for the next chunk
inside the pixel bytes. The lemmas of this section follow the reader on such a
file whose pixel bytes spell an IHDR chunk and an IEND chunk at that place. -/

theorem getD_set2 (l : List Nat) (a x y i : Nat) (hi : i < a) :
    ((l.set a x).set (a + 1) y).getD i 0 = l.getD i 0 := by
  rw [getD_set_ne _ _ _ _ _ (by omega), getD_set_ne _ _ _ _ _ (by omega)]

theorem seg_set2 (l : List Nat) (a x y p c : Nat) (h : p + c ≤ a) :
    (((l.set a x).set (a + 1) y).drop p).take c = (l.drop p).take c := by
  apply ext_getD
  · simp only [List.length_take, List.length_drop, List.length_set]
  · intro k hk
    have hk2 : k < c := by
      rw [List.length_take] at hk; omega
    rw [getD_take_drop _ _ _ _ hk2, getD_take_drop _ _ _ _ hk2, getD_set2 _ _ _ _ _ (by omega)]

theorem rdBE32_set2 (l : List Nat) (a x y p : Nat) (h : p + 4 ≤ a) :
    rdBE32 ((l.set a x).set (a + 1) y) p = rdBE32 l p := by
  unfold rdBE32
  rw [getD_set2 _ _ _ _ _ (by omega), getD_set2 _ _ _ _ _ (by omega),
    getD_set2 _ _ _ _ _ (by omega), getD_set2 _ _ _ _ _ (by omega)]

theorem rdBE32_of_bytes (l : List Nat) (p b0 b1 b2 b3 : Nat) (h0 : l.getD p 0 = b0)
    (h1 : l.getD (p + 1) 0 = b1) (h2 : l.getD (p + 2) 0 = b2) (h3 : l.getD (p + 3) 0 = b3) :
    rdBE32 l p = ((b0 <<< 24) ||| (b1 <<< 16) ||| (b2 <<< 8) ||| b3) % 2 ^ 32 := by
  unfold rdBE32
  rw [h0, h1, h2, h3]

theorem blockLoop_done (L acc : List Nat) (fuel ip : Nat) (h : L.length ≤ ip) :
    blockLoop L fuel ip acc = some acc := by
  cases fuel with
  | zero => rfl
  | succ f =>
    unfold blockLoop
    rw [if_neg (by omega)]

theorem storedBlock_data (raw : List Nat) (remaining rp i : Nat) (hi : i < min remaining 65535) :
    (storedBlock raw remaining rp).getD (5 + i) 0 = raw.getD (rp + i) 0 := by
  have hc : (if remaining < 65535 then remaining else 65535) = min remaining 65535 := by
    split <;> omega
  unfold storedBlock
  simp only [hc]
  rw [List.getD_append_right _ _ _ _ (by simp only [List.length_cons, List.length_nil]; omega)]
  have e : 5 + i - [if remaining ≤ 65535 then 1 else 0, min remaining 65535 % 2 ^ 16 &&& 0xFF,
      (min remaining 65535 % 2 ^ 16) >>> 8 &&& 0xFF,
      (min remaining 65535 % 2 ^ 16 ^^^ 0xFFFF) &&& 0xFF,
      (min remaining 65535 % 2 ^ 16 ^^^ 0xFFFF) >>> 8 &&& 0xFF].length = i := by
    simp only [List.length_cons, List.length_nil]; omega
  rw [e, getD_take_drop _ _ _ _ hi]

theorem ihdr_chunk_facts (w h : Nat) (rgb : List Nat) :
    rdBE32 (writePNG_raw w h rgb) 8 = 13
      ∧ ((writePNG_raw w h rgb).drop 12).take 4 = [73, 72, 68, 82] := by
  have hil := ihdr_length w h
  generalize hihdr : write_be32 (write_be32 [] w) h ++ [8, 2, 0, 0, 0] = ihdr at hil
  have hf := writePNG_raw_eq w h rgb
  rw [hihdr] at hf
  generalize writePNG_raw w h rgb = file at hf ⊢
  have hf1 : file = [137, 80, 78, 71, 13, 10, 26, 10] ++ pngChunk [73, 72, 68, 82] ihdr
      ++ (pngChunk [73, 68, 65, 84] (pngIdat w h rgb) ++ pngChunk [73, 69, 78, 68] []) := by
    rw [hf]; simp only [List.append_assoc]
  obtain ⟨a1, _, a3, _⟩ := chunk_facts [137, 80, 78, 71, 13, 10, 26, 10] [73, 72, 68, 82] ihdr
    (pngChunk [73, 68, 65, 84] (pngIdat w h rgb) ++ pngChunk [73, 69, 78, 68] []) rfl
  rw [← hf1] at a1 a3
  rw [hil] at a1
  rw [show (13 : Nat) % 2 ^ 32 = 13 from by norm_num] at a1
  simp only [List.length_cons, List.length_nil] at a1 a3
  exact ⟨a1, a3⟩

/-- The bytes of the written file that lie in the second stored block, when
the first two blocks are full and the first row of the image covers them. -/
theorem crafted_bytes (w h : Nat) (rgb : List Nat) (hrgb : rgb.length = w * h * 3)
    (hrow : 65567 ≤ w * 3 + 1) (hh1 : 1 ≤ h) (hn : 2 * 65535 < h * (w * 3 + 1)) :
    (writePNG_raw w h rgb).getD 65587 0 = 0
      ∧ ∀ r, 65535 ≤ r → r < 65567 →
          (writePNG_raw w h rgb).getD (r + 53) 0 = rgb.getD (r - 1) 0 := by
  have hraw := pngRaw_length w h rgb hrgb
  have hj : 1 < (h * (w * 3 + 1) + 65534) / 65535 := by omega
  have hmin : min (h * (w * 3 + 1) - 65535 * 1) 65535 = 65535 := by omega
  constructor
  · have g3 := writePNG_raw_block w h rgb hrgb 1 3 hj (by omega)
    have g4 := writePNG_raw_block w h rgb hrgb 1 4 hj (by omega)
    obtain ⟨_, _, f3, _, _⟩ := storedBlock_fields (pngRaw w h rgb)
      (h * (w * 3 + 1) - 65535 * 1) (65535 * 1) (by omega) (by rw [hraw]; omega)
    rw [hmin] at f3
    unfold rdLE16 at f3
    have hz : (65535 : Nat) ^^^ 0xFFFF = 0 := by decide
    rw [hz, show (3 : Nat) + 1 = 4 from rfl] at f3
    have e : 65587 = 43 + 65540 * 1 + 4 := by norm_num
    rw [e, g4]
    omega
  · intro r hr1 hr2
    have g := writePNG_raw_block w h rgb hrgb 1 (5 + (r - 65535)) hj (by omega)
    have e : r + 53 = 43 + 65540 * 1 + (5 + (r - 65535)) := by omega
    rw [e, g, storedBlock_data _ _ _ _ (by omega)]
    have hp := pngRaw_pixel w h rgb hrgb 0 (r - 1) (by omega) (by omega)
    have e2 : 0 * (w * 3 + 1) + 1 + (r - 1) = 65535 * 1 + (r - 65535) := by omega
    have e3 : 0 * w * 3 + (r - 1) = r - 1 := by omega
    rw [e2, e3] at hp
    exact hp

/-- The first 65542 bytes of the IDAT data when the raw data are longer than
one block: the two header bytes and the first stored block, which is full. -/
theorem pngIdat_take_block (w h : Nat) (rgb : List Nat) (hn : 65535 < (pngRaw w h rgb).length) :
    (pngIdat w h rgb).take 65542
      = [0x78, 0x01] ++ storedBlock (pngRaw w h rgb) (pngRaw w h rgb).length 0 ++ [] := by
  obtain ⟨f, hf⟩ : ∃ f, (pngRaw w h rgb).length = f + 1 := ⟨(pngRaw w h rgb).length - 1, by omega⟩
  have hbl := storedBlock_length (pngRaw w h rgb) (pngRaw w h rgb).length 0 (by omega)
  have hc : (if (pngRaw w h rgb).length < 65535 then (pngRaw w h rgb).length else 65535)
      = 65535 := by
    split <;> omega
  rw [hc] at hbl
  have hu := storedBlocks_unfold (pngRaw w h rgb) f (pngRaw w h rgb).length 0 (by omega)
  rw [← hf] at hu
  rw [pngIdat_eq, hu, List.append_nil]
  have hl : ([0x78, 0x01] ++ storedBlock (pngRaw w h rgb) (pngRaw w h rgb).length 0).length
      = 65542 := by
    have := List.length_append [0x78, 0x01] (storedBlock (pngRaw w h rgb) (pngRaw w h rgb).length 0)
    simp only [List.length_cons, List.length_nil] at this
    omega
  simp only [← List.append_assoc]
  rw [List.append_assoc _ _ [_, _, _, _], List.take_left' hl]

/-- The stored-block loop on these 65542 bytes: it takes the first block and
stops at the end of the bytes. -/
theorem blockLoop_one_block (w h : Nat) (rgb : List Nat) (fuel : Nat)
    (hn : 65535 < (pngRaw w h rgb).length) :
    blockLoop ((pngIdat w h rgb).take 65542) (fuel + 1) 2 []
      = some ([] ++ ((pngRaw w h rgb).drop 0).take 65535) := by
  have hbl := storedBlock_length (pngRaw w h rgb) (pngRaw w h rgb).length 0 (by omega)
  have hc : (if (pngRaw w h rgb).length < 65535 then (pngRaw w h rgb).length else 65535)
      = 65535 := by
    split <;> omega
  rw [hc] at hbl
  rw [pngIdat_take_block w h rgb hn]
  have hs := blockLoop_step (pngRaw w h rgb) [0x78, 0x01] [] [] fuel (pngRaw w h rgb).length 0
    (by omega) (by omega)
  rw [if_neg (by omega)] at hs
  rw [show (2 : Nat) = [0x78, 0x01].length from rfl, hs]
  apply blockLoop_done
  simp only [List.length_append, List.length_cons, List.length_nil, hbl]
  omega

/-- The reader on a written file whose IDAT data are `2 ^ 32 + 65542` bytes
long and whose pixel bytes spell, right after the first full stored block, an
IHDR chunk for a 1 × 1 image followed by an IEND chunk: it collects the first
65542 bytes of the IDAT data, takes its dimensions from the pixel bytes, stops
at the IEND it finds there, and succeeds with a 1 × 1 image. Nothing it reads
lies at offset 65620 or beyond, so two bytes replaced there change nothing. -/
theorem readPNG_crafted (w h : Nat) (rgb : List Nat) (a x y : Nat)
    (hrgb : rgb.length = w * h * 3) (hrow : 65567 ≤ w * 3 + 1) (hh1 : 1 ≤ h)
    (hlen : (pngIdat w h rgb).length = 2 ^ 32 + 65542)
    (hc : ∀ i, i < 32 → rgb.getD (65534 + i) 0
      = [0, 0, 13, 73, 72, 68, 82, 0, 0, 0, 1, 0, 0, 0, 1, 8,
          2, 0, 0, 0, 1, 2, 3, 4, 0, 0, 0, 0, 73, 69, 78, 68].getD i 0)
    (ha : 65620 ≤ a) :
    ∃ out, readPNG_extractRGB (((writePNG_raw w h rgb).set a x).set (a + 1) y)
      = some (((1 : Nat) : Int), ((1 : Nat) : Int), out) := by
  have hil := pngIdat_length w h rgb hrgb
  have hraw := pngRaw_length w h rgb hrgb
  have hn : 2 * 65535 < h * (w * 3 + 1) := by
    rw [hlen] at hil
    norm_num at hil
    omega
  obtain ⟨hb0, hbytes⟩ := crafted_bytes w h rgb hrgb hrow hh1 hn
  obtain ⟨a1, a3⟩ := ihdr_chunk_facts w h rgb
  obtain ⟨b1, b3, b4⟩ := idat_chunk_facts w h rgb
  have hfl := writePNG_raw_length w h rgb
  have hsig := writePNG_raw_sig w h rgb
  rw [hlen] at hfl b1
  have hmod : (2 ^ 32 + 65542) % 2 ^ 32 = 65542 := by norm_num
  rw [hmod] at b1
  have hseg : ((writePNG_raw w h rgb).drop 41).take 65542 = (pngIdat w h rgb).take 65542 := by
    conv_rhs => rw [← b4]
    rw [List.take_take, hlen, Nat.min_eq_left (by norm_num)]
  generalize hf : writePNG_raw w h rgb = f at hb0 hbytes a1 a3 b1 b3 hfl hsig hseg ⊢
  generalize hF : (f.set a x).set (a + 1) y = F
  -- what the reader sees of the changed file
  have hFl : F.length = 57 + (2 ^ 32 + 65542) := by
    rw [← hF, List.length_set, List.length_set, hfl]
  have hFsig : F.take 8 = [137, 80, 78, 71, 13, 10, 26, 10] := by
    have := seg_set2 f a x y 0 8 (by omega)
    rw [List.drop_zero, List.drop_zero, hF] at this
    rw [this, hsig]
  have A1 : rdBE32 F 8 = 13 := by rw [← hF, rdBE32_set2 _ _ _ _ _ (by omega), a1]
  have A3 : (F.drop (8 + 4)).take 4 = [73, 72, 68, 82] := by
    rw [← hF, seg_set2 _ _ _ _ _ _ (by omega)]; exact a3
  have B1 : rdBE32 F (8 + 4 + 4 + 13 + 4) = 65542 := by
    rw [← hF, rdBE32_set2 _ _ _ _ _ (by omega)]; exact b1
  have B3 : (F.drop (8 + 4 + 4 + 13 + 4 + 4)).take 4 = [73, 68, 65, 84] := by
    rw [← hF, seg_set2 _ _ _ _ _ _ (by omega)]; exact b3
  have B4 : (F.drop (8 + 4 + 4 + 13 + 4 + 4 + 4)).take 65542 = (pngIdat w h rgb).take 65542 := by
    rw [← hF, seg_set2 _ _ _ _ _ _ (by omega)]; exact hseg
  have hG0 : F.getD 65587 0 = 0 := by rw [← hF, getD_set2 _ _ _ _ _ (by omega), hb0]
  have hG : ∀ i, i < 32 → F.getD (65588 + i) 0
      = [0, 0, 13, 73, 72, 68, 82, 0, 0, 0, 1, 0, 0, 0, 1, 8,
          2, 0, 0, 0, 1, 2, 3, 4, 0, 0, 0, 0, 73, 69, 78, 68].getD i 0 := by
    intro i hi
    have e : 65588 + i = (65535 + i) + 53 := by omega
    have e2 : 65535 + i - 1 = 65534 + i := by omega
    rw [← hF, getD_set2 _ _ _ _ _ (by omega), e, hbytes _ (by omega) (by omega), e2, hc i hi]
  have C1 : rdBE32 F 65587 = 13 := by
    rw [rdBE32_of_bytes F 65587 0 0 0 13 hG0 (hG 0 (by omega)) (hG 1 (by omega))
      (hG 2 (by omega))]
    decide
  have C3 : (F.drop (65587 + 4)).take 4 = [73, 72, 68, 82] :=
    take4_of_getD F _ 73 72 68 82 (by rw [hFl]; norm_num) (hG 3 (by omega)) (hG 4 (by omega))
      (hG 5 (by omega)) (hG 6 (by omega))
  have CW : rdBE32 F (65587 + 4 + 4) = 1 := by
    rw [rdBE32_of_bytes F _ 0 0 0 1 (hG 7 (by omega)) (hG 8 (by omega)) (hG 9 (by omega))
      (hG 10 (by omega))]
    decide
  have CH : rdBE32 F (65587 + 4 + 4 + 4) = 1 := by
    rw [rdBE32_of_bytes F _ 0 0 0 1 (hG 11 (by omega)) (hG 12 (by omega)) (hG 13 (by omega))
      (hG 14 (by omega))]
    decide
  have D1 : rdBE32 F 65612 = 0 := by
    rw [rdBE32_of_bytes F 65612 0 0 0 0 (hG 24 (by omega)) (hG 25 (by omega)) (hG 26 (by omega))
      (hG 27 (by omega))]
    decide
  have D3 : (F.drop (65612 + 4)).take 4 = [73, 69, 78, 68] :=
    take4_of_getD F _ 73 69 78 68 (by rw [hFl]; norm_num) (hG 28 (by omega)) (hG 29 (by omega))
      (hG 30 (by omega)) (hG 31 (by omega))
  -- the chunk loop
  obtain ⟨fl, hfuel⟩ : ∃ fl, F.length + 0 = fl + 4 := ⟨F.length - 4, by rw [hFl]; omega⟩
  have s1 := chunkLoop_IHDR F (fl + 3) 13 { p := 8, W := 0, H := 0, idat_concat := [] }
    A1 (by simp only []; rw [hFl]; norm_num) (by omega) A3
  simp only [] at s1
  have s2 := chunkLoop_IDAT F (fl + 2) 65542
    { p := 8 + 4 + 4 + 13 + 4, W := toInt32 (rdBE32 F (8 + 4 + 4)),
      H := toInt32 (rdBE32 F (8 + 4 + 4 + 4)), idat_concat := [] }
    B1 (by simp only []; rw [hFl]; norm_num) B3
  simp only [] at s2
  rw [B4, List.nil_append] at s2
  have s3 := chunkLoop_IHDR F (fl + 1) 13
    { p := 8 + 4 + 4 + 13 + 4 + 4 + 4 + 65542 + 4, W := toInt32 (rdBE32 F (8 + 4 + 4)),
      H := toInt32 (rdBE32 F (8 + 4 + 4 + 4)), idat_concat := (pngIdat w h rgb).take 65542 }
    C1 (by simp only []; rw [hFl]; norm_num) (by omega) C3
  simp only [] at s3
  have s4 := chunkLoop_IEND F fl 0
    { p := 8 + 4 + 4 + 13 + 4 + 4 + 4 + 65542 + 4 + 4 + 4 + 13 + 4,
      W := toInt32 (rdBE32 F (8 + 4 + 4 + 13 + 4 + 4 + 4 + 65542 + 4 + 4 + 4)),
      H := toInt32 (rdBE32 F (8 + 4 + 4 + 13 + 4 + 4 + 4 + 65542 + 4 + 4 + 4 + 4)),
      idat_concat := (pngIdat w h rgb).take 65542 }
    D1 (by simp only []; rw [hFl]; norm_num) D3
  simp only [] at s4
  have hchunk : chunkLoop F (F.length + 0) { p := 8, W := 0, H := 0, idat_concat := [] }
      = some
          { p := 8 + 4 + 4 + 13 + 4 + 4 + 4 + 65542 + 4 + 4 + 4 + 13 + 4 + 4 + 4,
            W := toInt32 (rdBE32 F (8 + 4 + 4 + 13 + 4 + 4 + 4 + 65542 + 4 + 4 + 4)),
            H := toInt32 (rdBE32 F (8 + 4 + 4 + 13 + 4 + 4 + 4 + 65542 + 4 + 4 + 4 + 4)),
            idat_concat := (pngIdat w h rgb).take 65542 } := by
    rw [hfuel, show fl + 4 = fl + 3 + 1 from rfl, s1, s2, s3, s4]
  -- the stored-block loop and the scanline loop
  have hcl : ((pngIdat w h rgb).take 65542).length = 65542 := by
    rw [List.length_take, hlen]
    norm_num
  have hblock := blockLoop_one_block w h rgb 65541 (by rw [hraw]; omega)
  have hr0 : ([] ++ ((pngRaw w h rgb).drop 0).take 65535).length = 65535 := by
    rw [List.nil_append, List.drop_zero, List.length_take, hraw]
    omega
  have hfilt : ([] ++ ((pngRaw w h rgb).drop 0).take 65535).getD 0 0 = 0 := by
    rw [List.nil_append, getD_take_drop _ _ _ _ (by norm_num)]
    have := pngRaw_filter w h rgb hrgb 0 (by omega)
    rw [Nat.zero_mul] at this
    exact this
  obtain ⟨_, _, h3⟩ := readPNG_scan F ([] ++ ((pngRaw w h rgb).drop 0).take 65535) _ 1 1 0 0
    (by rw [hFl]; omega) hFsig hchunk
    (by simp only []; rw [CW]; decide) (by simp only []; rw [CH]; decide)
    (by omega) (by omega) (by norm_num) (by norm_num) (by simp only []; rw [hcl]; omega)
    (by simp only []; rw [hcl]; exact hblock)
  obtain ⟨out, ho, _, _⟩ := h3 (by rw [hr0]; norm_num) (by
    intro y hy
    have : y = 0 := by omega
    subst this
    rw [Nat.zero_mul]
    exact hfilt)
  exact ⟨out, ho⟩


/-- C14 (as stated, refuted): take the image of width 573315 and height 2497
whose pixel bytes are 0 except for a stretch of 30 bytes of the first row,
which spells an IHDR chunk for a 1 × 1 image and an IEND chunk. Its IDAT data are
`2 ^ 32 + 65542` bytes long, so the chunk length written by `writePNG_raw` is
65542. The complement field of the third stored block is 0; replaced by 1, the
file is still accepted by `readPNG_extractRGB`, which collects only the first
65542 bytes of the IDAT data, reads the two chunks spelled by the pixel bytes
and never reaches the third block. -/
theorem corrupt_complement_counterexample :
    (List.replicate 65534 0
        ++ ([0, 0, 13, 73, 72, 68, 82, 0, 0, 0, 1, 0, 0, 0, 1, 8,
              2, 0, 0, 0, 1, 2, 3, 4, 0, 0, 0, 0, 73, 69, 78, 68]
          ++ List.replicate (573315 * 2497 * 3 - 65566) 0)).length = 573315 * 2497 * 3
      ∧ 2 < (2497 * (573315 * 3 + 1) + 65534) / 65535
      ∧ rdLE16
          (writePNG_raw 573315 2497
            (List.replicate 65534 0
              ++ ([0, 0, 13, 73, 72, 68, 82, 0, 0, 0, 1, 0, 0, 0, 1, 8,
                    2, 0, 0, 0, 1, 2, 3, 4, 0, 0, 0, 0, 73, 69, 78, 68]
                ++ List.replicate (573315 * 2497 * 3 - 65566) 0)))
          (46 + 65540 * 2) = 0
      ∧ 1 + 256 * 0 ≠ 0
      ∧ readPNG_extractRGB
          (((writePNG_raw 573315 2497
              (List.replicate 65534 0
                ++ ([0, 0, 13, 73, 72, 68, 82, 0, 0, 0, 1, 0, 0, 0, 1, 8,
                      2, 0, 0, 0, 1, 2, 3, 4, 0, 0, 0, 0, 73, 69, 78, 68]
                  ++ List.replicate (573315 * 2497 * 3 - 65566) 0))).set (46 + 65540 * 2) 1).set
            (46 + 65540 * 2 + 1) 0) ≠ none := by
  generalize hrgbdef : List.replicate 65534 0
      ++ ([0, 0, 13, 73, 72, 68, 82, 0, 0, 0, 1, 0, 0, 0, 1, 8,
            2, 0, 0, 0, 1, 2, 3, 4, 0, 0, 0, 0, 73, 69, 78, 68]
        ++ List.replicate (573315 * 2497 * 3 - 65566) 0) = rgb
  have hrgb : rgb.length = 573315 * 2497 * 3 := by
    rw [← hrgbdef, List.length_append, List.length_append, List.length_replicate,
      List.length_replicate]
    norm_num
  have hc : ∀ i, i < 32 → rgb.getD (65534 + i) 0
      = [0, 0, 13, 73, 72, 68, 82, 0, 0, 0, 1, 0, 0, 0, 1, 8,
          2, 0, 0, 0, 1, 2, 3, 4, 0, 0, 0, 0, 73, 69, 78, 68].getD i 0 := by
    intro i hi
    rw [← hrgbdef, List.getD_append_right _ _ _ _ (by rw [List.length_replicate]; omega),
      List.length_replicate]
    have e : 65534 + i - 65534 = i := by omega
    rw [e, List.getD_append _ _ _ _ (by simpa using hi)]
  have hlen : (pngIdat 573315 2497 rgb).length = 2 ^ 32 + 65542 := by
    rw [pngIdat_length _ _ _ hrgb]
    norm_num
  have hj : 2 < (2497 * (573315 * 3 + 1) + 65534) / 65535 := by norm_num
  obtain ⟨_, hnl⟩ := complement_field 573315 2497 rgb hrgb 2 hj
  refine ⟨hrgb, hj, ?_, by norm_num, ?_⟩
  · rw [hnl]
    norm_num
  · obtain ⟨out, ho⟩ := readPNG_crafted 573315 2497 rgb (46 + 65540 * 2) 1 0 hrgb (by norm_num)
      (by norm_num) hlen hc (by norm_num)
    rw [ho]
    exact fun hcontra => Option.noConfusion hcontra


/-! ## What the raster and audio readers check -/

theorem getD_byte (l : List Nat) (hl : ∀ b ∈ l, b < 256) (i : Nat) : l.getD i 0 < 256 := by
  by_cases hi : i < l.length
  · rw [List.getD_eq_getElem _ _ hi]
    exact hl _ (List.getElem_mem hi)
  · rw [List.getD_eq_default _ _ (by omega)]
    omega

theorem rdLE32_lt (l : List Nat) (hl : ∀ b ∈ l, b < 256) (p : Nat) : rdLE32 l p < 2 ^ 32 := by
  have h0 := getD_byte l hl p
  have h1 := getD_byte l hl (p + 1)
  have h2 := getD_byte l hl (p + 2)
  have h3 := getD_byte l hl (p + 3)
  unfold rdLE32
  omega

/-- C22: `readBMP24_pixels` fails on every sequence of bytes that is shorter
than 54 bytes, or whose first two bytes are not `'B'` (66) and `'M'` (77), or
whose 16-bit bits-per-pixel field at offset 28 is not 24. -/
theorem reader_validation (file : List Nat) (hbytes : ∀ b ∈ file, b < 256)
    (hbad : file.length < 54 ∨ file.getD 0 0 ≠ 66 ∨ file.getD 1 0 ≠ 77 ∨ rdLE16 file 28 ≠ 24) :
    readBMP24_pixels file = none := by
  have h0 := getD_byte file hbytes 0
  have h1 := getD_byte file hbytes 1
  unfold readBMP24_pixels
  by_cases hlen : file.length < 14 + 40
  · rw [if_pos hlen]
  · rw [if_neg hlen]
    by_cases hsig : rdLE16 file 0 ≠ 0x4D42
    · rw [if_pos hsig]
    · rw [if_neg hsig]
      by_cases hbpp : rdLE16 file 28 ≠ 24
      · rw [if_pos hbpp]
      · exfalso
        have hs : rdLE16 file 0 = 0x4D42 := not_not.mp hsig
        unfold rdLE16 at hs
        simp only [Nat.zero_add] at hs
        rcases hbad with h | h | h | h
        · omega
        · omega
        · omega
        · exact hbpp h

theorem reader_validation_witness :
    readBMP24_pixels ([66, 77] ++ List.replicate 26 0 ++ [8, 0] ++ List.replicate 24 0) = none :=
  reader_validation ([66, 77] ++ List.replicate 26 0 ++ [8, 0] ++ List.replicate 24 0)
    (by decide) (Or.inr (Or.inr (Or.inr (by decide))))

/-- C24: on every sequence of at least 44 bytes that starts with `"RIFF"` and
has `"WAVE"` at offset 8, `readWAV_samples` succeeds; it returns the sample
rate field of the header (read as the program's `int`) and exactly
`min(declared data size, file length - 44) / 2` samples, sample `i` being the
signed little-endian 16-bit value at offset `44 + 2 i`. In particular a file
shorter than its declared data size is cut to the bytes present, not
rejected. -/
theorem reader_truncation (data : List Nat) (hbytes : ∀ b ∈ data, b < 256)
    (hlen : 44 ≤ data.length) (hriff : data.take 4 = [82, 73, 70, 70])
    (hwave : (data.drop 8).take 4 = [87, 65, 86, 69]) :
    ∃ samples : List Int,
      readWAV_samples data = some (samples, toInt32 (rdLE32 data 24))
        ∧ samples.length = min (rdLE32 data 40) (data.length - 44) / 2
        ∧ (∀ i, i < samples.length → samples.getD i 0 = toInt16 (rdLE16 data (44 + 2 * i)))
        ∧ (data.length - 44 < rdLE32 data 40 → samples.length = (data.length - 44) / 2) := by
  have hd := rdLE32_lt data hbytes 40
  have hsz : (if 44 + rdLE32 data 40 > data.length then (data.length - 44) % 2 ^ 32
      else rdLE32 data 40) = min (rdLE32 data 40) (data.length - 44) := by
    split
    · rw [Nat.mod_eq_of_lt (by omega)]; omega
    · omega
  refine ⟨(List.range (min (rdLE32 data 40) (data.length - 44) / 2)).map
    (fun i => toInt16 (rdLE16 data (44 + 2 * i))), ?_, ?_, ?_, ?_⟩
  · unfold readWAV_samples
    rw [if_neg (by omega), if_neg (by rw [hriff, hwave]; simp)]
    simp only [hsz]
  · rw [List.length_map, List.length_range]
  · intro i hi
    rw [List.length_map, List.length_range] at hi
    exact getD_range_map _ _ _ _ hi
  · intro hshort
    rw [List.length_map, List.length_range]
    have : min (rdLE32 data 40) (data.length - 44) = data.length - 44 := by omega
    rw [this]

theorem reader_truncation_witness :
    ∃ samples : List Int,
      readWAV_samples (wavHeader 2 44100 ++ [1, 128])
          = some (samples, toInt32 (rdLE32 (wavHeader 2 44100 ++ [1, 128]) 24))
        ∧ samples.length
            = min (rdLE32 (wavHeader 2 44100 ++ [1, 128]) 40)
                ((wavHeader 2 44100 ++ [1, 128]).length - 44) / 2
        ∧ (∀ i, i < samples.length →
            samples.getD i 0 = toInt16 (rdLE16 (wavHeader 2 44100 ++ [1, 128]) (44 + 2 * i)))
        ∧ ((wavHeader 2 44100 ++ [1, 128]).length - 44
              < rdLE32 (wavHeader 2 44100 ++ [1, 128]) 40 →
            samples.length = ((wavHeader 2 44100 ++ [1, 128]).length - 44) / 2) :=
  reader_truncation (wavHeader 2 44100 ++ [1, 128]) (by decide) (by decide) (by decide)
    (by decide)

theorem rdLE32_set_ne (l : List Nat) (k a p : Nat) (h : k < p ∨ p + 3 < k) :
    rdLE32 (l.set k a) p = rdLE32 l p := by
  unfold rdLE32
  rw [getD_set_ne l k p a 0 (by omega), getD_set_ne l k (p + 1) a 0 (by omega),
    getD_set_ne l k (p + 2) a 0 (by omega), getD_set_ne l k (p + 3) a 0 (by omega)]

theorem rdLE16_set_ne (l : List Nat) (k a p : Nat) (h : k < p ∨ p + 1 < k) :
    rdLE16 (l.set k a) p = rdLE16 l p := by
  unfold rdLE16
  rw [getD_set_ne l k p a 0 (by omega), getD_set_ne l k (p + 1) a 0 (by omega)]

theorem drop_take_set (l : List Nat) (p n k a : Nat) (h : p + n < k) :
    ((l.set k a).drop p).take n = (l.drop p).take n := by
  rw [List.drop_set, if_neg (by omega)]
  exact List.take_set_of_lt _ _ (by omega)

/-- The reader `readWAV_samples` never reads the byte at an offset from 20 to
23 or from 28 to 39, where the header keeps its format tag, channel count,
byte rate, block align and bits per sample. -/
theorem readWAV_set_ne (data : List Nat) (k a : Nat)
    (hk : (20 ≤ k ∧ k < 24) ∨ (28 ≤ k ∧ k < 40)) :
    readWAV_samples (data.set k a) = readWAV_samples data := by
  have h1 : (data.set k a).take 4 = data.take 4 := List.take_set_of_lt _ _ (by omega)
  have h2 : ((data.set k a).drop 8).take 4 = (data.drop 8).take 4 :=
    drop_take_set data 8 4 k a (by omega)
  have h3 : rdLE32 (data.set k a) 24 = rdLE32 data 24 := rdLE32_set_ne _ _ _ _ (by omega)
  have h4 : rdLE32 (data.set k a) 40 = rdLE32 data 40 := rdLE32_set_ne _ _ _ _ (by omega)
  have h5 : ∀ m, (List.range m).map (fun i => toInt16 (rdLE16 (data.set k a) (44 + 2 * i)))
      = (List.range m).map (fun i => toInt16 (rdLE16 data (44 + 2 * i))) := by
    intro m
    apply List.map_congr_left
    intro i _
    rw [rdLE16_set_ne _ _ _ _ (by omega)]
  unfold readWAV_samples
  simp only [List.length_set, h1, h2, h3, h4, h5]

/-- C25 (as stated, refuted): a 48-byte file whose header declares 2 channels
and 8 bits per sample is read by `readWAV_samples` without any error: it
returns the four data bytes as two 16-bit samples. -/
theorem format_check_counterexample :
    rdLE16 [82, 73, 70, 70, 40, 0, 0, 0, 87, 65, 86, 69, 102, 109, 116, 32, 16, 0, 0, 0, 1, 0,
        2, 0, 68, 172, 0, 0, 136, 88, 1, 0, 2, 0, 8, 0, 100, 97, 116, 97, 4, 0, 0, 0,
        1, 0, 255, 255] 22 = 2
      ∧ rdLE16 [82, 73, 70, 70, 40, 0, 0, 0, 87, 65, 86, 69, 102, 109, 116, 32, 16, 0, 0, 0, 1, 0,
        2, 0, 68, 172, 0, 0, 136, 88, 1, 0, 2, 0, 8, 0, 100, 97, 116, 97, 4, 0, 0, 0,
        1, 0, 255, 255] 34 = 8
      ∧ readWAV_samples [82, 73, 70, 70, 40, 0, 0, 0, 87, 65, 86, 69, 102, 109, 116, 32, 16, 0,
        0, 0, 1, 0, 2, 0, 68, 172, 0, 0, 136, 88, 1, 0, 2, 0, 8, 0, 100, 97, 116, 97, 4, 0, 0, 0,
        1, 0, 255, 255] = some ([1, -1], 44100) := by
  decide

/-- C25 (amended): `readWAV_samples` does not look at the channel count
(offset 22) nor at the bits-per-sample field (offset 34). On every sequence of
at least 44 bytes that starts with `"RIFF"` and has `"WAVE"` at offset 8 it
succeeds, and when the four bytes of the two fields are replaced by any other
values it returns the same samples and sample rate: the data are always read
as mono 16-bit samples. -/
theorem format_fields_ignored (data : List Nat) (c0 c1 b0 b1 : Nat) (hlen : 44 ≤ data.length)
    (hriff : data.take 4 = [82, 73, 70, 70]) (hwave : (data.drop 8).take 4 = [87, 65, 86, 69]) :
    readWAV_samples ((((data.set 22 c0).set 23 c1).set 34 b0).set 35 b1) = readWAV_samples data
      ∧ (readWAV_samples data).isSome = true := by
  constructor
  · rw [readWAV_set_ne _ 35 _ (by omega), readWAV_set_ne _ 34 _ (by omega),
      readWAV_set_ne _ 23 _ (by omega), readWAV_set_ne _ 22 _ (by omega)]
  · unfold readWAV_samples
    rw [if_neg (by omega), if_neg (by rw [hriff, hwave]; simp)]
    rfl

theorem format_fields_ignored_witness :
    readWAV_samples ((((((wavHeader 2 44100 ++ [1, 0, 255, 255]).set 22 2).set 23 0).set 34 8).set
        35 0)) = readWAV_samples (wavHeader 2 44100 ++ [1, 0, 255, 255])
      ∧ (readWAV_samples (wavHeader 2 44100 ++ [1, 0, 255, 255])).isSome = true :=
  format_fields_ignored (wavHeader 2 44100 ++ [1, 0, 255, 255]) 2 0 8 0 (by decide) (by decide)
    (by decide)


/-! ## The header of the written audio file -/

theorem wavHeader_fields (n s : Nat) (body : List Nat) (hs : s < 2 ^ 31)
    (hn : n * 2 + 36 < 2 ^ 32) :
    (wavHeader n (s : Int) ++ body).take 4 = [82, 73, 70, 70]
      ∧ rdLE32 (wavHeader n (s : Int) ++ body) 4 = n * 2 + 36
      ∧ ((wavHeader n (s : Int) ++ body).drop 8).take 8 = [87, 65, 86, 69, 102, 109, 116, 32]
      ∧ rdLE32 (wavHeader n (s : Int) ++ body) 16 = 16
      ∧ rdLE16 (wavHeader n (s : Int) ++ body) 20 = 1
      ∧ rdLE16 (wavHeader n (s : Int) ++ body) 22 = 1
      ∧ rdLE32 (wavHeader n (s : Int) ++ body) 24 = s
      ∧ rdLE32 (wavHeader n (s : Int) ++ body) 28 = 2 * s
      ∧ rdLE16 (wavHeader n (s : Int) ++ body) 32 = 2
      ∧ rdLE16 (wavHeader n (s : Int) ++ body) 34 = 16
      ∧ ((wavHeader n (s : Int) ++ body).drop 36).take 4 = [100, 97, 116, 97]
      ∧ rdLE32 (wavHeader n (s : Int) ++ body) 40 = n * 2 := by
  have hsr : (((s : Int) % 2 ^ 32).toNat) = s := by omega
  have hba : ((1 * 16) / 8) % 2 ^ 16 = 2 := by norm_num
  have hbr : (s * 2) % 2 ^ 32 = 2 * s := by omega
  have hds : (n * 2) % 2 ^ 32 = n * 2 := Nat.mod_eq_of_lt (by omega)
  have hos : (n * 2 + 44 - 8) % 2 ^ 32 = n * 2 + 36 := by omega
  have e1 := le32_read (n * 2 + 36) (by omega)
  have e2 := le32_read s (by omega)
  have e3 := le32_read (2 * s) (by omega)
  have e4 := le32_read (n * 2) (by omega)
  unfold wavHeader
  simp only [hsr, hba, hbr, hds, hos]
  refine ⟨?_, ?_, ?_, ?_, ?_, ?_, ?_, ?_, ?_, ?_, ?_, ?_⟩
  · simp [le32, le16]
  · simpa [le32, le16, rdLE32] using e1
  · simp [le32, le16]
  · simp [le32, le16, rdLE32]
  · simp [le32, le16, rdLE16]
  · simp [le32, le16, rdLE16]
  · simpa [le32, le16, rdLE32] using e2
  · simpa [le32, le16, rdLE32] using e3
  · simp [le32, le16, rdLE16]
  · simp [le32, le16, rdLE16]
  · simp [le32, le16]
  · simpa [le32, le16, rdLE32] using e4

theorem wavHeader_overall_size (n : Nat) (sr : Int) (body : List Nat) :
    rdLE32 (wavHeader n sr ++ body) 4 = ((n * 2) % 2 ^ 32 + 36) % 2 ^ 32 := by
  have hb : ((n * 2) % 2 ^ 32 + 36) % 2 ^ 32 < 2 ^ 32 := Nat.mod_lt _ (by norm_num)
  have := le32_read _ hb
  simpa [wavHeader, le32, le16, rdLE32] using this

/-- C26 (as stated, refuted): a payload of `2 ^ 28 - 5` bytes satisfies
`32 + 8 L < 2 ^ 31`; its data size is `2 ^ 32 - 16`, and the 32-bit overall
size field holds 20, not the data size plus 36. Besides, the sample rate is a
parameter of type `int`: for the rate `-2 ^ 31` (and a payload of one byte) the
unsigned sample rate field holds `2 ^ 31` and the byte rate field holds 0,
which is not `2 r`, neither as an unsigned nor as a signed 32-bit value. -/
theorem audio_file_header_counterexample :
    32 + 8 * (List.replicate (2 ^ 28 - 5) 0).length < 2 ^ 31
      ∧ rdLE32 (writeWAV_LSBCarrier (fun _ => 0) (List.replicate (2 ^ 28 - 5) 0) 44100) 40
          = 2 ^ 32 - 16
      ∧ rdLE32 (writeWAV_LSBCarrier (fun _ => 0) (List.replicate (2 ^ 28 - 5) 0) 44100) 4 = 20
      ∧ 32 + 8 * [0x41].length < 2 ^ 31
      ∧ rdLE32 (writeWAV_LSBCarrier (fun _ => 0) [0x41] (-2147483648)) 24 = 2147483648
      ∧ rdLE32 (writeWAV_LSBCarrier (fun _ => 0) [0x41] (-2147483648)) 28 = 0
      ∧ toInt32 0 ≠ 2 * (-2147483648) := by
  have hN : wavNumSamples (List.replicate (2 ^ 28 - 5) 0) = 2 ^ 31 - 8 := by
    rw [wavNumSamples_eq, List.length_replicate]; norm_num
  refine ⟨?_, ?_, ?_, by decide, by decide, by decide, by decide⟩
  · rw [List.length_replicate]; norm_num
  · unfold writeWAV_LSBCarrier
    simp only []
    rw [wavHeader_data_size, hN]
    norm_num
  · unfold writeWAV_LSBCarrier
    simp only []
    rw [wavHeader_overall_size, hN]
    norm_num

/-- C26 (amended): for every payload of length `L` with
`2 (32 + 8 L) + 36 < 2 ^ 32` (the overall size fits its 32-bit field) and every
sample rate `r` with `0 ≤ r < 2 ^ 31` (the non-negative values of the
parameter), the file written by `writeWAV_LSBCarrier` is a 44-byte header
followed by exactly `2 (32 + 8 L)` data bytes, two for each sample; the header
starts with `"RIFF"`, the overall size `data size + 36`, `"WAVE"`, `"fmt "` and
the format length 16, and holds format tag 1, channel count 1, sample rate
`r`, byte rate `2 r`, block align 2, bits per sample 16, `"data"` and the data
size `2 (32 + 8 L)`. -/
theorem audio_file_header (carrier : Nat → Int) (payload : List Nat) (r : Int)
    (hL : 2 * (32 + 8 * payload.length) + 36 < 2 ^ 32) (hr0 : 0 ≤ r) (hr : r < 2 ^ 31) :
    (writeWAV_LSBCarrier carrier payload r).length = 44 + 2 * (32 + 8 * payload.length)
      ∧ (writeWAV_LSBCarrier carrier payload r).length - 44
          = 2 * (wavSamples carrier payload).length
      ∧ (writeWAV_LSBCarrier carrier payload r).take 4 = [82, 73, 70, 70]
      ∧ (rdLE32 (writeWAV_LSBCarrier carrier payload r) 4 : Int)
          = 2 * (32 + 8 * payload.length) + 36
      ∧ ((writeWAV_LSBCarrier carrier payload r).drop 8).take 8
          = [87, 65, 86, 69, 102, 109, 116, 32]
      ∧ rdLE32 (writeWAV_LSBCarrier carrier payload r) 16 = 16
      ∧ rdLE16 (writeWAV_LSBCarrier carrier payload r) 20 = 1
      ∧ rdLE16 (writeWAV_LSBCarrier carrier payload r) 22 = 1
      ∧ (rdLE32 (writeWAV_LSBCarrier carrier payload r) 24 : Int) = r
      ∧ (rdLE32 (writeWAV_LSBCarrier carrier payload r) 28 : Int) = 2 * r
      ∧ rdLE16 (writeWAV_LSBCarrier carrier payload r) 32 = 2
      ∧ rdLE16 (writeWAV_LSBCarrier carrier payload r) 34 = 16
      ∧ ((writeWAV_LSBCarrier carrier payload r).drop 36).take 4 = [100, 97, 116, 97]
      ∧ rdLE32 (writeWAV_LSBCarrier carrier payload r) 40 = 2 * (32 + 8 * payload.length) := by
  obtain ⟨s, rfl⟩ := Int.eq_ofNat_of_zero_le hr0
  have hs : s < 2 ^ 31 := by omega
  have hN : wavNumSamples payload = 32 + 8 * payload.length := by
    rw [wavNumSamples_eq, Nat.mod_eq_of_lt (by omega)]; ring
  have hlen : (writeWAV_LSBCarrier carrier payload (s : Int)).length
      = 44 + 2 * (32 + 8 * payload.length) := by
    unfold writeWAV_LSBCarrier
    simp only []
    rw [List.length_append, wavHeader_length, wavBody_eq, wavBody_length, hN]
    omega
  have hsl : (wavSamples carrier payload).length = 32 + 8 * payload.length := by
    rw [wavSamples_length, hN]
  obtain ⟨f1, f2, f3, f4, f5, f6, f7, f8, f9, f10, f11, f12⟩ :=
    wavHeader_fields (32 + 8 * payload.length) s
      (forLoop (32 + 8 * payload.length)
        (fun i out => out ++ le16 (toUInt16 ((wavSamples carrier payload).getD i 0))) [])
      hs (by omega)
  have hfile : writeWAV_LSBCarrier carrier payload (s : Int)
      = wavHeader (32 + 8 * payload.length) (s : Int)
        ++ forLoop (32 + 8 * payload.length)
          (fun i out => out ++ le16 (toUInt16 ((wavSamples carrier payload).getD i 0))) [] := by
    unfold writeWAV_LSBCarrier
    simp only [hN]
  rw [hsl, hlen, hfile]
  refine ⟨rfl, by omega, f1, ?_, f3, f4, f5, f6, ?_, ?_, f9, f10, f11, ?_⟩
  · rw [f2]; push_cast; ring
  · rw [f7]
  · rw [f8]; push_cast; ring
  · rw [f12]; ring

theorem audio_file_header_witness :
    (writeWAV_LSBCarrier (fun _ => 20000) [0x41, 0x42, 0x43] 44100).length
        = 44 + 2 * (32 + 8 * [0x41, 0x42, 0x43].length)
      ∧ (rdLE32 (writeWAV_LSBCarrier (fun _ => 20000) [0x41, 0x42, 0x43] 44100) 28 : Int)
        = 2 * 44100 :=
  have h := audio_file_header (fun _ => 20000) [0x41, 0x42, 0x43] 44100 (by norm_num)
    (by norm_num) (by norm_num)
  ⟨h.1, h.2.2.2.2.2.2.2.2.2.1⟩


/-! ## The layout of the written raster file -/

theorem le32_read_mod (v : Nat) :
    v % 256 + 256 * ((v / 256) % 256) + 65536 * ((v / 65536) % 256)
      + 16777216 * ((v / 16777216) % 256) = v % 2 ^ 32 := by
  omega

theorem bmpHeaders_sizes (w h : Nat) (rest : List Nat) :
    (bmpHeaders w h ++ rest).getD 0 0 = 66
      ∧ (bmpHeaders w h ++ rest).getD 1 0 = 77
      ∧ rdLE32 (bmpHeaders w h ++ rest) 2 = (54 + ((w * 3 + 3) / 4) * 4 * h) % 2 ^ 32
      ∧ rdLE32 (bmpHeaders w h ++ rest) 30 = 0 := by
  have e1 := le32_read_mod (14 + 40 + ((w * 3 + 3) / 4) * 4 * h)
  refine ⟨?_, ?_, ?_, ?_⟩
  · simp [bmpHeaders, le32, le16]
  · simp [bmpHeaders, le32, le16]
  · simpa [bmpHeaders, le32, le16, rdLE32] using e1
  · simp [bmpHeaders, le32, le16, rdLE32]

theorem bmpRow_pad (w : Nat) (rgb : List Nat) (y j : Nat) (hj : w * 3 ≤ j) :
    (bmpRow w rgb y).getD j 0 = 0 := by
  unfold bmpRow
  have hl : ((List.range w).flatMap
      (fun x => [rgb.getD ((y * w + x) * 3 + 2) 0, rgb.getD ((y * w + x) * 3 + 1) 0,
        rgb.getD ((y * w + x) * 3 + 0) 0])).length = w * 3 :=
    length_flatMap_uniform _ 3 w (fun i _ => by simp)
  rw [List.getD_append_right _ _ _ _ (by rw [hl]; exact hj)]
  by_cases hin : j - ((List.range w).flatMap
      (fun x => [rgb.getD ((y * w + x) * 3 + 2) 0, rgb.getD ((y * w + x) * 3 + 1) 0,
        rgb.getD ((y * w + x) * 3 + 0) 0])).length < ((w * 3 + 3) / 4) * 4 - w * 3
  · exact getD_replicate_lt _ _ _ hin
  · rw [List.getD_eq_default _ _ (by rw [List.length_replicate]; omega)]

theorem bmpFile_pad (w h : Nat) (rgb : List Nat) (y j : Nat) (hy : y < h) (hj : w * 3 ≤ j)
    (hj2 : j < ((w * 3 + 3) / 4) * 4) :
    (writeBMP24 w h rgb).getD (54 + y * (((w * 3 + 3) / 4) * 4) + j) 0 = 0 := by
  rw [writeBMP24_eq, List.getD_append_right _ _ _ _ (by rw [bmpHeaders_length]; omega),
    bmpHeaders_length]
  have e : 54 + y * (((w * 3 + 3) / 4) * 4) + j - 54 = y * (((w * 3 + 3) / 4) * 4) + j := by
    omega
  rw [e, getD_flatMap_uniform _ (((w * 3 + 3) / 4) * 4) h 0
    (fun i _ => bmpRow_length w rgb _) y j hy hj2]
  exact bmpRow_pad w rgb _ j hj

/-- C21 (as stated, refuted): for the image of width `2 ^ 20` and height
`2 ^ 11` the rows take `3 * 2 ^ 20` bytes each and `54 + rowBytes * H` is
`54 + 3 * 2 ^ 31`. The file size field has 32 bits: it holds `54 + 2 ^ 31`, and
no value of a four-byte field equals `54 + rowBytes * H`. -/
theorem raster_layout_counterexample :
    1 ≤ 2 ^ 20 ∧ 1 ≤ 2 ^ 11
      ∧ rdLE32 (writeBMP24 (2 ^ 20) (2 ^ 11) (List.replicate (2 ^ 20 * 2 ^ 11 * 3) 0)) 2
          = 54 + 2 ^ 31
      ∧ 54 + 2 ^ 31 ≠ 54 + ((2 ^ 20 * 3 + 3) / 4) * 4 * 2 ^ 11
      ∧ ∀ file : List Nat, (∀ b ∈ file, b < 256) →
          rdLE32 file 2 ≠ 54 + ((2 ^ 20 * 3 + 3) / 4) * 4 * 2 ^ 11 := by
  refine ⟨by norm_num, by norm_num, ?_, by norm_num, ?_⟩
  · rw [writeBMP24_eq, (bmpHeaders_sizes _ _ _).2.2.1]
    norm_num
  · intro file hfile
    have := rdLE32_lt file hfile 2
    have e : 54 + ((2 ^ 20 * 3 + 3) / 4) * 4 * 2 ^ 11 = 6442450998 := by norm_num
    rw [e]
    omega

/-- C21 (amended): for every `W ≥ 1` and `H ≥ 1` whose image size
`rowBytes * H` fits the program's `int` (so that all its `int` computations are
exact), with `rowBytes` the least multiple of 4 that is at least `3 W`, and
every buffer of `W * H * 3` bytes, the bytes written by `writeBMP24` have
length `54 + rowBytes * H`, start with
`'B'`, `'M'`, and declare the file size `54 + rowBytes * H`, the data offset
54, the width `W`, the height `H`, 24 bits per pixel and compression 0. The
pixel `(x, y)` of the buffer lies at offset `54 + (H - 1 - y) * rowBytes + 3 x`
in the order B, G, R, and the bytes of every row from `3 W` to
`rowBytes - 1` are zero. -/
theorem raster_layout (W H : Nat) (rgb : List Nat) (hW : 1 ≤ W) (hH : 1 ≤ H)
    (hrgb : rgb.length = W * H * 3) (hsize : ((W * 3 + 3) / 4) * 4 * H < 2 ^ 31) :
    (writeBMP24 W H rgb).length = 54 + ((W * 3 + 3) / 4) * 4 * H
      ∧ (3 * W ≤ ((W * 3 + 3) / 4) * 4 ∧ ((W * 3 + 3) / 4) * 4 < 3 * W + 4
          ∧ (((W * 3 + 3) / 4) * 4) % 4 = 0)
      ∧ (writeBMP24 W H rgb).getD 0 0 = 66
      ∧ (writeBMP24 W H rgb).getD 1 0 = 77
      ∧ rdLE32 (writeBMP24 W H rgb) 2 = 54 + ((W * 3 + 3) / 4) * 4 * H
      ∧ rdLE32 (writeBMP24 W H rgb) 10 = 54
      ∧ rdLE32 (writeBMP24 W H rgb) 18 = W
      ∧ rdLE32 (writeBMP24 W H rgb) 22 = H
      ∧ rdLE16 (writeBMP24 W H rgb) 28 = 24
      ∧ rdLE32 (writeBMP24 W H rgb) 30 = 0
      ∧ (∀ x y, x < W → y < H →
          (writeBMP24 W H rgb).getD (54 + (H - 1 - y) * (((W * 3 + 3) / 4) * 4) + 3 * x) 0
              = rgb.getD ((y * W + x) * 3 + 2) 0
            ∧ (writeBMP24 W H rgb).getD
                (54 + (H - 1 - y) * (((W * 3 + 3) / 4) * 4) + 3 * x + 1) 0
              = rgb.getD ((y * W + x) * 3 + 1) 0
            ∧ (writeBMP24 W H rgb).getD
                (54 + (H - 1 - y) * (((W * 3 + 3) / 4) * 4) + 3 * x + 2) 0
              = rgb.getD ((y * W + x) * 3) 0)
      ∧ (∀ y j, y < H → 3 * W ≤ j → j < ((W * 3 + 3) / 4) * 4 →
          (writeBMP24 W H rgb).getD (54 + y * (((W * 3 + 3) / 4) * 4) + j) 0 = 0) := by
  have _ := hrgb
  have hrb : 4 ≤ ((W * 3 + 3) / 4) * 4 := by omega
  have hH2 : H ≤ ((W * 3 + 3) / 4) * 4 * H := by
    calc H = 1 * H := (Nat.one_mul H).symm
      _ ≤ ((W * 3 + 3) / 4) * 4 * H := Nat.mul_le_mul_right H (by omega)
  have hW2 : W ≤ ((W * 3 + 3) / 4) * 4 * H := by
    calc W ≤ ((W * 3 + 3) / 4) * 4 * 1 := by omega
      _ ≤ ((W * 3 + 3) / 4) * 4 * H := Nat.mul_le_mul_left _ hH
  obtain ⟨f1, f2, f3, f4, f5⟩ := bmpHeaders_fields W H
    ((List.range H).flatMap (fun k => bmpRow W rgb (H - 1 - k))) (by omega) (by omega)
  obtain ⟨g1, g2, g3, g4⟩ := bmpHeaders_sizes W H
    ((List.range H).flatMap (fun k => bmpRow W rgb (H - 1 - k)))
  rw [← writeBMP24_eq] at f1 f2 f3 f4 f5 g1 g2 g3 g4
  refine ⟨?_, ⟨by omega, by omega, by omega⟩, g1, g2, ?_, f5, f3, f4, f2, g4, ?_, ?_⟩
  · rw [writeBMP24_length, Nat.mul_comm]
  · rw [g3, Nat.mod_eq_of_lt (by omega)]
  · intro x y hx hy
    have q0 := bmpFile_getD W H rgb y x 0 hy hx (by omega)
    have q1 := bmpFile_getD W H rgb y x 1 hy hx (by omega)
    have q2 := bmpFile_getD W H rgb y x 2 hy hx (by omega)
    rw [Nat.mul_comm 3 x]
    exact ⟨q0, q1, q2⟩
  · intro y j hy hj hj2
    exact bmpFile_pad W H rgb y j hy (by omega) hj2

theorem raster_layout_witness :
    (writeBMP24 1 1 [10, 20, 30]).length = 54 + ((1 * 3 + 3) / 4) * 4 * 1
      ∧ rdLE32 (writeBMP24 1 1 [10, 20, 30]) 2 = 54 + ((1 * 3 + 3) / 4) * 4 * 1 :=
  have h := raster_layout 1 1 [10, 20, 30] (by decide) (by decide) (by decide) (by norm_num)
  ⟨h.1, h.2.2.2.2.1⟩


/-! ## The raster reader: the padding and the size of the buffer -/

theorem getD_take_lt (l : List Nat) (n i : Nat) (hi : i < n) : (l.take n).getD i 0 = l.getD i 0 := by
  rw [List.getD_eq_getElem?_getD, List.getD_eq_getElem?_getD, List.getElem?_take_of_lt hi]

theorem rdLE32_take (l : List Nat) (n p : Nat) (hp : p + 3 < n) :
    rdLE32 (l.take n) p = rdLE32 l p := by
  unfold rdLE32
  rw [getD_take_lt l n p (by omega), getD_take_lt l n (p + 1) (by omega),
    getD_take_lt l n (p + 2) (by omega), getD_take_lt l n (p + 3) (by omega)]

theorem rdLE16_take (l : List Nat) (n p : Nat) (hp : p + 1 < n) :
    rdLE16 (l.take n) p = rdLE16 l p := by
  unfold rdLE16
  rw [getD_take_lt l n p (by omega), getD_take_lt l n (p + 1) (by omega)]

/-- A file that starts like the one `writeBMP24` writes for a `W × H` image
and is shorter than the header and `H` whole padded rows is refused. -/
theorem readBMP24_short (W H : Nat) (rgb : List Nat) (n : Nat) (hW : W ≤ 4096) (hH : H ≤ 4096)
    (hn : 54 ≤ n) (hn2 : n < 54 + ((W * 3 + 3) / 4) * 4 * H) :
    readBMP24_pixels ((writeBMP24 W H rgb).take n) = none := by
  have hRB : ((W * 3 + 3) / 4) * 4 ≤ 12288 := by omega
  have hsize : ((W * 3 + 3) / 4) * 4 * H ≤ 12288 * 4096 := Nat.mul_le_mul hRB hH
  have hlen : ((writeBMP24 W H rgb).take n).length = n := by
    rw [List.length_take, writeBMP24_length, Nat.mul_comm H]
    omega
  obtain ⟨f1, f2, f3, f4, f5⟩ := bmpHeaders_fields W H
    ((List.range H).flatMap (fun k => bmpRow W rgb (H - 1 - k))) (by omega) (by omega)
  rw [← writeBMP24_eq] at f1 f2 f3 f4 f5
  rw [← rdLE16_take _ n 0 (by omega)] at f1
  rw [← rdLE16_take _ n 28 (by omega)] at f2
  rw [← rdLE32_take _ n 18 (by omega)] at f3
  rw [← rdLE32_take _ n 22 (by omega)] at f4
  rw [← rdLE32_take _ n 10 (by omega)] at f5
  have tH : toSizeT (H : Int) = H := toSizeT_natCast _ (by omega)
  unfold readBMP24_pixels
  rw [if_neg (by rw [hlen]; omega), if_neg (by rw [f1]; simp), if_neg (by rw [f2]; simp)]
  simp only [f3, f4, f5, toInt32_of_lt W (by omega), toInt32_of_lt H (by omega),
    tdiv_rowBytes W hW, tH]
  have e1 : (54 + ((W * 3 + 3) / 4) * 4 * H) % 2 ^ 64 = 54 + ((W * 3 + 3) / 4) * 4 * H :=
    Nat.mod_eq_of_lt (by omega)
  rw [e1, if_pos (by rw [hlen]; omega)]

/-- C23 (as stated, refuted): the file of the 1 × 1 image with the pixel
(10, 20, 30) has 58 bytes, the last of which is the padding of its only row.
Without that byte the three pixel bytes 30, 20, 10 are still there, and
`readBMP24_pixels` refuses the file. -/
theorem padding_not_required_counterexample :
    (1 * 3) % 4 ≠ 0
      ∧ (writeBMP24 1 1 [10, 20, 30]).length = 58
      ∧ ((writeBMP24 1 1 [10, 20, 30]).take 57).drop 54 = [30, 20, 10]
      ∧ readBMP24_pixels (writeBMP24 1 1 [10, 20, 30]) = some (1, 1, [10, 20, 30])
      ∧ readBMP24_pixels ((writeBMP24 1 1 [10, 20, 30]).take 57) = none := by
  decide

/-- C23 (amended): the raster reader requires the padding. For every image
with `1 ≤ W, H ≤ 4096` whose row size `3 W` is not a multiple of 4, the file
written by `writeBMP24` is read back as the same `W`, `H` and pixels, and the
file with the `k` last bytes removed, for any `k` from 1 to the number
`rowBytes - 3 W` of padding bytes of the last stored row, still holds every
pixel byte and is refused by `readBMP24_pixels`, whose size check asks for `H`
whole padded rows. -/
theorem padding_required (W H : Nat) (rgb : List Nat) (k : Nat) (hW1 : 1 ≤ W) (hW : W ≤ 4096)
    (hH1 : 1 ≤ H) (hH : H ≤ 4096) (hrgb : rgb.length = W * H * 3) (hpad : (W * 3) % 4 ≠ 0)
    (hk1 : 1 ≤ k) (hk : k ≤ ((W * 3 + 3) / 4) * 4 - W * 3) :
    readBMP24_pixels (writeBMP24 W H rgb) = some ((W : Int), (H : Int), rgb)
      ∧ 54 + (H - 1) * (((W * 3 + 3) / 4) * 4) + W * 3 ≤ (writeBMP24 W H rgb).length - k
      ∧ readBMP24_pixels ((writeBMP24 W H rgb).take ((writeBMP24 W H rgb).length - k)) = none := by
  have _ := hpad
  have hlen := writeBMP24_length W H rgb
  have hrows : H * (((W * 3 + 3) / 4) * 4)
      = (H - 1) * (((W * 3 + 3) / 4) * 4) + ((W * 3 + 3) / 4) * 4 := by
    have : H = (H - 1) + 1 := by omega
    nth_rewrite 1 [this]
    rw [Nat.add_mul, Nat.one_mul]
  refine ⟨readBMP24_written W H rgb hW1 hW hH1 hH hrgb, ?_, ?_⟩
  · rw [hlen]; omega
  · apply readBMP24_short W H rgb _ hW hH
    · rw [hlen]; omega
    · rw [hlen, Nat.mul_comm _ H]; omega

theorem padding_required_witness :
    readBMP24_pixels (writeBMP24 2 1 [1, 2, 3, 4, 5, 6]) = some (2, 1, [1, 2, 3, 4, 5, 6])
      ∧ readBMP24_pixels
          ((writeBMP24 2 1 [1, 2, 3, 4, 5, 6]).take ((writeBMP24 2 1 [1, 2, 3, 4, 5, 6]).length - 2))
        = none :=
  have h := padding_required 2 1 [1, 2, 3, 4, 5, 6] 2 (by decide) (by decide) (by decide)
    (by decide) (by decide) (by decide) (by decide) (by decide)
  ⟨h.1, h.2.2⟩

theorem wavPayload_length (samples : List Int) (payload : List Nat)
    (h : wavPayload samples = (true, payload)) : 32 ≤ samples.length := by
  unfold wavPayload at h
  by_cases hl : samples.length ≥ 32
  · exact hl
  · rw [if_neg hl] at h
    simp at h

theorem wavPayload_written (carrier : Nat → Int) (payload : List Nat)
    (hbytes : ∀ b ∈ payload, b < 256) (hpos : 0 < payload.length)
    (h : 32 + 8 * payload.length < 2 ^ 32) :
    wavPayload (wavSamples carrier payload) = (true, payload) := by
  have hlen : (wavSamples carrier payload).length = 32 + 8 * payload.length := by
    rw [wavSamples_eq carrier payload h]; simp
  obtain ⟨hl, hpay⟩ := read_back (getBitSample (wavSamples carrier payload)) payload
    (by omega) hbytes (fun k hk => getBitSample_written carrier payload k h hk)
  unfold wavPayload
  simp only [hl, hlen]
  rw [if_pos (by omega), if_pos ⟨hpos, by omega⟩, hpay]

theorem embedBits_over (img payload : List Nat) (W H : Nat)
    (hover : W * H < 32 + 8 * payload.length) :
    embedBits img W H (buildBits true payload) = embedLoop img (buildBits true payload) (W * H) := by
  have hlen := buildBits_length payload
  have hne : (buildBits true payload).isEmpty = false := by
    cases hb : buildBits true payload with
    | nil => rw [hb, List.length_nil] at hlen; omega
    | cons a t => rfl
  unfold embedBits embedBitCount
  rw [hne]
  simp only [Bool.false_eq_true, if_false]
  rw [if_pos (by rw [hlen]; exact hover)]

/-- C27: whenever the payload found in the samples has more wire bits
`32 + 8 L` than the canvas of 1400 by 400 pixels has pixels, the embed loop of
`generateWaveformPNGWithPayload` and `generateWaveformBMPWithPayload` runs for
exactly `W * H` bits: bit `i` of the wire goes into the least significant bit
of the blue byte of pixel `i` for every `i < W * H`, the other seven bits of
that byte and the red and green bytes stay as drawn, every index `3 i + 2` the
loop uses lies inside the buffer, and both functions go on to write the image
file of the canvas so embedded. -/
theorem graceful_truncation (wav : List Nat) (canvas : List Int → List Nat)
    (samples : List Int) (sr : Int) (payload : List Nat)
    (hread : readWAV_samples wav = some (samples, sr))
    (hpay : wavPayload samples = (true, payload))
    (hcanvas : (canvas samples).length = 1400 * 400 * 3)
    (hover : 1400 * 400 < 32 + 8 * payload.length) :
    embedBitCount 1400 400 (buildBits true payload) = 1400 * 400
      ∧ generateWaveformPNGWithPayload wav canvas
          = some (writePNG_raw 1400 400
              (embedLoop (canvas samples) (buildBits true payload) (1400 * 400)))
      ∧ generateWaveformBMPWithPayload wav canvas
          = some (writeBMP24 1400 400
              (embedLoop (canvas samples) (buildBits true payload) (1400 * 400)))
      ∧ (embedLoop (canvas samples) (buildBits true payload) (1400 * 400)).length
          = 1400 * 400 * 3
      ∧ ∀ i, i < 1400 * 400 →
          i * 3 + 2 < (canvas samples).length
            ∧ (embedLoop (canvas samples) (buildBits true payload) (1400 * 400)).getD
                  (i * 3 + 2) 0
                = ((canvas samples).getD (i * 3 + 2) 0 &&& 0xFE)
                    ||| (buildBits true payload).getD i 0
            ∧ (embedLoop (canvas samples) (buildBits true payload) (1400 * 400)).getD
                  (i * 3 + 2) 0 &&& 1
                = (buildBits true payload).getD i 0
            ∧ (embedLoop (canvas samples) (buildBits true payload) (1400 * 400)).getD
                  (i * 3) 0
                = (canvas samples).getD (i * 3) 0
            ∧ (embedLoop (canvas samples) (buildBits true payload) (1400 * 400)).getD
                  (i * 3 + 1) 0
                = (canvas samples).getD (i * 3 + 1) 0 := by
  have hs := wavPayload_length samples payload hpay
  have hne : samples.isEmpty = false := by
    cases hc : samples with
    | nil => rw [hc, List.length_nil] at hs; omega
    | cons a t => rfl
  have hemb := embedBits_over (canvas samples) payload 1400 400 hover
  refine ⟨?_, ?_, ?_, ?_, ?_⟩
  · unfold embedBitCount
    rw [if_pos (by rw [buildBits_length]; exact hover)]
  · unfold generateWaveformPNGWithPayload
    rw [hread, Option.some_bind]
    simp only [hne, hpay, Bool.false_eq_true, if_false, hemb]
  · unfold generateWaveformBMPWithPayload
    rw [hread, Option.some_bind]
    simp only [hne, hpay, Bool.false_eq_true, if_false, hemb]
  · rw [embedLoop_length, hcanvas]
  · intro i hi
    have hin : i * 3 + 2 < (canvas samples).length := by rw [hcanvas]; omega
    have hb := embedLoop_getD_blue (canvas samples) (buildBits true payload) (1400 * 400) i hi hin
    refine ⟨hin, hb, ?_, ?_, ?_⟩
    · rw [hb]
      exact lsb_replace _ _ (buildBits_le_one payload i)
    · exact embedLoop_getD_other _ _ _ _ (fun j _ => by omega)
    · exact embedLoop_getD_other _ _ _ _ (fun j _ => by omega)

theorem graceful_truncation_witness :
    embedBitCount 1400 400 (buildBits true (List.replicate 70000 65)) = 1400 * 400
      ∧ generateWaveformPNGWithPayload
          (writeWAV_LSBCarrier (fun _ => 0) (List.replicate 70000 65) 44100)
          (fun _ => List.replicate (1400 * 400 * 3) 0)
        = some (writePNG_raw 1400 400
            (embedLoop (List.replicate (1400 * 400 * 3) 0)
              (buildBits true (List.replicate 70000 65)) (1400 * 400)))
      ∧ generateWaveformBMPWithPayload
          (writeWAV_LSBCarrier (fun _ => 0) (List.replicate 70000 65) 44100)
          (fun _ => List.replicate (1400 * 400 * 3) 0)
        = some (writeBMP24 1400 400
            (embedLoop (List.replicate (1400 * 400 * 3) 0)
              (buildBits true (List.replicate 70000 65)) (1400 * 400))) :=
  have hL : (List.replicate 70000 65).length = 70000 := List.length_replicate _ _
  have h := graceful_truncation
    (writeWAV_LSBCarrier (fun _ => 0) (List.replicate 70000 65) 44100)
    (fun _ => List.replicate (1400 * 400 * 3) 0)
    (wavSamples (fun _ => 0) (List.replicate 70000 65))
    (toInt32 ((44100 : Int) % 2 ^ 32).toNat) (List.replicate 70000 65)
    (readWAV_written _ _ _ (by rw [hL]; norm_num))
    (wavPayload_written _ _
      (fun b hb => by rw [(List.mem_replicate.mp hb).2]; norm_num)
      (by rw [hL]; norm_num) (by rw [hL]; norm_num))
    (List.length_replicate _ _)
    (by rw [hL]; norm_num)
  ⟨h.1, h.2.1, h.2.2.1⟩


/-! ## The replacement of the destination file -/

theorem nonBlack_iff (W : Nat) (rgb : List Nat) (x y : Nat) :
    (rgb.getD ((y * W + x) * 3) 0 ≠ 0 ∨ rgb.getD ((y * W + x) * 3 + 1) 0 ≠ 0
        ∨ rgb.getD ((y * W + x) * 3 + 2) 0 ≠ 0)
      ↔ nonBlack W rgb x y = true := by
  unfold nonBlack
  simp only [Bool.or_eq_true, bne_iff_ne, ne_eq, or_assoc]

/-- The first loop of `extractTextFromRenderedBMP` finds the bounding box of
the non-black pixels. -/
theorem boundingBoxOn_eq (W H : Nat) (rgb : List Nat) (left right top bottom : Nat)
    (hW : W < 2 ^ 31) (hH : H < 2 ^ 31) (hbox : IsBoundingBox W H rgb left right top bottom) :
    boundingBoxOn (W : Int) (H : Int) (fun p => rgb.getD p 0)
      = ((left : Int), (top : Int), (right : Int), (bottom : Int)) := by
  obtain ⟨hl, hr, ht, hb, ⟨yl, hyl, nl⟩, ⟨yr, hyr, nr⟩, ⟨xt, hxt, nt⟩, ⟨xb, hxb, nb⟩, hall⟩ := hbox
  have tW : toSizeT (W : Int) = W := toSizeT_natCast _ (by omega)
  have key : ∀ bb : Int × Int × Int × Int,
      bb = forLoop H
        (fun y bb =>
          forLoop W
            (fun x (bb : Int × Int × Int × Int) =>
              if rgb.getD (((y * W + x) * 3) % 2 ^ 64) 0 ≠ 0
                  ∨ rgb.getD (((y * W + x) * 3) % 2 ^ 64 + 1) 0 ≠ 0
                  ∨ rgb.getD (((y * W + x) * 3) % 2 ^ 64 + 2) 0 ≠ 0 then
                (min bb.1 (x : Int), min bb.2.1 (y : Int), max bb.2.2.1 (x : Int),
                  max bb.2.2.2 (y : Int))
              else bb)
            bb)
        ((W : Int), (H : Int), 0, 0) →
      ((left : Int) ≤ bb.1 ∧ (top : Int) ≤ bb.2.1 ∧ bb.2.2.1 ≤ (right : Int)
          ∧ bb.2.2.2 ≤ (bottom : Int))
        ∧ ∀ x y, x < W → y < H → nonBlack W rgb x y = true →
            bb.1 ≤ (x : Int) ∧ bb.2.1 ≤ (y : Int) ∧ (x : Int) ≤ bb.2.2.1
              ∧ (y : Int) ≤ bb.2.2.2 := by
    intro bb hbb
    have houter := forLoop_invariant
      (fun y0 (bb : Int × Int × Int × Int) =>
        ((left : Int) ≤ bb.1 ∧ (top : Int) ≤ bb.2.1 ∧ bb.2.2.1 ≤ (right : Int)
            ∧ bb.2.2.2 ≤ (bottom : Int))
          ∧ ∀ x y, x < W → y < y0 → nonBlack W rgb x y = true →
              bb.1 ≤ (x : Int) ∧ bb.2.1 ≤ (y : Int) ∧ (x : Int) ≤ bb.2.2.1
                ∧ (y : Int) ≤ bb.2.2.2)
      H
      (fun y bb =>
        forLoop W
          (fun x (bb : Int × Int × Int × Int) =>
            if rgb.getD (((y * W + x) * 3) % 2 ^ 64) 0 ≠ 0
                ∨ rgb.getD (((y * W + x) * 3) % 2 ^ 64 + 1) 0 ≠ 0
                ∨ rgb.getD (((y * W + x) * 3) % 2 ^ 64 + 2) 0 ≠ 0 then
              (min bb.1 (x : Int), min bb.2.1 (y : Int), max bb.2.2.1 (x : Int),
                max bb.2.2.2 (y : Int))
            else bb)
          bb)
      ((W : Int), (H : Int), 0, 0)
      ⟨⟨by show (left : Int) ≤ (W : Int); omega, by show (top : Int) ≤ (H : Int); omega,
        by show (0 : Int) ≤ (right : Int); omega, by show (0 : Int) ≤ (bottom : Int); omega⟩,
        fun x y _ hy _ => absurd hy (Nat.not_lt_zero y)⟩
      (by
        intro y0 hy0 t ht
        have hinner := forLoop_invariant
          (fun x0 (bb : Int × Int × Int × Int) =>
            ((left : Int) ≤ bb.1 ∧ (top : Int) ≤ bb.2.1 ∧ bb.2.2.1 ≤ (right : Int)
                ∧ bb.2.2.2 ≤ (bottom : Int))
              ∧ ∀ x y, x < W → (y < y0 ∨ (y = y0 ∧ x < x0)) → nonBlack W rgb x y = true →
                  bb.1 ≤ (x : Int) ∧ bb.2.1 ≤ (y : Int) ∧ (x : Int) ≤ bb.2.2.1
                    ∧ (y : Int) ≤ bb.2.2.2)
          W
          (fun x (bb : Int × Int × Int × Int) =>
            if rgb.getD (((y0 * W + x) * 3) % 2 ^ 64) 0 ≠ 0
                ∨ rgb.getD (((y0 * W + x) * 3) % 2 ^ 64 + 1) 0 ≠ 0
                ∨ rgb.getD (((y0 * W + x) * 3) % 2 ^ 64 + 2) 0 ≠ 0 then
              (min bb.1 (x : Int), min bb.2.1 (y0 : Int), max bb.2.2.1 (x : Int),
                max bb.2.2.2 (y0 : Int))
            else bb)
          t
          ⟨ht.1, fun x y hx hy hn => by
            rcases hy with hy | ⟨_, hy⟩
            · exact ht.2 x y hx hy hn
            · exact absurd hy (Nat.not_lt_zero x)⟩
          (by
            intro x0 hx0 u hu
            have hq : y0 * W + x0 < 2 ^ 31 * 2 ^ 31 := by
              have : y0 * W ≤ (2 ^ 31 - 1) * W := Nat.mul_le_mul_right W (by omega)
              have : (2 ^ 31 - 1) * W ≤ (2 ^ 31 - 1) * 2 ^ 31 :=
                Nat.mul_le_mul_left _ (by omega)
              omega
            have hmod : ((y0 * W + x0) * 3) % 2 ^ 64 = (y0 * W + x0) * 3 :=
              Nat.mod_eq_of_lt (by omega)
            beta_reduce
            rw [hmod]
            by_cases hnb : nonBlack W rgb x0 y0 = true
            · rw [if_pos ((nonBlack_iff W rgb x0 y0).mpr hnb)]
              obtain ⟨b1, b2, b3, b4⟩ := hall x0 hx0 y0 hy0 hnb
              obtain ⟨⟨u1, u2, u3, u4⟩, uall⟩ := hu
              refine ⟨⟨?_, ?_, ?_, ?_⟩, ?_⟩
              · show (left : Int) ≤ min u.1 (x0 : Int); omega
              · show (top : Int) ≤ min u.2.1 (y0 : Int); omega
              · show max u.2.2.1 (x0 : Int) ≤ (right : Int); omega
              · show max u.2.2.2 (y0 : Int) ≤ (bottom : Int); omega
              · intro x y hx hy hn
                show min u.1 (x0 : Int) ≤ (x : Int) ∧ min u.2.1 (y0 : Int) ≤ (y : Int)
                  ∧ (x : Int) ≤ max u.2.2.1 (x0 : Int) ∧ (y : Int) ≤ max u.2.2.2 (y0 : Int)
                by_cases hnew : y = y0 ∧ x = x0
                · obtain ⟨e1, e2⟩ := hnew
                  subst e1; subst e2
                  omega
                · have := uall x y hx (by omega) hn
                  omega
            · rw [if_neg (fun h => hnb ((nonBlack_iff W rgb x0 y0).mp h))]
              refine ⟨hu.1, ?_⟩
              intro x y hx hy hn
              by_cases hnew : y = y0 ∧ x = x0
              · obtain ⟨e1, e2⟩ := hnew
                subst e1; subst e2
                exact absurd hn hnb
              · exact hu.2 x y hx (by omega) hn)
        refine ⟨hinner.1, ?_⟩
        intro x y hx hy hn
        exact hinner.2 x y hx (by omega) hn)
    rw [hbb]
    exact houter
  unfold boundingBoxOn
  simp only [Int.toNat_ofNat, tW]
  obtain ⟨⟨k1, k2, k3, k4⟩, kall⟩ := key _ rfl
  have a1 := kall left yl hl hyl nl
  have a2 := kall right yr hr hyr nr
  have a3 := kall xt top hxt ht nt
  have a4 := kall xb bottom hxb hb nb
  apply Prod.ext
  · exact le_antisymm a1.1 k1
  · apply Prod.ext
    · exact le_antisymm a3.2.1 k2
    · apply Prod.ext
      · exact le_antisymm k3 a2.2.2.1
      · exact le_antisymm k4 a4.2.2.2

/-- One round of the margin search that has not found a margin yet: it takes
the margin `m` exactly when `m` fits. -/
theorem findMargin_step (W H : Int) (bb : Int × Int × Int × Int) (m : Nat) (st : Int × Int × Int)
    (hst : st.1 = -1) :
    (if st.1 ≠ -1 then st
      else
        if W - 2 * (m : Int) ≤ 0 ∨ H - 2 * (m : Int) ≤ 0 then st
        else if Int.tmod (W - 2 * (m : Int)) 8 ≠ 0 then st
        else if Int.tmod (H - 2 * (m : Int)) 8 ≠ 0 then st
        else
          if bb.1 ≥ (m : Int)
              ∧ bb.2.2.1 ≤ (m : Int) + Int.tdiv (W - 2 * (m : Int)) 8 * 8 - 1
              ∧ bb.2.1 ≥ (m : Int)
              ∧ bb.2.2.2 ≤ (m : Int) + Int.tdiv (H - 2 * (m : Int)) 8 * 8 - 1 then
            ((m : Int), Int.tdiv (W - 2 * (m : Int)) 8, Int.tdiv (H - 2 * (m : Int)) 8)
          else st)
      = if gridFits W H bb.1 bb.2.2.1 bb.2.1 bb.2.2.2 (m : Int) then
          ((m : Int), (W - 2 * (m : Int)) / 8, (H - 2 * (m : Int)) / 8)
        else st := by
  rw [if_neg (by rw [hst]; simp)]
  unfold gridFits
  by_cases hpos : W - 2 * (m : Int) ≤ 0 ∨ H - 2 * (m : Int) ≤ 0
  · rw [if_pos hpos, if_neg (by omega)]
  · rw [if_neg hpos]
    have hw : 0 ≤ W - 2 * (m : Int) := by omega
    have hh : 0 ≤ H - 2 * (m : Int) := by omega
    rw [Int.tmod_eq_emod hw (by norm_num), Int.tmod_eq_emod hh (by norm_num),
      Int.tdiv_eq_ediv hw (by norm_num), Int.tdiv_eq_ediv hh (by norm_num)]
    by_cases h1 : (W - 2 * (m : Int)) % 8 ≠ 0
    · rw [if_pos h1, if_neg (by omega)]
    · rw [if_neg h1]
      by_cases h2 : (H - 2 * (m : Int)) % 8 ≠ 0
      · rw [if_pos h2, if_neg (by omega)]
      · rw [if_neg h2]
        by_cases h3 : bb.1 ≥ (m : Int)
            ∧ bb.2.2.1 ≤ (m : Int) + (W - 2 * (m : Int)) / 8 * 8 - 1
            ∧ bb.2.1 ≥ (m : Int)
            ∧ bb.2.2.2 ≤ (m : Int) + (H - 2 * (m : Int)) / 8 * 8 - 1
        · rw [if_pos h3, if_pos (by omega)]
        · rw [if_neg h3, if_neg (by omega)]

theorem findMargin_loop_none (W H : Int) (bb : Int × Int × Int × Int) (n : Nat)
    (hno : ∀ m : Nat, m < n → ¬ gridFits W H bb.1 bb.2.2.1 bb.2.1 bb.2.2.2 (m : Int)) :
    forLoop n
      (fun m (st : Int × Int × Int) =>
        if st.1 ≠ -1 then st
        else
          if W - 2 * (m : Int) ≤ 0 ∨ H - 2 * (m : Int) ≤ 0 then st
          else if Int.tmod (W - 2 * (m : Int)) 8 ≠ 0 then st
          else if Int.tmod (H - 2 * (m : Int)) 8 ≠ 0 then st
          else
            if bb.1 ≥ (m : Int)
                ∧ bb.2.2.1 ≤ (m : Int) + Int.tdiv (W - 2 * (m : Int)) 8 * 8 - 1
                ∧ bb.2.1 ≥ (m : Int)
                ∧ bb.2.2.2 ≤ (m : Int) + Int.tdiv (H - 2 * (m : Int)) 8 * 8 - 1 then
              ((m : Int), Int.tdiv (W - 2 * (m : Int)) 8, Int.tdiv (H - 2 * (m : Int)) 8)
            else st)
      (-1, 0, 0) = (-1, 0, 0) := by
  induction n with
  | zero => rfl
  | succ k ih =>
    rw [forLoop_succ, ih (fun m hm => hno m (by omega)),
      findMargin_step W H bb k (-1, 0, 0) rfl, if_neg (hno k (by omega))]

theorem findMargin_loop_found (W H : Int) (bb : Int × Int × Int × Int) (n m0 : Nat)
    (hm0 : m0 < n) (hfit : gridFits W H bb.1 bb.2.2.1 bb.2.1 bb.2.2.2 (m0 : Int))
    (hleast : ∀ m : Nat, m < m0 → ¬ gridFits W H bb.1 bb.2.2.1 bb.2.1 bb.2.2.2 (m : Int)) :
    forLoop n
      (fun m (st : Int × Int × Int) =>
        if st.1 ≠ -1 then st
        else
          if W - 2 * (m : Int) ≤ 0 ∨ H - 2 * (m : Int) ≤ 0 then st
          else if Int.tmod (W - 2 * (m : Int)) 8 ≠ 0 then st
          else if Int.tmod (H - 2 * (m : Int)) 8 ≠ 0 then st
          else
            if bb.1 ≥ (m : Int)
                ∧ bb.2.2.1 ≤ (m : Int) + Int.tdiv (W - 2 * (m : Int)) 8 * 8 - 1
                ∧ bb.2.1 ≥ (m : Int)
                ∧ bb.2.2.2 ≤ (m : Int) + Int.tdiv (H - 2 * (m : Int)) 8 * 8 - 1 then
              ((m : Int), Int.tdiv (W - 2 * (m : Int)) 8, Int.tdiv (H - 2 * (m : Int)) 8)
            else st)
      (-1, 0, 0) = ((m0 : Int), (W - 2 * (m0 : Int)) / 8, (H - 2 * (m0 : Int)) / 8) := by
  induction n with
  | zero => omega
  | succ k ih =>
    rw [forLoop_succ]
    by_cases hk : m0 = k
    · subst hk
      rw [findMargin_loop_none W H bb m0 hleast, findMargin_step W H bb m0 (-1, 0, 0) rfl,
        if_pos hfit]
    · rw [ih (by omega)]
      have hne : ((m0 : Int), (W - 2 * (m0 : Int)) / 8, (H - 2 * (m0 : Int)) / 8).1 ≠ -1 := by
        show (m0 : Int) ≠ -1
        omega
      rw [if_pos hne]

theorem exists_least (P : Nat → Prop) (h : ∃ m, P m) : ∃ m, P m ∧ ∀ k, k < m → ¬ P k := by
  classical
  exact ⟨Nat.find h, Nat.find_spec h, fun k hk => Nat.find_min h hk⟩

/-- C30: for every `W × H` image (`W`, `H` values of the program's `int`, the
buffer of `W * H * 3` bytes) that has a non-black pixel, with the bounding box
`[left, right] × [top, bottom]` of its non-black pixels,
`extractTextFromRenderedBMP` fails if and only if no margin `m` from 0 to 32
satisfies `W - 2m > 0`, `H - 2m > 0`, `(W - 2m) mod 8 = 0`,
`(H - 2m) mod 8 = 0`, `m ≤ left`, `right ≤ W - m - 1`, `m ≤ top` and
`bottom ≤ H - m - 1`; otherwise its margin search stops at the least such `m`
and it returns the text decoded from the grid of `(H - 2m) / 8` rows by
`(W - 2m) / 8` columns at that margin. -/
theorem margin_search (W H : Nat) (rgb : List Nat) (left right top bottom : Nat)
    (hW : W < 2 ^ 31) (hH : H < 2 ^ 31) (hrgb : rgb.length = W * H * 3)
    (hbox : IsBoundingBox W H rgb left right top bottom) :
    (extractTextFromRenderedBMP (W : Int) (H : Int) rgb = none
        ↔ ¬ ∃ m : Nat, m ≤ 32 ∧ gridFits W H left right top bottom m)
      ∧ ∀ m : Nat, m ≤ 32 → gridFits W H left right top bottom m →
          (∀ k : Nat, k < m → ¬ gridFits W H left right top bottom k) →
          findMargin (W : Int) (H : Int)
              (boundingBoxOn (W : Int) (H : Int) (fun p => rgb.getD p 0))
            = ((m : Int), ((W : Int) - 2 * (m : Int)) / 8, ((H : Int) - 2 * (m : Int)) / 8)
          ∧ extractTextFromRenderedBMP (W : Int) (H : Int) rgb
            = some (decodeGrid (W : Int) (fun p => rgb.getD p 0) (m : Int)
                (((W : Int) - 2 * (m : Int)) / 8) (((H : Int) - 2 * (m : Int)) / 8)) := by
  have _ := hrgb
  have hbb := boundingBoxOn_eq W H rgb left right top bottom hW hH hbox
  obtain ⟨hl, hr, ht, hb, ⟨yl, hyl, nl⟩, _, ⟨xt, hxt, nt⟩, _, hall⟩ := hbox
  have hlr : left ≤ right := by
    have := hall left hl yl hyl nl
    omega
  have htb : top ≤ bottom := by
    have := hall xt hxt top ht nt
    omega
  have hfound : ∀ m : Nat, m ≤ 32 → gridFits W H left right top bottom m →
      (∀ k : Nat, k < m → ¬ gridFits W H left right top bottom k) →
      findMargin (W : Int) (H : Int) ((left : Int), (top : Int), (right : Int), (bottom : Int))
        = ((m : Int), ((W : Int) - 2 * (m : Int)) / 8, ((H : Int) - 2 * (m : Int)) / 8) := by
    intro m hm hfit hleast
    unfold findMargin
    exact findMargin_loop_found (W : Int) (H : Int)
      ((left : Int), (top : Int), (right : Int), (bottom : Int)) 33 m (by omega) hfit hleast
  have hsome : ∀ m : Nat, m ≤ 32 → gridFits W H left right top bottom m →
      (∀ k : Nat, k < m → ¬ gridFits W H left right top bottom k) →
      extractTextFromRenderedBMP (W : Int) (H : Int) rgb
        = some (decodeGrid (W : Int) (fun p => rgb.getD p 0) (m : Int)
            (((W : Int) - 2 * (m : Int)) / 8) (((H : Int) - 2 * (m : Int)) / 8)) := by
    intro m hm hfit hleast
    unfold extractTextFromRenderedBMP extractTextOn
    simp only [hbb, hfound m hm hfit hleast]
    rw [if_neg (by omega), if_neg (by omega)]
    rfl
  refine ⟨⟨?_, ?_⟩, fun m hm hfit hleast => ⟨?_, hsome m hm hfit hleast⟩⟩
  · intro hnone hex
    obtain ⟨m, ⟨hm, hfit⟩, hleast⟩ := exists_least
      (fun m : Nat => m ≤ 32 ∧ gridFits W H left right top bottom m) hex
    have hl2 : ∀ k : Nat, k < m → ¬ gridFits W H left right top bottom k :=
      fun k hk hf => hleast k hk ⟨by omega, hf⟩
    rw [hsome m hm hfit hl2] at hnone
    exact Option.noConfusion hnone
  · intro hno
    have hfm : findMargin (W : Int) (H : Int)
        ((left : Int), (top : Int), (right : Int), (bottom : Int)) = (-1, 0, 0) := by
      unfold findMargin
      exact findMargin_loop_none (W : Int) (H : Int)
        ((left : Int), (top : Int), (right : Int), (bottom : Int)) 33
        (fun m hm hf => hno ⟨m, by omega, hf⟩)
    unfold extractTextFromRenderedBMP extractTextOn
    simp only [hbb, hfm]
    rw [if_neg (by omega)]
    rfl
  · rw [hbb]
    exact hfound m hm hfit hleast

set_option maxRecDepth 100000 in
theorem margin_search_witness :
    findMargin (8 : Nat) (8 : Nat)
        (boundingBoxOn (8 : Nat) (8 : Nat)
          (fun p => ([255, 255, 255] ++ List.replicate 189 0).getD p 0))
      = (((0 : Nat) : Int), (((8 : Nat) : Int) - 2 * ((0 : Nat) : Int)) / 8,
          (((8 : Nat) : Int) - 2 * ((0 : Nat) : Int)) / 8)
      ∧ extractTextFromRenderedBMP (8 : Nat) (8 : Nat) ([255, 255, 255] ++ List.replicate 189 0)
        = some (decodeGrid (8 : Nat)
            (fun p => ([255, 255, 255] ++ List.replicate 189 0).getD p 0) ((0 : Nat) : Int)
            ((((8 : Nat) : Int) - 2 * ((0 : Nat) : Int)) / 8)
            ((((8 : Nat) : Int) - 2 * ((0 : Nat) : Int)) / 8)) :=
  (margin_search 8 8 ([255, 255, 255] ++ List.replicate 189 0) 0 0 0 0 (by norm_num)
    (by norm_num) (by simp) (by unfold IsBoundingBox; decide)).2 0 (by norm_num) (by decide)
    (fun k hk => absurd hk (Nat.not_lt_zero k))


/-! ## The font table and the glyph search -/

/-- The inner loop of the glyph search: whether the font entry and the cell
agree in all of the first `n` rows. -/
theorem sameLoop_eq (g h : List Nat) (n : Nat) :
    forLoop n
        (fun y (same : Bool) =>
          if ¬ same then same else if g.getD y 0 ≠ h.getD y 0 then false else same)
        true
      = decide (∀ y, y < n → g.getD y 0 = h.getD y 0) := by
  induction n with
  | zero =>
    have h0 : ∀ y, y < 0 → g.getD y 0 = h.getD y 0 := fun y hy => absurd hy (Nat.not_lt_zero y)
    rw [decide_eq_true h0]
    rfl
  | succ k ih =>
    rw [forLoop_succ, ih]
    by_cases hk : ∀ y, y < k → g.getD y 0 = h.getD y 0
    · rw [decide_eq_true hk]
      by_cases hlast : g.getD k 0 = h.getD k 0
      · have hall : ∀ y, y < k + 1 → g.getD y 0 = h.getD y 0 := by
          intro y hy
          by_cases hyk : y = k
          · rw [hyk]; exact hlast
          · exact hk y (by omega)
        rw [decide_eq_true hall, if_neg (fun hn => hn rfl), if_neg (fun hn => hn hlast)]
      · have hnot : ¬ ∀ y, y < k + 1 → g.getD y 0 = h.getD y 0 :=
          fun hall => hlast (hall k (by omega))
        rw [decide_eq_false hnot, if_neg (fun hn => hn rfl), if_pos hlast]
    · have hnot : ¬ ∀ y, y < k + 1 → g.getD y 0 = h.getD y 0 :=
        fun hall => hk (fun y hy => hall y (by omega))
      rw [decide_eq_false hk, decide_eq_false hnot, if_pos (fun hn => Bool.noConfusion hn)]

theorem matchLoop_none (glyph : List Nat) (n : Nat)
    (hno : ∀ ci, ci < n →
      ¬ ∀ y, y < 8 → (tiny8x8_font.getD ci []).getD y 0 = glyph.getD y 0) :
    forLoop n
      (fun ci (st : Bool × Nat) =>
        if st.1 then st
        else
          let same := forLoop 8
            (fun y (same : Bool) =>
              if ¬ same then same
              else if (tiny8x8_font.getD ci []).getD y 0 ≠ glyph.getD y 0 then false else same)
            true
          if same then (true, (32 + ci) % 256) else st)
      (false, 63) = (false, 63) := by
  induction n with
  | zero => rfl
  | succ k ih =>
    rw [forLoop_succ, ih (fun ci hci => hno ci (by omega))]
    simp only [sameLoop_eq, Bool.false_eq_true, if_false, decide_eq_true_eq]
    rw [if_neg (hno k (by omega))]

theorem matchLoop_found (glyph : List Nat) (n c0 : Nat) (hc0 : c0 < n)
    (hsame : ∀ y, y < 8 → (tiny8x8_font.getD c0 []).getD y 0 = glyph.getD y 0)
    (hleast : ∀ ci, ci < c0 →
      ¬ ∀ y, y < 8 → (tiny8x8_font.getD ci []).getD y 0 = glyph.getD y 0) :
    forLoop n
      (fun ci (st : Bool × Nat) =>
        if st.1 then st
        else
          let same := forLoop 8
            (fun y (same : Bool) =>
              if ¬ same then same
              else if (tiny8x8_font.getD ci []).getD y 0 ≠ glyph.getD y 0 then false else same)
            true
          if same then (true, (32 + ci) % 256) else st)
      (false, 63) = (true, (32 + c0) % 256) := by
  induction n with
  | zero => omega
  | succ k ih =>
    rw [forLoop_succ]
    by_cases hk : c0 = k
    · subst hk
      rw [matchLoop_none glyph c0 hleast]
      simp only [sameLoop_eq, Bool.false_eq_true, if_false, decide_eq_true_eq]
      rw [if_pos hsame]
    · rw [ih (by omega)]
      simp

theorem font_zero_rows (y : Nat) :
    (tiny8x8_font.getD 95 []).getD y 0 = (tiny8x8_font.getD 0 []).getD y 0 := by
  have h : tiny8x8_font.getD 95 [] = tiny8x8_font.getD 0 [] := by decide
  rw [h]

/-- The glyph search never answers 127: a cell that equals the last entry of
the table is blank and matches the first entry, the space. -/
theorem matchGlyph_ne_127 (glyph : List Nat) : matchGlyph glyph ≠ 127 := by
  unfold matchGlyph
  by_cases hex : ∃ ci, ci < 96
      ∧ ∀ y, y < 8 → (tiny8x8_font.getD ci []).getD y 0 = glyph.getD y 0
  · obtain ⟨c0, ⟨hc0, hsame⟩, hleast⟩ := exists_least _ hex
    have hl : ∀ ci, ci < c0 →
        ¬ ∀ y, y < 8 → (tiny8x8_font.getD ci []).getD y 0 = glyph.getD y 0 :=
      fun ci hci hs => hleast ci hci ⟨by omega, hs⟩
    rw [matchLoop_found glyph 96 c0 hc0 hsame hl]
    show (32 + c0) % 256 ≠ 127
    have hne : c0 ≠ 95 := by
      intro h95
      subst h95
      exact hl 0 (by omega) (fun y hy => by rw [← font_zero_rows]; exact hsame y hy)
    omega
  · rw [matchLoop_none glyph 96 (fun ci hci hs => hex ⟨ci, hci, hs⟩)]
    decide

set_option maxRecDepth 100000 in
theorem matchGlyph_font : ∀ c, c < 95 → matchGlyph (tiny8x8_font.getD c []) = 32 + c := by
  decide

set_option maxRecDepth 100000 in
theorem font_distinct :
    ∀ i, i < 96 → ∀ j, j < 96 → i < j → tiny8x8_font.getD i [] = tiny8x8_font.getD j [] →
      i = 0 ∧ j = 95 := by
  decide

/-- C40: the glyphs of `tiny8x8_font` for the character codes 32 to 126 (the
entries 0 to 94) are pairwise distinct; the only two equal entries of the 96
are the blank glyph of code 32 and that of code 127; the first-match search of
`extractTextFromRenderedBMP` maps the glyph of every code from 32 to 126 back
to that code, and it never answers 127, whatever the cell holds. -/
theorem font_injectivity :
    tiny8x8_font.length = 96
      ∧ (∀ i, i < 95 → ∀ j, j < 95 → tiny8x8_font.getD i [] = tiny8x8_font.getD j [] → i = j)
      ∧ (∀ i, i < 96 → ∀ j, j < 96 → i < j →
          tiny8x8_font.getD i [] = tiny8x8_font.getD j [] → i = 0 ∧ j = 95)
      ∧ tiny8x8_font.getD 0 [] = [0, 0, 0, 0, 0, 0, 0, 0]
      ∧ tiny8x8_font.getD 95 [] = [0, 0, 0, 0, 0, 0, 0, 0]
      ∧ (∀ c, 32 ≤ c → c ≤ 126 → matchGlyph (tiny8x8_font.getD (c - 32) []) = c)
      ∧ (∀ glyph : List Nat, matchGlyph glyph ≠ 127) := by
  refine ⟨by decide, ?_, font_distinct, by decide, by decide, ?_, matchGlyph_ne_127⟩
  · intro i hi j hj he
    rcases Nat.lt_trichotomy i j with h | h | h
    · have := font_distinct i (by omega) j (by omega) h he
      omega
    · exact h
    · have := font_distinct j (by omega) i (by omega) h he.symm
      omega
  · intro c h1 h2
    rw [matchGlyph_font (c - 32) (by omega)]
    omega


/-! ## What the embed loop leaves alone, and the truncated embed -/

set_option maxRecDepth 100000 in
theorem blue_bits (x b : Nat) (hx : x < 256) (hb : b ≤ 1) :
    ((x &&& 0xFE) ||| b) / 2 = x / 2 ∧ ((x &&& 0xFE) ||| b) % 2 = b
      ∧ ((((x &&& 0xFE) ||| b) &&& 0xFE) ||| b) = (x &&& 0xFE) ||| b := by
  have key : ∀ x, x < 256 → ∀ b, b < 2 →
      ((x &&& 0xFE) ||| b) / 2 = x / 2 ∧ ((x &&& 0xFE) ||| b) % 2 = b
        ∧ ((((x &&& 0xFE) ||| b) &&& 0xFE) ||| b) = (x &&& 0xFE) ||| b := by
    decide
  exact key x hx b (by omega)

theorem embedBits_eq (img bits : List Nat) (W H : Nat) :
    embedBits img W H bits = embedLoop img bits (min bits.length (W * H)) := by
  unfold embedBits embedBitCount
  cases hb : bits with
  | nil =>
    simp only [List.isEmpty_nil, if_true, List.length_nil, Nat.zero_min]
    rfl
  | cons a t =>
    simp only [List.isEmpty_cons, Bool.false_eq_true, if_false]
    split
    · rw [Nat.min_eq_right (by omega)]
    · rw [Nat.min_eq_left (by omega)]

theorem embedLoop_getD_ge (img bits : List Nat) (n j : Nat) (hj : n * 3 ≤ j) :
    (embedLoop img bits n).getD j 0 = img.getD j 0 :=
  embedLoop_getD_other img bits n j (fun i hi => by omega)

/-- C37: for every `W × H` buffer of bytes and every vector of `k` bits, the
embed loop keeps the length of the buffer, every red and green byte, the upper
seven bits of every blue byte and every byte of the pixels from
`min(k, W * H)` on; the lowest bit of the blue byte of pixel `i` becomes bit
`i` for `i < min(k, W * H)`; and embedding the same bits into the result
changes nothing. -/
theorem embed_frame (img bits : List Nat) (W H : Nat) (himg : img.length = W * H * 3)
    (hbytes : ∀ b ∈ img, b < 256) (hbits : ∀ b ∈ bits, b ≤ 1) :
    (embedBits img W H bits).length = img.length
      ∧ (∀ i, i < W * H →
          (embedBits img W H bits).getD (i * 3) 0 = img.getD (i * 3) 0
            ∧ (embedBits img W H bits).getD (i * 3 + 1) 0 = img.getD (i * 3 + 1) 0
            ∧ (embedBits img W H bits).getD (i * 3 + 2) 0 / 2 = img.getD (i * 3 + 2) 0 / 2)
      ∧ (∀ i, i < min bits.length (W * H) →
          (embedBits img W H bits).getD (i * 3 + 2) 0 % 2 = bits.getD i 0)
      ∧ (∀ j, min bits.length (W * H) * 3 ≤ j →
          (embedBits img W H bits).getD j 0 = img.getD j 0)
      ∧ embedBits (embedBits img W H bits) W H bits = embedBits img W H bits := by
  have hbit : ∀ i, bits.getD i 0 ≤ 1 := by
    intro i
    by_cases hi : i < bits.length
    · rw [List.getD_eq_getElem _ _ hi]
      exact hbits _ (List.getElem_mem hi)
    · rw [List.getD_eq_default _ _ (by omega)]
      omega
  have hblue : ∀ i, i < min bits.length (W * H) →
      (embedLoop img bits (min bits.length (W * H))).getD (i * 3 + 2) 0
        = (img.getD (i * 3 + 2) 0 &&& 0xFE) ||| bits.getD i 0 :=
    fun i hi => embedLoop_getD_blue img bits _ i hi (by rw [himg]; omega)
  rw [embedBits_eq, embedBits_eq]
  refine ⟨embedLoop_length _ _ _, ?_, ?_, ?_, ?_⟩
  · intro i hi
    refine ⟨embedLoop_getD_other _ _ _ _ (fun j _ => by omega),
      embedLoop_getD_other _ _ _ _ (fun j _ => by omega), ?_⟩
    by_cases hin : i < min bits.length (W * H)
    · rw [hblue i hin]
      exact (blue_bits _ _ (getD_byte img hbytes _) (hbit i)).1
    · rw [embedLoop_getD_ge _ _ _ _ (by omega)]
  · intro i hi
    rw [hblue i hi]
    exact (blue_bits _ _ (getD_byte img hbytes _) (hbit i)).2.1
  · intro j hj
    exact embedLoop_getD_ge _ _ _ _ hj
  · apply ext_getD (by rw [embedLoop_length])
    intro j hj
    rw [embedLoop_length, embedLoop_length, himg] at hj
    by_cases hcase : j % 3 = 2 ∧ j / 3 < min bits.length (W * H)
    · obtain ⟨h3, hlt⟩ := hcase
      have ej : j = j / 3 * 3 + 2 := by omega
      rw [ej, embedLoop_getD_blue _ bits _ (j / 3) hlt
        (by rw [embedLoop_length, himg]; omega), hblue (j / 3) hlt]
      exact (blue_bits _ _ (getD_byte img hbytes _) (hbit (j / 3))).2.2
    · exact embedLoop_getD_other _ _ _ _ (fun i hi hji => hcase ⟨by omega, by omega⟩)

theorem embed_frame_witness :
    (embedBits [255, 255, 255, 7, 8, 9] 2 1 [0, 1, 1]).length = [255, 255, 255, 7, 8, 9].length
      ∧ embedBits (embedBits [255, 255, 255, 7, 8, 9] 2 1 [0, 1, 1]) 2 1 [0, 1, 1]
        = embedBits [255, 255, 255, 7, 8, 9] 2 1 [0, 1, 1] :=
  have h := embed_frame [255, 255, 255, 7, 8, 9] [0, 1, 1] 2 1 (by decide) (by decide) (by decide)
  ⟨h.1, h.2.2.2.2⟩

/-- C38: for every `W × H` buffer with at least 32 pixels (`W`, `H` values of
the program's `int`) and every payload of length `L < 2 ^ 32` whose
`32 + 8 L` wire bits exceed the `W * H` pixels, the extraction of
`decodePayloadFromPNG` and `decodePayloadFromBMP` on the buffer left by the
truncating embed reads the declared length `L` from the first 32 pixels and
fails: it returns no payload. -/
theorem truncated_embed_fails (W H : Nat) (img payload : List Nat) (hW : W < 2 ^ 31)
    (hH : H < 2 ^ 31) (himg : img.length = W * H * 3) (hL : payload.length < 2 ^ 32)
    (h32 : 32 ≤ W * H) (hover : W * H < 32 + 8 * payload.length) :
    readLength (getBitPixel (embedPayload img W H payload) (pxCountOf (W : Int) (H : Int)))
        = payload.length
      ∧ decodePayloadFromPixels (W : Int) (H : Int) (embedPayload img W H payload) = none := by
  have hWH : W * H < 2 ^ 64 := by
    calc W * H < 2 ^ 31 * 2 ^ 31 := Nat.mul_lt_mul'' hW hH
      _ < 2 ^ 64 := by norm_num
  have hpx := pxCountOf_nat W H hWH (by omega) (by omega)
  have hemb : embedPayload img W H payload
      = embedLoop img (buildBits true payload) (W * H) := by
    unfold embedPayload
    exact embedBits_over img payload W H hover
  have hlen : readLength (getBitPixel (embedPayload img W H payload) (W * H))
      = payload.length := by
    apply readLength_eq _ payload.length hL
    intro b hb
    unfold getBitPixel
    rw [if_neg (by omega), hemb, embedLoop_getD_blue img _ _ b (by omega) (by rw [himg]; omega),
      lsb_replace _ _ (buildBits_le_one payload b), buildBits_getD_lt payload b hb,
      Nat.mod_eq_of_lt hL]
  rw [hpx]
  refine ⟨hlen, ?_⟩
  unfold decodePayloadFromPixels
  simp only [hpx, hlen]
  rw [if_neg (by omega)]
  by_cases h0 : payload.length = 0
  · rw [if_pos h0]
  · rw [if_neg h0, if_pos (by omega)]

theorem truncated_embed_fails_witness :
    readLength (getBitPixel (embedPayload (List.replicate 108 255) 6 6 [0x41])
        (pxCountOf ((6 : Nat) : Int) ((6 : Nat) : Int))) = [0x41].length
      ∧ decodePayloadFromPixels ((6 : Nat) : Int) ((6 : Nat) : Int)
          (embedPayload (List.replicate 108 255) 6 6 [0x41]) = none :=
  truncated_embed_fails 6 6 (List.replicate 108 255) [0x41] (by norm_num) (by norm_num)
    (by simp) (by norm_num) (by norm_num) (by norm_num)


/-! ## The pixels of the rendered raster -/

theorem litPixel_cell (lines : List (List Nat)) (margin row col x y : Nat)
    (hrow : row < lines.length) (hcol : col < (lines.getD row []).length) (hx : x < 8)
    (hy : y < 8) :
    litPixel lines margin (margin + 8 * col + x) (margin + 8 * row + y)
      = glyphBit ((lines.getD row []).getD col 0) y x := by
  unfold litPixel
  have a1 : (margin + 8 * row + y - margin) / 8 = row := by omega
  have a2 : (margin + 8 * row + y - margin) % 8 = y := by omega
  have a3 : (margin + 8 * col + x - margin) / 8 = col := by omega
  have a4 : (margin + 8 * col + x - margin) % 8 = x := by omega
  rw [a1, a2, a3, a4]
  have b1 : margin ≤ margin + 8 * col + x := by omega
  have b2 : margin ≤ margin + 8 * row + y := by omega
  simp only [b1, b2, hrow, hcol, decide_True, Bool.true_and, true_and, Bool.decide_eq_true]

theorem litPixel_outside (lines : List (List Nat)) (margin px py : Nat)
    (hout : ¬ ∃ row col x y, row < lines.length ∧ col < (lines.getD row []).length ∧ x < 8
      ∧ y < 8 ∧ px = margin + 8 * col + x ∧ py = margin + 8 * row + y) :
    litPixel lines margin px py = false := by
  cases hl : litPixel lines margin px py with
  | false => rfl
  | true =>
    exfalso
    unfold litPixel at hl
    simp only [decide_eq_true_eq, Bool.and_eq_true, Bool.decide_and, Bool.decide_eq_true] at hl
    obtain ⟨h1, h2, h3, h4, _⟩ := hl
    exact hout ⟨(py - margin) / 8, (px - margin) / 8, (px - margin) % 8, (py - margin) % 8,
      h3, h4, Nat.mod_lt _ (by omega), Nat.mod_lt _ (by omega), by omega, by omega⟩

theorem render_byte (text : List Nat) (maxWidthChars : Int) (margin px py k : Nat)
    (hpx : px < (renderRaster text maxWidthChars margin).1)
    (hpy : py < (renderRaster text maxWidthChars margin).2.1) (hk : k < 3) :
    (renderRaster text maxWidthChars margin).2.2.getD
        ((py * (renderRaster text maxWidthChars margin).1 + px) * 3 + k) 0
      = if litPixel (layoutLines text maxWidthChars) margin px py = true then 255 else 0 := by
  have hr := congrFun (render_read text maxWidthChars margin)
    ((py * (renderRaster text maxWidthChars margin).1 + px) * 3 + k)
  beta_reduce at hr
  rw [hr]
  unfold litRead
  obtain ⟨e1, e2⟩ := mul_add_div_mod (renderRaster text maxWidthChars margin).1 py px hpx
  have e3 : ((py * (renderRaster text maxWidthChars margin).1 + px) * 3 + k) / 3
      = py * (renderRaster text maxWidthChars margin).1 + px := by omega
  have hlt : (py * (renderRaster text maxWidthChars margin).1 + px) * 3 + k
      < (renderRaster text maxWidthChars margin).1
        * (renderRaster text maxWidthChars margin).2.1 * 3 := by
    have h1 : (py + 1) * (renderRaster text maxWidthChars margin).1
        ≤ (renderRaster text maxWidthChars margin).2.1
          * (renderRaster text maxWidthChars margin).1 := Nat.mul_le_mul_right _ (by omega)
    rw [Nat.add_mul, Nat.one_mul] at h1
    rw [Nat.mul_comm (renderRaster text maxWidthChars margin).1]
    omega
  rw [if_pos hlt, e3, e1, e2]

/-- C32 (as stated, refuted): for the text "HI" and the margin 13400 the
layout is one line of two characters and the canvas has the sides
`W = 26816` and `H = 26808`, both values of the program's `int`, so the buffer
that the claim names has `W * H * 3 = 2156649984` bytes. No value of the `int`
expression `W*H*3` of line 1218 equals that size: the expression overflows, and
`renderTextToBMP` builds no buffer of `W * H * 3` bytes for the pixels of the
text to lie in. -/
theorem rendered_pixels_counterexample :
    layoutLines [72, 73] 80 = [[72, 73]]
      ∧ 2 * 13400 + 8 * layoutCols (layoutLines [72, 73] 80) = 26816
      ∧ 2 * 13400 + 8 * (layoutLines [72, 73] 80).length = 26808
      ∧ toInt32 26816 = 26816 ∧ toInt32 26808 = 26808
      ∧ (2 * 13400 + 8 * layoutCols (layoutLines [72, 73] 80))
          * (2 * 13400 + 8 * (layoutLines [72, 73] 80).length) * 3 = 2156649984
      ∧ ∀ n : Nat,
          toInt32 n ≠ (((2 * 13400 + 8 * layoutCols (layoutLines [72, 73] 80))
            * (2 * 13400 + 8 * (layoutLines [72, 73] 80).length) * 3 : Nat) : Int) := by
  have hl : layoutLines [72, 73] 80 = [[72, 73]] := by decide
  have hc : layoutCols (layoutLines [72, 73] 80) = 2 := by decide
  have hr : (layoutLines [72, 73] 80).length = 1 := by decide
  refine ⟨hl, ?_, ?_, by decide, by decide, ?_, ?_⟩
  · rw [hc]
  · rw [hr]
  · rw [hc, hr]
  · intro n
    apply toInt32_ne_of_ge
    rw [hc, hr]
    norm_num

/-- C32 (amended): in the raster that `renderTextToBMP` builds for any text,
wrap width and margin `≥ 0` whose canvas size `W * H * 3` is a value of the
program's `int` (below `2 ^ 31`, so that the `int` expressions `W*H*3` and
`(py*W + px)*3` of lines 1218 and 1235 are exact), the buffer has `W * H * 3`
bytes; for a character `c` at
column `col` of the laid-out line `row` and `0 ≤ x, y < 8`, the pixel
`(margin + 8 col + x, margin + 8 row + y)` lies on the canvas, its three bytes
lie inside the buffer and are all 255 when bit `7 - x` of row `y` of the font
entry of `c'` is set and all 0 otherwise, where `c'` is `c` when
`32 ≤ c ≤ 127` and `'?'` (63) otherwise, and the entry `c' - 32` and its row
`y` exist in the table; every pixel of the canvas outside the cells of the
characters is black. -/
theorem rendered_pixels (text : List Nat) (maxWidthChars : Int) (margin : Nat)
    (hsize : (renderRaster text maxWidthChars margin).1
      * (renderRaster text maxWidthChars margin).2.1 * 3 < 2 ^ 31) :
    (renderRaster text maxWidthChars margin).2.2.length
        = (renderRaster text maxWidthChars margin).1
          * (renderRaster text maxWidthChars margin).2.1 * 3
      ∧ (∀ row col x y, row < (layoutLines text maxWidthChars).length →
          col < ((layoutLines text maxWidthChars).getD row []).length → x < 8 → y < 8 →
          margin + 8 * col + x < (renderRaster text maxWidthChars margin).1
            ∧ margin + 8 * row + y < (renderRaster text maxWidthChars margin).2.1
            ∧ ((margin + 8 * row + y) * (renderRaster text maxWidthChars margin).1
                  + (margin + 8 * col + x)) * 3 + 2
                < (renderRaster text maxWidthChars margin).2.2.length
            ∧ (if ((layoutLines text maxWidthChars).getD row []).getD col 0 < 32
                    ∨ ((layoutLines text maxWidthChars).getD row []).getD col 0 > 127 then 63
                else ((layoutLines text maxWidthChars).getD row []).getD col 0) - 32
                < tiny8x8_font.length
            ∧ y < (tiny8x8_font.getD
                ((if ((layoutLines text maxWidthChars).getD row []).getD col 0 < 32
                    ∨ ((layoutLines text maxWidthChars).getD row []).getD col 0 > 127 then 63
                  else ((layoutLines text maxWidthChars).getD row []).getD col 0) - 32)
                []).length
            ∧ ∀ k, k < 3 →
                (renderRaster text maxWidthChars margin).2.2.getD
                    (((margin + 8 * row + y) * (renderRaster text maxWidthChars margin).1
                      + (margin + 8 * col + x)) * 3 + k) 0
                  = if (tiny8x8_font.getD
                        ((if ((layoutLines text maxWidthChars).getD row []).getD col 0 < 32
                            ∨ ((layoutLines text maxWidthChars).getD row []).getD col 0 > 127
                          then 63
                          else ((layoutLines text maxWidthChars).getD row []).getD col 0) - 32)
                        []).getD y 0 &&& (1 <<< (7 - x)) ≠ 0 then 255
                    else 0)
      ∧ (∀ px py, px < (renderRaster text maxWidthChars margin).1 →
          py < (renderRaster text maxWidthChars margin).2.1 →
          (¬ ∃ row col x y, row < (layoutLines text maxWidthChars).length
              ∧ col < ((layoutLines text maxWidthChars).getD row []).length ∧ x < 8 ∧ y < 8
              ∧ px = margin + 8 * col + x ∧ py = margin + 8 * row + y) →
          ∀ k, k < 3 →
            (renderRaster text maxWidthChars margin).2.2.getD
              ((py * (renderRaster text maxWidthChars margin).1 + px) * 3 + k) 0 = 0) := by
  have _ := hsize
  have hlen := render_length text maxWidthChars margin
  have hW : (renderRaster text maxWidthChars margin).1
      = margin * 2 + layoutCols (layoutLines text maxWidthChars) * 8 := rfl
  have hH : (renderRaster text maxWidthChars margin).2.1
      = margin * 2 + (layoutLines text maxWidthChars).length * 8 := rfl
  have hfont : ∀ i, i < 96 → (tiny8x8_font.getD i []).length = 8 := by decide
  refine ⟨hlen, ?_, ?_⟩
  · intro row col x y hrow hcol hx hy
    have hc := layoutCols_ge (layoutLines text maxWidthChars) row hrow
    have hpx : margin + 8 * col + x < (renderRaster text maxWidthChars margin).1 := by
      rw [hW]; omega
    have hpy : margin + 8 * row + y < (renderRaster text maxWidthChars margin).2.1 := by
      rw [hH]; omega
    have hidx : (if ((layoutLines text maxWidthChars).getD row []).getD col 0 < 32
          ∨ ((layoutLines text maxWidthChars).getD row []).getD col 0 > 127 then 63
        else ((layoutLines text maxWidthChars).getD row []).getD col 0) - 32 < 96 := by
      split <;> omega
    refine ⟨hpx, hpy, ?_, by rw [show tiny8x8_font.length = 96 from by decide]; exact hidx,
      by rw [hfont _ hidx]; exact hy, ?_⟩
    · rw [hlen]
      have h1 : (margin + 8 * row + y + 1) * (renderRaster text maxWidthChars margin).1
          ≤ (renderRaster text maxWidthChars margin).2.1
            * (renderRaster text maxWidthChars margin).1 := Nat.mul_le_mul_right _ (by omega)
      rw [Nat.add_mul, Nat.one_mul] at h1
      rw [Nat.mul_comm (renderRaster text maxWidthChars margin).1]
      omega
    · intro k hk
      rw [render_byte text maxWidthChars margin _ _ k hpx hpy hk,
        litPixel_cell _ margin row col x y hrow hcol hx hy]
      unfold glyphBit
      simp only [decide_eq_true_eq]
  · intro px py hpx hpy hout k hk
    rw [render_byte text maxWidthChars margin px py k hpx hpy hk,
      litPixel_outside _ margin px py hout]
    rfl

theorem rendered_pixels_witness :
    (renderRaster [72, 73] 80 2).2.2.length
      = (renderRaster [72, 73] 80 2).1 * (renderRaster [72, 73] 80 2).2.1 * 3 :=
  (rendered_pixels [72, 73] 80 2 (by decide)).1


/-! ## The line layout -/

theorem prependLine_nil (ls : List (List Nat)) (h : ls ≠ []) : prependLine [] ls = ls := by
  cases ls with
  | nil => exact absurd rfl h
  | cons l rest => rfl

theorem prependLine_append (a b : List Nat) (ls : List (List Nat)) :
    prependLine (a ++ b) ls = prependLine a (prependLine b ls) := by
  cases ls with
  | nil => rfl
  | cons l rest => simp [prependLine]

theorem prependLine_ne_nil (cur : List Nat) (ls : List (List Nat)) : prependLine cur ls ≠ [] := by
  cases ls <;> simp [prependLine]

theorem splitLines_ne_nil (text : List Nat) : splitLines text ≠ [] := by
  cases text with
  | nil => simp [splitLines]
  | cons c t =>
    unfold splitLines
    split
    · simp
    · exact prependLine_ne_nil _ _

theorem splitLines_cons (c : Nat) (t : List Nat) :
    splitLines (c :: t) = if c = 10 then [] :: splitLines t else prependLine [c] (splitLines t) := by
  conv_lhs => unfold splitLines

/-- C31 (the code at the failing input): the text "abc\ndef" has two
newline-separated lines of three characters each, and with
`maxWidthChars = 3` no line exceeds the width; `renderTextToBMP` lays it out in
three rows, the second one empty, so that at margin 0 the canvas is 24 pixels
high and not 16. The width 4 gives the two lines. -/
theorem line_layout_boundary :
    splitLines [97, 98, 99, 10, 100, 101, 102] = [[97, 98, 99], [100, 101, 102]]
      ∧ layoutLines [97, 98, 99, 10, 100, 101, 102] 3 = [[97, 98, 99], [], [100, 101, 102]]
      ∧ (renderRaster [97, 98, 99, 10, 100, 101, 102] 3 0).2.1 = 24
      ∧ layoutLines [97, 98, 99, 10, 100, 101, 102] 4 = [[97, 98, 99], [100, 101, 102]] := by
  decide

theorem joinLines_cons (l : List Nat) (rest : List (List Nat)) (h : rest ≠ []) :
    joinLines (l :: rest) = l ++ [10] ++ joinLines rest := by
  cases rest with
  | nil => exact absurd rfl h
  | cons a b => rfl

theorem joinLines_prepend (cur : List Nat) (ls : List (List Nat)) (h : ls ≠ []) :
    joinLines (prependLine cur ls) = cur ++ joinLines ls := by
  cases ls with
  | nil => exact absurd rfl h
  | cons l rest =>
    cases rest with
    | nil => rfl
    | cons a b =>
      show joinLines ((cur ++ l) :: a :: b) = cur ++ joinLines (l :: a :: b)
      rw [joinLines_cons (cur ++ l) (a :: b) (List.cons_ne_nil a b),
        joinLines_cons l (a :: b) (List.cons_ne_nil a b)]
      simp only [List.append_assoc]

/-- A text is its newline-separated lines joined by newlines. -/
theorem joinLines_splitLines (text : List Nat) : joinLines (splitLines text) = text := by
  induction text with
  | nil => rfl
  | cons c t ih =>
    rw [splitLines_cons]
    split
    · next hc =>
      rw [joinLines_cons _ _ (splitLines_ne_nil t), ih, hc]
      rfl
    · rw [joinLines_prepend _ _ (splitLines_ne_nil t), ih]
      rfl

theorem mem_prependLine (cur : List Nat) (ls : List (List Nat)) (ln : List Nat)
    (h : ln ∈ prependLine cur ls) :
    (∃ l, ln = cur ++ l ∧ (ls = [] ∧ l = [] ∨ ∃ rest, ls = l :: rest)) ∨ ln ∈ ls := by
  cases ls with
  | nil =>
    simp only [prependLine, List.mem_singleton] at h
    exact Or.inl ⟨[], by rw [h, List.append_nil], Or.inl ⟨rfl, rfl⟩⟩
  | cons l rest =>
    simp only [prependLine, List.mem_cons] at h
    rcases h with h | h
    · exact Or.inl ⟨l, h, Or.inr ⟨rest, rfl⟩⟩
    · exact Or.inr (List.mem_cons_of_mem _ h)

/-- The characters of the lines of a text are characters of the text other
than the newline. -/
theorem splitLines_chars (text : List Nat) :
    ∀ ln, ln ∈ splitLines text → ∀ c, c ∈ ln → c ∈ text ∧ c ≠ 10 := by
  induction text with
  | nil =>
    intro ln hln c hc
    simp only [splitLines, List.mem_singleton] at hln
    rw [hln] at hc
    exact absurd hc (List.not_mem_nil c)
  | cons a t ih =>
    intro ln hln c hc
    rw [splitLines_cons] at hln
    split at hln
    · rcases List.mem_cons.mp hln with h | h
      · rw [h] at hc
        exact absurd hc (List.not_mem_nil c)
      · obtain ⟨h1, h2⟩ := ih ln h c hc
        exact ⟨List.mem_cons_of_mem _ h1, h2⟩
    · next ha =>
      rcases mem_prependLine _ _ _ hln with ⟨l, he, hl⟩ | h
      · rw [he] at hc
        rcases List.mem_append.mp hc with h1 | h1
        · rw [List.mem_singleton] at h1
          rw [h1]
          exact ⟨List.mem_cons_self _ _, ha⟩
        · rcases hl with ⟨_, hl⟩ | ⟨rest, hl⟩
          · rw [hl] at h1
            exact absurd h1 (List.not_mem_nil c)
          · obtain ⟨h2, h3⟩ := ih l (by rw [hl]; exact List.mem_cons_self _ _) c h1
            exact ⟨List.mem_cons_of_mem _ h2, h3⟩
      · obtain ⟨h1, h2⟩ := ih ln h c hc
        exact ⟨List.mem_cons_of_mem _ h1, h2⟩

/-- The last line of a text that is not empty and does not end in a newline is
not empty. -/
theorem splitLines_last (text : List Nat) (h1 : text ≠ []) (h2 : text.getLast? ≠ some 10) :
    ∃ init last, splitLines text = init ++ [last] ∧ last ≠ [] := by
  induction text with
  | nil => exact absurd rfl h1
  | cons c t ih =>
    rw [splitLines_cons]
    cases ht : t with
    | nil =>
      subst ht
      have hc : c ≠ 10 := by
        intro hc
        apply h2
        rw [hc]
        rfl
      rw [if_neg hc]
      exact ⟨[], [c], rfl, by simp⟩
    | cons a b =>
      have hne : t ≠ [] := by rw [ht]; simp
      have h3 : t.getLast? ≠ some 10 := by
        rw [ht] at h2 ⊢
        rw [List.getLast?_cons_cons] at h2
        exact h2
      obtain ⟨init, last, he, hl⟩ := ih hne h3
      rw [← ht, he]
      split
      · exact ⟨[] :: init, last, rfl, hl⟩
      · cases init with
        | nil => exact ⟨[], [c] ++ last, rfl, by simp⟩
        | cons i0 irest => exact ⟨([c] ++ i0) :: irest, last, rfl, hl⟩

/-- The loop of `layoutLines` over a text whose lines all stay below the wrap
width: it collects the lines of the text, the last of which is still open. -/
theorem layout_fold (maxWidthChars : Int) (t : List Nat) :
    ∀ (acc : List (List Nat)) (cur : List Nat),
      (∀ ln, ln ∈ prependLine cur (splitLines t) → (ln.length : Int) < maxWidthChars) →
      ∃ init last, prependLine cur (splitLines t) = init ++ [last]
        ∧ t.foldl
            (fun (st : List (List Nat) × List Nat) c =>
              if c = 10 then
                if st.2.isEmpty then (st.1 ++ [[]], []) else (st.1 ++ [st.2], [])
              else
                if (((st.2 ++ [c]).length : Nat) : Int) ≥ maxWidthChars then
                  (st.1 ++ [st.2 ++ [c]], [])
                else (st.1, st.2 ++ [c]))
            (acc, cur) = (acc ++ init, last) := by
  induction t with
  | nil =>
    intro acc cur _
    exact ⟨[], cur, by simp [splitLines, prependLine], by simp⟩
  | cons c t ih =>
    intro acc cur hshort
    rw [splitLines_cons] at hshort ⊢
    rw [List.foldl_cons]
    by_cases hc : c = 10
    · rw [if_pos hc] at hshort ⊢
      have hstep : (if c = 10 then
            if (acc, cur).2.isEmpty then ((acc, cur).1 ++ [[]], [])
            else ((acc, cur).1 ++ [(acc, cur).2], [])
          else
            if ((((acc, cur).2 ++ [c]).length : Nat) : Int) ≥ maxWidthChars then
              ((acc, cur).1 ++ [(acc, cur).2 ++ [c]], [])
            else ((acc, cur).1, (acc, cur).2 ++ [c]))
          = (acc ++ [cur], ([] : List Nat)) := by
        rw [if_pos hc]
        cases cur with
        | nil => rfl
        | cons a b => rfl
      rw [hstep]
      have hp : prependLine cur ([] :: splitLines t) = cur :: splitLines t := by
        simp [prependLine]
      rw [hp] at hshort ⊢
      obtain ⟨init, last, he, hf⟩ := ih (acc ++ [cur]) []
        (by
          rw [prependLine_nil _ (splitLines_ne_nil t)]
          intro ln hln
          exact hshort ln (List.mem_cons_of_mem _ hln))
      rw [prependLine_nil _ (splitLines_ne_nil t)] at he
      refine ⟨cur :: init, last, by rw [he]; rfl, ?_⟩
      rw [hf]
      simp
    · rw [if_neg hc] at hshort ⊢
      rw [← prependLine_append] at hshort ⊢
      have hlen : ((cur ++ [c]).length : Int) < maxWidthChars := by
        cases hs : splitLines t with
        | nil => exact absurd hs (splitLines_ne_nil t)
        | cons l0 rest =>
          have := hshort (cur ++ [c] ++ l0) (by rw [hs]; simp [prependLine])
          rw [List.length_append] at this
          push_cast at this ⊢
          omega
      have hstep : (if c = 10 then
            if (acc, cur).2.isEmpty then ((acc, cur).1 ++ [[]], [])
            else ((acc, cur).1 ++ [(acc, cur).2], [])
          else
            if ((((acc, cur).2 ++ [c]).length : Nat) : Int) ≥ maxWidthChars then
              ((acc, cur).1 ++ [(acc, cur).2 ++ [c]], [])
            else ((acc, cur).1, (acc, cur).2 ++ [c]))
          = (acc, cur ++ [c]) := by
        rw [if_neg hc, if_neg (by simp only []; omega)]
      rw [hstep]
      exact ih acc (cur ++ [c]) hshort

/-- The lines that `renderTextToBMP` lays out are the newline-separated lines
of the text when the text has no carriage return, is not empty, does not end
in a newline and has every line shorter than the wrap width. -/
theorem layoutLines_short (text : List Nat) (maxWidthChars : Int)
    (hcr : ∀ c, c ∈ text → c ≠ 13) (hne : text ≠ []) (hend : text.getLast? ≠ some 10)
    (hshort : ∀ ln, ln ∈ splitLines text → (ln.length : Int) < maxWidthChars) :
    layoutLines text maxWidthChars = splitLines text := by
  have hmap : text.map (fun c => if c = 13 then 10 else c) = text := by
    conv_rhs => rw [← List.map_id text]
    apply List.map_congr_left
    intro c hc
    rw [if_neg (hcr c hc)]
    rfl
  obtain ⟨init, last, he, hf⟩ := layout_fold maxWidthChars text [] []
    (by rw [prependLine_nil _ (splitLines_ne_nil text)]; exact hshort)
  rw [prependLine_nil _ (splitLines_ne_nil text)] at he
  obtain ⟨init2, last2, he2, hl2⟩ := splitLines_last text hne hend
  have hlast : last ≠ [] := by
    rw [he] at he2
    have := List.append_inj' he2 rfl
    rw [this.2 |> List.singleton_inj.mp]
    exact hl2
  unfold layoutLines
  simp only [hmap]
  rw [forLoop_foldl
    (fun (st : List (List Nat) × List Nat) c =>
      if c = 10 then
        if st.2.isEmpty then (st.1 ++ [[]], []) else (st.1 ++ [st.2], [])
      else
        if (((st.2 ++ [c]).length : Nat) : Int) ≥ maxWidthChars then
          (st.1 ++ [st.2 ++ [c]], [])
        else (st.1, st.2 ++ [c]))
    ([], []) text, hf]
  simp only [List.nil_append]
  have hie : last.isEmpty = false := by
    cases last with
    | nil => exact absurd rfl hlast
    | cons a b => rfl
  rw [hie, he]
  simp

/-! ## The margin inferred on a rendered raster -/

theorem exists_greatest (P : Nat → Prop) (N : Nat) (h : ∃ m, m < N ∧ P m) :
    ∃ m, m < N ∧ P m ∧ ∀ k, k < N → P k → k ≤ m := by
  induction N with
  | zero =>
    obtain ⟨m, hm, _⟩ := h
    omega
  | succ n ih =>
    by_cases hn : P n
    · exact ⟨n, by omega, hn, fun k hk _ => by omega⟩
    · obtain ⟨m, hm, hp⟩ := h
      have hmn : m ≠ n := fun e => hn (e ▸ hp)
      obtain ⟨m1, h1, h2, h3⟩ := ih ⟨m, by omega, hp⟩
      refine ⟨m1, by omega, h2, fun k hk hpk => ?_⟩
      have hkn : k ≠ n := fun e => hn (e ▸ hpk)
      exact h3 k (by omega) hpk

/-- An image with a non-black pixel has a bounding box of its non-black
pixels. -/
theorem exists_boundingBox (W H : Nat) (rgb : List Nat)
    (h : ∃ x y, x < W ∧ y < H ∧ nonBlack W rgb x y = true) :
    ∃ left right top bottom, IsBoundingBox W H rgb left right top bottom := by
  obtain ⟨x0, y0, hx0, hy0, hn0⟩ := h
  obtain ⟨l, ⟨hl, yl, hyl, nl⟩, hleast⟩ := exists_least
    (fun x => x < W ∧ ∃ y, y < H ∧ nonBlack W rgb x y = true) ⟨x0, hx0, y0, hy0, hn0⟩
  obtain ⟨r, hr, ⟨yr, hyr, nr⟩, hgreat⟩ := exists_greatest
    (fun x => ∃ y, y < H ∧ nonBlack W rgb x y = true) W ⟨x0, hx0, y0, hy0, hn0⟩
  obtain ⟨t, ⟨ht, xt, hxt, nt⟩, hleast2⟩ := exists_least
    (fun y => y < H ∧ ∃ x, x < W ∧ nonBlack W rgb x y = true) ⟨y0, hy0, x0, hx0, hn0⟩
  obtain ⟨b, hb, ⟨xb, hxb, nb⟩, hgreat2⟩ := exists_greatest
    (fun y => ∃ x, x < W ∧ nonBlack W rgb x y = true) H ⟨y0, hy0, x0, hx0, hn0⟩
  refine ⟨l, r, t, b, hl, hr, ht, hb, ⟨yl, hyl, nl⟩, ⟨yr, hyr, nr⟩, ⟨xt, hxt, nt⟩,
    ⟨xb, hxb, nb⟩, ?_⟩
  intro x hx y hy hn
  refine ⟨?_, hgreat x hx ⟨y, hy, hn⟩, ?_, hgreat2 y hy ⟨x, hx, hn⟩⟩
  · by_contra hlt
    exact hleast x (by omega) ⟨hx, y, hy, hn⟩
  · by_contra hlt
    exact hleast2 y (by omega) ⟨hy, x, hx, hn⟩

/-- The margin search and the decoding of `extractTextFromRenderedBMP` on an
image with the bounding box `[left, right] × [top, bottom]`, when `m` is the
least margin that fits. -/
theorem extract_at_margin (W H : Nat) (rgb : List Nat) (left right top bottom m : Nat)
    (hW : W < 2 ^ 31) (hH : H < 2 ^ 31) (hbox : IsBoundingBox W H rgb left right top bottom)
    (hm : m ≤ 32) (hfit : gridFits W H left right top bottom m)
    (hleast : ∀ k : Nat, k < m → ¬ gridFits W H left right top bottom k) :
    findMargin (W : Int) (H : Int) (boundingBoxOn (W : Int) (H : Int) (fun p => rgb.getD p 0))
        = ((m : Int), ((W : Int) - 2 * (m : Int)) / 8, ((H : Int) - 2 * (m : Int)) / 8)
      ∧ extractTextFromRenderedBMP (W : Int) (H : Int) rgb
        = some (decodeGrid (W : Int) (fun p => rgb.getD p 0) (m : Int)
            (((W : Int) - 2 * (m : Int)) / 8) (((H : Int) - 2 * (m : Int)) / 8)) := by
  have hbb := boundingBoxOn_eq W H rgb left right top bottom hW hH hbox
  obtain ⟨hl, hr, ht, hb, ⟨yl, hyl, nl⟩, _, ⟨xt, hxt, nt⟩, _, hall⟩ := hbox
  have hlr : left ≤ right := by
    have := hall left hl yl hyl nl
    omega
  have htb : top ≤ bottom := by
    have := hall xt hxt top ht nt
    omega
  have hfound : findMargin (W : Int) (H : Int)
      ((left : Int), (top : Int), (right : Int), (bottom : Int))
        = ((m : Int), ((W : Int) - 2 * (m : Int)) / 8, ((H : Int) - 2 * (m : Int)) / 8) := by
    unfold findMargin
    exact findMargin_loop_found (W : Int) (H : Int)
      ((left : Int), (top : Int), (right : Int), (bottom : Int)) 33 m (by omega) hfit hleast
  refine ⟨by rw [hbb]; exact hfound, ?_⟩
  unfold extractTextFromRenderedBMP extractTextOn
  simp only [hbb, hfound]
  rw [if_neg (by omega), if_neg (by omega)]
  rfl

/-- A pixel of the rendered raster is non-black exactly when it lies on a set
glyph bit. -/
theorem render_nonBlack (text : List Nat) (maxWidthChars : Int) (margin x y : Nat)
    (hx : x < (renderRaster text maxWidthChars margin).1)
    (hy : y < (renderRaster text maxWidthChars margin).2.1) :
    nonBlack (renderRaster text maxWidthChars margin).1
        (renderRaster text maxWidthChars margin).2.2 x y
      = litPixel (layoutLines text maxWidthChars) margin x y := by
  have h0 := render_byte text maxWidthChars margin x y 0 hx hy (by omega)
  have h1 := render_byte text maxWidthChars margin x y 1 hx hy (by omega)
  have h2 := render_byte text maxWidthChars margin x y 2 hx hy (by omega)
  rw [Nat.add_zero] at h0
  unfold nonBlack
  rw [h0, h1, h2]
  cases litPixel (layoutLines text maxWidthChars) margin x y <;> rfl

theorem litPixel_bounds (lines : List (List Nat)) (margin px py : Nat)
    (h : litPixel lines margin px py = true) :
    margin ≤ px ∧ px < margin + 8 * layoutCols lines ∧ margin ≤ py
      ∧ py < margin + 8 * lines.length := by
  unfold litPixel at h
  simp only [decide_eq_true_eq, Bool.and_eq_true, Bool.decide_and, Bool.decide_eq_true] at h
  obtain ⟨h1, h2, h3, h4, _⟩ := h
  have hc := layoutCols_ge lines ((py - margin) / 8) h3
  omega

/-- The margin that `extractTextFromRenderedBMP` infers on the raster rendered
with margin `M`, when the raster has a lit pixel and its sides are values of
the program's `int`. -/
theorem render_margin (text : List Nat) (maxWidthChars : Int) (M : Nat)
    (hW : (renderRaster text maxWidthChars M).1 < 2 ^ 31)
    (hH : (renderRaster text maxWidthChars M).2.1 < 2 ^ 31)
    (hlit : ∃ p, (renderRaster text maxWidthChars M).2.2.getD p 0 ≠ 0) :
    findMargin ((renderRaster text maxWidthChars M).1 : Int)
          ((renderRaster text maxWidthChars M).2.1 : Int)
          (boundingBoxOn ((renderRaster text maxWidthChars M).1 : Int)
            ((renderRaster text maxWidthChars M).2.1 : Int)
            (fun p => (renderRaster text maxWidthChars M).2.2.getD p 0))
        = (((M % 4 : Nat) : Int),
            ((layoutCols (layoutLines text maxWidthChars) + (M - M % 4) / 4 : Nat) : Int),
            (((layoutLines text maxWidthChars).length + (M - M % 4) / 4 : Nat) : Int))
      ∧ extractTextFromRenderedBMP ((renderRaster text maxWidthChars M).1 : Int)
          ((renderRaster text maxWidthChars M).2.1 : Int) (renderRaster text maxWidthChars M).2.2
        = some (decodeGrid ((renderRaster text maxWidthChars M).1 : Int)
            (fun p => (renderRaster text maxWidthChars M).2.2.getD p 0) ((M % 4 : Nat) : Int)
            ((layoutCols (layoutLines text maxWidthChars) + (M - M % 4) / 4 : Nat) : Int)
            (((layoutLines text maxWidthChars).length + (M - M % 4) / 4 : Nat) : Int)) := by
  have eW : (renderRaster text maxWidthChars M).1
      = M * 2 + layoutCols (layoutLines text maxWidthChars) * 8 := rfl
  have eH : (renderRaster text maxWidthChars M).2.1
      = M * 2 + (layoutLines text maxWidthChars).length * 8 := rfl
  have hcols := layoutCols_pos (layoutLines text maxWidthChars)
  have hlen := render_length text maxWidthChars M
  obtain ⟨p, hp⟩ := hlit
  have hplt : p < (renderRaster text maxWidthChars M).1
      * (renderRaster text maxWidthChars M).2.1 * 3 := by
    by_contra hge
    exact hp (List.getD_eq_default _ _ (by rw [hlen]; omega))
  have hWpos : 0 < (renderRaster text maxWidthChars M).1 := by rw [eW]; omega
  have hx : p / 3 % (renderRaster text maxWidthChars M).1
      < (renderRaster text maxWidthChars M).1 := Nat.mod_lt _ hWpos
  have hy : p / 3 / (renderRaster text maxWidthChars M).1
      < (renderRaster text maxWidthChars M).2.1 := by
    apply Nat.div_lt_of_lt_mul
    omega
  have hpe : (p / 3 / (renderRaster text maxWidthChars M).1
      * (renderRaster text maxWidthChars M).1
        + p / 3 % (renderRaster text maxWidthChars M).1) * 3 + p % 3 = p := by
    have := Nat.div_add_mod (p / 3) (renderRaster text maxWidthChars M).1
    rw [Nat.mul_comm] at this
    rw [this]
    omega
  have hb := render_byte text maxWidthChars M _ _ (p % 3) hx hy (Nat.mod_lt _ (by omega))
  rw [hpe] at hb
  have hl0 : litPixel (layoutLines text maxWidthChars) M
      (p / 3 % (renderRaster text maxWidthChars M).1)
      (p / 3 / (renderRaster text maxWidthChars M).1) = true := by
    by_contra hne
    rw [if_neg hne] at hb
    exact hp hb
  obtain ⟨l, r, t, b, hbox⟩ := exists_boundingBox (renderRaster text maxWidthChars M).1
    (renderRaster text maxWidthChars M).2.1 (renderRaster text maxWidthChars M).2.2
    ⟨_, _, hx, hy, by rw [render_nonBlack text maxWidthChars M _ _ hx hy]; exact hl0⟩
  have hbox2 := hbox
  obtain ⟨hl, hr, ht, hbt, ⟨yl, hyl, nl⟩, ⟨yr, hyr, nr⟩, ⟨xt, hxt, nt⟩, ⟨xb, hxb, nb⟩, _⟩ := hbox2
  rw [render_nonBlack text maxWidthChars M _ _ hl hyl] at nl
  rw [render_nonBlack text maxWidthChars M _ _ hr hyr] at nr
  rw [render_nonBlack text maxWidthChars M _ _ hxt ht] at nt
  rw [render_nonBlack text maxWidthChars M _ _ hxb hbt] at nb
  have bl := litPixel_bounds _ _ _ _ nl
  have br := litPixel_bounds _ _ _ _ nr
  have bt := litPixel_bounds _ _ _ _ nt
  have bb := litPixel_bounds _ _ _ _ nb
  have hfit : gridFits ((renderRaster text maxWidthChars M).1 : Int)
      ((renderRaster text maxWidthChars M).2.1 : Int) l r t b ((M % 4 : Nat) : Int) := by
    unfold gridFits
    rw [eW, eH]
    push_cast
    omega
  have hleast : ∀ k : Nat, k < M % 4 → ¬ gridFits ((renderRaster text maxWidthChars M).1 : Int)
      ((renderRaster text maxWidthChars M).2.1 : Int) l r t b (k : Int) := by
    intro k hk
    unfold gridFits
    rw [eW, eH]
    push_cast
    omega
  obtain ⟨h1, h2⟩ := extract_at_margin _ _ _ l r t b (M % 4) hW hH hbox (by omega) hfit hleast
  have c1 : (((renderRaster text maxWidthChars M).1 : Nat) : Int) - 2 * ((M % 4 : Nat) : Int)
      = 8 * ((layoutCols (layoutLines text maxWidthChars) + (M - M % 4) / 4 : Nat) : Int) := by
    rw [eW]
    push_cast
    omega
  have c2 : (((renderRaster text maxWidthChars M).2.1 : Nat) : Int) - 2 * ((M % 4 : Nat) : Int)
      = 8 * (((layoutLines text maxWidthChars).length + (M - M % 4) / 4 : Nat) : Int) := by
    rw [eH]
    push_cast
    omega
  rw [c1, c2, Int.mul_ediv_cancel_left _ (by norm_num), Int.mul_ediv_cancel_left _ (by norm_num)]
    at h1 h2
  exact ⟨h1, h2⟩

/-- C35 (as stated, refuted): for the text "H", whose glyph has set bits,
and the margin 13400 the canvas has the sides `W = H = 26808`, values of the
program's `int`, and `W * H * 3 = 2156006592`. No value of the `int`
expression `W*H*3` of line 1218 equals that size: the expression overflows and
`renderTextToBMP` builds no raster for `extractTextFromRenderedBMP` to select
a margin on. -/
theorem inferred_margin_counterexample :
    layoutLines [72] 80 = [[72]]
      ∧ glyphBit 72 0 0 = true
      ∧ 2 * 13400 + 8 * layoutCols (layoutLines [72] 80) = 26808
      ∧ 2 * 13400 + 8 * (layoutLines [72] 80).length = 26808
      ∧ toInt32 26808 = 26808
      ∧ (2 * 13400 + 8 * layoutCols (layoutLines [72] 80))
          * (2 * 13400 + 8 * (layoutLines [72] 80).length) * 3 = 2156006592
      ∧ ∀ n : Nat,
          toInt32 n ≠ (((2 * 13400 + 8 * layoutCols (layoutLines [72] 80))
            * (2 * 13400 + 8 * (layoutLines [72] 80).length) * 3 : Nat) : Int) := by
  have hl : layoutLines [72] 80 = [[72]] := by decide
  have hc : layoutCols (layoutLines [72] 80) = 1 := by decide
  have hr : (layoutLines [72] 80).length = 1 := by decide
  refine ⟨hl, by decide, ?_, ?_, by decide, ?_, ?_⟩
  · rw [hc]
  · rw [hr]
  · rw [hc, hr]
  · intro n
    apply toInt32_ne_of_ge
    rw [hc, hr]
    norm_num

/-- C35 (amended): for every text, wrap width and margin `M ≥ 0` whose canvas
size `W * H * 3` is a value of the program's `int` (below `2 ^ 31`, so that
`renderTextToBMP` builds the raster) and whose rendering has a
lit pixel, the
margin search of `extractTextFromRenderedBMP` on the raster built by
`renderTextToBMP` stops at `M mod 4`, which is the least `m` congruent to `M`
modulo 4; the grid it decodes has `(M - M mod 4) / 4` more columns and rows
than the rendered text, and the function returns the text decoded from that
grid; the grid is the rendered one exactly when `M < 4`. -/
theorem inferred_margin (text : List Nat) (maxWidthChars : Int) (M : Nat)
    (hsize : (renderRaster text maxWidthChars M).1
      * (renderRaster text maxWidthChars M).2.1 * 3 < 2 ^ 31)
    (hlit : ∃ p, (renderRaster text maxWidthChars M).2.2.getD p 0 ≠ 0) :
    findMargin ((renderRaster text maxWidthChars M).1 : Int)
          ((renderRaster text maxWidthChars M).2.1 : Int)
          (boundingBoxOn ((renderRaster text maxWidthChars M).1 : Int)
            ((renderRaster text maxWidthChars M).2.1 : Int)
            (fun p => (renderRaster text maxWidthChars M).2.2.getD p 0))
        = (((M % 4 : Nat) : Int),
            ((layoutCols (layoutLines text maxWidthChars) + (M - M % 4) / 4 : Nat) : Int),
            (((layoutLines text maxWidthChars).length + (M - M % 4) / 4 : Nat) : Int))
      ∧ extractTextFromRenderedBMP ((renderRaster text maxWidthChars M).1 : Int)
          ((renderRaster text maxWidthChars M).2.1 : Int) (renderRaster text maxWidthChars M).2.2
        = some (decodeGrid ((renderRaster text maxWidthChars M).1 : Int)
            (fun p => (renderRaster text maxWidthChars M).2.2.getD p 0) ((M % 4 : Nat) : Int)
            ((layoutCols (layoutLines text maxWidthChars) + (M - M % 4) / 4 : Nat) : Int)
            (((layoutLines text maxWidthChars).length + (M - M % 4) / 4 : Nat) : Int))
      ∧ (∀ m : Nat, m % 4 = M % 4 → M % 4 ≤ m)
      ∧ ((M - M % 4) / 4 = 0 ↔ M < 4) := by
  obtain ⟨hW, hH⟩ := render_sides text maxWidthChars M hsize
  obtain ⟨h1, h2⟩ := render_margin text maxWidthChars M hW hH hlit
  exact ⟨h1, h2, fun m hm => by omega, by omega⟩

set_option maxRecDepth 100000 in
theorem inferred_margin_witness :
    findMargin ((renderRaster [65] 80 5).1 : Int) ((renderRaster [65] 80 5).2.1 : Int)
          (boundingBoxOn ((renderRaster [65] 80 5).1 : Int) ((renderRaster [65] 80 5).2.1 : Int)
            (fun p => (renderRaster [65] 80 5).2.2.getD p 0))
        = (((5 % 4 : Nat) : Int),
            ((layoutCols (layoutLines [65] 80) + (5 - 5 % 4) / 4 : Nat) : Int),
            (((layoutLines [65] 80).length + (5 - 5 % 4) / 4 : Nat) : Int))
      ∧ extractTextFromRenderedBMP ((renderRaster [65] 80 5).1 : Int)
          ((renderRaster [65] 80 5).2.1 : Int) (renderRaster [65] 80 5).2.2
        = some (decodeGrid ((renderRaster [65] 80 5).1 : Int)
            (fun p => (renderRaster [65] 80 5).2.2.getD p 0) ((5 % 4 : Nat) : Int)
            ((layoutCols (layoutLines [65] 80) + (5 - 5 % 4) / 4 : Nat) : Int)
            (((layoutLines [65] 80).length + (5 - 5 % 4) / 4 : Nat) : Int))
      ∧ (∀ m : Nat, m % 4 = 5 % 4 → 5 % 4 ≤ m)
      ∧ ((5 - 5 % 4) / 4 = 0 ↔ 5 < 4) :=
  inferred_margin [65] 80 5 (by decide) ⟨291, by decide⟩

/-! ## Rendering a text and recognising it again -/

set_option maxRecDepth 100000 in
/-- The 8 pixels of a cell row give back the row mask of the glyph. -/
theorem mask_rebuild : ∀ g, g < 256 →
    forLoop 8
      (fun x bits => if g &&& (1 <<< (7 - x)) ≠ 0 then (bits ||| (1 <<< (7 - x))) % 256 else bits)
      0 = g := by
  decide

set_option maxRecDepth 100000 in
theorem font_rows : ∀ i, i < 96 →
    tiny8x8_font.getD i [] = (List.range 8).map (fun y => (tiny8x8_font.getD i []).getD y 0) := by
  decide

set_option maxRecDepth 100000 in
theorem font_bytes : ∀ i, i < 96 → ∀ y, y < 8 → (tiny8x8_font.getD i []).getD y 0 < 256 := by
  decide

theorem glyphBit_space (y x : Nat) : glyphBit 32 y x = false := by
  have h0 : tiny8x8_font.getD 0 [] = [0, 0, 0, 0, 0, 0, 0, 0] := by decide
  have hy : ([0, 0, 0, 0, 0, 0, 0, 0] : List Nat).getD y 0 = 0 := by
    by_cases h : y < 8
    · interval_cases y <;> rfl
    · exact List.getD_eq_default _ _ (by simp only [List.length_cons, List.length_nil]; omega)
  unfold glyphBit
  rw [if_neg (by omega), Nat.sub_self, h0, hy, Nat.zero_and]
  simp

/-- The pixels of the cell at (`row`, `col`) of the rendered lines show the
glyph of the character there, and the blank glyph where the line has ended. -/
theorem cell_lit (lines : List (List Nat)) (margin row col x y : Nat) (hrow : row < lines.length)
    (hx : x < 8) (hy : y < 8) :
    litPixel lines margin (margin + 8 * col + x) (margin + 8 * row + y)
      = glyphBit ((lines.getD row []).getD col 32) y x := by
  by_cases hcol : col < (lines.getD row []).length
  · rw [litPixel_cell lines margin row col x y hrow hcol hx hy, List.getD_eq_getElem _ _ hcol,
      List.getD_eq_getElem _ _ hcol]
  · rw [List.getD_eq_default _ _ (by omega), glyphBit_space]
    cases hl : litPixel lines margin (margin + 8 * col + x) (margin + 8 * row + y) with
    | false => rfl
    | true =>
      exfalso
      unfold litPixel at hl
      simp only [decide_eq_true_eq, Bool.and_eq_true, Bool.decide_and, Bool.decide_eq_true] at hl
      obtain ⟨_, _, _, h4, _⟩ := hl
      have a1 : (margin + 8 * row + y - margin) / 8 = row := by omega
      have a3 : (margin + 8 * col + x - margin) / 8 = col := by omega
      rw [a1, a3] at h4
      exact hcol h4

/-- The cell that `extractTextFromRenderedBMP` reads where the pixels show the
glyph of `ch`: the font entry of `ch`. -/
theorem cellGlyph_of_lit (W : Nat) (rd : Nat → Nat) (M row col ch : Nat) (hW0 : 0 < W)
    (hW : W < 2 ^ 31)
    (hrange : ∀ x y, x < 8 → y < 8 →
      ((M + row * 8 + y) * W + (M + col * 8 + x)) * 3 < 2 ^ 64)
    (hrd : ∀ x y, x < 8 → y < 8 →
      (rd (((M + row * 8 + y) * W + (M + col * 8 + x)) * 3)
          + rd (((M + row * 8 + y) * W + (M + col * 8 + x)) * 3 + 1)
          + rd (((M + row * 8 + y) * W + (M + col * 8 + x)) * 3 + 2) > 128
        ↔ glyphBit ch y x = true)) :
    cellGlyphOn (W : Int) rd (M : Int) row col
      = tiny8x8_font.getD ((if ch < 32 ∨ ch > 127 then 63 else ch) - 32) [] := by
  have hidx : (if ch < 32 ∨ ch > 127 then 63 else ch) - 32 < 96 := by
    split <;> omega
  have tW : toSizeT (W : Int) = W := toSizeT_natCast _ (by omega)
  unfold cellGlyphOn
  simp only []
  refine (forLoop_congr 8 _
    (fun y glyph => glyph.set y
      ((tiny8x8_font.getD ((if ch < 32 ∨ ch > 127 then 63 else ch) - 32) []).getD y 0))
    _ ?_).trans ?_
  · intro y hy glyph
    congr 1
    refine (forLoop_congr 8 _
      (fun x bits =>
        if (tiny8x8_font.getD ((if ch < 32 ∨ ch > 127 then 63 else ch) - 32) []).getD y 0
            &&& (1 <<< (7 - x)) ≠ 0 then (bits ||| (1 <<< (7 - x))) % 256
        else bits)
      _ ?_).trans (mask_rebuild _ (font_bytes _ hidx y hy))
    intro x hx bits
    have hr := hrange x y hx hy
    have hsum : (M + row * 8 + y) * W + (M + col * 8 + x) < 2 ^ 64 := by omega
    have hpy : M + row * 8 + y < 2 ^ 64 := by
      have : (M + row * 8 + y) * 1 ≤ (M + row * 8 + y) * W :=
        Nat.mul_le_mul_left _ (by omega)
      omega
    have e1 : (M : Int) + (row : Int) * 8 + (y : Int) = ((M + row * 8 + y : Nat) : Int) := by
      push_cast; rfl
    have e2 : (M : Int) + (col : Int) * 8 + (x : Int) = ((M + col * 8 + x : Nat) : Int) := by
      push_cast; rfl
    rw [e1, e2, tW, toSizeT_natCast _ hpy, toSizeT_natCast _ (by omega), Nat.mod_eq_of_lt hr]
    beta_reduce
    by_cases hg : glyphBit ch y x = true
    · rw [if_pos ((hrd x y hx hy).mpr hg), if_pos ((glyphBit_eq ch y x).mpr hg)]
    · rw [if_neg (fun h => hg ((hrd x y hx hy).mp h)),
        if_neg (fun h => hg ((glyphBit_eq ch y x).mp h))]
  · rw [forLoop_fill]
    exact (font_rows _ hidx).symm

theorem range_map_getD_pad (l : List Nat) (d : Nat) :
    ∀ n, l.length ≤ n →
      (List.range n).map (fun i => l.getD i d) = l ++ List.replicate (n - l.length) d := by
  induction l with
  | nil =>
    intro n _
    simp
  | cons a t ih =>
    intro n hn
    obtain ⟨m, rfl⟩ : ∃ m, n = m + 1 := ⟨n - 1, by simp only [List.length_cons] at hn; omega⟩
    rw [List.range_succ_eq_map, List.map_cons, List.map_map]
    have hm : t.length ≤ m := by simp only [List.length_cons] at hn; omega
    have := ih m hm
    simp only [List.length_cons, Nat.add_sub_add_right, List.cons_append]
    rw [← this]
    rfl

theorem dropWhile_spaces (k : Nat) (r : List Nat) :
    (List.replicate k 32 ++ r).dropWhile (fun c => decide (c = 32))
      = r.dropWhile (fun c => decide (c = 32)) := by
  induction k with
  | zero => rfl
  | succ n ih =>
    rw [List.replicate_succ, List.cons_append, List.dropWhile_cons]
    simp only [decide_True, if_true]
    exact ih

/-- Trimming removes the padding of a line that does not end in a space. -/
theorem trim_padded (l : List Nat) (k : Nat) (h : l.getLast? ≠ some 32) :
    trimTrailingSpaces (l ++ List.replicate k 32) = l := by
  unfold trimTrailingSpaces
  rw [List.reverse_append, List.reverse_replicate, dropWhile_spaces]
  cases hr : l.reverse with
  | nil =>
    have : l = [] := List.reverse_eq_nil_iff.mp hr
    rw [this]
    rfl
  | cons a r =>
    have ha : a ≠ 32 := by
      intro e
      apply h
      rw [← List.head?_reverse, hr, e]
      rfl
    rw [List.dropWhile_cons, if_neg (by simp only [decide_eq_true_eq]; exact ha), ← hr,
      List.reverse_reverse]

/-- The rows of the decoded grid, each followed by a newline except the last,
make up the lines joined by newlines. -/
theorem flatMap_joinLines (ls : List (List Nat)) :
    (List.range ls.length).flatMap
        (fun i => ls.getD i [] ++ (if i + 1 < ls.length then [10] else []))
      = joinLines ls := by
  induction ls with
  | nil => rfl
  | cons l rest ih =>
    rw [List.length_cons, List.range_succ_eq_map, List.flatMap_cons, List.flatMap_map]
    have h1 : (List.range rest.length).flatMap
        (fun i => (l :: rest).getD (i + 1) []
          ++ (if i + 1 + 1 < rest.length + 1 then [10] else []))
        = (List.range rest.length).flatMap
          (fun i => rest.getD i [] ++ (if i + 1 < rest.length then [10] else [])) := by
      congr 1
      funext i
      by_cases hi : i + 1 < rest.length
      · rw [if_pos (by omega), if_pos hi]
        rfl
      · rw [if_neg (by omega), if_neg hi]
        rfl
    show ((l :: rest).getD 0 [] ++ (if 0 + 1 < rest.length + 1 then [10] else []))
      ++ (List.range rest.length).flatMap
        (fun i => (l :: rest).getD (i + 1) []
          ++ (if i + 1 + 1 < rest.length + 1 then [10] else [])) = _
    rw [h1, ih]
    cases rest with
    | nil => simp [joinLines]
    | cons a b =>
      rw [joinLines_cons l (a :: b) (List.cons_ne_nil a b), if_pos (by simp)]
      rfl

/-- The decoding loop of `extractTextFromRenderedBMP` on the rendered raster,
at the margin of the rendering and on the grid of the laid-out lines: when
every character is printable and no line ends in a space, it gives back the
lines joined by newlines. -/
theorem decodeGrid_render (text : List Nat) (maxWidthChars : Int) (M : Nat)
    (hW : (renderRaster text maxWidthChars M).1 < 2 ^ 31)
    (hH : (renderRaster text maxWidthChars M).2.1 < 2 ^ 31)
    (hchars : ∀ ln, ln ∈ layoutLines text maxWidthChars → ∀ c, c ∈ ln → 32 ≤ c ∧ c ≤ 126)
    (hsp : ∀ ln, ln ∈ layoutLines text maxWidthChars → ln.getLast? ≠ some 32) :
    decodeGrid ((renderRaster text maxWidthChars M).1 : Int)
        (fun p => (renderRaster text maxWidthChars M).2.2.getD p 0) (M : Int)
        ((layoutCols (layoutLines text maxWidthChars) : Nat) : Int)
        (((layoutLines text maxWidthChars).length : Nat) : Int)
      = joinLines (layoutLines text maxWidthChars) := by
  have eW : (renderRaster text maxWidthChars M).1
      = M * 2 + layoutCols (layoutLines text maxWidthChars) * 8 := rfl
  have eH : (renderRaster text maxWidthChars M).2.1
      = M * 2 + (layoutLines text maxWidthChars).length * 8 := rfl
  have hmem : ∀ i, i < (layoutLines text maxWidthChars).length →
      (layoutLines text maxWidthChars).getD i [] ∈ layoutLines text maxWidthChars := by
    intro i hi
    rw [List.getD_eq_getElem _ _ hi]
    exact List.getElem_mem hi
  have hcell : ∀ row col, row < (layoutLines text maxWidthChars).length →
      col < layoutCols (layoutLines text maxWidthChars) →
      matchGlyph (cellGlyphOn ((renderRaster text maxWidthChars M).1 : Int)
          (fun p => (renderRaster text maxWidthChars M).2.2.getD p 0) (M : Int) row col)
        = ((layoutLines text maxWidthChars).getD row []).getD col 32 := by
    intro row col hrow hcol
    have hch : 32 ≤ ((layoutLines text maxWidthChars).getD row []).getD col 32
        ∧ ((layoutLines text maxWidthChars).getD row []).getD col 32 ≤ 126 := by
      by_cases hc : col < ((layoutLines text maxWidthChars).getD row []).length
      · rw [List.getD_eq_getElem _ _ hc]
        exact hchars _ (hmem row hrow) _ (List.getElem_mem hc)
      · rw [List.getD_eq_default _ _ (by omega)]
        omega
    have hpx : ∀ x, x < 8 → M + col * 8 + x < (renderRaster text maxWidthChars M).1 := by
      intro x hx
      rw [eW]
      omega
    have hpy : ∀ y, y < 8 → M + row * 8 + y < (renderRaster text maxWidthChars M).2.1 := by
      intro y hy
      rw [eH]
      omega
    rw [cellGlyph_of_lit (renderRaster text maxWidthChars M).1 _ M row col
      (((layoutLines text maxWidthChars).getD row []).getD col 32) (by rw [eW]; omega) hW ?_ ?_]
    · rw [if_neg (by omega)]
      have := matchGlyph_font
        (((layoutLines text maxWidthChars).getD row []).getD col 32 - 32) (by omega)
      rw [this]
      omega
    · intro x y hx hy
      have h1 : (M + row * 8 + y + 1) * (renderRaster text maxWidthChars M).1
          ≤ 2 ^ 31 * 2 ^ 31 := Nat.mul_le_mul (by have := hpy y hy; omega) (by omega)
      rw [Nat.add_mul, Nat.one_mul] at h1
      have := hpx x hx
      have e : (2 : Nat) ^ 31 * 2 ^ 31 = 2 ^ 62 := by norm_num
      omega
    · intro x y hx hy
      have b0 := render_byte text maxWidthChars M _ _ 0 (hpx x hx) (hpy y hy) (by omega)
      have b1 := render_byte text maxWidthChars M _ _ 1 (hpx x hx) (hpy y hy) (by omega)
      have b2 := render_byte text maxWidthChars M _ _ 2 (hpx x hx) (hpy y hy) (by omega)
      rw [Nat.add_zero] at b0
      rw [b0, b1, b2]
      have e1 : M + col * 8 + x = M + 8 * col + x := by omega
      have e2 : M + row * 8 + y = M + 8 * row + y := by omega
      rw [e1, e2, cell_lit _ M row col x y hrow hx hy]
      by_cases hg : glyphBit (((layoutLines text maxWidthChars).getD row []).getD col 32) y x
          = true
      · rw [if_pos hg]
        exact ⟨fun _ => hg, fun _ => by omega⟩
      · rw [if_neg hg]
        exact ⟨fun h => by omega, fun h => absurd h hg⟩
  unfold decodeGrid
  simp only [Int.toNat_ofNat]
  refine (forLoop_congr _ _
    (fun row outText => outText ++ ((layoutLines text maxWidthChars).getD row []
      ++ (if row + 1 < (layoutLines text maxWidthChars).length then [10] else [])))
    _ ?_).trans ?_
  · intro row hrow outText
    have hline : forLoop (layoutCols (layoutLines text maxWidthChars))
        (fun col line => line ++ [matchGlyph
          (cellGlyphOn ((renderRaster text maxWidthChars M).1 : Int)
            (fun p => (renderRaster text maxWidthChars M).2.2.getD p 0) (M : Int) row col)]) []
        = (layoutLines text maxWidthChars).getD row []
          ++ List.replicate (layoutCols (layoutLines text maxWidthChars)
            - ((layoutLines text maxWidthChars).getD row []).length) 32 := by
      rw [forLoop_congr _ _
        (fun col line => line ++ [((layoutLines text maxWidthChars).getD row []).getD col 32])
        _ (fun col hcol line => by rw [hcell row col hrow hcol]),
        forLoop_push, List.nil_append]
      exact range_map_getD_pad _ 32 _ (layoutCols_ge _ row hrow)
    rw [hline, trim_padded _ _ (hsp _ (hmem row hrow))]
    beta_reduce
    by_cases hlast : row + 1 < (layoutLines text maxWidthChars).length
    · rw [if_pos (by omega), if_pos hlast, List.append_assoc]
    · rw [if_neg (by omega), if_neg hlast, List.append_nil]
  · rw [forLoop_pushBlock, List.nil_append]
    exact flatMap_joinLines _

theorem splitLines_mem (text : List Nat) (c : Nat) (hc : c ∈ text) (hne : c ≠ 10) :
    ∃ ln, ln ∈ splitLines text ∧ c ∈ ln := by
  induction text with
  | nil => exact absurd hc (List.not_mem_nil c)
  | cons a t ih =>
    rw [splitLines_cons]
    by_cases ha : a = 10
    · rw [if_pos ha]
      rcases List.mem_cons.mp hc with h | h
      · exact absurd (h.trans ha) hne
      · obtain ⟨ln, h1, h2⟩ := ih h
        exact ⟨ln, List.mem_cons_of_mem _ h1, h2⟩
    · rw [if_neg ha]
      cases hs : splitLines t with
      | nil => exact absurd hs (splitLines_ne_nil t)
      | cons l0 rest =>
        rcases List.mem_cons.mp hc with h | h
        · exact ⟨[a] ++ l0, List.mem_cons_self _ _, by rw [h]; simp⟩
        · obtain ⟨ln, h1, h2⟩ := ih h
          rw [hs] at h1
          rcases List.mem_cons.mp h1 with h3 | h3
          · exact ⟨[a] ++ l0, List.mem_cons_self _ _, by rw [← h3]; simp [h2]⟩
          · exact ⟨ln, List.mem_cons_of_mem _ h3, h2⟩

/-- A character with a set glyph bit on one of the laid-out lines leaves a
white pixel on the rendered raster. -/
theorem render_ink (text : List Nat) (maxWidthChars : Int) (M : Nat) (ln : List Nat) (c y x : Nat)
    (hln : ln ∈ layoutLines text maxWidthChars) (hc : c ∈ ln) (hy : y < 8) (hx : x < 8)
    (hbit : glyphBit c y x = true) :
    ∃ p, (renderRaster text maxWidthChars M).2.2.getD p 0 ≠ 0 := by
  have eW : (renderRaster text maxWidthChars M).1
      = M * 2 + layoutCols (layoutLines text maxWidthChars) * 8 := rfl
  have eH : (renderRaster text maxWidthChars M).2.1
      = M * 2 + (layoutLines text maxWidthChars).length * 8 := rfl
  obtain ⟨row, hrow, hr⟩ := List.getElem_of_mem hln
  obtain ⟨col, hcol, hcc⟩ := List.getElem_of_mem hc
  have hrow2 : (layoutLines text maxWidthChars).getD row [] = ln := by
    rw [List.getD_eq_getElem _ _ hrow, hr]
  have hcols := layoutCols_ge (layoutLines text maxWidthChars) row hrow
  rw [hrow2] at hcols
  have hpx : M + 8 * col + x < (renderRaster text maxWidthChars M).1 := by rw [eW]; omega
  have hpy : M + 8 * row + y < (renderRaster text maxWidthChars M).2.1 := by rw [eH]; omega
  have hb := render_byte text maxWidthChars M _ _ 0 hpx hpy (by omega)
  have hl := litPixel_cell (layoutLines text maxWidthChars) M row col x y hrow
    (by rw [hrow2]; exact hcol) hx hy
  rw [hrow2, List.getD_eq_getElem _ _ hcol, hcc, hbit] at hl
  rw [hl, if_pos rfl] at hb
  exact ⟨_, by rw [hb]; omega⟩

theorem splitLines_replicate (n c : Nat) (hc : c ≠ 10) :
    splitLines (List.replicate n c) = [List.replicate n c] := by
  induction n with
  | zero => rfl
  | succ k ih =>
    rw [List.replicate_succ, splitLines_cons, if_neg hc, ih]
    rfl

theorem getLast?_replicate_ne (n c d : Nat) (hc : c ≠ d) :
    (List.replicate n c).getLast? ≠ some d := by
  intro h
  have hm := List.mem_of_getLast?_eq_some h
  exact hc (List.eq_of_mem_replicate hm).symm

theorem layoutCols_single (l : List Nat) (hl : l ≠ []) : layoutCols [l] = l.length := by
  have h0 : l.length ≠ 0 := fun h => hl (List.length_eq_zero.mp h)
  unfold layoutCols
  simp only [List.length_singleton, forLoop, List.getD_cons_zero, Nat.zero_max]
  rw [if_neg h0]

/-- C34 (as stated, refuted): the text of 60000000 letters "H" on one line,
with the wrap width 60000001 and the margin 3, meets every condition of the
claim: it is not empty, made of characters from 32 to 126, without newline or
space, shorter than the wrap width, and "H" has set glyph bits. Its canvas has
the sides `W = 480000006` and `H = 14`, values of the program's `int`, and
`W * H * 3 = 20160000252`. No value of the `int` expression `W*H*3` of line
1218 equals that size: the expression overflows, `renderTextToBMP` builds no
raster and `extractTextFromRenderedBMP` has nothing to return the text from. -/
theorem render_round_trip_counterexample :
    List.replicate 60000000 72 ≠ []
      ∧ (∀ c, c ∈ List.replicate 60000000 72 → c = 10 ∨ (32 ≤ c ∧ c ≤ 126))
      ∧ (List.replicate 60000000 72).getLast? ≠ some 10
      ∧ splitLines (List.replicate 60000000 72) = [List.replicate 60000000 72]
      ∧ ((List.replicate 60000000 72).length : Int) < 60000001
      ∧ (List.replicate 60000000 72).getLast? ≠ some 32
      ∧ glyphBit 72 0 0 = true
      ∧ layoutLines (List.replicate 60000000 72) 60000001 = [List.replicate 60000000 72]
      ∧ 2 * 3 + 8 * layoutCols (layoutLines (List.replicate 60000000 72) 60000001) = 480000006
      ∧ 2 * 3 + 8 * (layoutLines (List.replicate 60000000 72) 60000001).length = 14
      ∧ toInt32 480000006 = 480000006
      ∧ (2 * 3 + 8 * layoutCols (layoutLines (List.replicate 60000000 72) 60000001))
          * (2 * 3 + 8 * (layoutLines (List.replicate 60000000 72) 60000001).length) * 3
          = 20160000252
      ∧ ∀ n : Nat,
          toInt32 n
            ≠ (((2 * 3 + 8 * layoutCols (layoutLines (List.replicate 60000000 72) 60000001))
              * (2 * 3 + 8 * (layoutLines (List.replicate 60000000 72) 60000001).length) * 3
                : Nat) : Int) := by
  have hlen : (List.replicate 60000000 72).length = 60000000 := List.length_replicate _ _
  have hne : List.replicate 60000000 72 ≠ [] := by
    intro h
    rw [h] at hlen
    exact absurd hlen (by decide)
  have h72 : ∀ c, c ∈ List.replicate 60000000 72 → c = 72 :=
    fun c hc => List.eq_of_mem_replicate hc
  have hend := getLast?_replicate_ne 60000000 72 10 (by decide)
  have hsplit := splitLines_replicate 60000000 72 (by decide)
  have hlay : layoutLines (List.replicate 60000000 72) 60000001
      = [List.replicate 60000000 72] := by
    rw [layoutLines_short _ _ (fun c hc => by rw [h72 c hc]; decide) hne hend
      (fun ln hln => by
        rw [hsplit, List.mem_singleton] at hln
        rw [hln, hlen]
        norm_num), hsplit]
  have hc : layoutCols (layoutLines (List.replicate 60000000 72) 60000001) = 60000000 := by
    rw [hlay, layoutCols_single _ hne, hlen]
  have hr : (layoutLines (List.replicate 60000000 72) 60000001).length = 1 := by
    rw [hlay]; rfl
  refine ⟨hne, fun c hc => Or.inr (by rw [h72 c hc]; decide), hend, hsplit,
    by rw [hlen]; norm_num, getLast?_replicate_ne 60000000 72 32 (by decide), by decide, hlay,
    ?_, ?_, by decide, ?_, ?_⟩
  · rw [hc]
  · rw [hr]
  · rw [hc, hr]
  · intro n
    apply toInt32_ne_of_ge
    rw [hc, hr]
    norm_num

/-- C34 (amended): for every margin from 0 to 3, every wrap width and every
text that
is not empty, is made only of the characters 32 to 126 and newlines, does not
end in a newline, has every line shorter than the wrap width, has no line
ending in a space and has a character with a set glyph bit, and whose canvas
size `W * H * 3` is a value of the program's `int` (below `2 ^ 31`, so that
`renderTextToBMP` builds the raster), `extractTextFromRenderedBMP` on
the raster that `renderTextToBMP` builds succeeds and returns the text. -/
theorem render_round_trip (text : List Nat) (maxWidthChars : Int) (M : Nat) (hM : M < 4)
    (hsize : (renderRaster text maxWidthChars M).1
      * (renderRaster text maxWidthChars M).2.1 * 3 < 2 ^ 31)
    (hne : text ≠ []) (hchars : ∀ c, c ∈ text → c = 10 ∨ (32 ≤ c ∧ c ≤ 126))
    (hend : text.getLast? ≠ some 10)
    (hshort : ∀ ln, ln ∈ splitLines text → (ln.length : Int) < maxWidthChars)
    (hsp : ∀ ln, ln ∈ splitLines text → ln.getLast? ≠ some 32)
    (hink : ∃ c y x, c ∈ text ∧ c ≠ 10 ∧ y < 8 ∧ x < 8 ∧ glyphBit c y x = true) :
    extractTextFromRenderedBMP ((renderRaster text maxWidthChars M).1 : Int)
        ((renderRaster text maxWidthChars M).2.1 : Int) (renderRaster text maxWidthChars M).2.2
      = some text := by
  obtain ⟨hW, hH⟩ := render_sides text maxWidthChars M hsize
  have hlay : layoutLines text maxWidthChars = splitLines text :=
    layoutLines_short text maxWidthChars
      (fun c hc => by rcases hchars c hc with h | h <;> omega) hne hend hshort
  obtain ⟨c, y, x, hc, hc10, hy, hx, hbit⟩ := hink
  obtain ⟨ln, hln, hcl⟩ := splitLines_mem text c hc hc10
  have hlit := render_ink text maxWidthChars M ln c y x (by rw [hlay]; exact hln) hcl hy hx hbit
  obtain ⟨_, h2⟩ := render_margin text maxWidthChars M hW hH hlit
  have e1 : M % 4 = M := Nat.mod_eq_of_lt hM
  have e2 : (M - M % 4) / 4 = 0 := by omega
  rw [e2, e1, Nat.add_zero, Nat.add_zero] at h2
  rw [h2, decodeGrid_render text maxWidthChars M hW hH
    (fun l hl ch hch => by
      rw [hlay] at hl
      obtain ⟨m1, m2⟩ := splitLines_chars text l hl ch hch
      rcases hchars ch m1 with h | h
      · exact absurd h m2
      · exact h)
    (fun l hl => hsp l (by rw [← hlay]; exact hl)),
    hlay, joinLines_splitLines]

set_option maxRecDepth 100000 in
theorem render_round_trip_witness :
    extractTextFromRenderedBMP ((renderRaster [72, 105, 10, 33] 80 2).1 : Int)
        ((renderRaster [72, 105, 10, 33] 80 2).2.1 : Int) (renderRaster [72, 105, 10, 33] 80 2).2.2
      = some [72, 105, 10, 33] :=
  render_round_trip [72, 105, 10, 33] 80 2 (by decide) (by decide) (by decide) (by decide)
    (by decide) (by decide) (by decide) ⟨72, 0, 0, by decide⟩

/-! ## The chunk CRC is not read -/

theorem pngChunks_ge (file : List Nat) (fuel : Nat) :
    ∀ p c, c ∈ pngChunks file fuel p → p ≤ c.1 := by
  induction fuel with
  | zero =>
    intro p c hc
    exact absurd hc (List.not_mem_nil c)
  | succ f ih =>
    intro p c hc
    unfold pngChunks at hc
    split at hc
    · split at hc
      · exact absurd hc (List.not_mem_nil c)
      · rcases List.mem_cons.mp hc with h | h
        · rw [h]
        · have := ih _ c h
          omega
    · exact absurd hc (List.not_mem_nil c)

/-- Every chunk of `pngChunks` lies whole in the file, CRC field included. -/
theorem pngChunks_inside (file : List Nat) (fuel : Nat) :
    ∀ p c, c ∈ pngChunks file fuel p → c.1 + 8 + c.2 + 4 ≤ file.length := by
  induction fuel with
  | zero =>
    intro p c hc
    exact absurd hc (List.not_mem_nil c)
  | succ f ih =>
    intro p c hc
    unfold pngChunks at hc
    split at hc
    · split at hc
      · exact absurd hc (List.not_mem_nil c)
      · rcases List.mem_cons.mp hc with h | h
        · rw [h]
          simp only []
          omega
        · exact ih _ c h
    · exact absurd hc (List.not_mem_nil c)

theorem drop_take_congr (l l2 : List Nat) (a n : Nat) (hlen : l2.length = l.length)
    (h : ∀ i, a ≤ i → i < a + n → l2.getD i 0 = l.getD i 0) :
    (l2.drop a).take n = (l.drop a).take n := by
  apply ext_getD
  · rw [List.length_take, List.length_take, List.length_drop, List.length_drop, hlen]
  · intro j hj
    rw [List.length_take] at hj
    rw [getD_take_drop _ _ _ _ (by omega), getD_take_drop _ _ _ _ (by omega)]
    exact h _ (by omega) (by omega)

theorem rdBE32_congr (l l2 : List Nat) (p : Nat)
    (h : ∀ i, p ≤ i → i < p + 4 → l2.getD i 0 = l.getD i 0) : rdBE32 l2 p = rdBE32 l p := by
  unfold rdBE32
  rw [h p (by omega) (by omega), h (p + 1) (by omega) (by omega),
    h (p + 2) (by omega) (by omega), h (p + 3) (by omega) (by omega)]

/-- The chunk loop of the reader gives the same result on two files of the
same length that differ only before the read position or inside CRC fields of
chunks. -/
theorem chunkLoop_crc (file file2 : List Nat) (hlen : file2.length = file.length) (fuel : Nat) :
    ∀ (tf : Nat) (st : ChunkState),
      (∀ i, file2.getD i 0 ≠ file.getD i 0 →
        i < st.p ∨ ∃ c, c ∈ pngChunks file tf st.p ∧ c.1 + 8 + c.2 ≤ i ∧ i < c.1 + 8 + c.2 + 4) →
      chunkLoop file2 fuel st = chunkLoop file fuel st := by
  induction fuel with
  | zero =>
    intro tf st _
    rfl
  | succ f ih =>
    intro tf st hdiff
    have hag : ∀ i, st.p ≤ i → i < st.p + 4 + 4 + rdBE32 file st.p →
        file2.getD i 0 = file.getD i 0 := by
      intro i h1 h2
      by_contra hne
      rcases hdiff i hne with h | ⟨c, hc, h3, h4⟩
      · omega
      · cases tf with
        | zero => exact absurd hc (List.not_mem_nil c)
        | succ t =>
          unfold pngChunks at hc
          split at hc
          · split at hc
            · exact absurd hc (List.not_mem_nil c)
            · rcases List.mem_cons.mp hc with h | h
              · rw [h] at h3
                simp only [] at h3
                omega
              · have := pngChunks_ge file t _ c h
                omega
          · exact absurd hc (List.not_mem_nil c)
    have hnext : ∀ i, file2.getD i 0 ≠ file.getD i 0 →
        i < st.p + 4 + 4 + rdBE32 file st.p + 4
          ∨ ∃ c, c ∈ pngChunks file (tf - 1) (st.p + 4 + 4 + rdBE32 file st.p + 4)
              ∧ c.1 + 8 + c.2 ≤ i ∧ i < c.1 + 8 + c.2 + 4 := by
      intro i hne
      rcases hdiff i hne with h | ⟨c, hc, h3, h4⟩
      · left
        omega
      · cases tf with
        | zero => exact absurd hc (List.not_mem_nil c)
        | succ t =>
          unfold pngChunks at hc
          split at hc
          · split at hc
            · exact absurd hc (List.not_mem_nil c)
            · rcases List.mem_cons.mp hc with h | h
              · left
                rw [h] at h4
                simp only [] at h4
                omega
              · right
                exact ⟨c, h, h3, h4⟩
          · exact absurd hc (List.not_mem_nil c)
    have hl : rdBE32 file2 st.p = rdBE32 file st.p :=
      rdBE32_congr file file2 st.p (fun i h1 h2 => hag i h1 (by omega))
    have ht : (file2.drop (st.p + 4)).take 4 = (file.drop (st.p + 4)).take 4 :=
      drop_take_congr file file2 (st.p + 4) 4 hlen (fun i h1 h2 => hag i (by omega) (by omega))
    have hd : (file2.drop (st.p + 4 + 4)).take (rdBE32 file st.p)
        = (file.drop (st.p + 4 + 4)).take (rdBE32 file st.p) :=
      drop_take_congr file file2 (st.p + 4 + 4) (rdBE32 file st.p) hlen
        (fun i h1 h2 => hag i (by omega) (by omega))
    conv_lhs => unfold chunkLoop
    conv_rhs => unfold chunkLoop
    simp only [hlen, hl, ht, hd]
    by_cases h8 : st.p + 8 ≤ file.length
    · rw [if_pos h8, if_pos h8]
      by_cases hov : st.p + 4 + 4 + rdBE32 file st.p + 4 > file.length
      · rw [if_pos hov, if_pos hov]
      · rw [if_neg hov, if_neg hov]
        by_cases t1 : (file.drop (st.p + 4)).take 4 = [73, 72, 68, 82]
        · rw [if_pos t1, if_pos t1]
          by_cases h13 : rdBE32 file st.p < 13
          · rw [if_pos h13, if_pos h13]
          · rw [if_neg h13, if_neg h13]
            have hw : rdBE32 file2 (st.p + 4 + 4) = rdBE32 file (st.p + 4 + 4) :=
              rdBE32_congr file file2 _ (fun i h1 h2 => hag i (by omega) (by omega))
            have hh : rdBE32 file2 (st.p + 4 + 4 + 4) = rdBE32 file (st.p + 4 + 4 + 4) :=
              rdBE32_congr file file2 _ (fun i h1 h2 => hag i (by omega) (by omega))
            rw [hw, hh]
            exact ih (tf - 1) _ hnext
        · rw [if_neg t1, if_neg t1]
          by_cases t2 : (file.drop (st.p + 4)).take 4 = [73, 68, 65, 84]
          · rw [if_pos t2, if_pos t2]
            exact ih (tf - 1) _ hnext
          · rw [if_neg t2, if_neg t2]
            by_cases t3 : (file.drop (st.p + 4)).take 4 = [73, 69, 78, 68]
            · rw [if_pos t3, if_pos t3]
            · rw [if_neg t3, if_neg t3]
              exact ih (tf - 1) _ hnext
    · rw [if_neg h8, if_neg h8]

theorem getD_set4_ne (l : List Nat) (q b0 b1 b2 b3 i : Nat) (h : i < q ∨ q + 4 ≤ i) :
    ((((l.set q b0).set (q + 1) b1).set (q + 2) b2).set (q + 3) b3).getD i 0 = l.getD i 0 := by
  rw [getD_set_ne _ (q + 3) i b3 0 (by omega), getD_set_ne _ (q + 2) i b2 0 (by omega),
    getD_set_ne _ (q + 1) i b1 0 (by omega), getD_set_ne _ q i b0 0 (by omega)]

/-- C33: for every file and every chunk of it (a record of a 4-byte length
`len`, a 4-byte type, `len` bytes of data and 4 bytes of CRC that lies whole
in the file, the first chunk starting after the 8-byte signature and every
other one where the chunk before it ends), replacing the 4 CRC bytes of the
chunk by any bytes leaves the result of `readPNG_extractRGB` unchanged:
failure, or success with the same `W`, `H` and pixel buffer. The 4 bytes
replaced lie inside the file. -/
theorem crc_not_checked (file : List Nat) (n : Nat) (c : Nat × Nat) (b0 b1 b2 b3 : Nat)
    (hc : c ∈ pngChunks file n 8) :
    c.1 + 8 + c.2 + 4 ≤ file.length
      ∧ readPNG_extractRGB
          ((((file.set (c.1 + 8 + c.2) b0).set (c.1 + 8 + c.2 + 1) b1).set
            (c.1 + 8 + c.2 + 2) b2).set (c.1 + 8 + c.2 + 3) b3)
        = readPNG_extractRGB file := by
  have hin := pngChunks_inside file n 8 c hc
  have hge := pngChunks_ge file n 8 c hc
  refine ⟨hin, ?_⟩
  have hlen : ((((file.set (c.1 + 8 + c.2) b0).set (c.1 + 8 + c.2 + 1) b1).set
      (c.1 + 8 + c.2 + 2) b2).set (c.1 + 8 + c.2 + 3) b3).length = file.length := by
    simp only [List.length_set]
  have htake : ((((file.set (c.1 + 8 + c.2) b0).set (c.1 + 8 + c.2 + 1) b1).set
      (c.1 + 8 + c.2 + 2) b2).set (c.1 + 8 + c.2 + 3) b3).take 8 = file.take 8 := by
    rw [List.take_set_of_lt _ _ (by omega), List.take_set_of_lt _ _ (by omega),
      List.take_set_of_lt _ _ (by omega), List.take_set_of_lt _ _ (by omega)]
  have hloop := chunkLoop_crc file _ hlen file.length n
    { p := 8, W := 0, H := 0, idat_concat := [] }
    (fun i hne => by
      right
      refine ⟨c, hc, ?_⟩
      by_contra hout
      exact hne (getD_set4_ne file (c.1 + 8 + c.2) b0 b1 b2 b3 i (by omega)))
  unfold readPNG_extractRGB
  rw [hlen, htake, hloop]

set_option maxRecDepth 100000 in
theorem crc_not_checked_witness :
    ((33, 15) : Nat × Nat).1 + 8 + ((33, 15) : Nat × Nat).2 + 4
        ≤ (writePNG_raw 1 1 [10, 20, 30]).length
      ∧ readPNG_extractRGB
          (((((writePNG_raw 1 1 [10, 20, 30]).set
            (((33, 15) : Nat × Nat).1 + 8 + ((33, 15) : Nat × Nat).2) 1).set
            (((33, 15) : Nat × Nat).1 + 8 + ((33, 15) : Nat × Nat).2 + 1) 2).set
            (((33, 15) : Nat × Nat).1 + 8 + ((33, 15) : Nat × Nat).2 + 2) 3).set
            (((33, 15) : Nat × Nat).1 + 8 + ((33, 15) : Nat × Nat).2 + 3) 4)
        = readPNG_extractRGB (writePNG_raw 1 1 [10, 20, 30]) :=
  crc_not_checked (writePNG_raw 1 1 [10, 20, 30]) 2 (33, 15) 1 2 3 4 (by decide)

/-! ## Termination of the reader and the bounds of its reads -/

theorem chunkLoop_iter (file : List Nat) (fuel : Nat) (st : ChunkState) :
    chunkLoop file (fuel + 1) st = Sum.elim id (chunkLoop file fuel) (chunkStep file st).2 := by
  conv_lhs => unfold chunkLoop
  unfold chunkStep
  simp only []
  split_ifs <;> rfl

theorem blockLoop_iter (idat : List Nat) (fuel ip : Nat) (raw : List Nat) :
    blockLoop idat (fuel + 1) ip raw
      = Sum.elim id (fun s => blockLoop idat fuel s.1 s.2) (blockStep idat ip raw).2 := by
  conv_lhs => unfold blockLoop
  unfold blockStep
  simp only []
  split_ifs <;> rfl

theorem chunkStep_progress (file : List Nat) (st st2 : ChunkState)
    (h : (chunkStep file st).2 = Sum.inr st2) : st.p + 12 ≤ st2.p ∧ st2.p ≤ file.length := by
  unfold chunkStep at h
  simp only [] at h
  split_ifs at h <;> first
    | exact Sum.noConfusion h
    | (have e := Sum.inr.inj h
       rw [← e]
       simp only []
       omega)

theorem blockStep_progress (idat : List Nat) (ip : Nat) (raw : List Nat) (s : Nat × List Nat)
    (h : (blockStep idat ip raw).2 = Sum.inr s) : ip + 5 ≤ s.1 ∧ s.1 ≤ idat.length := by
  unfold blockStep at h
  simp only [] at h
  split_ifs at h
  have e := Sum.inr.inj h
  rw [← e]
  simp only []
  omega

theorem chunkStep_reads (file : List Nat) (st : ChunkState) (r : Nat × Nat)
    (h : r ∈ (chunkStep file st).1) : r.1 ≤ r.2 ∧ r.2 ≤ file.length := by
  unfold chunkStep at h
  simp only [] at h
  split_ifs at h <;>
    simp only [List.mem_cons, List.mem_singleton, List.not_mem_nil, or_false] at h <;>
    first
      | exact absurd h id
      | (rcases h with h | h | h | h <;> (rw [h]; simp only []; omega))
      | (rcases h with h | h | h <;> (rw [h]; simp only []; omega))
      | (rcases h with h | h <;> (rw [h]; simp only []; omega))
      | (rw [h]; simp only []; omega)

theorem blockStep_reads (idat : List Nat) (ip : Nat) (raw : List Nat) (r : Nat × Nat)
    (h : r ∈ (blockStep idat ip raw).1) : r.1 < r.2 + 1 ∧ r.2 ≤ idat.length := by
  unfold blockStep at h
  simp only [] at h
  split_ifs at h <;>
    simp only [List.mem_cons, List.mem_singleton, List.not_mem_nil, or_false] at h <;>
    first
      | exact absurd h id
      | (rcases h with h | h | h <;> (rw [h]; simp only []; omega))
      | (rcases h with h | h <;> (rw [h]; simp only []; omega))
      | (rw [h]; simp only []; omega)

/-- The chunk loop needs no more than one iteration for every 12 bytes left in
the file, and one more to leave. -/
theorem chunkLoop_fuel12 (file : List Nat) (fuel : Nat) :
    ∀ st : ChunkState, file.length < 12 * fuel + st.p + 8 →
      chunkLoop file (fuel + 1) st = chunkLoop file fuel st := by
  induction fuel with
  | zero =>
    intro st h
    unfold chunkLoop
    rw [if_neg (by omega)]
  | succ f ih =>
    intro st h
    rw [chunkLoop_iter file (f + 1) st, chunkLoop_iter file f st]
    cases hs : (chunkStep file st).2 with
    | inl r => rfl
    | inr st2 =>
      have := chunkStep_progress file st st2 hs
      exact ih st2 (by omega)

theorem chunkLoop_fuel12_ge (file : List Nat) (st : ChunkState) (k : Nat) :
    chunkLoop file ((file.length - st.p) / 12 + 1 + k) st
      = chunkLoop file ((file.length - st.p) / 12 + 1) st := by
  induction k with
  | zero => rfl
  | succ k ih => rw [← Nat.add_assoc, chunkLoop_fuel12 _ _ _ (by omega), ih]

/-- The stored-block loop needs no more than one iteration for every 5 bytes
left in the stream, and one more to leave. -/
theorem blockLoop_fuel5 (idat : List Nat) (fuel : Nat) :
    ∀ ip raw, idat.length < 5 * fuel + ip + 1 →
      blockLoop idat (fuel + 1) ip raw = blockLoop idat fuel ip raw := by
  induction fuel with
  | zero =>
    intro ip raw h
    unfold blockLoop
    rw [if_neg (by omega)]
  | succ f ih =>
    intro ip raw h
    rw [blockLoop_iter idat (f + 1) ip raw, blockLoop_iter idat f ip raw]
    cases hs : (blockStep idat ip raw).2 with
    | inl r => rfl
    | inr s =>
      have := blockStep_progress idat ip raw s hs
      exact ih s.1 s.2 (by omega)

theorem blockLoop_fuel5_ge (idat : List Nat) (ip : Nat) (raw : List Nat) (k : Nat) :
    blockLoop idat ((idat.length - ip) / 5 + 1 + k) ip raw
      = blockLoop idat ((idat.length - ip) / 5 + 1) ip raw := by
  induction k with
  | zero => rfl
  | succ k ih => rw [← Nat.add_assoc, blockLoop_fuel5 _ _ _ _ (by omega), ih]

/-- The state of the scanline loop after `y` rows: the read position is
`y * (3 W + 1)` and the pixel buffer has kept its length. -/
theorem scanlines_state (raw out0 : List Nat) (W : Int) :
    ∀ (y : Nat) (st : Nat × List Nat), scanlines raw W (y : Int) out0 = some st →
      st.1 = y * (3 * W.toNat + 1) ∧ st.2.length = out0.length := by
  intro y
  induction y with
  | zero =>
    intro st h
    unfold scanlines at h
    simp only [Nat.cast_zero, Int.toNat_zero, forLoopM] at h
    have e := Option.some.inj h
    rw [← e]
    exact ⟨by simp, rfl⟩
  | succ k ih =>
    intro st h
    unfold scanlines at h
    simp only [Int.toNat_ofNat] at h
    unfold forLoopM at h
    cases hk : forLoopM k
        (fun y (st : Nat × List Nat) =>
          if raw.getD st.1 0 ≠ 0 then none
          else
            some (forLoop W.toNat
              (fun x (st : Nat × List Nat) =>
                (st.1 + 3,
                  ((st.2.set (((y * toSizeT W + x) * 3) % 2 ^ 64 + 0) (raw.getD st.1 0)).set
                    (((y * toSizeT W + x) * 3) % 2 ^ 64 + 1) (raw.getD (st.1 + 1) 0)).set
                    (((y * toSizeT W + x) * 3) % 2 ^ 64 + 2) (raw.getD (st.1 + 2) 0)))
              (st.1 + 1, st.2)))
        (0, out0) with
    | none =>
      rw [hk] at h
      exact Option.noConfusion h
    | some t =>
      rw [hk] at h
      have hprev := ih t (by
        unfold scanlines
        simp only [Int.toNat_ofNat]
        exact hk)
      simp only [Option.some_bind] at h
      split at h
      · exact Option.noConfusion h
      · have e := Option.some.inj h
        have hinv := forLoop_invariant
          (fun i (s : Nat × List Nat) => s.1 = t.1 + 1 + 3 * i ∧ s.2.length = t.2.length)
          W.toNat
          (fun x (st : Nat × List Nat) =>
            (st.1 + 3,
              ((st.2.set (((k * toSizeT W + x) * 3) % 2 ^ 64 + 0) (raw.getD st.1 0)).set
                (((k * toSizeT W + x) * 3) % 2 ^ 64 + 1) (raw.getD (st.1 + 1) 0)).set
                (((k * toSizeT W + x) * 3) % 2 ^ 64 + 2) (raw.getD (st.1 + 2) 0)))
          (t.1 + 1, t.2) ⟨by simp, rfl⟩
          (fun i _ s hs => ⟨by simp only []; omega, by
            simp only [List.length_set]
            exact hs.2⟩)
        rw [e] at hinv
        obtain ⟨h1, h2⟩ := hinv
        refine ⟨?_, by rw [h2, hprev.2]⟩
        have hm : (k + 1) * (3 * W.toNat + 1) = k * (3 * W.toNat + 1) + (3 * W.toNat + 1) :=
          Nat.succ_mul _ _
        rw [h1, hprev.1, hm]
        omega

/-- The size that the reader expects of `raw` when `W` is negative and `H`
positive exceeds every row index: the product wraps around `2 ^ 64`. -/
theorem expected_wrapped (W : Int) (h y rl : Nat) (hW1 : -2 ^ 31 ≤ W) (hneg : W < 0)
    (hh : h < 2 ^ 31) (hy : y < h)
    (hexp : ¬ rl < (h * ((toSizeT W * 3 + 1) % 2 ^ 64)) % 2 ^ 64) : y < rl := by
  have hn : toSizeT W = (W + 2 ^ 64).toNat := by
    unfold toSizeT
    have : W % 2 ^ 64 = W + 2 ^ 64 := by omega
    rw [this]
  have hm1 : (toSizeT W * 3 + 1) % 2 ^ 64 = 2 ^ 64 - (-(3 * W + 1)).toNat := by
    omega
  have ha1 : 2 ≤ (-(3 * W + 1)).toNat := by omega
  have ha2 : (-(3 * W + 1)).toNat ≤ 3 * 2 ^ 31 := by omega
  rw [hm1] at hexp
  generalize (-(3 * W + 1)).toNat = a at ha1 ha2 hexp
  have hm : h * (2 ^ 64 - a) + h * a = h * 2 ^ 64 := by
    rw [← Nat.mul_add]
    congr 1
    omega
  have ht : h * a ≤ 2 ^ 31 * (3 * 2 ^ 31) := Nat.mul_le_mul (by omega) ha2
  have ht1 : h * 1 ≤ h * a := Nat.mul_le_mul_left h (by omega)
  have e : (2 : Nat) ^ 31 * (3 * 2 ^ 31) = 3 * 2 ^ 62 := by norm_num
  have hsplit : h * (2 ^ 64 - a) = (2 ^ 64 - h * a) + 2 ^ 64 * (h - 1) := by omega
  rw [hsplit, Nat.add_mul_mod_self_left, Nat.mod_eq_of_lt (by omega)] at hexp
  omega

/-- Every access of the scanline loop lies inside its buffer once the reader
has checked the size of `raw` and sized the pixel buffer. -/
theorem scanlines_in_range (raw out0 : List Nat) (W H : Int) (hW1 : -2 ^ 31 ≤ W)
    (hW2 : W < 2 ^ 31) (hH2 : H < 2 ^ 31)
    (hexp : ¬ raw.length < (toSizeT H * ((toSizeT W * 3 + 1) % 2 ^ 64)) % 2 ^ 64)
    (hout : out0.length = (toSizeT W * toSizeT H * 3) % 2 ^ 64) (y : Nat) (st : Nat × List Nat)
    (hy : y < H.toNat) (hst : scanlines raw W (y : Int) out0 = some st) :
    st.1 < raw.length
      ∧ ∀ a, a ∈ scanRowAccesses W y (st.1 + 1) → a.1 < raw.length ∧ a.2 < st.2.length := by
  obtain ⟨h1, h2⟩ := scanlines_state raw out0 W y st hst
  obtain ⟨h, rfl⟩ : ∃ h : Nat, H = (h : Int) := ⟨H.toNat, by omega⟩
  have hh : h < 2 ^ 31 := by omega
  have tH : toSizeT (h : Int) = h := toSizeT_natCast _ (by omega)
  rw [tH] at hexp hout
  rw [Int.toNat_ofNat] at hy
  by_cases hneg : W < 0
  · have hw0 : W.toNat = 0 := by omega
    rw [hw0] at h1
    refine ⟨?_, ?_⟩
    · rw [h1]
      exact expected_wrapped W h _ raw.length hW1 hneg hh (by omega) hexp
    · intro a ha
      unfold scanRowAccesses at ha
      rw [hw0] at ha
      exact absurd ha (List.not_mem_nil a)
  · obtain ⟨w, rfl⟩ : ∃ w : Nat, W = (w : Int) := ⟨W.toNat, by omega⟩
    have hw : w < 2 ^ 31 := by omega
    have tW : toSizeT (w : Int) = w := toSizeT_natCast _ (by omega)
    rw [tW] at hexp hout
    rw [Int.toNat_ofNat] at h1
    have b1 : h * (3 * w + 1) ≤ 2 ^ 31 * (3 * 2 ^ 31) := Nat.mul_le_mul (by omega) (by omega)
    have b2 : w * h ≤ 2 ^ 31 * 2 ^ 31 := Nat.mul_le_mul (by omega) (by omega)
    have e1 : (2 : Nat) ^ 31 * (3 * 2 ^ 31) = 3 * 2 ^ 62 := by norm_num
    have e2 : (2 : Nat) ^ 31 * 2 ^ 31 = 2 ^ 62 := by norm_num
    have e3 : (w * 3 + 1) % 2 ^ 64 = 3 * w + 1 := by omega
    have e4 : h * (3 * w + 1) % 2 ^ 64 = h * (3 * w + 1) := Nat.mod_eq_of_lt (by omega)
    have e5 : w * h * 3 % 2 ^ 64 = w * h * 3 := Nat.mod_eq_of_lt (by omega)
    rw [e3, e4] at hexp
    rw [e5] at hout
    have b3 : (y + 1) * (3 * w + 1) ≤ h * (3 * w + 1) := Nat.mul_le_mul_right _ (by omega)
    rw [Nat.succ_mul] at b3
    have b4 : (y + 1) * w ≤ h * w := Nat.mul_le_mul_right _ (by omega)
    rw [Nat.succ_mul, Nat.mul_comm h w] at b4
    refine ⟨by omega, ?_⟩
    intro a ha
    unfold scanRowAccesses at ha
    rw [Int.toNat_ofNat, tW] at ha
    obtain ⟨x, hx, hax⟩ := List.mem_flatMap.mp ha
    rw [List.mem_range] at hx
    have hpos : ((y * w + x) * 3) % 2 ^ 64 = (y * w + x) * 3 := Nat.mod_eq_of_lt (by omega)
    simp only [hpos, List.mem_cons, List.mem_singleton, List.not_mem_nil, or_false] at hax
    rw [h2, hout]
    rcases hax with hax | hax | hax <;> (rw [hax]; simp only []; omega)

/-- C39: on every sequence of bytes the loops of `readPNG_extractRGB` end. The
chunk loop is the iteration of `chunkStep`; an iteration that does not leave
the loop moves the read position forward by at least 12 bytes and keeps it
within the file, so `(file.length - 8) / 12 + 1` iterations are enough and any
larger bound gives the same result, the one the reader uses. The stored-block
loop is the iteration of `blockStep`; an iteration that does not leave moves
the stream position forward by at least 5 bytes and keeps it within the
concatenated data, so `(idat.length - 2) / 5 + 1` iterations are enough. Every
byte range that an iteration of either loop reads lies inside the buffer, and
once the size of `raw` has been checked every access of the scanline loop,
which runs `H` times `W` times, lies inside `raw` and the pixel buffer. -/
theorem decoder_termination :
    (∀ (file : List Nat) (fuel : Nat) (st : ChunkState),
        chunkLoop file (fuel + 1) st
          = Sum.elim id (chunkLoop file fuel) (chunkStep file st).2)
      ∧ (∀ (file : List Nat) (st st2 : ChunkState), (chunkStep file st).2 = Sum.inr st2 →
          st.p + 12 ≤ st2.p ∧ st2.p ≤ file.length)
      ∧ (∀ (file : List Nat) (st : ChunkState) (r : Nat × Nat), r ∈ (chunkStep file st).1 →
          r.1 ≤ r.2 ∧ r.2 ≤ file.length)
      ∧ (∀ (file : List Nat) (fuel : Nat), 8 ≤ file.length → (file.length - 8) / 12 + 1 ≤ fuel →
          chunkLoop file fuel { p := 8, W := 0, H := 0, idat_concat := [] }
            = chunkLoop file file.length { p := 8, W := 0, H := 0, idat_concat := [] })
      ∧ (∀ (idat : List Nat) (fuel ip : Nat) (raw : List Nat),
          blockLoop idat (fuel + 1) ip raw
            = Sum.elim id (fun s => blockLoop idat fuel s.1 s.2) (blockStep idat ip raw).2)
      ∧ (∀ (idat : List Nat) (ip : Nat) (raw : List Nat) (s : Nat × List Nat),
          (blockStep idat ip raw).2 = Sum.inr s → ip + 5 ≤ s.1 ∧ s.1 ≤ idat.length)
      ∧ (∀ (idat : List Nat) (ip : Nat) (raw : List Nat) (r : Nat × Nat),
          r ∈ (blockStep idat ip raw).1 → r.1 ≤ r.2 ∧ r.2 ≤ idat.length)
      ∧ (∀ (idat : List Nat) (fuel : Nat) (raw : List Nat), 2 ≤ idat.length →
          (idat.length - 2) / 5 + 1 ≤ fuel →
          blockLoop idat fuel 2 raw = blockLoop idat idat.length 2 raw)
      ∧ (∀ (raw out0 : List Nat) (W H : Int), -2 ^ 31 ≤ W → W < 2 ^ 31 → H < 2 ^ 31 →
          ¬ raw.length < (toSizeT H * ((toSizeT W * 3 + 1) % 2 ^ 64)) % 2 ^ 64 →
          out0.length = (toSizeT W * toSizeT H * 3) % 2 ^ 64 →
          ∀ (y : Nat) (st : Nat × List Nat), y < H.toNat →
            scanlines raw W (y : Int) out0 = some st →
            st.1 < raw.length
              ∧ ∀ a, a ∈ scanRowAccesses W y (st.1 + 1) →
                  a.1 < raw.length ∧ a.2 < st.2.length) := by
  refine ⟨chunkLoop_iter, chunkStep_progress, chunkStep_reads, ?_, blockLoop_iter,
    blockStep_progress, ?_, ?_, ?_⟩
  · intro file fuel h8 hf
    obtain ⟨k, rfl⟩ : ∃ k, fuel = (file.length - 8) / 12 + 1 + k :=
      ⟨fuel - ((file.length - 8) / 12 + 1), by omega⟩
    obtain ⟨k2, hk2⟩ : ∃ k2, file.length = (file.length - 8) / 12 + 1 + k2 :=
      ⟨file.length - ((file.length - 8) / 12 + 1), by omega⟩
    have a1 := chunkLoop_fuel12_ge file { p := 8, W := 0, H := 0, idat_concat := [] } k
    have a2 := chunkLoop_fuel12_ge file { p := 8, W := 0, H := 0, idat_concat := [] } k2
    simp only [] at a1 a2
    rw [a1]
    conv_rhs => rw [hk2]
    rw [a2]
  · intro idat ip raw r hr
    have := blockStep_reads idat ip raw r hr
    omega
  · intro idat fuel raw h2 hf
    obtain ⟨k, rfl⟩ : ∃ k, fuel = (idat.length - 2) / 5 + 1 + k :=
      ⟨fuel - ((idat.length - 2) / 5 + 1), by omega⟩
    obtain ⟨k2, hk2⟩ : ∃ k2, idat.length = (idat.length - 2) / 5 + 1 + k2 :=
      ⟨idat.length - ((idat.length - 2) / 5 + 1), by omega⟩
    rw [blockLoop_fuel5_ge idat 2 raw k]
    conv_rhs => rw [hk2]
    rw [blockLoop_fuel5_ge idat 2 raw k2]
  · intro raw out0 W H hW1 hW2 hH2 hexp hout y st hy hst
    exact scanlines_in_range raw out0 W H hW1 hW2 hH2 hexp hout y st hy hst

/-! ## The checksums are not verified on decode -/

theorem set_getD_self (l : List Nat) (i : Nat) : l.set i (l.getD i 0) = l := by
  apply ext_getD
  · rw [List.length_set]
  · intro j hj
    rw [List.length_set] at hj
    by_cases h : i = j
    · subst h
      rw [getD_set_same _ _ _ _ hj]
    · rw [getD_set_ne _ _ _ _ _ h]

theorem mul_add_inj (m a b c d : Nat) (hb : b < m) (hd : d < m) (h : a * m + b = c * m + d) :
    a = c ∧ b = d := by
  have h1 := mul_add_div_mod m a b hb
  have h2 := mul_add_div_mod m c d hd
  rw [h] at h1
  exact ⟨h1.1.symm.trans h2.1, h1.2.symm.trans h2.2⟩

/-- Changing byte `c` of row `y` of the pixel buffer changes byte
`y * (3 w + 1) + 1 + c` of the raw scanline data and nothing else. -/
theorem pngRaw_set (w h : Nat) (rgb : List Nat) (y c v : Nat) (hrgb : rgb.length = w * h * 3)
    (hy : y < h) (hc : c < w * 3) :
    pngRaw w h (rgb.set (y * w * 3 + c) v)
      = (pngRaw w h rgb).set (y * (w * 3 + 1) + 1 + c) v := by
  have hrgb2 : (rgb.set (y * w * 3 + c) v).length = w * h * 3 := by
    rw [List.length_set, hrgb]
  have hl1 := pngRaw_length w h _ hrgb2
  have hl2 := pngRaw_length w h rgb hrgb
  have hb1 : (y + 1) * (w * 3 + 1) ≤ h * (w * 3 + 1) := Nat.mul_le_mul_right _ (by omega)
  rw [Nat.succ_mul] at hb1
  have hb2 : (y + 1) * (w * 3) ≤ h * (w * 3) := Nat.mul_le_mul_right _ (by omega)
  rw [Nat.succ_mul] at hb2
  have hb3 : h * (w * 3) = w * h * 3 := by ring
  have hb4 : y * w * 3 = y * (w * 3) := Nat.mul_assoc _ _ _
  apply ext_getD
  · rw [hl1, List.length_set, hl2]
  · intro j hj
    rw [hl1] at hj
    have hj1 : j / (w * 3 + 1) < h := Nat.div_lt_of_lt_mul (by rw [Nat.mul_comm]; exact hj)
    have hj2 : j % (w * 3 + 1) < w * 3 + 1 := Nat.mod_lt j (by omega)
    have hj3 : j = j / (w * 3 + 1) * (w * 3 + 1) + j % (w * 3 + 1) := by
      rw [Nat.mul_comm]
      exact (Nat.div_add_mod j _).symm
    generalize j / (w * 3 + 1) = y2 at hj1 hj3
    generalize j % (w * 3 + 1) = i at hj2 hj3
    subst hj3
    by_cases hi : i = 0
    · subst hi
      have hne : y * (w * 3 + 1) + 1 + c ≠ y2 * (w * 3 + 1) + 0 := by
        intro he
        have := mul_add_inj (w * 3 + 1) y (1 + c) y2 0 (by omega) (by omega) (by omega)
        omega
      rw [getD_set_ne _ _ _ _ _ hne, Nat.add_zero, pngRaw_filter w h _ hrgb2 y2 hj1,
        pngRaw_filter w h rgb hrgb y2 hj1]
    · obtain ⟨i2, rfl⟩ : ∃ i2, i = 1 + i2 := ⟨i - 1, by omega⟩
      rw [← Nat.add_assoc, pngRaw_pixel w h _ hrgb2 y2 i2 hj1 (by omega)]
      by_cases he : y2 = y ∧ i2 = c
      · obtain ⟨rfl, rfl⟩ := he
        rw [getD_set_same rgb _ _ _ (by rw [hrgb]; omega),
          getD_set_same (pngRaw w h rgb) _ _ _ (by rw [hl2]; omega)]
      · have hne1 : y * w * 3 + c ≠ y2 * w * 3 + i2 := by
          intro heq
          have hb5 : y2 * w * 3 = y2 * (w * 3) := Nat.mul_assoc _ _ _
          have := mul_add_inj (w * 3) y c y2 i2 hc (by omega) (by omega)
          exact he ⟨this.1.symm, this.2.symm⟩
        have hne2 : y * (w * 3 + 1) + 1 + c ≠ y2 * (w * 3 + 1) + 1 + i2 := by
          intro heq
          have := mul_add_inj (w * 3 + 1) y (1 + c) y2 (1 + i2) (by omega) (by omega) (by omega)
          exact he ⟨this.1.symm, by omega⟩
        rw [getD_set_ne _ _ _ _ _ hne1, getD_set_ne _ _ _ _ _ hne2,
          pngRaw_pixel w h rgb hrgb y2 i2 hj1 (by omega)]

theorem storedBlock_congr (raw raw2 : List Nat) (remaining rp : Nat)
    (hlen : raw2.length = raw.length)
    (h : ∀ i, rp ≤ i → i < rp + (if remaining < 65535 then remaining else 65535) →
      raw2.getD i 0 = raw.getD i 0) :
    storedBlock raw2 remaining rp = storedBlock raw remaining rp := by
  unfold storedBlock
  simp only []
  rw [drop_take_congr raw raw2 rp _ hlen h]

theorem storedBlocks_congr (raw raw2 : List Nat) (hlen : raw2.length = raw.length) (fuel : Nat) :
    ∀ remaining rp, (∀ i, rp ≤ i → i < rp + remaining → raw2.getD i 0 = raw.getD i 0) →
      storedBlocks raw2 fuel remaining rp [] = storedBlocks raw fuel remaining rp [] := by
  induction fuel with
  | zero =>
    intro _ _ _
    rfl
  | succ k ih =>
    intro remaining rp h
    by_cases h0 : 0 < remaining
    · have hc : (if remaining < 65535 then remaining else 65535) ≤ remaining := by
        split <;> omega
      rw [storedBlocks_unfold _ _ _ _ h0, storedBlocks_unfold _ _ _ _ h0,
        storedBlock_congr raw raw2 remaining rp hlen (fun i h1 h2 => h i h1 (by omega)),
        ih _ _ (fun i h1 h2 => h i (by omega) (by omega))]
    · have : remaining = 0 := by omega
      subst this
      simp [storedBlocks]

theorem set_after5 (a b c d e : Nat) (X : List Nat) (i v : Nat) :
    ([a, b, c, d, e] ++ X).set (5 + i) v = [a, b, c, d, e] ++ X.set i v := by
  rw [List.set_append_right _ _ (by simp)]
  congr 2
  simp

/-- Changing one byte of the raw data changes one byte of the stored blocks:
the data byte, five bytes further for every block that starts up to it. -/
theorem storedBlocks_set (raw : List Nat) (r v : Nat) (fuel : Nat) :
    ∀ remaining rp, remaining ≤ fuel → rp + remaining ≤ raw.length → rp ≤ r →
      r < rp + remaining →
      storedBlocks (raw.set r v) fuel remaining rp []
        = (storedBlocks raw fuel remaining rp []).set
            (5 * ((r - rp) / 65535 + 1) + (r - rp)) v := by
  induction fuel with
  | zero =>
    intro remaining rp h1 h2 h3 h4
    omega
  | succ k ih =>
    intro remaining rp h1 h2 h3 h4
    have h0 : 0 < remaining := by omega
    rw [storedBlocks_unfold _ _ _ _ h0, storedBlocks_unfold _ _ _ _ h0]
    have hbl := storedBlock_length raw remaining rp h2
    have hlen : (raw.set r v).length = raw.length := List.length_set _ _ _
    by_cases hin : r - rp < (if remaining < 65535 then remaining else 65535)
    · have hd : (r - rp) / 65535 = 0 := Nat.div_eq_of_lt (by split at hin <;> omega)
      have e1 : storedBlock (raw.set r v) remaining rp
          = (storedBlock raw remaining rp).set (5 + (r - rp)) v := by
        unfold storedBlock
        simp only []
        rw [set_after5, List.drop_set, if_neg (show ¬ r < rp by omega), List.set_take]
      have e2 : storedBlocks (raw.set r v) k
            (remaining - (if remaining < 65535 then remaining else 65535))
            (rp + (if remaining < 65535 then remaining else 65535)) []
          = storedBlocks raw k (remaining - (if remaining < 65535 then remaining else 65535))
            (rp + (if remaining < 65535 then remaining else 65535)) [] :=
        storedBlocks_congr raw _ hlen k _ _
          (fun i hi1 _ => getD_set_ne raw r i v 0 (by omega))
      rw [e1, e2, hd, List.set_append_left _ _ (by rw [hbl]; omega)]
    · have hc : (if remaining < 65535 then remaining else 65535) = 65535 := by
        by_cases hr : remaining < 65535
        · rw [if_pos hr] at hin
          omega
        · rw [if_neg hr]
      rw [hc] at hin hbl ⊢
      have e1 : storedBlock (raw.set r v) remaining rp = storedBlock raw remaining rp :=
        storedBlock_congr raw _ remaining rp hlen
          (fun i _ hi2 => getD_set_ne raw r i v 0 (by rw [hc] at hi2; omega))
      have hidx : 5 * ((r - rp) / 65535 + 1) + (r - rp) - (5 + 65535)
          = 5 * ((r - (rp + 65535)) / 65535 + 1) + (r - (rp + 65535)) := by omega
      rw [e1, ih (remaining - 65535) (rp + 65535) (by omega) (by omega) (by omega) (by omega),
        List.set_append_right _ _ (by rw [hbl]; omega), hbl, hidx]

/-- The reader on a file of the writer's layout whose four trailing checksum
bytes `A` and whose IDAT CRC bytes `crc` are arbitrary: it returns the image,
so it looks at neither. -/
theorem readPNG_stream (w h : Nat) (rgb A crc : List Nat) (hw1 : 1 ≤ w) (hh1 : 1 ≤ h)
    (hrgb : rgb.length = w * h * 3)
    (hidat : 6 + h * (w * 3 + 1) + 5 * ((h * (w * 3 + 1) + 65534) / 65535) < 2 ^ 32)
    (hA : A.length = 4) (hcrc : crc.length = 4) :
    readPNG_extractRGB
        ([137, 80, 78, 71, 13, 10, 26, 10]
          ++ pngChunk [73, 72, 68, 82] (write_be32 (write_be32 [] w) h ++ [8, 2, 0, 0, 0])
          ++ (write_be32 []
                ([0x78, 0x01]
                  ++ storedBlocks (pngRaw w h rgb) (pngRaw w h rgb).length
                      (pngRaw w h rgb).length 0 []
                  ++ A).length
              ++ [73, 68, 65, 84]
              ++ ([0x78, 0x01]
                  ++ storedBlocks (pngRaw w h rgb) (pngRaw w h rgb).length
                      (pngRaw w h rgb).length 0 []
                  ++ A)
              ++ crc)
          ++ pngChunk [73, 69, 78, 68] [])
      = some ((w : Int), (h : Int), rgb) := by
  have hraw := pngRaw_length w h rgb hrgb
  have hsb := storedBlocks_length (pngRaw w h rgb) (pngRaw w h rgb).length
    (pngRaw w h rgb).length 0 (Nat.le_refl _) (by omega)
  have hn : h * (w * 3 + 1) < 2 ^ 32 := by omega
  have hwb : w * 3 + 1 < 2 ^ 32 := by
    have : 1 * (w * 3 + 1) ≤ h * (w * 3 + 1) := Nat.mul_le_mul_right _ hh1
    omega
  have hhb : h < 2 ^ 30 := by
    have : h * 4 ≤ h * (w * 3 + 1) := Nat.mul_le_mul_left h (by omega)
    omega
  have hpos : 0 < (pngRaw w h rgb).length := by
    rw [hraw]
    exact Nat.mul_pos (by omega) (by omega)
  have hblock := blockLoop_storedBlocks (pngRaw w h rgb) (pngRaw w h rgb).length
    (pngRaw w h rgb).length 0
    ([0x78, 0x01]
      ++ storedBlocks (pngRaw w h rgb) (pngRaw w h rgb).length (pngRaw w h rgb).length 0 []
      ++ A).length
    [0x78, 0x01] A [] hpos (Nat.le_refl _)
    (by
      simp only [List.length_append, List.length_cons, List.length_nil]
      omega)
    (by omega)
  generalize hI : [0x78, 0x01]
      ++ storedBlocks (pngRaw w h rgb) (pngRaw w h rgb).length (pngRaw w h rgb).length 0 []
      ++ A = I at hblock ⊢
  have hIl : I.length = 6 + h * (w * 3 + 1) + 5 * ((h * (w * 3 + 1) + 65534) / 65535) := by
    rw [← hI]
    simp only [List.length_append, List.length_cons, List.length_nil]
    rw [hsb, hraw, hA]
    omega
  rw [readPNG_png w h I crc _ hw1 (by omega) hh1 (by omega) hcrc (by omega) (by omega)
    (Or.inr rfl)]
  have h2 : ([0x78, 0x01] : List Nat).length = 2 := rfl
  rw [h2] at hblock
  rw [hblock]
  simp only [List.nil_append, List.drop_zero, List.take_length, Option.some_bind]
  rw [if_neg (by omega),
    scanlines_written w h rgb _ hrgb hh1 hn (by rw [List.length_replicate])]
  rfl

theorem seg_set (P I T : List Nat) (q v : Nat) (hq : q < I.length) :
    (P ++ (I ++ T)).set (P.length + q) v = P ++ (I.set q v ++ T) := by
  rw [List.set_append_right _ _ (by omega), Nat.add_sub_cancel_left,
    List.set_append_left _ _ hq]

theorem set4_at (X Y : List Nat) (a0 a1 a2 a3 b0 b1 b2 b3 : Nat) :
    ((((X ++ ([a0, a1, a2, a3] ++ Y)).set X.length b0).set (X.length + 1) b1).set
        (X.length + 2) b2).set (X.length + 3) b3
      = X ++ ([b0, b1, b2, b3] ++ Y) := by
  have e0 := seg_set X [a0, a1, a2, a3] Y 0 b0 (by simp)
  have e1 := seg_set X [b0, a1, a2, a3] Y 1 b1 (by simp)
  have e2 := seg_set X [b0, b1, a2, a3] Y 2 b2 (by simp)
  have e3 := seg_set X [b0, b1, b2, a3] Y 3 b3 (by simp)
  rw [Nat.add_zero] at e0
  rw [e0]
  simp only [List.set_cons_zero]
  rw [e1]
  simp only [List.set_cons_succ, List.set_cons_zero]
  rw [e2]
  simp only [List.set_cons_succ, List.set_cons_zero]
  rw [e3]
  simp only [List.set_cons_succ, List.set_cons_zero]

/-- The written file with other IDAT data of the same length. -/
theorem written_with_idat (w h : Nat) (rgb I crc : List Nat)
    (hI : I.length = (pngIdat w h rgb).length) :
    ([137, 80, 78, 71, 13, 10, 26, 10]
        ++ pngChunk [73, 72, 68, 82] (write_be32 (write_be32 [] w) h ++ [8, 2, 0, 0, 0])
        ++ (write_be32 [] (pngIdat w h rgb).length ++ [73, 68, 65, 84]))
      ++ (I ++ (crc ++ pngChunk [73, 69, 78, 68] []))
    = [137, 80, 78, 71, 13, 10, 26, 10]
        ++ pngChunk [73, 72, 68, 82] (write_be32 (write_be32 [] w) h ++ [8, 2, 0, 0, 0])
        ++ (write_be32 [] I.length ++ [73, 68, 65, 84] ++ I ++ crc)
        ++ pngChunk [73, 69, 78, 68] [] := by
  rw [hI]
  simp only [List.append_assoc]

/-- The byte of the written file that holds byte `c` of row `y` of the pixel
buffer: it lies in a stored block, after the 43 bytes up to the zlib header
and 5 header bytes for every block started. -/
theorem written_pixel_byte (w h : Nat) (rgb : List Nat) (y c : Nat)
    (hrgb : rgb.length = w * h * 3) (hy : y < h) (hc : c < w * 3) :
    (writePNG_raw w h rgb).getD
        (43 + 5 * ((y * (w * 3 + 1) + 1 + c) / 65535 + 1) + (y * (w * 3 + 1) + 1 + c)) 0
      = rgb.getD (y * w * 3 + c) 0 := by
  have hb1 : (y + 1) * (w * 3 + 1) ≤ h * (w * 3 + 1) := Nat.mul_le_mul_right _ (by omega)
  rw [Nat.succ_mul] at hb1
  generalize hr : y * (w * 3 + 1) + 1 + c = r at hb1
  have hrn : r < h * (w * 3 + 1) := by omega
  have hj : r / 65535 < (h * (w * 3 + 1) + 65534) / 65535 := by omega
  have hg := writePNG_raw_block w h rgb hrgb (r / 65535) (5 + r % 65535) hj (by omega)
  have hd := storedBlock_data (pngRaw w h rgb) (h * (w * 3 + 1) - 65535 * (r / 65535))
    (65535 * (r / 65535)) (r % 65535) (by omega)
  have e1 : 43 + 5 * (r / 65535 + 1) + r = 43 + 65540 * (r / 65535) + (5 + r % 65535) := by
    omega
  have e2 : 65535 * (r / 65535) + r % 65535 = r := by omega
  rw [e1, hg, hd, e2, ← hr, pngRaw_pixel w h rgb hrgb y c hy hc]

/-- The written file with byte `c` of row `y` changed in place, checksums left
as they were, is read back as the image with that byte changed. -/
theorem readPNG_pixel_changed (w h : Nat) (rgb : List Nat) (y c v : Nat) (hw1 : 1 ≤ w)
    (hh1 : 1 ≤ h) (hrgb : rgb.length = w * h * 3)
    (hidat : 6 + h * (w * 3 + 1) + 5 * ((h * (w * 3 + 1) + 65534) / 65535) < 2 ^ 32)
    (hy : y < h) (hc : c < w * 3) :
    readPNG_extractRGB
        ((writePNG_raw w h rgb).set
          (43 + 5 * ((y * (w * 3 + 1) + 1 + c) / 65535 + 1) + (y * (w * 3 + 1) + 1 + c)) v)
      = some ((w : Int), (h : Int), rgb.set (y * w * 3 + c) v) := by
  obtain ⟨hsplit, h41⟩ := writePNG_raw_split w h rgb
  have hil := pngIdat_length w h rgb hrgb
  have hid := pngIdat_eq w h rgb
  have hraw := pngRaw_length w h rgb hrgb
  have hrgb2 : (rgb.set (y * w * 3 + c) v).length = w * h * 3 := by
    rw [List.length_set, hrgb]
  have hraw2 := pngRaw_length w h _ hrgb2
  have hset := pngRaw_set w h rgb y c v hrgb hy hc
  have hb1 : (y + 1) * (w * 3 + 1) ≤ h * (w * 3 + 1) := Nat.mul_le_mul_right _ (by omega)
  rw [Nat.succ_mul] at hb1
  generalize hr : y * (w * 3 + 1) + 1 + c = r at hb1 hset ⊢
  have hrn : r < h * (w * 3 + 1) := by omega
  have hsbl := storedBlocks_length (pngRaw w h rgb) (pngRaw w h rgb).length
    (pngRaw w h rgb).length 0 (Nat.le_refl _) (by omega)
  have hsb := storedBlocks_set (pngRaw w h rgb) r v (pngRaw w h rgb).length
    (pngRaw w h rgb).length 0 (Nat.le_refl _) (by omega) (Nat.zero_le _) (by rw [hraw]; omega)
  rw [Nat.sub_zero] at hsb
  have hread := readPNG_stream w h (rgb.set (y * w * 3 + c) v)
    [(adler32 (pngRaw w h rgb) >>> 24) &&& 0xFF, (adler32 (pngRaw w h rgb) >>> 16) &&& 0xFF,
      (adler32 (pngRaw w h rgb) >>> 8) &&& 0xFF, adler32 (pngRaw w h rgb) &&& 0xFF]
    (write_be32 [] (crc32_for_bytes ([73, 68, 65, 84] ++ pngIdat w h rgb)))
    hw1 hh1 hrgb2 hidat rfl (by rw [write_be32_length]; rfl)
  rw [hset, List.length_set, hsb] at hread
  generalize hA : [(adler32 (pngRaw w h rgb) >>> 24) &&& 0xFF,
      (adler32 (pngRaw w h rgb) >>> 16) &&& 0xFF, (adler32 (pngRaw w h rgb) >>> 8) &&& 0xFF,
      adler32 (pngRaw w h rgb) &&& 0xFF] = A at hid hread
  generalize hSB : storedBlocks (pngRaw w h rgb) (pngRaw w h rgb).length
      (pngRaw w h rgb).length 0 [] = SB at hid hread hsbl
  have hAl : A.length = 4 := by rw [← hA]; rfl
  have hI : (pngIdat w h rgb).set (2 + (5 * (r / 65535 + 1) + r)) v
      = [0x78, 0x01] ++ SB.set (5 * (r / 65535 + 1) + r) v ++ A := by
    rw [hid, List.set_append_left _ _ (by
        simp only [List.length_append, List.length_cons, List.length_nil]
        rw [hsbl, hraw]
        omega),
      List.set_append_right _ _ (by simp)]
    have e2 : 2 + (5 * (r / 65535 + 1) + r) - ([0x78, 0x01] : List Nat).length
        = 5 * (r / 65535 + 1) + r := by
      simp only [List.length_cons, List.length_nil]
      omega
    rw [e2]
  have hq : 2 + (5 * (r / 65535 + 1) + r) < (pngIdat w h rgb).length := by
    rw [hil]
    omega
  have hw := written_with_idat w h rgb ([0x78, 0x01] ++ SB.set (5 * (r / 65535 + 1) + r) v ++ A)
    (write_be32 [] (crc32_for_bytes ([73, 68, 65, 84] ++ pngIdat w h rgb)))
    (by rw [← hI, List.length_set])
  rw [← hw] at hread
  rw [← hread]
  congr 1
  generalize hP : [137, 80, 78, 71, 13, 10, 26, 10]
      ++ pngChunk [73, 72, 68, 82] (write_be32 (write_be32 [] w) h ++ [8, 2, 0, 0, 0])
      ++ (write_be32 [] (pngIdat w h rgb).length ++ [73, 68, 65, 84]) = P at hsplit h41 ⊢
  have e : 43 + 5 * (r / 65535 + 1) + r = P.length + (2 + (5 * (r / 65535 + 1) + r)) := by
    rw [h41]
    omega
  rw [hsplit, e, seg_set P _ _ _ _ hq, hI]

/-- The written file with its four trailing checksum bytes replaced is read
back as the image. -/
theorem readPNG_adler_changed (w h : Nat) (rgb : List Nat) (b0 b1 b2 b3 : Nat) (hw1 : 1 ≤ w)
    (hh1 : 1 ≤ h) (hrgb : rgb.length = w * h * 3)
    (hidat : 6 + h * (w * 3 + 1) + 5 * ((h * (w * 3 + 1) + 65534) / 65535) < 2 ^ 32) :
    ((writePNG_raw w h rgb).drop ((writePNG_raw w h rgb).length - 20)).take 4
        = [(adler32 (pngRaw w h rgb) >>> 24) &&& 0xFF, (adler32 (pngRaw w h rgb) >>> 16) &&& 0xFF,
            (adler32 (pngRaw w h rgb) >>> 8) &&& 0xFF, adler32 (pngRaw w h rgb) &&& 0xFF]
      ∧ readPNG_extractRGB
          (((((writePNG_raw w h rgb).set ((writePNG_raw w h rgb).length - 20) b0).set
            ((writePNG_raw w h rgb).length - 20 + 1) b1).set
            ((writePNG_raw w h rgb).length - 20 + 2) b2).set
            ((writePNG_raw w h rgb).length - 20 + 3) b3)
        = some ((w : Int), (h : Int), rgb) := by
  obtain ⟨hsplit, h41⟩ := writePNG_raw_split w h rgb
  have hil := pngIdat_length w h rgb hrgb
  have hid := pngIdat_eq w h rgb
  have hfl := writePNG_raw_length w h rgb
  have hread := readPNG_stream w h rgb [b0, b1, b2, b3]
    (write_be32 [] (crc32_for_bytes ([73, 68, 65, 84] ++ pngIdat w h rgb)))
    hw1 hh1 hrgb hidat rfl (by rw [write_be32_length]; rfl)
  generalize hSB : storedBlocks (pngRaw w h rgb) (pngRaw w h rgb).length
      (pngRaw w h rgb).length 0 [] = SB at hid hread
  have hIl : ([0x78, 0x01] ++ SB ++ [b0, b1, b2, b3]).length = (pngIdat w h rgb).length := by
    rw [hid]
    simp only [List.length_append, List.length_cons, List.length_nil]
  have hw := written_with_idat w h rgb ([0x78, 0x01] ++ SB ++ [b0, b1, b2, b3])
    (write_be32 [] (crc32_for_bytes ([73, 68, 65, 84] ++ pngIdat w h rgb))) hIl
  rw [← hw] at hread
  generalize hC : write_be32 [] (crc32_for_bytes ([73, 68, 65, 84] ++ pngIdat w h rgb)) = C
    at hsplit hread
  generalize hP : [137, 80, 78, 71, 13, 10, 26, 10]
      ++ pngChunk [73, 72, 68, 82] (write_be32 (write_be32 [] w) h ++ [8, 2, 0, 0, 0])
      ++ (write_be32 [] (pngIdat w h rgb).length ++ [73, 68, 65, 84]) = P at hsplit h41 hread
  have hfile : writePNG_raw w h rgb
      = (P ++ ([0x78, 0x01] ++ SB))
        ++ ([(adler32 (pngRaw w h rgb) >>> 24) &&& 0xFF,
              (adler32 (pngRaw w h rgb) >>> 16) &&& 0xFF,
              (adler32 (pngRaw w h rgb) >>> 8) &&& 0xFF, adler32 (pngRaw w h rgb) &&& 0xFF]
          ++ (C ++ pngChunk [73, 69, 78, 68] [])) := by
    rw [hsplit, hid]
    simp only [List.append_assoc]
  have hX : (writePNG_raw w h rgb).length - 20 = (P ++ ([0x78, 0x01] ++ SB)).length := by
    rw [hfl, hid]
    simp only [List.length_append, List.length_cons, List.length_nil, h41]
    omega
  rw [hX]
  constructor
  · rw [hfile, List.drop_left]
    rfl
  · rw [hfile, set4_at, ← hread]
    simp only [List.append_assoc]

/-- C36 (as stated, refuted): take the image of width 573315 and height 2497
whose pixel bytes are 0 except for a stretch of 30 bytes of the first row,
which spells an IHDR chunk for a 1 × 1 image and an IEND chunk. Its IDAT data
are `2 ^ 32 + 65542` bytes long, so the chunk length written by `writePNG_raw`
is 65542. Byte 70000 of the first row is 0 and lies at offset 70054 of the
file, in the second stored block. With that byte changed to 1 and no checksum
updated, `readPNG_extractRGB` does not return the image with the byte changed:
it returns a 1 × 1 image read from the chunks that the pixel bytes spell. -/
theorem checksums_counterexample :
    (List.replicate 65534 0
        ++ ([0, 0, 13, 73, 72, 68, 82, 0, 0, 0, 1, 0, 0, 0, 1, 8,
              2, 0, 0, 0, 1, 2, 3, 4, 0, 0, 0, 0, 73, 69, 78, 68]
          ++ List.replicate (573315 * 2497 * 3 - 65566) 0)).length = 573315 * 2497 * 3
      ∧ (writePNG_raw 573315 2497
          (List.replicate 65534 0
            ++ ([0, 0, 13, 73, 72, 68, 82, 0, 0, 0, 1, 0, 0, 0, 1, 8,
                  2, 0, 0, 0, 1, 2, 3, 4, 0, 0, 0, 0, 73, 69, 78, 68]
              ++ List.replicate (573315 * 2497 * 3 - 65566) 0))).getD 70054 0
        = (List.replicate 65534 0
            ++ ([0, 0, 13, 73, 72, 68, 82, 0, 0, 0, 1, 0, 0, 0, 1, 8,
                  2, 0, 0, 0, 1, 2, 3, 4, 0, 0, 0, 0, 73, 69, 78, 68]
              ++ List.replicate (573315 * 2497 * 3 - 65566) 0)).getD 70000 0
      ∧ (List.replicate 65534 0
            ++ ([0, 0, 13, 73, 72, 68, 82, 0, 0, 0, 1, 0, 0, 0, 1, 8,
                  2, 0, 0, 0, 1, 2, 3, 4, 0, 0, 0, 0, 73, 69, 78, 68]
              ++ List.replicate (573315 * 2497 * 3 - 65566) 0)).getD 70000 0 = 0
      ∧ readPNG_extractRGB
          ((writePNG_raw 573315 2497
              (List.replicate 65534 0
                ++ ([0, 0, 13, 73, 72, 68, 82, 0, 0, 0, 1, 0, 0, 0, 1, 8,
                      2, 0, 0, 0, 1, 2, 3, 4, 0, 0, 0, 0, 73, 69, 78, 68]
                  ++ List.replicate (573315 * 2497 * 3 - 65566) 0))).set 70054 1)
        ≠ some (((573315 : Nat) : Int), ((2497 : Nat) : Int),
            (List.replicate 65534 0
              ++ ([0, 0, 13, 73, 72, 68, 82, 0, 0, 0, 1, 0, 0, 0, 1, 8,
                    2, 0, 0, 0, 1, 2, 3, 4, 0, 0, 0, 0, 73, 69, 78, 68]
                ++ List.replicate (573315 * 2497 * 3 - 65566) 0)).set 70000 1) := by
  have h0 : (List.replicate 65534 0
      ++ ([0, 0, 13, 73, 72, 68, 82, 0, 0, 0, 1, 0, 0, 0, 1, 8,
            2, 0, 0, 0, 1, 2, 3, 4, 0, 0, 0, 0, 73, 69, 78, 68]
        ++ List.replicate (573315 * 2497 * 3 - 65566) 0)).getD 70000 0 = 0 := by
    rw [List.getD_append_right _ _ _ _ (by rw [List.length_replicate]; omega),
      List.length_replicate,
      List.getD_append_right _ _ _ _ (by simp only [List.length_cons, List.length_nil]; omega)]
    exact getD_replicate_lt _ _ _ (by
      simp only [List.length_cons, List.length_nil]
      norm_num)
  generalize hrgbdef : List.replicate 65534 0
      ++ ([0, 0, 13, 73, 72, 68, 82, 0, 0, 0, 1, 0, 0, 0, 1, 8,
            2, 0, 0, 0, 1, 2, 3, 4, 0, 0, 0, 0, 73, 69, 78, 68]
        ++ List.replicate (573315 * 2497 * 3 - 65566) 0) = rgb at h0 ⊢
  have hrgb : rgb.length = 573315 * 2497 * 3 := by
    rw [← hrgbdef, List.length_append, List.length_append, List.length_replicate,
      List.length_replicate]
    norm_num
  have hc : ∀ i, i < 32 → rgb.getD (65534 + i) 0
      = [0, 0, 13, 73, 72, 68, 82, 0, 0, 0, 1, 0, 0, 0, 1, 8,
          2, 0, 0, 0, 1, 2, 3, 4, 0, 0, 0, 0, 73, 69, 78, 68].getD i 0 := by
    intro i hi
    rw [← hrgbdef, List.getD_append_right _ _ _ _ (by rw [List.length_replicate]; omega),
      List.length_replicate]
    have e : 65534 + i - 65534 = i := by omega
    rw [e, List.getD_append _ _ _ _ (by simpa using hi)]
  have hlen : (pngIdat 573315 2497 rgb).length = 2 ^ 32 + 65542 := by
    rw [pngIdat_length _ _ _ hrgb]
    norm_num
  have hpix := written_pixel_byte 573315 2497 rgb 0 70000 hrgb (by norm_num) (by norm_num)
  have e1 : 43 + 5 * ((0 * (573315 * 3 + 1) + 1 + 70000) / 65535 + 1)
      + (0 * (573315 * 3 + 1) + 1 + 70000) = 70054 := by norm_num
  have e2 : 0 * 573315 * 3 + 70000 = 70000 := by norm_num
  rw [e1, e2] at hpix
  refine ⟨hrgb, hpix, h0, ?_⟩
  obtain ⟨out, ho⟩ := readPNG_crafted 573315 2497 rgb 70054 1
    (((writePNG_raw 573315 2497 rgb).set 70054 1).getD (70054 + 1) 0) hrgb (by norm_num)
    (by norm_num) hlen hc (by norm_num)
  rw [set_getD_self] at ho
  rw [ho]
  intro heq
  have h1 := (Prod.mk.inj (Option.some.inj heq)).1
  omega

/-- C36 (amended): let `W ≥ 1`, `H ≥ 1` and a pixel buffer of `W * H * 3`
bytes be such that the IDAT data, of `6 + n + 5 * ceil(n / 65535)` bytes with
`n = H * (3 W + 1)`, fit the 32-bit chunk length, and `3 W + 1` be a value
of the program's `int`. Byte `c` of row `y` of the
buffer lies in a stored block of the file written by `writePNG_raw`, at offset
`43 + 5 * (r / 65535 + 1) + r` with `r = y * (3 W + 1) + 1 + c`; with that
byte replaced by any value and no checksum updated, `readPNG_extractRGB`
succeeds and returns `W`, `H` and the buffer with exactly that byte replaced.
The last 4 bytes of the IDAT data, 20 bytes before the end of the file, hold
the rolling checksum; with them replaced by any 4 bytes, `readPNG_extractRGB`
succeeds and returns the unchanged image. -/
theorem checksums_not_verified (w h : Nat) (rgb : List Nat) (y c v b0 b1 b2 b3 : Nat)
    (hw1 : 1 ≤ w) (hh1 : 1 ≤ h) (hrgb : rgb.length = w * h * 3) (hint : w * 3 + 1 < 2 ^ 31)
    (hidat : 6 + h * (w * 3 + 1) + 5 * ((h * (w * 3 + 1) + 65534) / 65535) < 2 ^ 32)
    (hy : y < h) (hc : c < w * 3) :
    (writePNG_raw w h rgb).getD
          (43 + 5 * ((y * (w * 3 + 1) + 1 + c) / 65535 + 1) + (y * (w * 3 + 1) + 1 + c)) 0
        = rgb.getD (y * w * 3 + c) 0
      ∧ readPNG_extractRGB
          ((writePNG_raw w h rgb).set
            (43 + 5 * ((y * (w * 3 + 1) + 1 + c) / 65535 + 1) + (y * (w * 3 + 1) + 1 + c)) v)
        = some ((w : Int), (h : Int), rgb.set (y * w * 3 + c) v)
      ∧ ((writePNG_raw w h rgb).drop ((writePNG_raw w h rgb).length - 20)).take 4
        = [(adler32 (pngRaw w h rgb) >>> 24) &&& 0xFF, (adler32 (pngRaw w h rgb) >>> 16) &&& 0xFF,
            (adler32 (pngRaw w h rgb) >>> 8) &&& 0xFF, adler32 (pngRaw w h rgb) &&& 0xFF]
      ∧ readPNG_extractRGB
          (((((writePNG_raw w h rgb).set ((writePNG_raw w h rgb).length - 20) b0).set
            ((writePNG_raw w h rgb).length - 20 + 1) b1).set
            ((writePNG_raw w h rgb).length - 20 + 2) b2).set
            ((writePNG_raw w h rgb).length - 20 + 3) b3)
        = some ((w : Int), (h : Int), rgb) := by
  have _ := hint
  obtain ⟨a1, a2⟩ := readPNG_adler_changed w h rgb b0 b1 b2 b3 hw1 hh1 hrgb hidat
  exact ⟨written_pixel_byte w h rgb y c hrgb hy hc,
    readPNG_pixel_changed w h rgb y c v hw1 hh1 hrgb hidat hy hc, a1, a2⟩

theorem checksums_not_verified_witness :
    (writePNG_raw 2 1 [1, 2, 3, 4, 5, 6]).getD
          (43 + 5 * ((0 * (2 * 3 + 1) + 1 + 4) / 65535 + 1) + (0 * (2 * 3 + 1) + 1 + 4)) 0
        = [1, 2, 3, 4, 5, 6].getD (0 * 2 * 3 + 4) 0
      ∧ readPNG_extractRGB
          ((writePNG_raw 2 1 [1, 2, 3, 4, 5, 6]).set
            (43 + 5 * ((0 * (2 * 3 + 1) + 1 + 4) / 65535 + 1) + (0 * (2 * 3 + 1) + 1 + 4)) 9)
        = some (((2 : Nat) : Int), ((1 : Nat) : Int), [1, 2, 3, 4, 5, 6].set (0 * 2 * 3 + 4) 9)
      ∧ ((writePNG_raw 2 1 [1, 2, 3, 4, 5, 6]).drop
            ((writePNG_raw 2 1 [1, 2, 3, 4, 5, 6]).length - 20)).take 4
        = [(adler32 (pngRaw 2 1 [1, 2, 3, 4, 5, 6]) >>> 24) &&& 0xFF,
            (adler32 (pngRaw 2 1 [1, 2, 3, 4, 5, 6]) >>> 16) &&& 0xFF,
            (adler32 (pngRaw 2 1 [1, 2, 3, 4, 5, 6]) >>> 8) &&& 0xFF,
            adler32 (pngRaw 2 1 [1, 2, 3, 4, 5, 6]) &&& 0xFF]
      ∧ readPNG_extractRGB
          (((((writePNG_raw 2 1 [1, 2, 3, 4, 5, 6]).set
            ((writePNG_raw 2 1 [1, 2, 3, 4, 5, 6]).length - 20) 1).set
            ((writePNG_raw 2 1 [1, 2, 3, 4, 5, 6]).length - 20 + 1) 2).set
            ((writePNG_raw 2 1 [1, 2, 3, 4, 5, 6]).length - 20 + 2) 3).set
            ((writePNG_raw 2 1 [1, 2, 3, 4, 5, 6]).length - 20 + 3) 4)
        = some (((2 : Nat) : Int), ((1 : Nat) : Int), [1, 2, 3, 4, 5, 6]) :=
  checksums_not_verified 2 1 [1, 2, 3, 4, 5, 6] 0 4 9 1 2 3 4 (by decide) (by decide) (by decide)
    (by norm_num) (by norm_num) (by decide) (by decide)

end Yogeshwari
